import Mathlib

/-!
# amazon-crawler: a verification development

Shallow embedding of the crawl control plane of `JonasHiltl/amazon-crawler`:

* `internal/crawler/utils.go`   (URL canonicalisation, on top of a model of Go's `net/url`,
  and URL relevance, on top of a model of the patterns of Go's `regexp`),
* `internal/storage/postgres.go` (the durable frontier, one SQL statement per operation),
* `internal/crawler/crawler.go`  (job processing, the failure controller and the link
  extraction),
* `internal/product.go`          (`AsinFromURL` and `parseInt`, on top of a model of
  `strconv.ParseFloat`, of `float64` arithmetic and of `strings.ToLower`),
* `internal/polite/robots.go`    (the robots.txt check).

Go strings are byte sequences, so a string is a `List (Fin 256)`.  Every
definition is computable; the theorems follow the definitions.
-/

set_option autoImplicit false
set_option maxRecDepth 100000

/-! ## Go strings -/

/-- One byte of a Go string. -/
abbrev Byte := Fin 256

/-- A Go string: a finite sequence of bytes. -/
abbrev Str := List Byte

/-- The byte of an ASCII character literal. -/
def B (c : Char) : Byte := Fin.ofNat c.toNat

/-- The Go string of an ASCII string literal. -/
def str (s : String) : Str := s.toList.map B

/-! ## Go's `unicode/utf8` and `unicode`: what `strings.ToLower` uses -/

namespace Utf8

/-- The rune `utf8.RuneError`, U+FFFD. -/
def RuneError : Nat := 0xFFFD

/-- The table `first` of `unicode/utf8` together with `acceptRanges`: for the first byte of
a sequence, its length and the range in which the second byte must lie.  Length 1 stands
for ASCII, length 0 for a byte that starts no sequence. -/
def first (b : Byte) : Nat × Nat × Nat :=
  if b.val < 0x80 then (1, 0, 0)
  else if b.val < 0xC2 then (0, 0, 0)
  else if b.val < 0xE0 then (2, 0x80, 0xBF)
  else if b.val = 0xE0 then (3, 0xA0, 0xBF)
  else if b.val < 0xED then (3, 0x80, 0xBF)
  else if b.val = 0xED then (3, 0x80, 0x9F)
  else if b.val < 0xF0 then (3, 0x80, 0xBF)
  else if b.val = 0xF0 then (4, 0x90, 0xBF)
  else if b.val < 0xF4 then (4, 0x80, 0xBF)
  else if b.val = 0xF4 then (4, 0x80, 0x8F)
  else (0, 0, 0)

/-- Go `utf8.DecodeRuneInString(s)`: the rune at the start of `s` and its width in bytes;
a byte that starts no valid sequence is `RuneError` of width 1.  A `for range` loop over a
string decodes in the same way. -/
def DecodeRuneInString (s : Str) : Nat × Nat :=
  match s with
  | [] => (RuneError, 0)
  | s0 :: _ =>
    let x := first s0
    if x.1 ≤ 1 then (if x.1 = 1 then s0.val else RuneError, 1)
    else if s.length < x.1 then (RuneError, 1)
    else
      let s1 := (s.getD 1 0).val
      if s1 < x.2.1 ∨ x.2.2 < s1 then (RuneError, 1)
      else if x.1 ≤ 2 then (((s0.val &&& 0x1F) <<< 6) ||| (s1 &&& 0x3F), 2)
      else
        let s2 := (s.getD 2 0).val
        if s2 < 0x80 ∨ 0xBF < s2 then (RuneError, 1)
        else if x.1 ≤ 3 then
          (((s0.val &&& 0x0F) <<< 12) ||| ((s1 &&& 0x3F) <<< 6) ||| (s2 &&& 0x3F), 3)
        else
          let s3 := (s.getD 3 0).val
          if s3 < 0x80 ∨ 0xBF < s3 then (RuneError, 1)
          else
            (((s0.val &&& 0x07) <<< 18) ||| ((s1 &&& 0x3F) <<< 12) ||| ((s2 &&& 0x3F) <<< 6) |||
              (s3 &&& 0x3F), 4)

/-- Go `utf8.AppendRune(nil, r)`, which `strings.Builder.WriteRune` calls: the UTF-8
encoding of `r`, that of `RuneError` for a surrogate or a value above U+10FFFF. -/
def AppendRune (r : Nat) : Str :=
  if r ≤ 0x7F then [Fin.ofNat r]
  else if r ≤ 0x7FF then [Fin.ofNat (0xC0 ||| (r >>> 6)), Fin.ofNat (0x80 ||| (r &&& 0x3F))]
  else
    let r := if 0x10FFFF < r ∨ (0xD800 ≤ r ∧ r ≤ 0xDFFF) then RuneError else r
    if r ≤ 0xFFFF then
      [Fin.ofNat (0xE0 ||| (r >>> 12)), Fin.ofNat (0x80 ||| ((r >>> 6) &&& 0x3F)),
       Fin.ofNat (0x80 ||| (r &&& 0x3F))]
    else
      [Fin.ofNat (0xF0 ||| (r >>> 18)), Fin.ofNat (0x80 ||| ((r >>> 12) &&& 0x3F)),
       Fin.ofNat (0x80 ||| ((r >>> 6) &&& 0x3F)), Fin.ofNat (0x80 ||| (r &&& 0x3F))]

end Utf8

namespace Unicode

/-- The constant `unicode.UpperLower`, `MaxRune + 1`: the delta that marks a range of
alternating upper-case and lower-case runes. -/
def UpperLower : Int := 0x10FFFF + 1

/-- The table `unicode.CaseRanges` (Unicode 15.0.0) as `ToLower` reads it: the first rune
and the last rune of a range and the delta to its lower case.  The ranges whose delta to
lower case is 0 are left out, and neighbouring ranges with one delta are written as one. -/
def CaseRanges : List (Nat × Nat × Int) :=
  [(0x00C0, 0x00D6, 32), (0x00D8, 0x00DE, 32), (0x0100, 0x012F, UpperLower),
   (0x0130, 0x0130, -199), (0x0132, 0x0137, UpperLower), (0x0139, 0x0148, UpperLower),
   (0x014A, 0x0177, UpperLower), (0x0178, 0x0178, -121), (0x0179, 0x017E, UpperLower),
   (0x0181, 0x0181, 210), (0x0182, 0x0185, UpperLower), (0x0186, 0x0186, 206),
   (0x0187, 0x0187, 1), (0x0189, 0x018A, 205), (0x018B, 0x018B, 1), (0x018E, 0x018E, 79),
   (0x018F, 0x018F, 202), (0x0190, 0x0190, 203), (0x0191, 0x0191, 1), (0x0193, 0x0193, 205),
   (0x0194, 0x0194, 207), (0x0196, 0x0196, 211), (0x0197, 0x0197, 209), (0x0198, 0x0198, 1),
   (0x019C, 0x019C, 211), (0x019D, 0x019D, 213), (0x019F, 0x019F, 214),
   (0x01A0, 0x01A5, UpperLower), (0x01A6, 0x01A6, 218), (0x01A7, 0x01A7, 1),
   (0x01A9, 0x01A9, 218), (0x01AC, 0x01AC, 1), (0x01AE, 0x01AE, 218), (0x01AF, 0x01AF, 1),
   (0x01B1, 0x01B2, 217), (0x01B3, 0x01B6, UpperLower), (0x01B7, 0x01B7, 219),
   (0x01B8, 0x01B8, 1), (0x01BC, 0x01BC, 1), (0x01C4, 0x01C4, 2), (0x01C5, 0x01C5, 1),
   (0x01C7, 0x01C7, 2), (0x01C8, 0x01C8, 1), (0x01CA, 0x01CA, 2), (0x01CB, 0x01DC, UpperLower),
   (0x01DE, 0x01EF, UpperLower), (0x01F1, 0x01F1, 2), (0x01F2, 0x01F5, UpperLower),
   (0x01F6, 0x01F6, -97), (0x01F7, 0x01F7, -56), (0x01F8, 0x021F, UpperLower),
   (0x0220, 0x0220, -130), (0x0222, 0x0233, UpperLower), (0x023A, 0x023A, 10795),
   (0x023B, 0x023B, 1), (0x023D, 0x023D, -163), (0x023E, 0x023E, 10792), (0x0241, 0x0241, 1),
   (0x0243, 0x0243, -195), (0x0244, 0x0244, 69), (0x0245, 0x0245, 71),
   (0x0246, 0x024F, UpperLower), (0x0370, 0x0373, UpperLower), (0x0376, 0x0376, 1),
   (0x037F, 0x037F, 116), (0x0386, 0x0386, 38), (0x0388, 0x038A, 37), (0x038C, 0x038C, 64),
   (0x038E, 0x038F, 63), (0x0391, 0x03A1, 32), (0x03A3, 0x03AB, 32), (0x03CF, 0x03CF, 8),
   (0x03D8, 0x03EF, UpperLower), (0x03F4, 0x03F4, -60), (0x03F7, 0x03F7, 1),
   (0x03F9, 0x03F9, -7), (0x03FA, 0x03FA, 1), (0x03FD, 0x03FF, -130), (0x0400, 0x040F, 80),
   (0x0410, 0x042F, 32), (0x0460, 0x0481, UpperLower), (0x048A, 0x04BF, UpperLower),
   (0x04C0, 0x04C0, 15), (0x04C1, 0x04CE, UpperLower), (0x04D0, 0x052F, UpperLower),
   (0x0531, 0x0556, 48), (0x10A0, 0x10C5, 7264), (0x10C7, 0x10C7, 7264), (0x10CD, 0x10CD, 7264),
   (0x13A0, 0x13EF, 38864), (0x13F0, 0x13F5, 8), (0x1C90, 0x1CBA, -3008),
   (0x1CBD, 0x1CBF, -3008), (0x1E00, 0x1E95, UpperLower), (0x1E9E, 0x1E9E, -7615),
   (0x1EA0, 0x1EFF, UpperLower), (0x1F08, 0x1F0F, -8), (0x1F18, 0x1F1D, -8),
   (0x1F28, 0x1F2F, -8), (0x1F38, 0x1F3F, -8), (0x1F48, 0x1F4D, -8), (0x1F59, 0x1F59, -8),
   (0x1F5B, 0x1F5B, -8), (0x1F5D, 0x1F5D, -8), (0x1F5F, 0x1F5F, -8), (0x1F68, 0x1F6F, -8),
   (0x1F88, 0x1F8F, -8), (0x1F98, 0x1F9F, -8), (0x1FA8, 0x1FAF, -8), (0x1FB8, 0x1FB9, -8),
   (0x1FBA, 0x1FBB, -74), (0x1FBC, 0x1FBC, -9), (0x1FC8, 0x1FCB, -86), (0x1FCC, 0x1FCC, -9),
   (0x1FD8, 0x1FD9, -8), (0x1FDA, 0x1FDB, -100), (0x1FE8, 0x1FE9, -8), (0x1FEA, 0x1FEB, -112),
   (0x1FEC, 0x1FEC, -7), (0x1FF8, 0x1FF9, -128), (0x1FFA, 0x1FFB, -126), (0x1FFC, 0x1FFC, -9),
   (0x2126, 0x2126, -7517), (0x212A, 0x212A, -8383), (0x212B, 0x212B, -8262),
   (0x2132, 0x2132, 28), (0x2160, 0x216F, 16), (0x2183, 0x2183, 1), (0x24B6, 0x24CF, 26),
   (0x2C00, 0x2C2F, 48), (0x2C60, 0x2C60, 1), (0x2C62, 0x2C62, -10743), (0x2C63, 0x2C63, -3814),
   (0x2C64, 0x2C64, -10727), (0x2C67, 0x2C6C, UpperLower), (0x2C6D, 0x2C6D, -10780),
   (0x2C6E, 0x2C6E, -10749), (0x2C6F, 0x2C6F, -10783), (0x2C70, 0x2C70, -10782),
   (0x2C72, 0x2C72, 1), (0x2C75, 0x2C75, 1), (0x2C7E, 0x2C7F, -10815),
   (0x2C80, 0x2CE3, UpperLower), (0x2CEB, 0x2CEE, UpperLower), (0x2CF2, 0x2CF2, 1),
   (0xA640, 0xA66D, UpperLower), (0xA680, 0xA69B, UpperLower), (0xA722, 0xA72F, UpperLower),
   (0xA732, 0xA76F, UpperLower), (0xA779, 0xA77C, UpperLower), (0xA77D, 0xA77D, -35332),
   (0xA77E, 0xA787, UpperLower), (0xA78B, 0xA78B, 1), (0xA78D, 0xA78D, -42280),
   (0xA790, 0xA793, UpperLower), (0xA796, 0xA7A9, UpperLower), (0xA7AA, 0xA7AA, -42308),
   (0xA7AB, 0xA7AB, -42319), (0xA7AC, 0xA7AC, -42315), (0xA7AD, 0xA7AD, -42305),
   (0xA7AE, 0xA7AE, -42308), (0xA7B0, 0xA7B0, -42258), (0xA7B1, 0xA7B1, -42282),
   (0xA7B2, 0xA7B2, -42261), (0xA7B3, 0xA7B3, 928), (0xA7B4, 0xA7C3, UpperLower),
   (0xA7C4, 0xA7C4, -48), (0xA7C5, 0xA7C5, -42307), (0xA7C6, 0xA7C6, -35384),
   (0xA7C7, 0xA7CA, UpperLower), (0xA7D0, 0xA7D0, 1), (0xA7D6, 0xA7D9, UpperLower),
   (0xA7F5, 0xA7F5, 1), (0xFF21, 0xFF3A, 32), (0x10400, 0x10427, 40), (0x104B0, 0x104D3, 40),
   (0x10570, 0x1057A, 39), (0x1057C, 0x1058A, 39), (0x1058C, 0x10592, 39),
   (0x10594, 0x10595, 39), (0x10C80, 0x10CB2, 64), (0x118A0, 0x118BF, 32),
   (0x16E40, 0x16E5F, 32), (0x1E900, 0x1E921, 34)]

/-- Go `unicode.ToLower(r)`. -/
def ToLower (r : Nat) : Nat :=
  if r ≤ 0x7F then (if 0x41 ≤ r ∧ r ≤ 0x5A then r + 32 else r)
  else
    match CaseRanges.find? (fun cr => decide (cr.1 ≤ r) && decide (r ≤ cr.2.1)) with
    | some cr =>
      if 0x10FFFF < cr.2.2 then cr.1 + (((r - cr.1) / 2 * 2) ||| 1)
      else (r + cr.2.2).toNat
    | none => r

end Unicode

namespace GoStrings

/-- Go `strings.HasPrefix(s, p)`. -/
def HasPrefix (s p : Str) : Bool := p.isPrefixOf s

/-- Go `strings.HasSuffix(s, p)`. -/
def HasSuffix (s p : Str) : Bool := p.isSuffixOf s

/-- The part of `s` before the first `sep` (all of `s` when there is none):
first result of `strings.Cut(s, sep)` for a one-byte separator. -/
def cutBefore (sep : Byte) (s : Str) : Str := s.takeWhile (fun c => c != sep)

/-- The part of `s` after the first `sep` (empty when there is none):
second result of `strings.Cut(s, sep)` for a one-byte separator. -/
def cutAfter (sep : Byte) (s : Str) : Str := (s.dropWhile (fun c => c != sep)).drop 1

/-- Go `strings.Index(s, pat)`: position of the first occurrence of `pat`. -/
def Index (pat : Str) : Str → Option Nat
  | [] => if pat = [] then some 0 else none
  | c :: t =>
    if pat.isPrefixOf (c :: t) then some 0
    else (Index pat t).map (fun i => i + 1)

/-- Go `strings.Contains(s, pat)`. -/
def Contains (s pat : Str) : Bool := (Index pat s).isSome

/-- Go `strings.LastIndex(s, sep)` for a one-byte separator. -/
def LastIndex (sep : Byte) : Str → Option Nat
  | [] => none
  | c :: t =>
    match LastIndex sep t with
    | some i => some (i + 1)
    | none => if c = sep then some 0 else none

/-- Go `strings.Split(s, sep)` for a one-byte separator. -/
def Split (sep : Byte) : Str → List Str
  | [] => [[]]
  | c :: t =>
    if c = sep then [] :: Split sep t
    else
      match Split sep t with
      | [] => [[c]]
      | h :: r => (c :: h) :: r

/-- Go `strings.Join(elems, sep)` for a one-byte separator. -/
def Join (sep : Byte) (elems : List Str) : Str := [sep].intercalate elems

/-- The loop of `strings.Map`: the runes of `s`, mapped and written one after the other.
The first argument bounds the number of runes; `Map` passes the length of `s`. -/
def mapLoop (mapping : Nat → Nat) : Nat → Str → Str
  | 0, _ => []
  | fuel + 1, s =>
    match s with
    | [] => []
    | _ :: _ =>
      Utf8.AppendRune (mapping (Utf8.DecodeRuneInString s).1) ++
        mapLoop mapping fuel (s.drop (Utf8.DecodeRuneInString s).2)

/-- Go `strings.Map(mapping, s)` for a mapping that returns no negative value: every rune
of `s` is replaced by its image, a byte that is not valid UTF-8 counting as `RuneError`.
Where Go copies a stretch of valid runes that the mapping leaves as they are, the model
decodes and encodes them again, which gives the same bytes. -/
def Map (mapping : Nat → Nat) (s : Str) : Str := mapLoop mapping s.length s

/-- Go `strings.ToLower(s)`: byte by byte on ASCII text, `Map(unicode.ToLower, s)` on any
other text. -/
def ToLower (s : Str) : Str :=
  if s.all (fun c => decide (c < (128 : Byte))) then
    s.map (fun c => if B 'A' ≤ c ∧ c ≤ B 'Z' then c + 32 else c)
  else Map Unicode.ToLower s

/-- Bytewise lexicographic order of Go strings (`a <= b`). -/
def strLE : Str → Str → Bool
  | [], _ => true
  | _ :: _, [] => false
  | a :: s, b :: t => decide (a < b) || (decide (a = b) && strLE s t)

end GoStrings

/-! ## A model of Go's `net/url` (Go 1.22) -/

namespace Url

open GoStrings

/-- The escaping modes of `net/url`. -/
inductive Encoding
  | encodePath
  | encodePathSegment
  | encodeHost
  | encodeZone
  | encodeUserPassword
  | encodeQueryComponent
  | encodeFragment
  deriving DecidableEq, Repr

open Encoding

/-- Letters and digits. -/
def isAlnum (c : Byte) : Bool :=
  (decide (B 'a' ≤ c) && decide (c ≤ B 'z')) ||
  (decide (B 'A' ≤ c) && decide (c ≤ B 'Z')) ||
  (decide (B '0' ≤ c) && decide (c ≤ B '9'))

/-- The characters a host may carry unescaped (`net/url`, §3.2.2 case). -/
def hostSafe (c : Byte) : Bool :=
  c ∈ [B '!', B '$', B '&', (39 : Byte), B '(', B ')', B '*', B '+', B ',', B ';', B '=',
       B ':', B '[', B ']', B '<', B '>', (34 : Byte)]

/-- The reserved characters of RFC 3986 §2.2 that `shouldEscape` treats by mode. -/
def isReserved (c : Byte) : Bool :=
  c ∈ [B '$', B '&', B '+', B ',', B '/', B ':', B ';', B '=', B '?', B '@']

/-- Go `shouldEscape(c, mode)`. -/
def shouldEscape (c : Byte) (mode : Encoding) : Bool :=
  if isAlnum c then false
  else if (mode = encodeHost ∨ mode = encodeZone) ∧ hostSafe c then false
  else if c ∈ [B '-', B '_', B '.', B '~'] then false
  else if isReserved c ∧ mode = encodePath then decide (c = B '?')
  else if isReserved c ∧ mode = encodePathSegment then
    decide (c = B '/' ∨ c = B ';' ∨ c = B ',' ∨ c = B '?')
  else if isReserved c ∧ mode = encodeUserPassword then
    decide (c = B '@' ∨ c = B '/' ∨ c = B '?' ∨ c = B ':')
  else if isReserved c ∧ mode = encodeQueryComponent then true
  else if isReserved c ∧ mode = encodeFragment then false
  else if mode = encodeFragment ∧ c ∈ [B '!', B '(', B ')', B '*'] then false
  else true

/-- Go `ishex`. -/
def ishex (c : Byte) : Bool :=
  (decide (B '0' ≤ c) && decide (c ≤ B '9')) ||
  (decide (B 'a' ≤ c) && decide (c ≤ B 'f')) ||
  (decide (B 'A' ≤ c) && decide (c ≤ B 'F'))

/-- Go `unhex`. -/
def unhex (c : Byte) : Byte :=
  if B '0' ≤ c ∧ c ≤ B '9' then c - B '0'
  else if B 'a' ≤ c ∧ c ≤ B 'f' then c - B 'a' + 10
  else if B 'A' ≤ c ∧ c ≤ B 'F' then c - B 'A' + 10
  else 0

/-- The byte `unhex(a)<<4 | unhex(b)` of an escape `%ab`. -/
def hexByte (a b : Byte) : Byte := Fin.ofNat ((unhex a).val * 16 + (unhex b).val)

/-- The digit `upperhex[n]` for `n < 16`. -/
def upperhex (n : Nat) : Byte :=
  if n < 10 then Fin.ofNat (48 + n) else Fin.ofNat (55 + n)

/-- The checks of the first pass of Go `unescape` on an escape `%ab`: two hex digits;
in a host only `%25` and non-ASCII bytes may be escaped; in a zone an escape must stand
for `%`, a space or a byte a host may carry. -/
def escapeOK (mode : Encoding) (a b : Byte) : Bool :=
  ishex a && ishex b &&
  !(decide (mode = encodeHost) && decide (unhex a < 8) &&
      !(decide (a = B '2') && decide (b = B '5'))) &&
  !(decide (mode = encodeZone) && !(decide (a = B '2') && decide (b = B '5')) &&
      decide (hexByte a b ≠ B ' ') && shouldEscape (hexByte a b) encodeHost)

/-- First pass of Go `unescape`: is every `%` followed by two hex digits, and does
the mode accept every byte?  (The Go loop returns an error at the first offence.) -/
def unescapeOK (mode : Encoding) : Str → Bool
  | [] => true
  | c :: t =>
    if c = B '%' then
      match t with
      | a :: b :: t' => escapeOK mode a b && unescapeOK mode t'
      | _ => false
    else if c = B '+' then unescapeOK mode t
    else
      !(decide (mode = encodeHost ∨ mode = encodeZone) && decide (c < 128) &&
          shouldEscape c encodeHost) &&
      unescapeOK mode t

/-- Second pass of Go `unescape`: decode `%ab` and, in query mode, `+`. -/
def unescapeRaw (mode : Encoding) : Str → Str
  | [] => []
  | c :: t =>
    if c = B '%' then
      match t with
      | a :: b :: t' => hexByte a b :: unescapeRaw mode t'
      | _ => c :: t
    else if c = B '+' then
      (if mode = encodeQueryComponent then B ' ' else B '+') :: unescapeRaw mode t
    else c :: unescapeRaw mode t

/-- Go `unescape(s, mode)`; `none` stands for the returned error. -/
def unescape (s : Str) (mode : Encoding) : Option Str :=
  if unescapeOK mode s then some (unescapeRaw mode s) else none

/-- The text Go `escape` writes for one byte. -/
def escByte (mode : Encoding) (c : Byte) : Str :=
  if c = B ' ' ∧ mode = encodeQueryComponent then [B '+']
  else if shouldEscape c mode then [B '%', upperhex (c.val / 16), upperhex (c.val % 16)]
  else [c]

/-- Go `escape(s, mode)`. -/
def escape (s : Str) (mode : Encoding) : Str := s.flatMap (escByte mode)

/-- Go `QueryEscape`. -/
def QueryEscape (s : Str) : Str := escape s encodeQueryComponent

/-- Go `QueryUnescape`. -/
def QueryUnescape (s : Str) : Option Str := unescape s encodeQueryComponent

/-- Go `validEncoded(s, mode)`. -/
def validEncoded (s : Str) (mode : Encoding) : Bool :=
  s.all (fun c =>
    c ∈ [B '!', B '$', B '&', (39 : Byte), B '(', B ')', B '*', B '+', B ',', B ';', B '=',
         B ':', B '@', B '[', B ']', B '%'] || !shouldEscape c mode)

/-- Go `validUserinfo`. -/
def validUserinfo (s : Str) : Bool :=
  s.all (fun c =>
    isAlnum c ||
    c ∈ [B '-', B '.', B '_', B ':', B '~', B '!', B '$', B '&', (39 : Byte), B '(', B ')',
         B '*', B '+', B ',', B ';', B '=', B '%', B '@'])

/-- Go `validOptionalPort`. -/
def validOptionalPort (port : Str) : Bool :=
  match port with
  | [] => true
  | c :: ds => decide (c = B ':') && ds.all (fun b => decide (B '0' ≤ b) && decide (b ≤ B '9'))

/-- Go `stringContainsCTLByte`. -/
def stringContainsCTLByte (s : Str) : Bool :=
  s.any (fun b => decide (b < B ' ') || decide (b = 127))

/-- Go `url.Userinfo`. -/
structure Userinfo where
  username : Str
  password : Str
  passwordSet : Bool
  deriving DecidableEq, Repr

/-- Go `url.URL`; `User = none` is the nil pointer. -/
structure URL where
  Scheme : Str := []
  Opaque : Str := []
  User : Option Userinfo := none
  Host : Str := []
  Path : Str := []
  RawPath : Str := []
  OmitHost : Bool := false
  ForceQuery : Bool := false
  RawQuery : Str := []
  Fragment : Str := []
  RawFragment : Str := []
  deriving DecidableEq, Repr

/-- The scan of Go `getScheme` from position `i`: `none` is the error
"missing protocol scheme", otherwise the length of the scheme (0 when there is none). -/
def schemeScan : Nat → Str → Option Nat
  | _, [] => some 0
  | i, c :: t =>
    if (B 'a' ≤ c ∧ c ≤ B 'z') ∨ (B 'A' ≤ c ∧ c ≤ B 'Z') then schemeScan (i + 1) t
    else if (B '0' ≤ c ∧ c ≤ B '9') ∨ c = B '+' ∨ c = B '-' ∨ c = B '.' then
      (if i = 0 then some 0 else schemeScan (i + 1) t)
    else if c = B ':' then (if i = 0 then none else some i)
    else some 0

/-- Go `getScheme(rawURL)`: the scheme and the rest, or `none` for the error. -/
def getScheme (rawURL : Str) : Option (Str × Str) :=
  match schemeScan 0 rawURL with
  | none => none
  | some 0 => some ([], rawURL)
  | some (n + 1) => some (rawURL.take (n + 1), rawURL.drop (n + 2))

/-- Go `parseHost(host)`. -/
def parseHost (host : Str) : Option Str :=
  if HasPrefix host [B '['] then
    match LastIndex (B ']') host with
    | none => none
    | some i =>
      if !validOptionalPort (host.drop (i + 1)) then none
      else
        match Index (str "%25") (host.take i) with
        | some zone =>
          match unescape (host.take zone) encodeHost,
                unescape ((host.take i).drop zone) encodeZone,
                unescape (host.drop i) encodeHost with
          | some host1, some host2, some host3 => some (host1 ++ host2 ++ host3)
          | _, _, _ => none
        | none => unescape host encodeHost
  else
    match LastIndex (B ':') host with
    | some i =>
      if !validOptionalPort (host.drop i) then none else unescape host encodeHost
    | none => unescape host encodeHost

/-- Go `parseAuthority(authority)`: user information and host, or `none` for an error. -/
def parseAuthority (authority : Str) : Option (Option Userinfo × Str) :=
  match LastIndex (B '@') authority with
  | none =>
    match parseHost authority with
    | none => none
    | some host => some (none, host)
  | some i =>
    match parseHost (authority.drop (i + 1)) with
    | none => none
    | some host =>
      let userinfo := authority.take i
      if !validUserinfo userinfo then none
      else if !((B ':') ∈ userinfo) then
        match unescape userinfo encodeUserPassword with
        | none => none
        | some username => some (some ⟨username, [], false⟩, host)
      else
        match unescape (cutBefore (B ':') userinfo) encodeUserPassword,
              unescape (cutAfter (B ':') userinfo) encodeUserPassword with
        | some username, some password => some (some ⟨username, password, true⟩, host)
        | _, _ => none

/-- Go `(*URL).setPath(p)`. -/
def setPath (u : URL) (p : Str) : Option URL :=
  match unescape p encodePath with
  | none => none
  | some path =>
    some { u with Path := path, RawPath := if p = escape path encodePath then [] else p }

/-- Go `(*URL).setFragment(f)`. -/
def setFragment (u : URL) (f : Str) : Option URL :=
  match unescape f encodeFragment with
  | none => none
  | some frag =>
    some { u with Fragment := frag,
                  RawFragment := if f = escape frag encodeFragment then [] else f }

/-- The query split of Go `parse`: the rest without its query, `ForceQuery`, `RawQuery`. -/
def splitQuery (rest0 : Str) : Str × Bool × Str :=
  if HasSuffix rest0 [B '?'] && decide (rest0.count (B '?') = 1) then (rest0.dropLast, true, [])
  else (cutBefore (B '?') rest0, false, cutAfter (B '?') rest0)

/-- The part of Go `parse` after the scheme and the query are split off: opaque text,
or authority and path. -/
def parseHier (url : URL) (rest : Str) : Option URL :=
  if !HasPrefix rest [B '/'] ∧ url.Scheme ≠ [] then
    some { url with Opaque := rest }
  else if !HasPrefix rest [B '/'] ∧ (B ':') ∈ cutBefore (B '/') rest then
    none
  else if (url.Scheme ≠ [] ∨ !HasPrefix rest (str "///")) ∧ HasPrefix rest (str "//") then
    let auth := rest.drop 2
    let authority := cutBefore (B '/') auth
    let rest' := auth.dropWhile (fun c => c != B '/')
    match parseAuthority authority with
    | none => none
    | some (user, host) => setPath { url with User := user, Host := host } rest'
  else if url.Scheme ≠ [] ∧ HasPrefix rest [B '/'] then
    setPath { url with OmitHost := true } rest
  else
    setPath url rest

/-- Go `parse(rawURL, viaRequest = false)`: a URL without its fragment. -/
def parse (rawURL : Str) : Option URL :=
  if stringContainsCTLByte rawURL then none
  else if rawURL = [B '*'] then some { Path := [B '*'] }
  else
    match getScheme rawURL with
    | none => none
    | some (scheme0, rest0) =>
      parseHier { Scheme := ToLower scheme0, ForceQuery := (splitQuery rest0).2.1,
                  RawQuery := (splitQuery rest0).2.2 } (splitQuery rest0).1

/-- Go `url.Parse(rawURL)`; `none` stands for the returned error. -/
def Parse (rawURL : Str) : Option URL :=
  let u := cutBefore (B '#') rawURL
  let frag := cutAfter (B '#') rawURL
  match parse u with
  | none => none
  | some url => if frag = [] then some url else setFragment url frag

/-- Go `url.Values`, a `map[string][]string`, held as the sequence of its appended
(key, value) pairs: `m[k]` is the list of the values paired with `k`, in order, and
the keys of the map are the keys that occur. -/
abbrev Values := List (Str × Str)

/-- The entry `m[k]` of the map. -/
def Values.get (v : Values) (k : Str) : List Str :=
  (v.filter (fun kv => kv.1 = k)).map (fun kv => kv.2)

/-- The keys of the map, each once. -/
def Values.keys (v : Values) : List Str := (v.map (fun kv => kv.1)).dedup

/-- One `key=value` setting of Go `parseQuery`; `none` when the loop skips it. -/
def parsePair (p : Str) : Option (Str × Str) :=
  if (B ';') ∈ p then none
  else if p = [] then none
  else
    match QueryUnescape (cutBefore (B '=') p), QueryUnescape (cutAfter (B '=') p) with
    | some key, some value => some (key, value)
    | _, _ => none

/-- Go `ParseQuery(query)` with its error dropped, as `(*URL).Query` uses it: the
settings between `&` in order, the malformed ones skipped. -/
def ParseQuery (query : Str) : Values := (Split (B '&') query).filterMap parsePair

/-- Go `(*URL).Query()`. -/
def URL.Query (u : URL) : Values := ParseQuery u.RawQuery

/-- The order `slices.Sort` puts the keys in. -/
def StrLE (a b : Str) : Prop := strLE a b = true

instance : DecidableRel StrLE := fun a b => by unfold StrLE; exact inferInstance

/-- The keys of the map in sorted order. -/
def Values.sortedKeys (v : Values) : List Str := (Values.keys v).insertionSort StrLE

/-- The settings in the order `Encode` writes them: by sorted key, and for one key in
the order of its values. -/
def Values.sortedPairs (v : Values) : Values :=
  (Values.sortedKeys v).flatMap (fun k => (Values.get v k).map (fun val => (k, val)))

/-- One setting `key=value` as `Encode` writes it. -/
def encPair (kv : Str × Str) : Str := QueryEscape kv.1 ++ B '=' :: QueryEscape kv.2

/-- Go `Values.Encode()`: keys sorted, `key=value` settings joined by `&`. -/
def Values.Encode (v : Values) : Str := Join (B '&') ((Values.sortedPairs v).map encPair)

/-- Go `(*Userinfo).String()`. -/
def Userinfo.String (u : Userinfo) : Str :=
  escape u.username encodeUserPassword ++
    (if u.passwordSet then B ':' :: escape u.password encodeUserPassword else [])

/-- Go `(*URL).EscapedPath()`. -/
def URL.EscapedPath (u : URL) : Str :=
  if u.RawPath ≠ [] ∧ validEncoded u.RawPath encodePath ∧
      unescape u.RawPath encodePath = some u.Path then u.RawPath
  else if u.Path = [B '*'] then [B '*']
  else escape u.Path encodePath

/-- Go `(*URL).EscapedFragment()`. -/
def URL.EscapedFragment (u : URL) : Str :=
  if u.RawFragment ≠ [] ∧ validEncoded u.RawFragment encodeFragment ∧
      unescape u.RawFragment encodeFragment = some u.Fragment then u.RawFragment
  else escape u.Fragment encodeFragment

/-- The text `(*URL).String()` writes for the authority: `//`, user information, host. -/
def URL.authorityString (u : URL) : Str :=
  if u.Scheme ≠ [] ∨ u.Host ≠ [] ∨ u.User ≠ none then
    if u.OmitHost ∧ u.Host = [] ∧ u.User = none then []
    else
      (if u.Host ≠ [] ∨ u.Path ≠ [] ∨ u.User ≠ none then str "//" else []) ++
      (match u.User with
       | some ui => ui.String ++ [B '@']
       | none => []) ++
      (if u.Host ≠ [] then escape u.Host encodeHost else [])
  else []

/-- The text `(*URL).String()` writes after `scheme:` when `Opaque` is empty. -/
def URL.hierString (u : URL) : Str :=
  let auth := u.authorityString
  let path := u.EscapedPath
  let slash : Str := if path ≠ [] ∧ path.head? ≠ some (B '/') ∧ u.Host ≠ [] then [B '/'] else []
  let buf := (if u.Scheme ≠ [] then u.Scheme ++ [B ':'] else []) ++ auth ++ slash
  let dot : Str := if buf = [] ∧ (B ':') ∈ cutBefore (B '/') path then str "./" else []
  auth ++ slash ++ dot ++ path

/-- The text `(*URL).String()` writes between `scheme:` and the query. -/
def URL.bodyString (u : URL) : Str := if u.Opaque ≠ [] then u.Opaque else u.hierString

/-- The text `(*URL).String()` writes for the query. -/
def URL.queryString (u : URL) : Str :=
  if u.ForceQuery ∨ u.RawQuery ≠ [] then B '?' :: u.RawQuery else []

/-- The text `(*URL).String()` writes for the fragment. -/
def URL.fragmentString (u : URL) : Str :=
  if u.Fragment ≠ [] then B '#' :: u.EscapedFragment else []

/-- Go `(*URL).String()`. -/
def URL.String (u : URL) : Str :=
  (if u.Scheme ≠ [] then u.Scheme ++ [B ':'] else []) ++
  u.bodyString ++ u.queryString ++ u.fragmentString

/-- The text `String` writes for user information and host. -/
def authorityText (user : Option Userinfo) (host : Str) : Str :=
  (match user with
   | some ui => ui.String ++ [B '@']
   | none => []) ++ escape host encodeHost

/-- A byte of a lower-case scheme: a lower-case letter, a digit, `+`, `-` or `.`. -/
def isSchemeByte (c : Byte) : Bool :=
  (decide (B 'a' ≤ c) && decide (c ≤ B 'z')) || (decide (B '0' ≤ c) && decide (c ≤ B '9')) ||
  decide (c = B '+') || decide (c = B '-') || decide (c = B '.')

/-- A scheme as `parse` stores it: lower-case scheme bytes, the first one a letter. -/
structure SchemeWF (sch : Str) : Prop where
  all : ∀ x ∈ sch, isSchemeByte x = true
  head : ∀ c t, sch = c :: t → (B 'a' ≤ c ∧ c ≤ B 'z')

/-- The lower-case form of one byte, as `ToLower` maps it in an ASCII text. -/
def lowerByte (c : Byte) : Byte := if B 'A' ≤ c ∧ c ≤ B 'Z' then c + 32 else c

/-- Facts about every URL that `Parse` returns. -/
structure ParsedWF (U : URL) : Prop where
  scheme : SchemeWF U.Scheme
  opaque_hash : B '#' ∉ U.Opaque
  opaque_q : B '?' ∉ U.Opaque
  opaque_scheme : U.Opaque ≠ [] → U.Scheme ≠ [] ∧ HasPrefix U.Opaque [B '/'] = false
  rawpath_hash : B '#' ∉ U.RawPath
  rawpath_q : B '?' ∉ U.RawPath
  omit_host : U.OmitHost = true → U.Scheme ≠ [] ∧ U.Host = [] ∧ U.User = none
  rel_colon : U.Scheme = [] → U.Host = [] → U.User = none →
    B ':' ∉ cutBefore (B '/') U.RawPath
  abs_slash : (U.Scheme ≠ [] ∨ U.Host ≠ [] ∨ U.User ≠ none) →
    U.RawPath = [] ∨ HasPrefix U.RawPath [B '/'] = true
  password : ∀ ui, U.User = some ui → ui.passwordSet = false → ui.password = []

end Url

/-! ## `internal/crawler/utils.go` -/

namespace Crawler

open GoStrings Url

/-- The constant `AMAZON_BASE_URL`. -/
def AMAZON_BASE_URL : Str := str "https://amazon.com"

/-- The map `ALLOWED_SEARCH_PARAMS`: a key that is absent reads as `false`. -/
def ALLOWED_SEARCH_PARAMS (key : Str) : Bool :=
  key ∈ [str "rnid", str "node", str "bbn", str "keywords", str "k", str "c", str "i",
         str "page", str "sprefix", str "search-alias", str "field-author",
         str "field-keywords", str "text"]

/-- The segments `filterQueryParams` keeps: non-empty, not starting with `ref=` or `ref-`. -/
def keepSegment (s : Str) : Bool :=
  decide (s ≠ []) && !HasPrefix s (str "ref=") && !HasPrefix s (str "ref-")

/-- The path `filterQueryParams` writes back: the kept segments after a `/`. -/
def cleanPath (path : Str) : Str :=
  let segments := Split (B '/') path
  let cleanSegments := segments.filter keepSegment
  B '/' :: Join (B '/') cleanSegments

/-- The query `filterQueryParams` writes back: the allowed settings, encoded. -/
def cleanQuery (q : Values) : Str :=
  let filtered : Values := q.filter (fun kv => ALLOWED_SEARCH_PARAMS kv.1)
  filtered.Encode

/-- The function `filterQueryParams(rawURL)`. -/
def filterQueryParams (rawURL : Str) : Str :=
  match Url.Parse rawURL with
  | none => []
  | some parsedURL =>
    let q := parsedURL.Query
    let parsedURL := { parsedURL with RawQuery := cleanQuery q }
    let parsedURL := { parsedURL with Path := cleanPath parsedURL.Path }
    parsedURL.String

/-- The URL `filterQueryParams` prints: the parsed URL with its query and path rewritten. -/
def canon (u : URL) : URL :=
  { u with RawQuery := cleanQuery u.Query, Path := cleanPath u.Path }

/-- The function `withBaseURL(href)`. -/
def withBaseURL (href : Str) : Str :=
  if HasPrefix href (str "http://") || HasPrefix href (str "https://") then
    filterQueryParams href
  else
    let href := if !HasPrefix href [B '/'] then B '/' :: href else href
    let full := AMAZON_BASE_URL ++ href
    filterQueryParams full

/-- The escaped path of the printed URL. -/
structure EscapedFacts (u : URL) (E : Str) : Prop where
  unesc : unescape E Encoding.encodePath = some (cleanPath u.Path)
  ne : E ≠ []
  hash : B '#' ∉ E
  quest : B '?' ∉ E
  not_two : HasPrefix E (str "//") = false
  slash : (u.RawPath = [] ∨ HasPrefix u.RawPath [B '/'] = true) → ∃ t, E = B '/' :: t
  colon : B ':' ∉ cutBefore (B '/') u.RawPath → B ':' ∉ cutBefore (B '/') E

/-- The scheme part `String` writes. -/
def schemeString (u : URL) : Str := if u.Scheme ≠ [] then u.Scheme ++ [B ':'] else []

end Crawler

/-! ## `internal/storage`: the frontier -/

namespace Storage

/-- The type `Status` of `storage.go`; the `status` column holds its four names
(`CHECK (status IN ('queued', 'processing', 'done', 'failed'))`). -/
inductive Status
  | Queued
  | Processing
  | Done
  | Failed
  deriving DecidableEq, Repr

open Status

/-- The type `QueuedURL`. -/
structure QueuedURL where
  URL : Str := []
  Status : Status := Queued
  deriving DecidableEq, Repr

/-- One row of `url_queue`.  Timestamps are microseconds; `none` is SQL `NULL`. -/
structure Row where
  id : Int
  url : Str
  status : Status
  reason : Option Str
  queued_at : Int
  started_at : Option Int
  done_at : Option Int
  failed_at : Option Int
  retry_count : Int
  deriving DecidableEq, Repr

/-- The table `url_queue` together with the sequence behind its `SERIAL` id. -/
structure Table where
  rows : List Row
  seq : Int
  deriving DecidableEq, Repr

/-- The table right after `ensureSchema` on a fresh database. -/
def Table.empty : Table := ⟨[], 0⟩

/-- One minute, in microseconds. -/
def minute : Int := 60000000

/-- The largest value of an SQL `INT`. -/
def maxInt : Int := 2147483647

/-- The row `INSERT INTO url_queue (url, status) VALUES ($1, 'queued')` creates:
the other columns take their defaults. -/
def newRow (id : Int) (url : Str) (now : Int) : Row :=
  { id := id, url := url, status := Queued, reason := none, queued_at := now,
    started_at := none, done_at := none, failed_at := none, retry_count := 0 }

/-- One `INSERT ... ON CONFLICT (url) DO NOTHING`: the sequence advances either way. -/
def insertURL (now : Int) (t : Table) (url : Str) : Table :=
  if url ∈ t.rows.map Row.url then { t with seq := t.seq + 1 }
  else { rows := t.rows ++ [newRow (t.seq + 1) url now], seq := t.seq + 1 }

/-- The function `pgStorage.AddURLs(urls)` at time `now`: the new table and the returned error. -/
def AddURLs (t : Table) (urls : List Str) (now : Int) : Table × Option Str :=
  if urls.length = 0 then (t, none)
  else (urls.foldl (insertURL now) t, none)

/-- The interval `INTERVAL '5 minutes' * POWER(2, GREATEST(retry_count - 1, 0))`. -/
def backoff (retry_count : Int) : Int :=
  5 * minute * 2 ^ (max (retry_count - 1) 0).toNat

/-- The `WHERE` clause of the lease query, true for the rows it selects
(a comparison with `NULL` is not true). -/
def leasable (now : Int) (r : Row) : Bool :=
  decide (r.status = Queued)
  || (decide (r.status = Processing) &&
        (match r.started_at with
         | some s => decide (s < now - 5 * minute)
         | none => false))
  || (decide (r.status = Failed) &&
        (match r.failed_at with
         | some f => decide (now ≥ f + backoff r.retry_count)
         | none => false) &&
        decide (r.retry_count < 3))

/-- The first row in the order `ORDER BY id`. -/
def minById : List Row → Option Row
  | [] => none
  | r :: rs =>
    match minById rs with
    | none => some r
    | some m => if r.id ≤ m.id then some r else some m

/-- The CTE `next_url`: the url of the selected row (`LIMIT 1`), if a row qualifies.
No peer holds a row lock in a sequential run, so `SKIP LOCKED` skips nothing. -/
def next_url (t : Table) (now : Int) : Option Str :=
  (minById (t.rows.filter (leasable now))).map Row.url

/-- The `UPDATE ... SET status = 'processing', started_at = now()` on the rows
joined with `next_url` on `url`. -/
def lease (now : Int) (u : Str) (r : Row) : Row :=
  if r.url = u then { r with status := Processing, started_at := some now } else r

/-- The function `pgStorage.GetNextURL()` at time `now`: the new table, the returned `QueuedURL`
and the returned error. -/
def GetNextURL (t : Table) (now : Int) : Table × QueuedURL × Option Str :=
  match next_url t now with
  | none => (t, {}, some (str "no queued url available"))
  | some u => ({ t with rows := t.rows.map (lease now u) }, { URL := u, Status := Processing }, none)

/-- The function `pgStorage.MarkDone(url)` at time `now`. -/
def MarkDone (t : Table) (url : Str) (now : Int) : Table × Option Str :=
  ({ t with rows := t.rows.map (fun r =>
      if r.url = url then { r with status := Done, done_at := some now } else r) }, none)

/-- The `SET` clause of `MarkFailed`:
`status = 'failed', failed_at = NOW(), retry_count = retry_count + 1, reason = $1`. -/
def failRow (msg : Str) (now : Int) (r : Row) : Row :=
  { r with status := Failed, failed_at := some now,
           retry_count := r.retry_count + 1, reason := some msg }

/-- The function `pgStorage.MarkFailed(url, msg)` at time `now`.  An `INT` that would pass its
largest value makes the statement fail and change nothing. -/
def MarkFailed (t : Table) (url : Str) (msg : Str) (now : Int) : Table × Option Str :=
  if t.rows.any (fun r => decide (r.url = url) && decide (r.retry_count + 1 > maxInt)) then
    (t, some (str "failed to mark as failed: integer out of range"))
  else
    ({ t with rows := t.rows.map (fun r => if r.url = url then failRow msg now r else r) },
     none)

/-- The function `pgStorage.QueueSize()`. -/
def QueueSize (t : Table) : Nat := (t.rows.filter (fun r => r.status = Queued)).length

/-- A call of one of the four mutating operations of the `Storage` interface. -/
inductive Op
  | addURLs (urls : List Str) (now : Int)
  | getNextURL (now : Int)
  | markDone (url : Str) (now : Int)
  | markFailed (url : Str) (msg : Str) (now : Int)
  deriving DecidableEq, Repr

/-- The table after one call. -/
def step (t : Table) : Op → Table
  | .addURLs urls now => (AddURLs t urls now).1
  | .getNextURL now => (GetNextURL t now).1
  | .markDone url now => (MarkDone t url now).1
  | .markFailed url msg now => (MarkFailed t url msg now).1

/-- The table after a sequence of calls. -/
def run (t : Table) (ops : List Op) : Table := ops.foldl step t

/-- The tables reachable from the empty table. -/
def Reachable (t : Table) : Prop := ∃ ops, run Table.empty ops = t

/-- The call is `MarkDone` or `MarkFailed` on `u`. -/
def Op.completes (u : Str) : Op → Bool
  | .markDone url _ => decide (url = u)
  | .markFailed url _ _ => decide (url = u)
  | _ => false

/-- The time at which a call is made. -/
def Op.time : Op → Int
  | .addURLs _ now => now
  | .getNextURL now => now
  | .markDone _ now => now
  | .markFailed _ _ now => now

/-- The call of `GetNextURL` hands out `u`: it returns no error and a `QueuedURL` with this URL. -/
def returnsURL (res : Table × QueuedURL × Option Str) (u : Str) : Prop :=
  res.2.2 = none ∧ res.2.1.URL = u

instance (res : Table × QueuedURL × Option Str) (u : Str) : Decidable (returnsURL res u) := by
  unfold returnsURL; exact inferInstance

/-- The lease predicate in the words of the specification: status queued, or processing
with started_at older than five minutes, or failed with retry_count below 3 and the
backoff `5 min * 2^max(retry_count - 1, 0)` elapsed since failed_at. -/
def leasePredicate (now : Int) (r : Row) : Prop :=
  r.status = Queued ∨
  (r.status = Processing ∧ ∃ s, r.started_at = some s ∧ s < now - 5 * minute) ∨
  (r.status = Failed ∧ r.retry_count < 3 ∧
    ∃ f, r.failed_at = some f ∧ now ≥ f + 5 * minute * 2 ^ (max (r.retry_count - 1) 0).toNat)

/-- A queued row for `url`, as `AddURLs` at time 0 creates it with the given id. -/
def queuedRow (id : Int) (url : Str) : Row := newRow id url 0

/-- A table with one queued row. -/
def oneQueued : Table := ⟨[queuedRow 1 (str "https://amazon.com/s?k=lego")], 1⟩

/-- A table with a done row, a failed row (one failure at time 0), a stale processing
row and a queued row. -/
def mixedTable : Table :=
  ⟨[{ queuedRow 1 (str "https://amazon.com/dp/B08N5WRWNW") with
        status := Done, started_at := some 0, done_at := some 1 },
    { queuedRow 2 (str "https://amazon.com/s?k=lego") with
        status := Failed, started_at := some 0, failed_at := some 0, retry_count := 1,
        reason := some (str "response status 503") },
    { queuedRow 3 (str "https://amazon.com/b?node=1") with
        status := Processing, started_at := some 0 },
    queuedRow 5 (str "https://amazon.com/s?k=duplo")], 5⟩

/-- Calls that add a URL and fail it three times. -/
def failThrice : List Op :=
  [.addURLs [str "https://amazon.com/s?k=lego"] 0,
   .getNextURL 1,
   .markFailed (str "https://amazon.com/s?k=lego") (str "response status 503") 2,
   .markFailed (str "https://amazon.com/s?k=lego") (str "response status 503") 3,
   .markFailed (str "https://amazon.com/s?k=lego") (str "response status 503") 4]

/-- The invariant behind the retry cap: URLs are pairwise distinct and a row that is
queued or processing has failed fewer than three times. -/
def CapInv (t : Table) : Prop :=
  (t.rows.map Row.url).Nodup ∧
  ∀ r ∈ t.rows, (r.status = Queued ∨ r.status = Processing) → r.retry_count < 3

end Storage

/-! ## `internal/crawler/crawler.go`: jobs and the failure controller -/

namespace Crawler

open GoStrings

/-- Wrap-around of a 32-bit signed integer. -/
def wrap32 (x : Int) : Int := (x + 2147483648) % 4294967296 - 2147483648

/-- The errors a job can end with. -/
inductive JobError
  | external (msg : Str)
  | responseStatus (status : Nat)
  | parseProduct (msg : Str)
  | consumeProduct (msg : Str)
  deriving DecidableEq, Repr

/-- The message `err.Error()`. -/
def JobError.Error : JobError → Str
  | .external msg => msg
  | .responseStatus status => str "response status " ++ (Nat.repr status).toList.map B
  | .parseProduct msg => str "failed to parse product: " ++ msg
  | .consumeProduct msg => str "failed to consume product: " ++ msg

/-- The calls a job makes on its collaborators, in the order it makes them. -/
inductive Event
  | NewContext
  | NewPage
  | RequestMiddleware (i : Nat)
  | Goto (url : Str)
  | ResponseMiddleware (i : Nat)
  | ProductFromPage
  | Consume
  | GetRelevantLinks
  | CloseContext
  | Publish (links : List Str)
  | MarkDone (url : Str)
  | MarkFailed (url : Str) (msg : Str)
  | Cancel
  deriving DecidableEq, Repr

/-- What the collaborators answer during one job: the browser, the middlewares,
the product extractor, the sink and the cancellation context. -/
structure JobEnv where
  newContext : Option Str := none
  newPage : Option Str := none
  requestMiddlewares : List (Option Str) := [none]
  goto : Option Str := none
  resOk : Bool := true
  resStatus : Nat := 200
  responseMiddlewares : List (Option Str) := [none, none, none]
  productFromPage : Option Str := none
  consume : Option Str := none
  links : List Str := []
  ctxDone : Bool := false
  deriving DecidableEq, Repr

/-- The fields of `crawler` the failure controller works on, with the calls made so far. -/
structure crawler where
  errorCount : Int := 0
  errorThreshold : Int := 5
  trace : List Event := []
  deriving DecidableEq, Repr

/-- The function `crawler.incrementErrorCount`: `atomic.AddInt32(&c.errorCount, 1)`. -/
def incrementErrorCount (c : crawler) : crawler × Int :=
  let n := wrap32 (c.errorCount + 1)
  ({ c with errorCount := n }, n)

/-- The function `crawler.resetErrorCount`. -/
def resetErrorCount (c : crawler) : crawler := { c with errorCount := 0 }

/-- The function `crawler.onError(url, err)`. -/
def onError (c : crawler) (url : Str) (err : JobError) : crawler :=
  let msg := err.Error
  let c := { c with trace := c.trace ++ [Event.MarkFailed url msg] }
  let (c, newCount) := incrementErrorCount c
  if newCount > c.errorThreshold then { c with trace := c.trace ++ [Event.Cancel] }
  else c

/-- The loop over a list of middlewares: the index and error of the first that
rejects, with the calls made. -/
def runMiddlewares (mk : Nat → Event) : Nat → List (Option Str) → List Event × Option Str
  | _, [] => ([], none)
  | i, none :: rest =>
    let (ev, r) := runMiddlewares mk (i + 1) rest
    (mk i :: ev, r)
  | i, some e :: _ => ([mk i], some e)

/-- The function `crawler.parseProductDetails`. -/
def parseProductDetails (env : JobEnv) : List Event × Option JobError :=
  match env.productFromPage with
  | some e => ([Event.ProductFromPage], some (.parseProduct e))
  | none =>
    match env.consume with
    | some e => ([Event.ProductFromPage, Event.Consume], some (.consumeProduct e))
    | none => ([Event.ProductFromPage, Event.Consume], none)

/-- The function `crawler.processURL(url)`: the crawler afterwards and the links or the error.
The deferred `closeCtx` runs on every return once the context exists. -/
def processURL (c : crawler) (url : Str) (env : JobEnv) : crawler × Except JobError (List Str) :=
  let c := { c with trace := c.trace ++ [Event.NewContext] }
  match env.newContext with
  | some e => (c, .error (.external e))
  | none =>
    let fail (c : crawler) (e : JobError) : crawler × Except JobError (List Str) :=
      ({ c with trace := c.trace ++ [Event.CloseContext] }, .error e)
    let c := { c with trace := c.trace ++ [Event.NewPage] }
    match env.newPage with
    | some e => fail c (.external e)
    | none =>
      let (ev, r) := runMiddlewares Event.RequestMiddleware 0 env.requestMiddlewares
      let c := { c with trace := c.trace ++ ev }
      match r with
      | some e => fail c (.external e)
      | none =>
        let c := { c with trace := c.trace ++ [Event.Goto url] }
        match env.goto with
        | some e => fail c (.external e)
        | none =>
          if !env.resOk then fail c (.responseStatus env.resStatus)
          else
            let (ev, r) := runMiddlewares Event.ResponseMiddleware 0 env.responseMiddlewares
            let c := { c with trace := c.trace ++ ev }
            match r with
            | some e => fail c (.external e)
            | none =>
              let c := resetErrorCount c
              let (ev, r) :=
                if Contains url (str "/dp/") then parseProductDetails env else ([], none)
              let c := { c with trace := c.trace ++ ev }
              match r with
              | some e => fail c e
              | none =>
                ({ c with trace := c.trace ++ [Event.GetRelevantLinks, Event.CloseContext] },
                 .ok env.links)

/-- The function `crawler.processJob(url)`. -/
def processJob (c : crawler) (url : Str) (env : JobEnv) : crawler :=
  match processURL c url env with
  | (c, .error err) => onError c url err
  | (c, .ok links) =>
    if env.ctxDone then c
    else { c with trace := c.trace ++ [Event.Publish links, Event.MarkDone url] }

/-- The job fails: `processURL` returns an error. -/
def jobFails (c : crawler) (url : Str) (env : JobEnv) : Bool :=
  match (processURL c url env).2 with
  | .error _ => true
  | .ok _ => false

/-- The job fails before its page has passed the response middlewares: the browser
context or page cannot be created, a request middleware rejects, the navigation fails,
the status is not 2xx, or a response middleware rejects. -/
def failsBeforePageAccepted (env : JobEnv) : Bool :=
  env.newContext.isSome || env.newPage.isSome ||
  (runMiddlewares Event.RequestMiddleware 0 env.requestMiddlewares).2.isSome ||
  env.goto.isSome || !env.resOk ||
  (runMiddlewares Event.ResponseMiddleware 0 env.responseMiddlewares).2.isSome

/-- The workers' jobs, one after the other. -/
def processJobs (c : crawler) (jobs : List (Str × JobEnv)) : crawler :=
  jobs.foldl (fun c job => processJob c job.1 job.2) c

/-- The cancellation function `c.Cancel` has been called. -/
def cancelled (c : crawler) : Bool := Event.Cancel ∈ c.trace

/-- Consecutive calls of `onError`. -/
def onErrors (c : crawler) (calls : List (Str × JobError)) : crawler :=
  calls.foldl (fun c call => onError c call.1 call.2) c

/-- The crawler `NewCrawler` builds: counter 0, threshold 5, nothing called yet. -/
def NewCrawler : crawler := { errorCount := 0, errorThreshold := 5, trace := [] }

/-- A product page whose extraction fails: the page loads and passes every middleware,
then `ProductFromPage` returns an error. -/
def extractorFailure : Str × JobEnv :=
  (str "https://amazon.com/dp/B08N5WRWNW", { productFromPage := some (str "no asin found") })

/-- Six consecutive jobs whose navigation fails. -/
def sixNavigationFailures : List (Str × JobEnv) :=
  List.replicate 6 (str "https://amazon.com/s?k=lego", { goto := some (str "timeout") })

/-- Six consecutive jobs that fail in the product extractor. -/
def sixExtractorFailures : List (Str × JobEnv) := List.replicate 6 extractorFailure

end Crawler

namespace GoStrings

/-- Go's `asciiSpace` table: tab, line feed, vertical tab, form feed, carriage return
and space. -/
def isAsciiSpace (a : Byte) : Bool :=
  a = 9 || a = 10 || a = 11 || a = 12 || a = 13 || a = 32

/-- Go `unicode.IsSpace` on a rune that UTF-8 writes in two bytes: U+0085 and U+00A0. -/
def isSpace2 (a b : Byte) : Bool := a = 0xC2 && (b = 0x85 || b = 0xA0)

/-- Go `unicode.IsSpace` on a rune that UTF-8 writes in three bytes: U+1680,
U+2000 to U+200A, U+2028, U+2029, U+202F, U+205F and U+3000. -/
def isSpace3 (a b c : Byte) : Bool :=
  (a = 0xE1 && b = 0x9A && c = 0x80) ||
  (a = 0xE2 && b = 0x80 &&
    ((decide (0x80 ≤ c) && decide (c ≤ 0x8A)) || c = 0xA8 || c = 0xA9 || c = 0xAF)) ||
  (a = 0xE2 && b = 0x81 && c = 0x9F) ||
  (a = 0xE3 && b = 0x80 && c = 0x80)

/-- Go `strings.TrimLeftFunc(s, unicode.IsSpace)`: the white-space runes at the start
are dropped. -/
def trimLeftSpace : Str → Str
  | [] => []
  | a :: t =>
    if isAsciiSpace a then trimLeftSpace t
    else
      match t with
      | [] => [a]
      | b :: t2 =>
        if isSpace2 a b then trimLeftSpace t2
        else
          match t2 with
          | [] => [a, b]
          | c :: t3 => if isSpace3 a b c then trimLeftSpace t3 else a :: b :: c :: t3

/-- The white-space runes at the start of the reversed string are dropped: the mirror
image of `trimLeftSpace`. -/
def trimLeftSpaceRev : Str → Str
  | [] => []
  | a :: t =>
    if isAsciiSpace a then trimLeftSpaceRev t
    else
      match t with
      | [] => [a]
      | b :: t2 =>
        if isSpace2 b a then trimLeftSpaceRev t2
        else
          match t2 with
          | [] => [a, b]
          | c :: t3 => if isSpace3 c b a then trimLeftSpaceRev t3 else a :: b :: c :: t3

/-- Go `strings.TrimRightFunc(s, unicode.IsSpace)`: the white-space runes at the end
are dropped. -/
def trimRightSpace (s : Str) : Str := (trimLeftSpaceRev s.reverse).reverse

/-- Go `strings.TrimSpace(s)`. -/
def TrimSpace (s : Str) : Str := trimRightSpace (trimLeftSpace s)

/-- Go `strings.TrimSuffix(s, suffix)`. -/
def TrimSuffix (s suffix : Str) : Str :=
  if HasSuffix s suffix then s.take (s.length - suffix.length) else s

/-- Go `strings.ReplaceAll(s, old, new)` for a one-byte `old`. -/
def ReplaceAll (s : Str) (old : Byte) (new : Str) : Str :=
  s.flatMap (fun c => if c = old then new else [c])

end GoStrings

/-! ## Go's `regexp`: the patterns the program compiles -/

namespace Regexp

/-- The part of the RE2 syntax the program's patterns are written in. -/
inductive Regex
  | empty
  | lit (c : Byte)
  | cls (ranges : List (Byte × Byte))
  | cat (r s : Regex)
  | alt (r s : Regex)
  | rep (n : Nat) (r : Regex)
  | cap (r : Regex)
  deriving Repr

/-- A byte is in a character class: it lies in one of the ranges. -/
def inClass (ranges : List (Byte × Byte)) (x : Byte) : Bool :=
  ranges.any (fun r => decide (r.1 ≤ x) && decide (x ≤ r.2))

/-- One way of matching at the start of the input: what is left of the input, and the
texts of the capturing groups that took part, in the order of their opening brackets. -/
abbrev Thread := Str × List Str

/-- A thread of the first expression followed by the threads of what comes after it. -/
def andThen (first : List Thread) (next : Str → List Thread) : List Thread :=
  first.flatMap (fun th => (next th.1).map (fun th2 => (th2.1, th.2 ++ th2.2)))

/-- The expression `next` matched `n` times in a row. -/
def runRep (next : Str → List Thread) : Nat → Str → List Thread
  | 0, s => [(s, [])]
  | n + 1, s => andThen (next s) (runRep next n)

/-- The ways an expression matches at the start of the input, in the order of
preference of Go's `regexp` (leftmost-first: in `r|s` a match of `r` comes before a
match of `s`).  None of the program's patterns repeats a capturing group. -/
def Regex.run : Regex → Str → List Thread
  | .empty, s => [(s, [])]
  | .lit c, s =>
    match s with
    | x :: t => if x = c then [(t, [])] else []
    | [] => []
  | .cls ranges, s =>
    match s with
    | x :: t => if inClass ranges x then [(t, [])] else []
    | [] => []
  | .cat r q, s => andThen (r.run s) (fun t => q.run t)
  | .alt r q, s => r.run s ++ q.run s
  | .rep n r, s => runRep (fun t => r.run t) n s
  | .cap r, s => (r.run s).map (fun th => (th.1, s.take (s.length - th.1.length) :: th.2))

/-- Go `(*Regexp).FindStringSubmatch(s)`: the text of the leftmost match followed by the
texts of its capturing groups; the empty list stands for `nil`, no match. -/
def Regex.FindStringSubmatch (re : Regex) : Str → List Str
  | [] =>
    match re.run [] with
    | th :: _ => [] :: th.2
    | [] => []
  | c :: t =>
    match re.run (c :: t) with
    | th :: _ => (c :: t).take ((c :: t).length - th.1.length) :: th.2
    | [] => re.FindStringSubmatch t

/-- Go `(*Regexp).MatchString(s)`: the expression matches somewhere in `s`. -/
def Regex.MatchString (re : Regex) (s : Str) : Bool := re.FindStringSubmatch s != []

/-- The expression that matches the bytes of `s` one after the other. -/
def Regex.text (s : Str) : Regex := s.foldr (fun c r => .cat (.lit c) r) .empty

end Regexp

namespace Crawler

open GoStrings Regexp Url

/-- The pattern of `isRelevantURL`: a slash, a hyphen, a slash, `[a-z]{2}` and a slash. -/
def localeRe : Regex :=
  .cat (.text (str "/-/")) (.cat (.rep 2 (.cls [(B 'a', B 'z')])) (.lit (B '/')))

/-- The loop `for _, c := range contains` of `isSearchURL` and `isCategoryURL`. -/
def containsAny (url : Str) : List Str → Bool
  | [] => false
  | c :: rest => if Contains url c then true else containsAny url rest

/-- The function `isSearchURL(url)`. -/
def isSearchURL (url : Str) : Bool := containsAny url [str "/s?", str "/s/"]

/-- The function `isCategoryURL(url)`. -/
def isCategoryURL (url : Str) : Bool :=
  if Contains url (str "/Amazon-Video/") then false
  else containsAny url [str "/b?", str "/b/"]

/-- The function `isRelevantURL(url)`. -/
def isRelevantURL (url : Str) : Bool :=
  let re := localeRe
  if re.MatchString url then false
  else isSearchURL url || isCategoryURL url

/-- The query of a URL text: what stands after its first `?`, up to its first `#`. -/
def queryOf (s : Str) : Str := cutAfter (B '?') (cutBefore (B '#') s)

/-- The claim's words "the parameters of raw": the `key=value` settings between the `&`
of the query as they are written, each with the text before its first `=` and the text
after it; nothing is decoded, and only an empty text between two `&` is left out. -/
def rawParameters (query : Str) : List (Str × Str) :=
  ((Split (B '&') query).filter (fun p => decide (p ≠ []))).map
    (fun p => (cutBefore (B '=') p, cutAfter (B '=') p))

/-- A parameter as written is malformed when it holds a semicolon or when its key or its
value has a percent escape that does not decode. -/
def malformedParameter (kv : Str × Str) : Prop :=
  B ';' ∈ kv.1 ∨ B ';' ∈ kv.2 ∨ QueryUnescape kv.1 = none ∨ QueryUnescape kv.2 = none

instance (kv : Str × Str) : Decidable (malformedParameter kv) := by
  unfold malformedParameter; exact inferInstance

/-- The reading of a parameter as written: its key and its value percent-decoded, and
nothing for a malformed parameter. -/
def readParameter (kv : Str × Str) : Option (Str × Str) :=
  if malformedParameter kv then none
  else
    match QueryUnescape kv.1, QueryUnescape kv.2 with
    | some key, some value => some (key, value)
    | _, _ => none

/-- The claim's words "the non-empty path segments that do not begin with `ref=` or
`ref-`, in their original order". -/
def keptSegments (path : Str) : List Str :=
  (Split (B '/') path).filter
    (fun s => decide (s ≠ [] ∧ ¬ str "ref=" <+: s ∧ ¬ str "ref-" <+: s))

/-- The claim's words "contains a locale segment": a slash, a hyphen, a slash, two
lower-case letters `a` to `z` and a slash occur in `u` one after the other. -/
def hasLocaleSegment (u : Str) : Prop :=
  ∃ x y : Byte, (B 'a' ≤ x ∧ x ≤ B 'z') ∧ (B 'a' ≤ y ∧ y ≤ B 'z') ∧
    (str "/-/" ++ [x, y] ++ [B '/']) <:+: u

/-- The function `createProductURL(asin)`: `fmt.Sprintf("%s/dp/%s", AMAZON_BASE_URL, asin)`. -/
def createProductURL (asin : Str) : Str := AMAZON_BASE_URL ++ str "/dp/" ++ asin

end Crawler

/-! ## `internal/product.go` -/

namespace Internal

open GoStrings Regexp

/-- The pattern `dp(?:\/|%2[Ff])([A-Z0-9]{10})` of `AsinFromURL`. -/
def asinRe : Regex :=
  .cat (.text (str "dp"))
    (.cat (.alt (.lit (B '/')) (.cat (.text (str "%2")) (.cls [(B 'F', B 'F'), (B 'f', B 'f')])))
      (.cap (.rep 10 (.cls [(B 'A', B 'Z'), (B '0', B '9')]))))

/-- The claim's words "characters A-Z and 0-9". -/
def isAsinByte (c : Byte) : Prop := (B 'A' ≤ c ∧ c ≤ B 'Z') ∨ (B '0' ≤ c ∧ c ≤ B '9')

instance (c : Byte) : Decidable (isAsinByte c) := by unfold isAsinByte; exact inferInstance

/-- The slash after `dp` and its two URL-encoded forms. -/
def asinSeps : List Str := [str "/", str "%2F", str "%2f"]

/-- The claim's words "an occurrence of `dp/`, `dp%2F` or `dp%2f` followed by ten
characters from A-Z and 0-9": after the text `pre`, `u` goes on with `dp`, one of the
three separators and the ten characters `a`. -/
def AsinAt (u pre a : Str) : Prop :=
  ∃ sep post : Str, sep ∈ asinSeps ∧ a.length = 10 ∧ (∀ c ∈ a, isAsinByte c) ∧
    u = pre ++ str "dp" ++ sep ++ a ++ post

/-- The function `AsinFromURL(url)`: the ASIN and the error (`none` for `nil`). -/
def AsinFromURL (url : Str) : Str × Option Str :=
  let re := asinRe
  let found := re.FindStringSubmatch url
  match found with
  | _ :: group1 :: _ => (TrimSpace group1, none)
  | _ => ([], some (str "url doesn't contain asin"))

end Internal

/-! ## Go's `float64` and `strconv.ParseFloat` -/

namespace Strconv

open GoStrings

/-- A `float64`: the finite value `(-1)^neg * m * 2^e`, an infinity, or a NaN. -/
inductive F64
  | fin (neg : Bool) (m : Nat) (e : Int)
  | inf (neg : Bool)
  | nan
  deriving DecidableEq, Repr

/-- The exponent of the power of two at or below `n / d`, for `n` and `d` positive. -/
def floorLog2 (n d : Nat) : Int :=
  if d ≤ n then (Nat.log2 (n / d) : Int) else -((Nat.log2 ((d - 1) / n) : Int) + 1)

/-- The integer nearest to `n / d`, a tie going to the even one. -/
def roundHalfEven (n d : Nat) : Nat :=
  let q := n / d
  let r := n % d
  if 2 * r < d then q
  else if d < 2 * r then q + 1
  else if q % 2 = 0 then q else q + 1

/-- The `float64` nearest to `(-1)^neg * n / d` (IEEE 754 round to nearest, ties to even):
53 bits of mantissa, the exponent of the last place at least `-1074`, an infinity from
`2^1024` on. -/
def F64.round (neg : Bool) (n d : Nat) : F64 :=
  if n = 0 then .fin neg 0 0
  else
    let e := max (floorLog2 n d) (-1022)
    let qe := e - 52
    let m :=
      if 0 ≤ qe then roundHalfEven n (d * 2 ^ qe.toNat)
      else roundHalfEven (n * 2 ^ (-qe).toNat) d
    if 1024 ≤ e ∨ (e = 1023 ∧ m = 2 ^ 53) then .inf neg else .fin neg m qe

/-- The `float64` of an integer constant. -/
def F64.ofNat (k : Nat) : F64 := F64.round false k 1

/-- Multiplication of two `float64` values: the exact product, rounded. -/
def F64.mul : F64 → F64 → F64
  | .fin s1 m1 e1, .fin s2 m2 e2 =>
    if 0 ≤ e1 + e2 then F64.round (s1 != s2) (m1 * m2 * 2 ^ (e1 + e2).toNat) 1
    else F64.round (s1 != s2) (m1 * m2) (2 ^ (-(e1 + e2)).toNat)
  | .fin s1 m1 _, .inf s2 => if m1 = 0 then .nan else .inf (s1 != s2)
  | .inf s1, .fin s2 m2 _ => if m2 = 0 then .nan else .inf (s1 != s2)
  | .inf s1, .inf s2 => .inf (s1 != s2)
  | .nan, _ => .nan
  | _, .nan => .nan

/-- The conversion `int(f)` of Go on a 64-bit x86 machine: the fraction is dropped; a
value that does not fit in 64 bits, an infinity and a NaN give the smallest `int`. -/
def F64.toInt : F64 → Int
  | .fin neg m e =>
    let t : Nat := if 0 ≤ e then m * 2 ^ e.toNat else m / 2 ^ (-e).toNat
    let v : Int := if neg then -(t : Int) else (t : Int)
    if -9223372036854775808 ≤ v ∧ v < 9223372036854775808 then v else -9223372036854775808
  | _ => -9223372036854775808

/-- The errors of `strconv`: `ErrSyntax` and `ErrRange`. -/
inductive NumError
  | errSyntax
  | errRange
  deriving DecidableEq, Repr

/-- Go `lower(c)` of `strconv`: `c | ('x' - 'X')`. -/
def lower (c : Byte) : Byte := Fin.ofNat (c.val ||| 32)

/-- Go `commonPrefixLenIgnoreCase(s, prefix)`, for a lower-case `prefix`. -/
def commonPrefixLenIgnoreCase : Str → Str → Nat
  | c :: s, p :: pre =>
    let c := if B 'A' ≤ c ∧ c ≤ B 'Z' then c + 32 else c
    if c ≠ p then 0 else commonPrefixLenIgnoreCase s pre + 1
  | _, _ => 0

/-- The length of `inf` or `infinity` at the start of `s`, as `special` takes it. -/
def infLen (s : Str) : Option Nat :=
  let n := commonPrefixLenIgnoreCase s (str "infinity")
  let n := if 3 < n ∧ n < 8 then 3 else n
  if n = 3 ∨ n = 8 then some n else none

/-- Go `special(s)`: the value and the length of `inf`, `infinity` (with a sign or without)
or `nan` at the start of `s`. -/
def special (s : Str) : Option (F64 × Nat) :=
  match s with
  | [] => none
  | c :: t =>
    if c = B '+' ∨ c = B '-' then
      (infLen t).map (fun n => (F64.inf (decide (c = B '-')), 1 + n))
    else if c = B 'i' ∨ c = B 'I' then
      (infLen (c :: t)).map (fun n => (F64.inf false, n))
    else if c = B 'n' ∨ c = B 'N' then
      if commonPrefixLenIgnoreCase (c :: t) (str "nan") = 3 then some (F64.nan, 3) else none
    else none

/-- The variables of the digit loop of `readFloat`.  `mant` is the number written by all
the digits read; Go keeps 19 of them (16 in base 16) with a flag for the rest, and goes
back to the text when they do not decide the rounding. -/
structure Digits where
  mant : Nat := 0
  nd : Nat := 0
  dp : Int := 0
  sawdot : Bool := false
  sawdigits : Bool := false
  underscores : Bool := false
  deriving DecidableEq, Repr

/-- The digit loop of `readFloat`: the variables at the end and the text not read. -/
def scanDigits (hex : Bool) : Digits → Str → Digits × Str
  | st, [] => (st, [])
  | st, c :: t =>
    if c = B '_' then scanDigits hex { st with underscores := true } t
    else if c = B '.' then
      if st.sawdot then (st, c :: t)
      else scanDigits hex { st with sawdot := true, dp := st.nd } t
    else if B '0' ≤ c ∧ c ≤ B '9' then
      if c = B '0' ∧ st.nd = 0 then
        scanDigits hex { st with sawdigits := true, dp := st.dp - 1 } t
      else
        scanDigits hex { st with sawdigits := true, nd := st.nd + 1,
                                 mant := st.mant * (if hex then 16 else 10) + (c.val - 48) } t
    else if hex = true ∧ B 'a' ≤ lower c ∧ lower c ≤ B 'f' then
      scanDigits hex { st with sawdigits := true, nd := st.nd + 1,
                               mant := st.mant * 16 + ((lower c).val - 97 + 10) } t
    else (st, c :: t)

/-- The digit loop of the exponent of `readFloat`: the exponent, whether an underscore was
seen, and the text not read. -/
def scanExp : Nat → Bool → Str → Nat × Bool × Str
  | e, us, [] => (e, us, [])
  | e, us, c :: t =>
    if c = B '_' then scanExp e true t
    else if B '0' ≤ c ∧ c ≤ B '9' then
      scanExp (if e < 10000 then e * 10 + (c.val - 48) else e) us t
    else (e, us, c :: t)

/-- The exponent part of `readFloat`: what it adds to `dp`, whether an underscore was
seen, and the text not read; `none` when the text is malformed. -/
def readExp (hex : Bool) (s : Str) : Option (Int × Bool × Str) :=
  let none_here : Option (Int × Bool × Str) := if hex then none else some (0, false, s)
  match s with
  | [] => none_here
  | c :: t =>
    if lower c = (if hex then B 'p' else B 'e') then
      match t with
      | [] => none
      | c2 :: t2 =>
        let esign : Int := if c2 = B '-' then -1 else 1
        let t3 := if c2 = B '+' ∨ c2 = B '-' then t2 else t
        match t3 with
        | [] => none
        | d :: _ =>
          if d < B '0' ∨ B '9' < d then none
          else
            let r := scanExp 0 false t3
            some ((r.1 : Int) * esign, r.2.1, r.2.2)
    else none_here

/-- The loop of Go `underscoreOK`: `saw` is `0` after a digit or the base prefix, `1` after
an underscore, `2` after anything else, `3` at the beginning. -/
def underscoreLoop (hex : Bool) : Nat → Str → Bool
  | saw, [] => saw != 1
  | saw, c :: t =>
    if (B '0' ≤ c ∧ c ≤ B '9') ∨ (hex = true ∧ B 'a' ≤ lower c ∧ lower c ≤ B 'f') then
      underscoreLoop hex 0 t
    else if c = B '_' then
      if saw != 0 then false else underscoreLoop hex 1 t
    else if saw = 1 then false
    else underscoreLoop hex 2 t

/-- Go `underscoreOK(s)`. -/
def underscoreOK (s : Str) : Bool :=
  let s := match s with
    | c :: t => if c = B '-' ∨ c = B '+' then t else s
    | [] => s
  match s with
  | z :: x :: t =>
    if z = B '0' ∧ (lower x = B 'b' ∨ lower x = B 'o' ∨ lower x = B 'x') then
      underscoreLoop (decide (lower x = B 'x')) 0 t
    else underscoreLoop false 3 s
  | _ => underscoreLoop false 3 s

/-- The test for the base prefix in `readFloat`: `0x` or `0X` with a byte after it. -/
def hexPrefix (s : Str) : Bool :=
  match s with
  | z :: x :: _ :: _ => decide (z = B '0') && decide (lower x = B 'x')
  | _ => false

/-- What `readFloat` reads. -/
structure Read where
  neg : Bool
  hex : Bool
  mant : Nat
  exp : Int
  rest : Str
  deriving DecidableEq, Repr

/-- Go `readFloat(s)`: the sign, the base, the digits as a number, the exponent of the
base 10 (of 2 in base 16) that goes with them, and the text not read; `none` when `ok` is
false. -/
def readFloat (s : Str) : Option Read :=
  match s with
  | [] => none
  | c :: t =>
    let neg := decide (c = B '-')
    let s1 := if c = B '+' ∨ c = B '-' then t else s
    let hex := hexPrefix s1
    let s2 := if hex then s1.drop 2 else s1
    let r := scanDigits hex {} s2
    let st := r.1
    if !st.sawdigits then none
    else
      let dp : Int := if st.sawdot then st.dp else st.nd
      let dp := if hex then dp * 4 else dp
      let ndMant : Int := if hex then (st.nd : Int) * 4 else st.nd
      match readExp hex r.2 with
      | none => none
      | some (e, us, rest) =>
        let dp := dp + e
        let exp : Int := if st.mant ≠ 0 then dp - ndMant else 0
        if (st.underscores || us) && !underscoreOK (s.take (s.length - rest.length)) then none
        else some { neg := neg, hex := hex, mant := st.mant, exp := exp, rest := rest }

/-- The `float64` nearest to `(-1)^neg * mant * base^exp`. -/
def F64.ofScaled (neg : Bool) (mant : Nat) (base : Nat) (exp : Int) : F64 :=
  if 0 ≤ exp then F64.round neg (mant * base ^ exp.toNat) 1
  else F64.round neg mant (base ^ (-exp).toNat)

/-- Go `strconv.ParseFloat(s, 64)`: the nearest `float64`, or the error.  A value that
rounds to an infinity is `ErrRange`; text left over is `ErrSyntax`. -/
def ParseFloat (s : Str) : Except NumError F64 :=
  match special s with
  | some (f, n) => if n = s.length then .ok f else .error .errSyntax
  | none =>
    match readFloat s with
    | none => .error .errSyntax
    | some r =>
      if r.rest ≠ [] then .error .errSyntax
      else
        match F64.ofScaled r.neg r.mant (if r.hex then 2 else 10) r.exp with
        | .inf _ => .error .errRange
        | f => .ok f

end Strconv

namespace Internal

open GoStrings Strconv

/-- A decimal digit. -/
def isDigit (c : Byte) : Prop := B '0' ≤ c ∧ c ≤ B '9'

instance (c : Byte) : Decidable (isDigit c) := by unfold isDigit; exact inferInstance

/-- The number that a text of decimal digits writes. -/
def digitsValue (ds : Str) : Nat := ds.foldl (fun a c => a * 10 + (c.val - 48)) 0

/-- The UTF-8 encodings of the white-space runes of Unicode: U+0009 to U+000D, U+0020,
U+0085, U+00A0, U+1680, U+2000 to U+200A, U+2028, U+2029, U+202F, U+205F, U+3000. -/
def spaceRunes : List Str :=
  [[9], [10], [11], [12], [13], [32], [0xC2, 0x85], [0xC2, 0xA0], [0xE1, 0x9A, 0x80],
   [0xE2, 0x80, 0x80], [0xE2, 0x80, 0x81], [0xE2, 0x80, 0x82], [0xE2, 0x80, 0x83],
   [0xE2, 0x80, 0x84], [0xE2, 0x80, 0x85], [0xE2, 0x80, 0x86], [0xE2, 0x80, 0x87],
   [0xE2, 0x80, 0x88], [0xE2, 0x80, 0x89], [0xE2, 0x80, 0x8A], [0xE2, 0x80, 0xA8],
   [0xE2, 0x80, 0xA9], [0xE2, 0x80, 0xAF], [0xE2, 0x81, 0x9F], [0xE3, 0x80, 0x80]]

/-- The claim's word "whitespace": a text made of white-space runes only. -/
def IsSpaceText (w : Str) : Prop :=
  ∃ runes : List Str, (∀ r ∈ runes, r ∈ spaceRunes) ∧ w = runes.flatten

/-- The unit switch of `parseInt`: the multiplier, the text without its unit, `hasUnit`. -/
def splitUnit (s : Str) : F64 × Str × Bool :=
  if HasSuffix s (str "k") then (F64.ofNat 1000, TrimSuffix s (str "k"), true)
  else if HasSuffix s (str "m") then (F64.ofNat 1000000, TrimSuffix s (str "m"), true)
  else (F64.ofNat 1, s, false)

/-- The function `parseInt(text)`: the integer and the error (`none` for `nil`). -/
def parseInt (text : Str) : Int × Option Str :=
  let s := ToLower (TrimSpace text)
  let (multiplier, s, hasUnit) := splitUnit s
  let s :=
    if hasUnit then ReplaceAll s (B ',') (str ".")
    else ReplaceAll (ReplaceAll s (B ',') []) (B '.') []
  match ParseFloat s with
  | .error _ => (0, some (str "invalid number format"))
  | .ok f => ((f.mul multiplier).toInt, none)

end Internal

namespace Internal

open GoStrings

/-- The claim's word "letter", as far as ASCII goes: one of `a` to `z` or of `A` to `Z`.
A letter outside ASCII is made of bytes outside ASCII. -/
def isLetter (c : Byte) : Prop := (B 'a' ≤ c ∧ c ≤ B 'z') ∨ (B 'A' ≤ c ∧ c ≤ B 'Z')

instance (c : Byte) : Decidable (isLetter c) := by unfold isLetter; exact inferInstance

/-- The claim's words "removing at most one trailing unit letter k/K/m/M". -/
def stripUnit (t : Str) : Str :=
  match t.getLast? with
  | some c => if c = B 'k' ∨ c = B 'K' ∨ c = B 'm' ∨ c = B 'M' then t.dropLast else t
  | none => t

end Internal

/-! ## `internal/polite/robots.go` -/

namespace Polite

open GoStrings Url

/-- The type `robotstxt.RobotsData` of `github.com/temoto/robotstxt`, as far as `Check` uses
it: the answer of its method `TestAgent(path, agent)`. -/
structure RobotsData where
  TestAgent : Str → Str → Bool

/-- What the HTTP client and the robots.txt parser answer: `client.Get(url)` is an error
or the status code with the result of `io.ReadAll(resp.Body)`; `FromStatusAndBytes` is
`robotstxt.FromStatusAndBytes`. -/
structure Net where
  Get : Str → Except Str (Nat × Except Str Str)
  FromStatusAndBytes : Nat → Str → Except Str RobotsData

/-- The field `robotsMap` of `RobotsChecker`: a map from host to robots data. -/
structure RobotsChecker where
  robotsMap : Str → Option RobotsData

/-- The function `RobotsChecker.getRobotsData(url)`. -/
def getRobotsData (net : Net) (url : URL) : Except Str RobotsData :=
  let requestURL := url.Scheme ++ str "://" ++ url.Host ++ str "/robots.txt"
  match net.Get requestURL with
  | .error err => .error err
  | .ok (statusCode, read) =>
    match read with
    | .error err => .error (str "reading body: " ++ err)
    | .ok body => net.FromStatusAndBytes statusCode body

/-- The function `RobotsChecker.Check(rawURL, ua)`: the checker afterwards and the error
(`none` for `nil`). -/
def Check (r : RobotsChecker) (net : Net) (rawURL : Str) (ua : Str) :
    RobotsChecker × Option Str :=
  match Url.Parse rawURL with
  | none => (r, none)
  | some parsed =>
    match r.robotsMap parsed.Host with
    | some robotsData =>
      if !robotsData.TestAgent parsed.Path ua then (r, some (str "forbidden by robots.txt"))
      else (r, none)
    | none =>
      match getRobotsData net parsed with
      | .error _ => (r, none)
      | .ok robotsData =>
        let r : RobotsChecker :=
          { robotsMap := fun host => if host = parsed.Host then some robotsData
                                     else r.robotsMap host }
        if !robotsData.TestAgent parsed.Path ua then (r, some (str "forbidden by robots.txt"))
        else (r, none)

/-- A checker with nothing cached. -/
def emptyChecker : RobotsChecker := { robotsMap := fun _ => none }

/-- A network behind which every robots.txt disallows everything for every agent. -/
def disallowNet : Net :=
  { Get := fun _ => .ok (200, .ok (str "User-agent: *\nDisallow: /")),
    FromStatusAndBytes := fun _ _ => .ok { TestAgent := fun _ _ => false } }

/-- A network that cannot be reached. -/
def deadNet : Net :=
  { Get := fun _ => .error (str "dial tcp: connection refused"),
    FromStatusAndBytes := fun _ _ => .ok { TestAgent := fun _ _ => false } }

end Polite

namespace Storage

open Status

/-- The call is `MarkFailed` on a URL whose row is done. -/
def Op.failsDone (t : Table) : Op → Bool
  | .markFailed url _ _ => t.rows.any (fun r => decide (r.url = url) && decide (r.status = Done))
  | _ => false

/-- No call of the sequence is a `MarkFailed` on a URL whose row is done at that time. -/
def neverFailsDone : Table → List Op → Prop
  | _, [] => True
  | t, op :: ops => op.failsDone t = false ∧ neverFailsDone (step t op) ops

/-- The invariant behind the retry count of failed rows: no count is negative and a failed
row has failed at least once. -/
def RetryInv (t : Table) : Prop :=
  ∀ r ∈ t.rows, 0 ≤ r.retry_count ∧ (r.status = Failed → 1 ≤ r.retry_count)

/-- The invariant behind `done_at`: URLs are pairwise distinct and a row with `done_at` set
is done. -/
def DoneInv (t : Table) : Prop :=
  (t.rows.map Row.url).Nodup ∧ ∀ r ∈ t.rows, r.done_at ≠ none → r.status = Done

/-- Calls that add a URL, lease it, mark it done and then mark it failed. -/
def doneThenFailed : List Op :=
  [.addURLs [str "https://amazon.com/s?k=lego"] 0,
   .getNextURL 1,
   .markDone (str "https://amazon.com/s?k=lego") 2,
   .markFailed (str "https://amazon.com/s?k=lego") (str "context deadline exceeded") 3]

end Storage

namespace Crawler

open GoStrings Url Internal

/-- What the page answers to `getRelevantLinks`: for each of the two locators, `none` when
`All()` fails, otherwise for every anchor its `href` (`none` when `GetAttribute` fails). -/
structure PageLinks where
  anchors : Option (List (Option Str)) := some []
  pagination : Option (List (Option Str)) := some []
  deriving DecidableEq, Repr

/-- The method `Add` of the set of links: the order of a set is not specified, the model
keeps the order of insertion. -/
def addLink (links : List Str) (x : Str) : List Str := if x ∈ links then links else links ++ [x]

/-- The body of the loop over `a[href]` in `getRelevantLinks`. -/
def addAnchor (links : List Str) (link : Option Str) : List Str :=
  match link with
  | none => links
  | some href =>
    let links :=
      match (AsinFromURL href).2 with
      | none => addLink links (createProductURL (AsinFromURL href).1)
      | some _ => links
    if isRelevantURL href then addLink links (withBaseURL href) else links

/-- The body of the loop over the pagination anchors in `getRelevantLinks`. -/
def addPagination (links : List Str) (link : Option Str) : List Str :=
  match link with
  | none => links
  | some href => addLink links (withBaseURL href)

/-- The function `crawler.getRelevantLinks(page)`: the links and the error, which is always
`nil`. -/
def getRelevantLinks (page : PageLinks) : List Str × Option Str :=
  let links : List Str := []
  let links :=
    match page.anchors with
    | some a => a.foldl addAnchor links
    | none => links
  let links :=
    match page.pagination with
    | some a => a.foldl addPagination links
    | none => links
  (links, none)

/-- One round of the loop of `crawler.poll` with the context not cancelled: the table after
`GetNextURL` and the URL handed to the workers by `c.get`, if any. -/
def pollOnce (t : Storage.Table) (now : Int) : Storage.Table × Option Str :=
  let res := Storage.GetNextURL t now
  match res.2.2 with
  | some _ => (res.1, none)
  | none => if res.2.1.URL = [] then (res.1, none) else (res.1, some res.2.1.URL)

/-- The call on the frontier behind an event of a job. -/
def Event.storageOp (now : Int) : Event → Option Storage.Op
  | .MarkDone url => some (.markDone url now)
  | .MarkFailed url msg => some (.markFailed url msg now)
  | _ => none

/-- The frontier after the calls that a sequence of job events makes on it. -/
def frontierAfter (t : Storage.Table) (now : Int) (events : List Event) : Storage.Table :=
  Storage.run t (events.filterMap (Event.storageOp now))

end Crawler

namespace Polite

/-- What `url.Parse` returns for `https://amazon.com/s?k=lego`. -/
def legoSearch : Url.URL :=
  { Scheme := str "https", Host := str "amazon.com", Path := str "/s", RawQuery := str "k=lego" }

end Polite

namespace Storage

/-- One URL queued, leased and marked done. -/
def addLeaseDone : List Op :=
  [.addURLs [str "https://amazon.com/s?k=lego"] 0,
   .getNextURL 1,
   .markDone (str "https://amazon.com/s?k=lego") 2]

end Storage

namespace Crawler

/-- A page with one search anchor whose `href` has a malformed percent escape. -/
def malformedPage : PageLinks := { anchors := some [some (str "/s/%zz")] }

/-- A job whose second request middleware rejects the URL. -/
def robotsRejects : JobEnv :=
  { requestMiddlewares := [none, some (str "forbidden by robots.txt"), none] }

/-- A job whose navigation fails. -/
def navigationFails : JobEnv := { goto := some (str "timeout") }

/-- What `url.Parse` returns for `https://amazon.com/gp/ref=x/s?k=lego&node=1&tag=abc`. -/
def variantA : Url.URL :=
  { Scheme := str "https", Host := str "amazon.com", Path := str "/gp/ref=x/s",
    RawQuery := str "k=lego&node=1&tag=abc" }

/-- What `url.Parse` returns for `https://amazon.com//gp/s/ref-y/?node=1&utm=zz&k=lego`. -/
def variantB : Url.URL :=
  { Scheme := str "https", Host := str "amazon.com", Path := str "//gp/s/ref-y/",
    RawQuery := str "node=1&utm=zz&k=lego" }

end Crawler

namespace Internal

open GoStrings Strconv

/-- The text that `parseInt` hands to `strconv.ParseFloat`: the trimmed text in lower case,
without its unit, the separators replaced. -/
def floatText (text : Str) : Str :=
  let s := ToLower (TrimSpace text)
  let (_, s, hasUnit) := splitUnit s
  if hasUnit then ReplaceAll s (B ',') (str ".")
  else ReplaceAll (ReplaceAll s (B ',') []) (B '.') []

/-- A text without the sign `+` or `-` at its start, if it has one. -/
def unsigned (s : Str) : Str :=
  match s with
  | c :: t => if c = B '+' ∨ c = B '-' then t else s
  | [] => []

/-- The words "infinity or NaN literal": `inf` or `infinity`, with a sign or without, or
`nan`, in either case of the letters. -/
def isInfNaN (s : Str) : Prop :=
  s.map Url.lowerByte ∈ [str "inf", str "+inf", str "-inf", str "infinity", str "+infinity",
    str "-infinity", str "nan"]

instance (s : Str) : Decidable (isInfNaN s) := by unfold isInfNaN; exact inferInstance

/-- A digit of a floating-point literal: `0` to `9`, in a hexadecimal literal also `a` to
`f` and `A` to `F`. -/
def isFloatDigit (hex : Bool) (c : Byte) : Bool :=
  (decide (B '0' ≤ c) && decide (c ≤ B '9')) ||
  (hex && ((decide (B 'a' ≤ c) && decide (c ≤ B 'f')) ||
           (decide (B 'A' ≤ c) && decide (c ≤ B 'F'))))

/-- The letter that starts the exponent of a floating-point literal: `e` or `E`, in a
hexadecimal literal `p` or `P`. -/
def isExponentMark (hex : Bool) (c : Byte) : Bool :=
  if hex then decide (c = B 'p') || decide (c = B 'P')
  else decide (c = B 'e') || decide (c = B 'E')

/-- A mantissa: digits, at least one, with at most one point among them and with
underscores anywhere. -/
def isMantissa (hex : Bool) (m : Str) : Bool :=
  m.all (fun c => isFloatDigit hex c || decide (c = B '_') || decide (c = B '.')) &&
  m.any (isFloatDigit hex) && decide (m.count (B '.') ≤ 1)

/-- An exponent: a sign or none, then a decimal digit followed by decimal digits and
underscores. -/
def isExponent (e : Str) : Bool :=
  match unsigned e with
  | d :: ds => isFloatDigit false d && ds.all (fun c => isFloatDigit false c || decide (c = B '_'))
  | [] => false

/-- A mantissa, the letter of the exponent, and an exponent. -/
def isScientific (hex : Bool) (body : Str) : Bool :=
  match body.dropWhile (fun c => !isExponentMark hex c) with
  | _ :: e => isMantissa hex (body.takeWhile (fun c => !isExponentMark hex c)) && isExponent e
  | [] => false

/-- The words "decimal literal with an exponent", such as `1e3`, `-2.5E+10` or `1_0e-2`:
a sign or none, a decimal mantissa, `e` or `E`, and an exponent. -/
def isExponentForm (s : Str) : Prop := isScientific false (unsigned s) = true

instance (s : Str) : Decidable (isExponentForm s) := by unfold isExponentForm; exact inferInstance

/-- The words "hexadecimal floating-point literal", such as `0x1p4` or `-0X1.8P-3`: a sign
or none, `0x` or `0X`, a hexadecimal mantissa, `p` or `P`, and an exponent. -/
def isHexForm (s : Str) : Prop :=
  match unsigned s with
  | z :: x :: body => z = B '0' ∧ (x = B 'x' ∨ x = B 'X') ∧ isScientific true body = true
  | _ => False

instance (s : Str) : Decidable (isHexForm s) := by
  unfold isHexForm
  split <;> exact inferInstance

/-- The answer of `strconv.ParseFloat` is the error `ErrRange`: the text is a number too
large for a `float64`. -/
def outOfRange (s : Str) : Bool :=
  match ParseFloat s with
  | .error .errRange => true
  | _ => false

/-- The words "a literal with letters that `ParseFloat` reads": an infinity or a NaN
literal, or a decimal literal with an exponent or a hexadecimal floating-point literal
whose underscores, if it has any, stand where Go's `underscoreOK` allows them (between
digits, or between the base prefix and a digit) and whose value is not out of the range of
`float64`. -/
def readsAsLiteral (s : Str) : Prop :=
  isInfNaN s ∨
  ((isExponentForm s ∨ isHexForm s) ∧ (B '_' ∈ s → underscoreOK s = true) ∧
    outOfRange s = false)

instance (s : Str) : Decidable (readsAsLiteral s) := by
  unfold readsAsLiteral; exact inferInstance

/-- The digit 1 followed by the Kelvin sign, U+212A, which `strings.ToLower` turns into
the letter `k`. -/
def oneKelvin : Str := [B '1', 0xE2, 0x84, 0xAA]

end Internal

/-! # Theorems -/

namespace Url
open GoStrings Encoding

/-! ### Bytes -/

theorem hexByte_upperhex : ∀ c : Byte, hexByte (upperhex (c.val / 16)) (upperhex (c.val % 16)) = c := by
  decide

theorem ishex_upperhex : ∀ c : Byte,
    ishex (upperhex (c.val / 16)) = true ∧ ishex (upperhex (c.val % 16)) = true := by
  decide

theorem upperhex_not_special : ∀ c : Byte,
    (upperhex (c.val / 16) ≠ B '%' ∧ upperhex (c.val / 16) ≠ B '+' ∧
      isAlnum (upperhex (c.val / 16)) = true) ∧
    (upperhex (c.val % 16) ≠ B '%' ∧ upperhex (c.val % 16) ≠ B '+' ∧
      isAlnum (upperhex (c.val % 16)) = true) := by
  decide

theorem shouldEscape_percent : ∀ m : Encoding, shouldEscape (B '%') m = true := by
  intro m; cases m <;> decide

theorem shouldEscape_alnum (c : Byte) (m : Encoding) (h : isAlnum c = true) :
    shouldEscape c m = false := by
  simp [shouldEscape, h]

theorem shouldEscape_plus_query : shouldEscape (B '+') encodeQueryComponent = true := by
  decide

/-! ### `escape` -/

theorem escape_nil (m : Encoding) : escape [] m = [] := rfl

theorem escape_cons (c : Byte) (s : Str) (m : Encoding) :
    escape (c :: s) m = escByte m c ++ escape s m := by
  simp [escape, escByte, List.flatMap_cons]

theorem escape_append (a b : Str) (m : Encoding) :
    escape (a ++ b) m = escape a m ++ escape b m := by
  simp [escape, List.flatMap_append]

theorem escByte_cases (m : Encoding) (c : Byte) :
    (escByte m c = [B '+'] ∧ c = B ' ' ∧ m = encodeQueryComponent) ∨
    (escByte m c = [B '%', upperhex (c.val / 16), upperhex (c.val % 16)] ∧
      shouldEscape c m = true) ∨
    (escByte m c = [c] ∧ shouldEscape c m = false ∧ c ≠ B '%' ∧
      (c = B '+' → m ≠ encodeQueryComponent)) := by
  unfold escByte
  by_cases h1 : c = B ' ' ∧ m = encodeQueryComponent
  · exact Or.inl ⟨by simp [h1], h1.1, h1.2⟩
  · by_cases h2 : shouldEscape c m = true
    · exact Or.inr (Or.inl ⟨by simp [h1, h2], h2⟩)
    · refine Or.inr (Or.inr ⟨by simp [h1, h2], by simpa using h2, ?_, ?_⟩)
      · intro hc; subst hc; exact h2 (shouldEscape_percent m)
      · intro hc hm; subst hc; subst hm; exact h2 shouldEscape_plus_query

/-- A byte that must be escaped, other than `%` and `+`, does not occur in escaped text. -/
theorem not_mem_escape (m : Encoding) (x : Byte) (hx : shouldEscape x m = true)
    (h1 : x ≠ B '%') (h2 : x ≠ B '+') : ∀ s : Str, x ∉ escape s m
  | [] => by simp [escape_nil]
  | c :: s => by
    rw [escape_cons, List.mem_append, not_or]
    refine ⟨?_, not_mem_escape m x hx h1 h2 s⟩
    have hu := upperhex_not_special c
    rcases escByte_cases m c with ⟨e, _, _⟩ | ⟨e, _⟩ | ⟨e, hc, _, _⟩
    · rw [e]; simpa using h2
    · rw [e]
      simp only [List.mem_cons, List.mem_singleton, List.not_mem_nil, or_false, not_or]
      refine ⟨h1, ?_, ?_⟩
      · intro h; rw [h, shouldEscape_alnum _ m hu.1.2.2] at hx; exact Bool.false_ne_true hx
      · intro h; rw [h, shouldEscape_alnum _ m hu.2.2.2] at hx; exact Bool.false_ne_true hx
    · rw [e]
      simp only [List.mem_singleton]
      intro h; rw [h, hc] at hx; exact Bool.false_ne_true hx

/-! ### `unescape` -/

theorem unescapeRaw_percent (m : Encoding) (a b : Byte) (t : Str) :
    unescapeRaw m (B '%' :: a :: b :: t) = hexByte a b :: unescapeRaw m t := by
  rw [unescapeRaw.eq_def]; simp

theorem unescapeRaw_plus (m : Encoding) (t : Str) :
    unescapeRaw m (B '+' :: t) =
      (if m = encodeQueryComponent then B ' ' else B '+') :: unescapeRaw m t := by
  have : B '+' ≠ B '%' := by decide
  rw [unescapeRaw.eq_def]; simp [this]

theorem unescapeRaw_plain (m : Encoding) (c : Byte) (t : Str) (h1 : c ≠ B '%')
    (h2 : c ≠ B '+') : unescapeRaw m (c :: t) = c :: unescapeRaw m t := by
  rw [unescapeRaw.eq_def]; simp [h1, h2]

theorem unescapeOK_percent_eq (m : Encoding) (a b : Byte) (t : Str) :
    unescapeOK m (B '%' :: a :: b :: t) = (escapeOK m a b && unescapeOK m t) := by
  rw [unescapeOK.eq_def]; simp

theorem unescapeOK_plus (m : Encoding) (t : Str) :
    unescapeOK m (B '+' :: t) = unescapeOK m t := by
  have : B '+' ≠ B '%' := by decide
  rw [unescapeOK.eq_def]; simp [this]

theorem unescapeOK_plain (m : Encoding) (c : Byte) (t : Str) (h1 : c ≠ B '%')
    (h2 : c ≠ B '+') :
    unescapeOK m (c :: t) =
      (!(decide (m = encodeHost ∨ m = encodeZone) && decide (c < 128) &&
          shouldEscape c encodeHost) && unescapeOK m t) := by
  rw [unescapeOK.eq_def]; simp [h1, h2]

/-- Decoding undoes escaping, whatever the two modes, as long as both or neither is
the query mode. -/
theorem unescapeRaw_escape (m m' : Encoding)
    (hq : m = encodeQueryComponent ↔ m' = encodeQueryComponent) :
    ∀ s : Str, unescapeRaw m (escape s m') = s
  | [] => by simp [escape_nil, unescapeRaw]
  | c :: s => by
    rw [escape_cons]
    have ih := unescapeRaw_escape m m' hq s
    rcases escByte_cases m' c with ⟨e, hc, hm⟩ | ⟨e, _⟩ | ⟨e, _, hp, hplus⟩
    · rw [e, List.singleton_append, unescapeRaw_plus, ih, if_pos (hq.2 hm), hc]
    · rw [e]
      simp only [List.cons_append, List.nil_append]
      rw [unescapeRaw_percent, ih, hexByte_upperhex]
    · rw [e, List.singleton_append]
      by_cases hpl : c = B '+'
      · subst hpl
        rw [unescapeRaw_plus, ih, if_neg (fun h => hplus rfl (hq.1 h))]
      · rw [unescapeRaw_plain m c _ hp hpl, ih]

theorem unescapeOK_percent (m : Encoding) (a b : Byte) (t : Str)
    (h : unescapeOK m (B '%' :: a :: b :: t) = true) : unescapeOK m t = true := by
  rw [unescapeOK_percent_eq, Bool.and_eq_true] at h
  exact h.2

theorem unescapeOK_percent_short (m : Encoding) (t : Str) (h : t.length < 2) :
    unescapeOK m (B '%' :: t) = false := by
  match t, h with
  | [], _ => rw [unescapeOK.eq_def]; simp
  | [a], _ => rw [unescapeOK.eq_def]; simp

theorem unescapeOK_cons (m : Encoding) (c : Byte) (t : Str) (hc : c ≠ B '%')
    (h : unescapeOK m (c :: t) = true) : unescapeOK m t = true := by
  by_cases hp : c = B '+'
  · subst hp; rwa [unescapeOK_plus] at h
  · rw [unescapeOK_plain m c t hc hp, Bool.and_eq_true] at h
    exact h.2

/-- Text that passes the first pass of `unescape` decodes piecewise. -/
theorem unescapeRaw_append (m m' : Encoding) :
    ∀ (n : Nat) (a : Str), a.length ≤ n → unescapeOK m a = true →
      ∀ b : Str, unescapeRaw m' (a ++ b) = unescapeRaw m' a ++ unescapeRaw m' b
  | _, [], _, _, b => by simp [unescapeRaw]
  | 0, c :: a, hn, _, _ => by simp at hn
  | n + 1, c :: a, hn, h, b => by
    by_cases hc : c = B '%'
    · subst hc
      match a, hn, h with
      | [], _, h => rw [unescapeOK_percent_short m [] (by simp)] at h; simp at h
      | [x], _, h => rw [unescapeOK_percent_short m [x] (by simp)] at h; simp at h
      | x :: y :: t, hn, h =>
        have ih := unescapeRaw_append m m' n t (by simp at hn; omega)
          (unescapeOK_percent m x y t h) b
        simp only [List.cons_append]
        rw [unescapeRaw_percent, unescapeRaw_percent, ih]
        rfl
    · have ih := unescapeRaw_append m m' n a (by simp at hn; omega)
        (unescapeOK_cons m c a hc h) b
      by_cases hp : c = B '+'
      · subst hp
        simp only [List.cons_append]
        rw [unescapeRaw_plus, unescapeRaw_plus, ih]
        rfl
      · simp only [List.cons_append]
        rw [unescapeRaw_plain m' c _ hc hp, unescapeRaw_plain m' c _ hc hp, ih]
        rfl

/-- Outside the query mode the second pass does not depend on the mode. -/
theorem unescapeRaw_mode (m m' : Encoding) (h : m ≠ encodeQueryComponent)
    (h' : m' ≠ encodeQueryComponent) :
    ∀ (n : Nat) (s : Str), s.length ≤ n → unescapeRaw m s = unescapeRaw m' s
  | _, [], _ => by simp [unescapeRaw]
  | 0, c :: a, hn => by simp at hn
  | n + 1, c :: a, hn => by
    by_cases hc : c = B '%'
    · subst hc
      match a, hn with
      | [], _ => rw [unescapeRaw.eq_def, unescapeRaw.eq_def m']; simp
      | [x], _ => rw [unescapeRaw.eq_def, unescapeRaw.eq_def m']; simp
      | x :: y :: t, hn =>
        rw [unescapeRaw_percent, unescapeRaw_percent,
          unescapeRaw_mode m m' h h' n t (by simp at hn; omega)]
    · have ih := unescapeRaw_mode m m' h h' n a (by simp at hn; omega)
      by_cases hp : c = B '+'
      · subst hp
        rw [unescapeRaw_plus, unescapeRaw_plus, ih, if_neg h, if_neg h']
      · rw [unescapeRaw_plain m c _ hc hp, unescapeRaw_plain m' c _ hc hp, ih]

/-- In the modes without restrictions, escaped text passes the first pass. -/
theorem unescapeOK_escape (m : Encoding) (h1 : m ≠ encodeHost) (h2 : m ≠ encodeZone) :
    ∀ s : Str, unescapeOK m (escape s m) = true
  | [] => by simp [escape_nil, unescapeOK]
  | c :: s => by
    rw [escape_cons]
    have ih := unescapeOK_escape m h1 h2 s
    have hh := ishex_upperhex c
    rcases escByte_cases m c with ⟨e, _, _⟩ | ⟨e, _⟩ | ⟨e, _, hp, _⟩
    · rw [e, List.singleton_append, unescapeOK_plus, ih]
    · rw [e]
      simp only [List.cons_append, List.nil_append]
      rw [unescapeOK_percent_eq, ih]
      simp [escapeOK, hh.1, hh.2, h1, h2]
    · rw [e, List.singleton_append]
      by_cases hpl : c = B '+'
      · subst hpl; rw [unescapeOK_plus, ih]
      · rw [unescapeOK_plain m c _ hp hpl, ih]
        simp [h1, h2]

theorem unescape_escape (m : Encoding) (h1 : m ≠ encodeHost) (h2 : m ≠ encodeZone)
    (s : Str) : unescape (escape s m) m = some s := by
  unfold unescape
  rw [unescapeOK_escape m h1 h2 s, if_pos rfl, unescapeRaw_escape m m Iff.rfl]

theorem unescape_eq_some (s t : Str) (m : Encoding) (h : unescape s m = some t) :
    unescapeOK m s = true ∧ t = unescapeRaw m s := by
  unfold unescape at h
  by_cases hok : unescapeOK m s = true
  · rw [if_pos hok] at h
    exact ⟨hok, (Option.some.inj h).symm⟩
  · rw [if_neg hok] at h
    exact absurd h (by simp)

end Url

namespace GoStrings

theorem cutBefore_append (sep : Byte) (a b : Str) (h : sep ∉ a) :
    cutBefore sep (a ++ sep :: b) = a := by
  induction a with
  | nil => simp [cutBefore]
  | cons c a ih =>
    simp only [List.mem_cons, not_or] at h
    have hc : c ≠ sep := fun e => h.1 e.symm
    have := ih h.2
    simp only [cutBefore] at this ⊢
    simp [List.takeWhile_cons, hc, this]

theorem cutAfter_append (sep : Byte) (a b : Str) (h : sep ∉ a) :
    cutAfter sep (a ++ sep :: b) = b := by
  induction a with
  | nil => simp [cutAfter]
  | cons c a ih =>
    simp only [List.mem_cons, not_or] at h
    have hc : c ≠ sep := fun e => h.1 e.symm
    have := ih h.2
    simp only [cutAfter] at this ⊢
    simp [List.dropWhile_cons, hc, this]

theorem dropWhile_append (sep : Byte) (a b : Str) (h : sep ∉ a) :
    (a ++ sep :: b).dropWhile (fun c => c != sep) = sep :: b := by
  induction a with
  | nil => simp
  | cons c a ih =>
    simp only [List.mem_cons, not_or] at h
    have hc : c ≠ sep := fun e => h.1 e.symm
    simp [List.dropWhile_cons, hc, ih h.2]

theorem cutBefore_of_not_mem (sep : Byte) (a : Str) (h : sep ∉ a) : cutBefore sep a = a := by
  induction a with
  | nil => simp [cutBefore]
  | cons c a ih =>
    simp only [List.mem_cons, not_or] at h
    have hc : c ≠ sep := fun e => h.1 e.symm
    have := ih h.2
    simp only [cutBefore] at this ⊢
    simp [List.takeWhile_cons, hc, this]

theorem cutAfter_of_not_mem (sep : Byte) (a : Str) (h : sep ∉ a) : cutAfter sep a = [] := by
  induction a with
  | nil => simp [cutAfter]
  | cons c a ih =>
    simp only [List.mem_cons, not_or] at h
    have hc : c ≠ sep := fun e => h.1 e.symm
    have := ih h.2
    simp only [cutAfter] at this ⊢
    simp [List.dropWhile_cons, hc, this]

theorem dropWhile_of_not_mem (sep : Byte) (a : Str) (h : sep ∉ a) :
    a.dropWhile (fun c => c != sep) = [] := by
  induction a with
  | nil => simp
  | cons c a ih =>
    simp only [List.mem_cons, not_or] at h
    have hc : c ≠ sep := fun e => h.1 e.symm
    simp [List.dropWhile_cons, hc, ih h.2]

theorem not_mem_cutBefore (sep : Byte) (s : Str) : sep ∉ cutBefore sep s := by
  induction s with
  | nil => simp [cutBefore]
  | cons c s ih =>
    simp only [cutBefore] at ih ⊢
    by_cases hc : c = sep
    · simp [List.takeWhile_cons, hc]
    · simp only [List.takeWhile_cons, bne_iff_ne, ne_eq, hc, not_false_eq_true, decide_True,
        if_true, List.mem_cons, not_or]
      exact ⟨fun e => hc e.symm, ih⟩

theorem mem_of_mem_cutBefore (sep x : Byte) (s : Str) (h : x ∈ cutBefore sep s) : x ∈ s :=
  (List.takeWhile_sublist _).subset h

theorem mem_of_mem_cutAfter (sep x : Byte) (s : Str) (h : x ∈ cutAfter sep s) : x ∈ s :=
  ((List.drop_sublist _ _).trans (List.dropWhile_sublist _)).subset h

/-- A string is its part before the first separator, followed by the rest. -/
theorem cutBefore_append_dropWhile (sep : Byte) (s : Str) :
    cutBefore sep s ++ s.dropWhile (fun c => c != sep) = s :=
  List.takeWhile_append_dropWhile _ _

theorem dropWhile_eq (sep : Byte) (s : Str) :
    s.dropWhile (fun c => c != sep) = [] ∨
    s.dropWhile (fun c => c != sep) = sep :: cutAfter sep s := by
  induction s with
  | nil => simp
  | cons c s ih =>
    by_cases hc : c = sep
    · right; simp [List.dropWhile_cons, hc, cutAfter]
    · simp only [List.dropWhile_cons, bne_iff_ne, ne_eq, hc, not_false_eq_true, decide_True,
        if_true, cutAfter]
      simpa [cutAfter] using ih

theorem LastIndex_of_not_mem (sep : Byte) (a : Str) (h : sep ∉ a) : LastIndex sep a = none := by
  induction a with
  | nil => rfl
  | cons c a ih =>
    simp only [List.mem_cons, not_or] at h
    have hc : c ≠ sep := fun e => h.1 e.symm
    simp [LastIndex, ih h.2, hc]

theorem LastIndex_append (sep : Byte) (a b : Str) (h : sep ∉ b) :
    LastIndex sep (a ++ sep :: b) = some a.length := by
  induction a with
  | nil => simp [LastIndex, LastIndex_of_not_mem sep b h]
  | cons c a ih => simp [LastIndex, ih]

theorem LastIndex_some (sep : Byte) : ∀ (s : Str) (i : Nat), LastIndex sep s = some i →
    i < s.length ∧ s.drop i = sep :: s.drop (i + 1) ∧ sep ∉ s.drop (i + 1)
  | [], i, h => by simp [LastIndex] at h
  | c :: s, i, h => by
    unfold LastIndex at h
    cases hs : LastIndex sep s with
    | some j =>
      rw [hs] at h
      simp only [Option.some.injEq] at h
      subst h
      obtain ⟨h1, h2, h3⟩ := LastIndex_some sep s j hs
      exact ⟨by simp; omega, by simpa using h2, by simpa using h3⟩
    | none =>
      rw [hs] at h
      by_cases hc : c = sep
      · simp only [hc, if_true, Option.some.injEq] at h
        subst h
        subst hc
        refine ⟨by simp, by simp, ?_⟩
        simp only [zero_add, List.drop_succ_cons, List.drop_zero]
        intro hmem
        have : ∀ (t : Str), c ∈ t → LastIndex c t ≠ none := by
          intro t
          induction t with
          | nil => simp
          | cons d t ih =>
            intro hm
            unfold LastIndex
            cases ht : LastIndex c t with
            | some k => simp
            | none =>
              rcases List.mem_cons.1 hm with e | e
              · simp [e]
              · exact absurd ht (ih e)
        exact this s hmem hs
      · simp [hc] at h

theorem not_mem_of_mem_Split (sep : Byte) : ∀ (s : Str) (p : Str), p ∈ Split sep s → sep ∉ p
  | [], p, h => by
    simp only [Split, List.mem_singleton] at h
    subst h; simp
  | c :: s, p, h => by
    unfold Split at h
    by_cases hc : c = sep
    · simp only [hc, if_true, List.mem_cons] at h
      rcases h with rfl | h
      · simp
      · exact not_mem_of_mem_Split sep s p h
    · simp only [hc, if_false] at h
      cases hs : Split sep s with
      | nil =>
        rw [hs] at h
        simp only [List.mem_singleton] at h
        subst h
        simpa using fun e : sep = c => hc e.symm
      | cons x r =>
        rw [hs] at h
        simp only [List.mem_cons] at h
        have ih := not_mem_of_mem_Split sep s
        rcases h with rfl | h
        · simp only [List.mem_cons, not_or]
          exact ⟨fun e => hc e.symm, ih x (by rw [hs]; exact List.mem_cons_self _ _)⟩
        · exact ih p (by rw [hs]; exact List.mem_cons_of_mem _ h)

theorem Split_of_not_mem (sep : Byte) (p : Str) (h : sep ∉ p) : Split sep p = [p] := by
  induction p with
  | nil => rfl
  | cons c p ih =>
    simp only [List.mem_cons, not_or] at h
    have hc : c ≠ sep := fun e => h.1 e.symm
    simp [Split, hc, ih h.2]

theorem Split_append (sep : Byte) (p : Str) (h : sep ∉ p) (t : Str) :
    Split sep (p ++ sep :: t) = p :: Split sep t := by
  induction p with
  | nil => simp [Split]
  | cons c p ih =>
    simp only [List.mem_cons, not_or] at h
    have hc : c ≠ sep := fun e => h.1 e.symm
    simp [Split, hc, ih h.2]

theorem Join_cons_cons (sep : Byte) (p q : Str) (r : List Str) :
    Join sep (p :: q :: r) = p ++ sep :: Join sep (q :: r) := by
  simp [Join, List.intercalate, List.intersperse, List.flatten]

theorem Join_singleton (sep : Byte) (p : Str) : Join sep [p] = p := by
  simp [Join, List.intercalate, List.intersperse, List.flatten]

theorem Join_nil (sep : Byte) : Join sep [] = [] := rfl

/-- Splitting undoes joining when no piece holds the separator. -/
theorem Split_Join (sep : Byte) : ∀ (pieces : List Str), pieces ≠ [] →
    (∀ p ∈ pieces, sep ∉ p) → Split sep (Join sep pieces) = pieces
  | [], h, _ => absurd rfl h
  | [p], _, h => by
    rw [Join_singleton]
    exact Split_of_not_mem sep p (h p (List.mem_singleton_self p))
  | p :: q :: r, _, h => by
    rw [Join_cons_cons, Split_append sep p (h p (List.mem_cons_self _ _)),
      Split_Join sep (q :: r) (by simp) (fun x hx => h x (List.mem_cons_of_mem _ hx))]

theorem mem_Join (sep x : Byte) : ∀ (pieces : List Str), x ∈ Join sep pieces →
    x = sep ∨ ∃ p ∈ pieces, x ∈ p
  | [], h => by simp [Join_nil] at h
  | [p], h => by
    rw [Join_singleton] at h
    exact Or.inr ⟨p, List.mem_singleton_self p, h⟩
  | p :: q :: r, h => by
    rw [Join_cons_cons, List.mem_append, List.mem_cons] at h
    rcases h with h | h | h
    · exact Or.inr ⟨p, List.mem_cons_self _ _, h⟩
    · exact Or.inl h
    · rcases mem_Join sep x (q :: r) h with h | ⟨y, hy, hxy⟩
      · exact Or.inl h
      · exact Or.inr ⟨y, List.mem_cons_of_mem _ hy, hxy⟩

end GoStrings

namespace Url
open GoStrings Encoding

/-! ### The order of the keys -/

theorem strLE_total : ∀ a b : Str, StrLE a b ∨ StrLE b a
  | [], _ => Or.inl (by simp [StrLE, strLE])
  | _ :: _, [] => Or.inr (by simp [StrLE, strLE])
  | a :: s, b :: t => by
    rcases lt_trichotomy a b with h | h | h
    · exact Or.inl (by simp [StrLE, strLE, h])
    · subst h
      rcases strLE_total s t with h' | h'
      · exact Or.inl (by simp only [StrLE] at h' ⊢; simp [strLE, h'])
      · exact Or.inr (by simp only [StrLE] at h' ⊢; simp [strLE, h'])
    · exact Or.inr (by simp [StrLE, strLE, h])

theorem strLE_trans : ∀ a b c : Str, StrLE a b → StrLE b c → StrLE a c
  | [], _, _, _, _ => by simp [StrLE, strLE]
  | _ :: _, [], _, h, _ => by simp [StrLE, strLE] at h
  | _ :: _, _ :: _, [], _, h => by simp [StrLE, strLE] at h
  | a :: s, b :: t, c :: r, h1, h2 => by
    simp only [StrLE, strLE, Bool.or_eq_true, decide_eq_true_eq, Bool.and_eq_true] at h1 h2 ⊢
    rcases h1 with h1 | ⟨h1, h1'⟩
    · rcases h2 with h2 | ⟨h2, _⟩
      · exact Or.inl (lt_trans h1 h2)
      · exact Or.inl (h2 ▸ h1)
    · rcases h2 with h2 | ⟨h2, h2'⟩
      · exact Or.inl (h1 ▸ h2)
      · exact Or.inr ⟨h1.trans h2, strLE_trans s t r h1' h2'⟩

theorem strLE_antisymm : ∀ a b : Str, StrLE a b → StrLE b a → a = b
  | [], [], _, _ => rfl
  | [], _ :: _, _, h => by simp [StrLE, strLE] at h
  | _ :: _, [], h, _ => by simp [StrLE, strLE] at h
  | a :: s, b :: t, h1, h2 => by
    simp only [StrLE, strLE, Bool.or_eq_true, decide_eq_true_eq, Bool.and_eq_true] at h1 h2
    rcases h1 with h1 | ⟨h1, h1'⟩
    · rcases h2 with h2 | ⟨h2, _⟩
      · exact absurd (lt_trans h1 h2) (lt_irrefl _)
      · subst h2; exact absurd h1 (lt_irrefl _)
    · subst h1
      rcases h2 with h2 | ⟨_, h2'⟩
      · exact absurd h2 (lt_irrefl _)
      · rw [strLE_antisymm s t h1' h2']

/-- Two duplicate-free lists of keys with the same members sort to the same list. -/
theorem insertionSort_eq_of_mem (l₁ l₂ : List Str) (h₁ : l₁.Nodup) (h₂ : l₂.Nodup)
    (h : ∀ k, k ∈ l₁ ↔ k ∈ l₂) : l₁.insertionSort StrLE = l₂.insertionSort StrLE := by
  haveI : IsTotal Str StrLE := ⟨strLE_total⟩
  haveI : IsTrans Str StrLE := ⟨strLE_trans⟩
  haveI : IsAntisymm Str StrLE := ⟨strLE_antisymm⟩
  apply List.eq_of_perm_of_sorted _ (List.sorted_insertionSort StrLE l₁)
    (List.sorted_insertionSort StrLE l₂)
  exact ((List.perm_insertionSort StrLE l₁).trans ((List.perm_ext_iff_of_nodup h₁ h₂).2 h)).trans
    (List.perm_insertionSort StrLE l₂).symm

/-! ### The map of query values -/

theorem mem_keys (v : Values) (k : Str) : k ∈ Values.keys v ↔ ∃ val, (k, val) ∈ v := by
  simp only [Values.keys, List.mem_dedup, List.mem_map]
  constructor
  · rintro ⟨⟨k', val⟩, h, rfl⟩; exact ⟨val, h⟩
  · rintro ⟨val, h⟩; exact ⟨(k, val), h, rfl⟩

theorem mem_get (v : Values) (k val : Str) : val ∈ Values.get v k ↔ (k, val) ∈ v := by
  simp only [Values.get, List.mem_map, List.mem_filter, decide_eq_true_eq]
  constructor
  · rintro ⟨⟨k', val'⟩, ⟨h, rfl⟩, rfl⟩; exact h
  · intro h; exact ⟨(k, val), ⟨h, rfl⟩, rfl⟩

theorem mem_sortedKeys (v : Values) (k : Str) : k ∈ Values.sortedKeys v ↔ k ∈ Values.keys v :=
  (List.perm_insertionSort StrLE _).mem_iff

theorem nodup_sortedKeys (v : Values) : (Values.sortedKeys v).Nodup :=
  (List.perm_insertionSort StrLE _).nodup_iff.2 (List.nodup_dedup _)

theorem mem_sortedPairs (v : Values) (kv : Str × Str) : kv ∈ Values.sortedPairs v ↔ kv ∈ v := by
  simp only [Values.sortedPairs, List.mem_flatMap, List.mem_map]
  constructor
  · rintro ⟨k, _, val, hval, rfl⟩
    exact (mem_get v k val).1 hval
  · intro h
    refine ⟨kv.1, (mem_sortedKeys v kv.1).2 ((mem_keys v kv.1).2 ⟨kv.2, h⟩), kv.2, ?_, rfl⟩
    exact (mem_get v kv.1 kv.2).2 h

theorem flatMap_select (k : Str) (g : Str → Values) : ∀ (l : List Str), l.Nodup →
    l.flatMap (fun k' => if k' = k then g k' else []) = if k ∈ l then g k else []
  | [], _ => by simp
  | a :: l, h => by
    rw [List.nodup_cons] at h
    rw [List.flatMap_cons, flatMap_select k g l h.2]
    by_cases ha : a = k
    · subst ha
      simp [h.1]
    · have : ¬ k = a := fun e => ha e.symm
      simp [ha, this]

theorem get_sortedPairs (v : Values) (k : Str) :
    Values.get (Values.sortedPairs v) k = Values.get v k := by
  have h1 : (Values.sortedPairs v).filter (fun kv => kv.1 = k) =
      (Values.sortedKeys v).flatMap (fun k' =>
        if k' = k then (Values.get v k').map (fun val => (k', val)) else []) := by
    simp only [Values.sortedPairs, List.filter_flatMap]
    apply List.flatMap_congr
    intro k' _
    by_cases hk : k' = k
    · simp [hk]
    · simp [hk, List.filter_map, Function.comp]
  unfold Values.get at *
  rw [h1, flatMap_select k _ _ (nodup_sortedKeys v)]
  by_cases hk : k ∈ Values.sortedKeys v
  · rw [if_pos hk, List.map_map]
    simp [Function.comp]
  · rw [if_neg hk]
    have : v.filter (fun kv => kv.1 = k) = [] := by
      rw [List.filter_eq_nil_iff]
      intro kv hkv
      simp only [decide_eq_true_eq]
      intro e
      apply hk
      rw [mem_sortedKeys, mem_keys]
      exact ⟨kv.2, by rw [← e]; exact hkv⟩
    simp [this]

theorem sortedKeys_sortedPairs (v : Values) :
    Values.sortedKeys (Values.sortedPairs v) = Values.sortedKeys v := by
  unfold Values.sortedKeys
  apply insertionSort_eq_of_mem _ _ (List.nodup_dedup _) (List.nodup_dedup _)
  intro k
  show k ∈ Values.keys (Values.sortedPairs v) ↔ k ∈ Values.keys v
  rw [mem_keys, mem_keys]
  constructor
  · rintro ⟨val, h⟩; exact ⟨val, (mem_sortedPairs v _).1 h⟩
  · rintro ⟨val, h⟩; exact ⟨val, (mem_sortedPairs v _).2 h⟩

/-- Putting the settings in the order of `Encode` twice is the same as once. -/
theorem sortedPairs_idem (v : Values) :
    Values.sortedPairs (Values.sortedPairs v) = Values.sortedPairs v := by
  have h : Values.sortedPairs (Values.sortedPairs v) =
      (Values.sortedKeys (Values.sortedPairs v)).flatMap
        (fun k => (Values.get (Values.sortedPairs v) k).map (fun val => (k, val))) := rfl
  rw [h, sortedKeys_sortedPairs]
  have h' : Values.sortedPairs v =
      (Values.sortedKeys v).flatMap (fun k => (Values.get v k).map (fun val => (k, val))) := rfl
  conv_rhs => rw [h']
  apply List.flatMap_congr
  intro k _
  rw [get_sortedPairs]

/-! ### `ParseQuery` after `Encode` -/

theorem not_mem_QueryEscape (x : Byte) (hx : shouldEscape x encodeQueryComponent = true)
    (h1 : x ≠ B '%') (h2 : x ≠ B '+') (s : Str) : x ∉ QueryEscape s :=
  not_mem_escape encodeQueryComponent x hx h1 h2 s

theorem not_mem_encPair (x : Byte) (hx : shouldEscape x encodeQueryComponent = true)
    (h1 : x ≠ B '%') (h2 : x ≠ B '+') (h3 : x ≠ B '=') (kv : Str × Str) : x ∉ encPair kv := by
  simp only [encPair, List.mem_append, List.mem_cons, not_or]
  exact ⟨not_mem_QueryEscape x hx h1 h2 _, h3, not_mem_QueryEscape x hx h1 h2 _⟩

theorem parsePair_encPair (kv : Str × Str) : parsePair (encPair kv) = some kv := by
  have hsemi : B ';' ∉ encPair kv :=
    not_mem_encPair (B ';') (by decide) (by decide) (by decide) (by decide) kv
  have hne : encPair kv ≠ [] := by simp [encPair]
  have heq : B '=' ∉ QueryEscape kv.1 :=
    not_mem_QueryEscape (B '=') (by decide) (by decide) (by decide) _
  unfold parsePair
  rw [if_neg hsemi, if_neg hne]
  simp only [encPair]
  rw [cutBefore_append _ _ _ heq, cutAfter_append _ _ _ heq]
  simp only [QueryUnescape, QueryEscape]
  rw [unescape_escape _ (by decide) (by decide), unescape_escape _ (by decide) (by decide)]

theorem filterMap_parsePair (l : Values) : (l.map encPair).filterMap parsePair = l := by
  induction l with
  | nil => rfl
  | cons kv l ih => simp [List.filterMap_cons, parsePair_encPair, ih]

theorem ParseQuery_Join (l : Values) : ParseQuery (Join (B '&') (l.map encPair)) = l := by
  unfold ParseQuery
  by_cases hl : l = []
  · subst hl
    simp [Join_nil, Split, parsePair]
  · rw [Split_Join _ _ (by simpa using hl), filterMap_parsePair]
    intro p hp
    obtain ⟨kv, _, rfl⟩ := List.mem_map.1 hp
    exact not_mem_encPair (B '&') (by decide) (by decide) (by decide) (by decide) kv

theorem ParseQuery_Encode (v : Values) : ParseQuery (Values.Encode v) = Values.sortedPairs v :=
  ParseQuery_Join _

theorem Encode_sortedPairs (v : Values) :
    Values.Encode (Values.sortedPairs v) = Values.Encode v := by
  unfold Values.Encode
  rw [sortedPairs_idem]

/-- A byte that query escaping removes, other than `&` and `=`, is not in `Encode`. -/
theorem not_mem_Encode (x : Byte) (hx : shouldEscape x encodeQueryComponent = true)
    (h1 : x ≠ B '%') (h2 : x ≠ B '+') (h3 : x ≠ B '=') (h4 : x ≠ B '&') (v : Values) :
    x ∉ Values.Encode v := by
  intro h
  rcases mem_Join _ _ _ h with h | ⟨p, hp, hxp⟩
  · exact h4 h
  · obtain ⟨kv, _, rfl⟩ := List.mem_map.1 hp
    exact not_mem_encPair x hx h1 h2 h3 kv hxp

/-- Filtering the query of an encoded, already filtered query changes nothing. -/
theorem Encode_filter_idem (p : Str → Bool) (v : Values) :
    Values.Encode ((ParseQuery (Values.Encode (v.filter (fun kv => p kv.1)))).filter
      (fun kv => p kv.1)) = Values.Encode (v.filter (fun kv => p kv.1)) := by
  rw [ParseQuery_Encode]
  have : (Values.sortedPairs (v.filter (fun kv => p kv.1))).filter (fun kv => p kv.1) =
      Values.sortedPairs (v.filter (fun kv => p kv.1)) := by
    rw [List.filter_eq_self]
    intro kv hkv
    have := (mem_sortedPairs _ kv).1 hkv
    exact (List.mem_filter.1 this).2
  rw [this, Encode_sortedPairs]

end Url

namespace Crawler
open GoStrings Url Url.Encoding

theorem filterQueryParams_eq (rawURL : Str) :
    filterQueryParams rawURL =
      match Url.Parse rawURL with
      | none => []
      | some u => (canon u).String := rfl

/-! ### The rewritten path -/

theorem keepSegment_nil : keepSegment [] = false := by decide

theorem cleanPath_eq (p : Str) :
    cleanPath p = [B '/'] ∨
    ∃ a r, (Split (B '/') p).filter keepSegment = a :: r ∧
      cleanPath p = Join (B '/') ([] :: a :: r) := by
  have hdef : cleanPath p = B '/' :: Join (B '/') ((Split (B '/') p).filter keepSegment) := rfl
  cases h : (Split (B '/') p).filter keepSegment with
  | nil => left; rw [hdef, h]; rfl
  | cons a r => right; exact ⟨a, r, rfl, by rw [hdef, h, Join_cons_cons]; rfl⟩

theorem cleanPath_idem (p : Str) : cleanPath (cleanPath p) = cleanPath p := by
  rcases cleanPath_eq p with h | ⟨a, r, hseg, h⟩
  · rw [h]; decide
  · have hmem : ∀ x ∈ a :: r, B '/' ∉ x ∧ keepSegment x = true := by
      intro x hx
      rw [← hseg, List.mem_filter] at hx
      exact ⟨not_mem_of_mem_Split _ _ _ hx.1, hx.2⟩
    have hsplit : Split (B '/') (cleanPath p) = [] :: a :: r := by
      rw [h]
      apply Split_Join _ _ (by simp)
      intro x hx
      rcases List.mem_cons.1 hx with rfl | hx
      · simp
      · exact (hmem x hx).1
    have hfilter : (Split (B '/') (cleanPath p)).filter keepSegment = a :: r := by
      rw [hsplit, List.filter_cons_of_neg (by simp [keepSegment_nil])]
      rw [List.filter_eq_self]
      exact fun x hx => (hmem x hx).2
    have hdef : cleanPath (cleanPath p) =
        B '/' :: Join (B '/') ((Split (B '/') (cleanPath p)).filter keepSegment) := rfl
    rw [hdef, hfilter, h, Join_cons_cons]
    rfl

theorem cleanPath_head (p : Str) : ∃ t, cleanPath p = B '/' :: t ∧ t.head? ≠ some (B '/') := by
  refine ⟨Join (B '/') ((Split (B '/') p).filter keepSegment), rfl, ?_⟩
  cases h : (Split (B '/') p).filter keepSegment with
  | nil => simp [Join_nil]
  | cons a r =>
    have ha : a ∈ (Split (B '/') p).filter keepSegment := by rw [h]; exact List.mem_cons_self _ _
    rw [List.mem_filter] at ha
    have hns := not_mem_of_mem_Split _ _ _ ha.1
    have hne : a ≠ [] := by
      intro e; rw [e, keepSegment_nil] at ha; exact Bool.false_ne_true ha.2
    obtain ⟨c, a', rfl⟩ := List.exists_cons_of_ne_nil hne
    have hc : c ≠ B '/' := by
      intro e; apply hns; rw [e]; exact List.mem_cons_self _ _
    cases r with
    | nil => rw [Join_singleton]; simpa using hc
    | cons b r' => rw [Join_cons_cons]; simpa using hc

theorem cleanPath_ne_star (p : Str) : cleanPath p ≠ [B '*'] := by
  obtain ⟨t, h, _⟩ := cleanPath_head p
  rw [h]
  intro e
  have : B '/' = B '*' := (List.cons.inj e).1
  exact absurd this (by decide)

end Crawler

namespace Url
open GoStrings Encoding

/-! ### `EscapedPath` and `EscapedFragment` -/

theorem escape_path_slash (t : Str) :
    escape (B '/' :: t) encodePath = B '/' :: escape t encodePath := by
  rw [escape_cons]
  have : escByte encodePath (B '/') = [B '/'] := by decide
  rw [this]; rfl

/-- What `EscapedPath` returns: the raw path when it is a valid encoding of the path,
the default encoding otherwise. -/
theorem EscapedPath_cases (u : URL) (hstar : u.Path ≠ [B '*']) :
    (u.EscapedPath = u.RawPath ∧ u.RawPath ≠ [] ∧ validEncoded u.RawPath encodePath = true ∧
      unescape u.RawPath encodePath = some u.Path) ∨
    u.EscapedPath = escape u.Path encodePath := by
  unfold URL.EscapedPath
  by_cases h : u.RawPath ≠ [] ∧ validEncoded u.RawPath encodePath = true ∧
      unescape u.RawPath encodePath = some u.Path
  · left; rw [if_pos h]; exact ⟨rfl, h⟩
  · right; rw [if_neg h, if_neg hstar]

theorem unescape_EscapedPath (u : URL) (hstar : u.Path ≠ [B '*']) :
    unescape u.EscapedPath encodePath = some u.Path := by
  rcases EscapedPath_cases u hstar with ⟨h, _, _, h3⟩ | h
  · rw [h]; exact h3
  · rw [h]; exact unescape_escape _ (by decide) (by decide) _

/-- A URL that holds the same path, and as raw path the escaped path of `u` (or none when
that is the default encoding, as `setPath` stores it), has the same escaped path. -/
theorem EscapedPath_stable (u w : URL) (hstar : u.Path ≠ [B '*']) (hp : w.Path = u.Path)
    (hr : w.RawPath = if u.EscapedPath = escape u.Path encodePath then [] else u.EscapedPath) :
    w.EscapedPath = u.EscapedPath := by
  by_cases he : u.EscapedPath = escape u.Path encodePath
  · rw [if_pos he] at hr
    have : w.EscapedPath = escape w.Path encodePath := by
      unfold URL.EscapedPath
      rw [hr, hp]
      simp [hstar]
    rw [this, hp, he]
  · rw [if_neg he] at hr
    rcases EscapedPath_cases u hstar with ⟨h, h1, h2, h3⟩ | h
    · have : w.RawPath ≠ [] ∧ validEncoded w.RawPath encodePath = true ∧
          unescape w.RawPath encodePath = some w.Path := by
        rw [hr, hp, h]; exact ⟨h1, h2, h3⟩
      conv_lhs => unfold URL.EscapedPath
      rw [if_pos this, hr]
    · exact absurd h he

theorem unescape_EscapedFragment (u : URL) :
    unescape u.EscapedFragment encodeFragment = some u.Fragment := by
  unfold URL.EscapedFragment
  by_cases h : u.RawFragment ≠ [] ∧ validEncoded u.RawFragment encodeFragment = true ∧
      unescape u.RawFragment encodeFragment = some u.Fragment
  · rw [if_pos h]; exact h.2.2
  · rw [if_neg h]; exact unescape_escape _ (by decide) (by decide) _

theorem EscapedFragment_stable (u w : URL) (hp : w.Fragment = u.Fragment)
    (hr : w.RawFragment =
      if u.EscapedFragment = escape u.Fragment encodeFragment then [] else u.EscapedFragment) :
    w.EscapedFragment = u.EscapedFragment := by
  by_cases he : u.EscapedFragment = escape u.Fragment encodeFragment
  · rw [if_pos he] at hr
    conv_lhs => unfold URL.EscapedFragment
    rw [hr, hp]
    simp only [ne_eq, not_true_eq_false, false_and, if_false]
    exact he.symm
  · rw [if_neg he] at hr
    have hcase : u.RawFragment ≠ [] ∧ validEncoded u.RawFragment encodeFragment = true ∧
        unescape u.RawFragment encodeFragment = some u.Fragment := by
      by_contra h
      apply he
      unfold URL.EscapedFragment
      rw [if_neg h]
    have hu : u.EscapedFragment = u.RawFragment := by
      unfold URL.EscapedFragment; rw [if_pos hcase]
    have : w.RawFragment ≠ [] ∧ validEncoded w.RawFragment encodeFragment = true ∧
        unescape w.RawFragment encodeFragment = some w.Fragment := by
      rw [hr, hp, hu]; exact hcase
    conv_lhs => unfold URL.EscapedFragment
    rw [if_pos this, hr]

theorem unescapeRaw_nil_iff (m : Encoding) (s : Str) : unescapeRaw m s = [] ↔ s = [] := by
  constructor
  · intro h
    cases s with
    | nil => rfl
    | cons c t =>
      rw [unescapeRaw.eq_def] at h
      simp only at h
      split at h
      · split at h <;> simp at h
      · split at h <;> simp at h
  · intro h; subst h; rfl

theorem unescapeRaw_head_slash (m : Encoding) (t : Str) :
    unescapeRaw m (B '/' :: t) = B '/' :: unescapeRaw m t :=
  unescapeRaw_plain m _ t (by decide) (by decide)

end Url

namespace Url
open GoStrings Encoding

/-! ### The authority -/

theorem Index_le (pat : Str) : ∀ (s : Str) (z : Nat), Index pat s = some z → z ≤ s.length
  | [], z, h => by
    unfold Index at h
    split at h
    · simp only [Option.some.injEq] at h; omega
    · simp at h
  | c :: t, z, h => by
    unfold Index at h
    split at h
    · simp only [Option.some.injEq] at h; omega
    · cases hi : Index pat t with
      | none => rw [hi] at h; simp at h
      | some i =>
        rw [hi] at h
        simp only [Option.map_some', Option.some.injEq] at h
        have := Index_le pat t i hi
        simp only [List.length_cons]
        omega

theorem unescape_raw (s t : Str) (m : Encoding) (h : unescape s m = some t)
    (hm : m ≠ encodeQueryComponent) : t = unescapeRaw encodeHost s := by
  obtain ⟨_, h2⟩ := unescape_eq_some s t m h
  rw [h2]
  exact unescapeRaw_mode m encodeHost hm (by decide) s.length s (le_refl _)

/-- A host that parses from its own escaped form is itself. -/
theorem parseHost_escape (H H' : Str) (h : parseHost (escape H encodeHost) = some H') :
    H' = H := by
  have hraw : unescapeRaw encodeHost (escape H encodeHost) = H :=
    unescapeRaw_escape encodeHost encodeHost Iff.rfl H
  have hplain : ∀ t, unescape (escape H encodeHost) encodeHost = some t → t = H := by
    intro t ht
    rw [unescape_raw _ _ _ ht (by decide), hraw]
  generalize hE : escape H encodeHost = E at h hraw hplain
  unfold parseHost at h
  split at h
  · cases hi : LastIndex (B ']') E with
    | none => rw [hi] at h; simp at h
    | some i =>
      rw [hi] at h
      simp only at h
      split at h
      · simp at h
      · cases hz : Index (str "%25") (E.take i) with
        | none => rw [hz] at h; exact hplain _ h
        | some zone =>
          rw [hz] at h
          simp only at h
          cases h1 : unescape (E.take zone) encodeHost with
          | none => rw [h1] at h; simp at h
          | some host1 =>
            cases h2 : unescape ((E.take i).drop zone) encodeZone with
            | none => rw [h1, h2] at h; simp at h
            | some host2 =>
              cases h3 : unescape (E.drop i) encodeHost with
              | none => rw [h1, h2, h3] at h; simp at h
              | some host3 =>
                rw [h1, h2, h3] at h
                simp only [Option.some.injEq] at h
                have hzle : zone ≤ i := by
                  have := Index_le _ _ _ hz
                  simp only [List.length_take] at this
                  omega
                have e1 := unescape_raw _ _ _ h1 (by decide)
                have e2 := unescape_raw _ _ _ h2 (by decide)
                have e3 := unescape_raw _ _ _ h3 (by decide)
                have ok1 := (unescape_eq_some _ _ _ h1).1
                have ok2 := (unescape_eq_some _ _ _ h2).1
                have hsplit : E = E.take zone ++ ((E.take i).drop zone ++ E.drop i) := by
                  have a1 : E.take zone = (E.take i).take zone := by
                    rw [List.take_take, min_eq_left hzle]
                  rw [a1, ← List.append_assoc, List.take_append_drop, List.take_append_drop]
                rw [← h, ← hraw, e1, e2, e3]
                conv_rhs => rw [hsplit]
                rw [unescapeRaw_append encodeHost encodeHost _ _ (le_refl _) ok1,
                  unescapeRaw_append encodeZone encodeHost _ _ (le_refl _) ok2,
                  List.append_assoc]
  · cases hi : LastIndex (B ':') E with
    | none => rw [hi] at h; exact hplain _ h
    | some i =>
      rw [hi] at h
      simp only at h
      split at h
      · simp at h
      · exact hplain _ h

theorem not_mem_Userinfo_String (x : Byte) (hx : shouldEscape x encodeUserPassword = true)
    (h1 : x ≠ B '%') (h2 : x ≠ B '+') (h3 : x ≠ B ':') (ui : Userinfo) : x ∉ ui.String := by
  unfold Userinfo.String
  rw [List.mem_append, not_or]
  refine ⟨not_mem_escape _ x hx h1 h2 _, ?_⟩
  split
  · simp only [List.mem_cons, not_or]
    exact ⟨h3, not_mem_escape _ x hx h1 h2 _⟩
  · simp

/-- User information and host that parse from their own printed form are themselves. -/
theorem parseAuthority_authorityText (user user' : Option Userinfo) (host host' : Str)
    (hpw : ∀ ui, user = some ui → ui.passwordSet = false → ui.password = [])
    (h : parseAuthority (authorityText user host) = some (user', host')) :
    user' = user ∧ host' = host := by
  have hat : B '@' ∉ escape host encodeHost :=
    not_mem_escape _ _ (by decide) (by decide) (by decide) _
  unfold parseAuthority at h
  cases user with
  | none =>
    have hA : authorityText none host = escape host encodeHost := by simp [authorityText]
    rw [hA, LastIndex_of_not_mem _ _ hat] at h
    simp only at h
    cases hh : parseHost (escape host encodeHost) with
    | none => rw [hh] at h; simp at h
    | some H' =>
      rw [hh] at h
      simp only [Option.some.injEq, Prod.mk.injEq] at h
      exact ⟨h.1.symm, by rw [← h.2]; exact parseHost_escape host H' hh⟩
  | some ui =>
    have hA : authorityText (some ui) host = ui.String ++ B '@' :: escape host encodeHost := by
      simp [authorityText]
    rw [hA, LastIndex_append _ _ _ hat] at h
    simp only at h
    have hd : (ui.String ++ B '@' :: escape host encodeHost).drop (ui.String.length + 1) =
        escape host encodeHost := by
      generalize ui.String = a
      induction a with
      | nil => rfl
      | cons x a _ => simp
    have ht : (ui.String ++ B '@' :: escape host encodeHost).take ui.String.length =
        ui.String := List.take_left _ _
    rw [hd, ht] at h
    cases hh : parseHost (escape host encodeHost) with
    | none => rw [hh] at h; simp at h
    | some H' =>
      rw [hh] at h
      simp only at h
      have hH := parseHost_escape host H' hh
      subst hH
      split at h
      · simp at h
      · have hcu : B ':' ∉ escape ui.username encodeUserPassword :=
          not_mem_escape _ _ (by decide) (by decide) (by decide) _
        by_cases hps : ui.passwordSet = true
        · have hS : ui.String = escape ui.username encodeUserPassword ++
              B ':' :: escape ui.password encodeUserPassword := by
            simp [Userinfo.String, hps]
          have hmem : B ':' ∈ ui.String := by rw [hS]; simp
          simp only [hmem, not_true_eq_false, Bool.not_true, Bool.false_eq_true, if_false,
            decide_True] at h
          rw [hS, cutBefore_append _ _ _ hcu, cutAfter_append _ _ _ hcu,
            unescape_escape _ (by decide) (by decide),
            unescape_escape _ (by decide) (by decide)] at h
          simp only [Option.some.injEq, Prod.mk.injEq] at h
          refine ⟨?_, h.2.symm⟩
          rw [← h.1, ← hps]
        · have hps' : ui.passwordSet = false := by simpa using hps
          have hS : ui.String = escape ui.username encodeUserPassword := by
            simp [Userinfo.String, hps']
          have hmem : B ':' ∉ ui.String := by rw [hS]; exact hcu
          simp only [hmem, not_false_eq_true, decide_True, Bool.not_false, if_true,
            decide_False] at h
          rw [hS, unescape_escape _ (by decide) (by decide)] at h
          simp only [Option.some.injEq, Prod.mk.injEq] at h
          refine ⟨?_, h.2.symm⟩
          rw [← h.1]
          have := hpw ui rfl hps'
          cases ui
          simp_all

end Url

namespace Url
open GoStrings Encoding

/-! ### The scheme -/

theorem drop_append_cons (a : Str) (c : Byte) (b : Str) :
    (a ++ c :: b).drop (a.length + 1) = b := by
  induction a with
  | nil => rfl
  | cons x a _ => simp

/-- On ASCII text `ToLower` works byte by byte. -/
theorem ToLower_eq (s : Str) (h : ∀ c ∈ s, c < (128 : Byte)) :
    ToLower s = s.map lowerByte := by
  unfold ToLower
  rw [if_pos]
  · rfl
  · rw [List.all_eq_true]
    intro c hc
    exact decide_eq_true (h c hc)

theorem scheme_byte_ascii : ∀ c : Byte,
    (isSchemeByte (lowerByte c) = true → c < (128 : Byte)) ∧
    (isSchemeByte c = true → c < (128 : Byte)) := by
  decide

theorem letter_facts1 : ∀ c : Byte,
    ((B 'a' ≤ c ∧ c ≤ B 'z') ∨ (B 'A' ≤ c ∧ c ≤ B 'Z')) →
      (B 'a' ≤ lowerByte c ∧ lowerByte c ≤ B 'z') ∧ isSchemeByte (lowerByte c) = true ∧
      c ≠ B '/' ∧ c ≠ B ':' := by
  decide

theorem letter_facts2 : ∀ c : Byte,
    ((B '0' ≤ c ∧ c ≤ B '9') ∨ c = B '+' ∨ c = B '-' ∨ c = B '.') →
      isSchemeByte (lowerByte c) = true ∧ c ≠ B '/' ∧ c ≠ B ':' ∧
      ¬ ((B 'a' ≤ c ∧ c ≤ B 'z') ∨ (B 'A' ≤ c ∧ c ≤ B 'Z')) := by
  decide

theorem letter_facts3 : ∀ c : Byte, isSchemeByte c = true →
    lowerByte c = c ∧ c ≠ B '#' ∧ c ≠ B '?' ∧ c ≠ B '/' ∧ c ≠ B ':' ∧
      ((B 'a' ≤ c ∧ c ≤ B 'z') ∨ (B 'A' ≤ c ∧ c ≤ B 'Z') ∨
       (((B '0' ≤ c ∧ c ≤ B '9') ∨ c = B '+' ∨ c = B '-' ∨ c = B '.'))) := by
  decide

theorem letter_facts (c : Byte) :
    ((B 'a' ≤ c ∧ c ≤ B 'z') ∨ (B 'A' ≤ c ∧ c ≤ B 'Z') →
      (B 'a' ≤ lowerByte c ∧ lowerByte c ≤ B 'z') ∧ isSchemeByte (lowerByte c) = true ∧
      c ≠ B '/' ∧ c ≠ B ':') ∧
    ((B '0' ≤ c ∧ c ≤ B '9') ∨ c = B '+' ∨ c = B '-' ∨ c = B '.' →
      isSchemeByte (lowerByte c) = true ∧ c ≠ B '/' ∧ c ≠ B ':' ∧
      ¬ ((B 'a' ≤ c ∧ c ≤ B 'z') ∨ (B 'A' ≤ c ∧ c ≤ B 'Z'))) ∧
    (isSchemeByte c = true → lowerByte c = c ∧ c ≠ B '#' ∧ c ≠ B '?' ∧ c ≠ B '/' ∧ c ≠ B ':' ∧
      ((B 'a' ≤ c ∧ c ≤ B 'z') ∨ (B 'A' ≤ c ∧ c ≤ B 'Z') ∨
       (((B '0' ≤ c ∧ c ≤ B '9') ∨ c = B '+' ∨ c = B '-' ∨ c = B '.')))) :=
  ⟨letter_facts1 c, letter_facts2 c, letter_facts3 c⟩

theorem schemeScan_cons_colon (i : Nat) (t : Str) :
    schemeScan i (B ':' :: t) = if i = 0 then none else some i := by
  have h1 : ¬ ((B 'a' ≤ B ':' ∧ B ':' ≤ B 'z') ∨ (B 'A' ≤ B ':' ∧ B ':' ≤ B 'Z')) := by decide
  have h2 : ¬ ((B '0' ≤ B ':' ∧ B ':' ≤ B '9') ∨ B ':' = B '+' ∨ B ':' = B '-' ∨
      B ':' = B '.') := by decide
  simp [schemeScan, h1, h2]

theorem schemeScan_cons_letter (i : Nat) (c : Byte) (t : Str)
    (h : (B 'a' ≤ c ∧ c ≤ B 'z') ∨ (B 'A' ≤ c ∧ c ≤ B 'Z')) :
    schemeScan i (c :: t) = schemeScan (i + 1) t := by
  simp [schemeScan, h]

theorem schemeScan_cons_digit (i : Nat) (c : Byte) (t : Str)
    (h : (B '0' ≤ c ∧ c ≤ B '9') ∨ c = B '+' ∨ c = B '-' ∨ c = B '.') :
    schemeScan i (c :: t) = if i = 0 then some 0 else schemeScan (i + 1) t := by
  have := ((letter_facts c).2.1 h).2.2.2
  simp [schemeScan, h, this]

/-- Where a scheme stands, `getScheme` finds it. -/
theorem schemeScan_found (rest : Str) : ∀ (pre : Str) (i : Nat),
    (∀ x ∈ pre, isSchemeByte x = true) →
    (i = 0 → ∀ c t, pre = c :: t → (B 'a' ≤ c ∧ c ≤ B 'z')) →
    0 < i + pre.length →
    schemeScan i (pre ++ B ':' :: rest) = some (i + pre.length)
  | [], i, _, _, hpos => by
    have hi : i ≠ 0 := by simp at hpos; omega
    rw [List.nil_append, schemeScan_cons_colon, if_neg hi]
    simp
  | c :: t, i, hall, hhead, _ => by
    have hc := hall c (List.mem_cons_self _ _)
    have ih := schemeScan_found rest t (i + 1)
      (fun x hx => hall x (List.mem_cons_of_mem _ hx)) (fun h => absurd h (by omega)) (by omega)
    rcases ((letter_facts c).2.2 hc).2.2.2.2.2 with hl | hl | hd
    · rw [List.cons_append, schemeScan_cons_letter i c _ (Or.inl hl), ih]
      simp only [List.length_cons]; congr 1; omega
    · rw [List.cons_append, schemeScan_cons_letter i c _ (Or.inr hl), ih]
      simp only [List.length_cons]; congr 1; omega
    · rw [List.cons_append, schemeScan_cons_digit i c _ hd]
      by_cases hi : i = 0
      · exfalso
        have := hhead hi c t rfl
        exact ((letter_facts c).2.1 hd).2.2.2 (Or.inl this)
      · rw [if_neg hi, ih]
        simp only [List.length_cons]; congr 1; omega

theorem getScheme_found (sch rest : Str) (h : SchemeWF sch) (hne : sch ≠ []) :
    getScheme (sch ++ B ':' :: rest) = some (sch, rest) := by
  have hs := schemeScan_found rest sch 0 h.all (fun _ => h.head)
    (by cases sch with
        | nil => exact absurd rfl hne
        | cons c t => simp)
  unfold getScheme
  rw [hs]
  obtain ⟨c, t, rfl⟩ := List.exists_cons_of_ne_nil hne
  simp only [zero_add, List.length_cons]
  have e1 : (c :: t ++ B ':' :: rest).take (t.length + 1) = c :: t :=
    List.take_left (c :: t) (B ':' :: rest)
  have e2 : (c :: t ++ B ':' :: rest).drop (t.length + 2) = rest :=
    drop_append_cons (c :: t) (B ':') rest
  rw [e1, e2]

/-- Without a colon in the first path segment there is no scheme. -/
theorem schemeScan_no_colon : ∀ (s : Str) (i : Nat), B ':' ∉ cutBefore (B '/') s →
    schemeScan i s = some 0
  | [], _, _ => rfl
  | c :: t, i, h => by
    by_cases h1 : (B 'a' ≤ c ∧ c ≤ B 'z') ∨ (B 'A' ≤ c ∧ c ≤ B 'Z')
    · have hc := ((letter_facts c).1 h1).2.2.1
      rw [schemeScan_cons_letter i c t h1]
      apply schemeScan_no_colon t (i + 1)
      intro hm; apply h
      simp only [cutBefore] at hm ⊢
      simp [List.takeWhile_cons, hc, hm]
    · by_cases h2 : (B '0' ≤ c ∧ c ≤ B '9') ∨ c = B '+' ∨ c = B '-' ∨ c = B '.'
      · have hc := ((letter_facts c).2.1 h2).2.1
        rw [schemeScan_cons_digit i c t h2]
        split
        · rfl
        · apply schemeScan_no_colon t (i + 1)
          intro hm; apply h
          simp only [cutBefore] at hm ⊢
          simp [List.takeWhile_cons, hc, hm]
      · by_cases h3 : c = B ':'
        · exfalso; apply h
          subst h3
          have : B ':' ≠ B '/' := by decide
          simp [cutBefore, List.takeWhile_cons, this]
        · simp [schemeScan, h1, h2, h3]

theorem getScheme_none_found (s : Str) (h : B ':' ∉ cutBefore (B '/') s) :
    getScheme s = some ([], s) := by
  unfold getScheme
  rw [schemeScan_no_colon s 0 h]

/-- What a successful scan found: a scheme, a colon and the rest. -/
theorem schemeScan_some : ∀ (s : Str) (i k : Nat), schemeScan i s = some (k + 1) →
    ∃ pre post, s = pre ++ B ':' :: post ∧ i + pre.length = k + 1 ∧
      (∀ x ∈ pre, isSchemeByte (lowerByte x) = true) ∧
      (i = 0 → ∀ c t, pre = c :: t → (B 'a' ≤ lowerByte c ∧ lowerByte c ≤ B 'z'))
  | [], i, k, h => by simp [schemeScan] at h
  | c :: t, i, k, h => by
    by_cases h1 : (B 'a' ≤ c ∧ c ≤ B 'z') ∨ (B 'A' ≤ c ∧ c ≤ B 'Z')
    · rw [schemeScan_cons_letter i c t h1] at h
      obtain ⟨pre, post, e, hl, hall, _⟩ := schemeScan_some t (i + 1) k h
      refine ⟨c :: pre, post, by rw [e]; rfl, by simp only [List.length_cons]; omega, ?_, ?_⟩
      · intro x hx
        rcases List.mem_cons.1 hx with rfl | hx
        · exact ((letter_facts x).1 h1).2.1
        · exact hall x hx
      · intro _ c' t' e'
        have : c' = c := (List.cons.inj e').1.symm
        subst this
        exact ((letter_facts c').1 h1).1
    · by_cases h2 : (B '0' ≤ c ∧ c ≤ B '9') ∨ c = B '+' ∨ c = B '-' ∨ c = B '.'
      · rw [schemeScan_cons_digit i c t h2] at h
        by_cases hi : i = 0
        · rw [if_pos hi] at h; simp at h
        · rw [if_neg hi] at h
          obtain ⟨pre, post, e, hl, hall, _⟩ := schemeScan_some t (i + 1) k h
          refine ⟨c :: pre, post, by rw [e]; rfl, by simp only [List.length_cons]; omega, ?_,
            fun h0 => absurd h0 hi⟩
          intro x hx
          rcases List.mem_cons.1 hx with rfl | hx
          · exact ((letter_facts x).2.1 h2).1
          · exact hall x hx
      · by_cases h3 : c = B ':'
        · subst h3
          rw [schemeScan_cons_colon] at h
          by_cases hi : i = 0
          · simp [hi] at h
          · simp only [hi, if_false, Option.some.injEq] at h
            exact ⟨[], t, rfl, by simpa using h, by simp, fun h0 => absurd h0 hi⟩
        · simp [schemeScan, h1, h2, h3] at h

theorem getScheme_some (raw sch0 rest0 : Str) (h : getScheme raw = some (sch0, rest0)) :
    SchemeWF (ToLower sch0) ∧ (∀ x ∈ rest0, x ∈ raw) ∧ (sch0 = [] → rest0 = raw) := by
  unfold getScheme at h
  cases hs : schemeScan 0 raw with
  | none => rw [hs] at h; simp at h
  | some n =>
    rw [hs] at h
    cases n with
    | zero =>
      simp only [Option.some.injEq, Prod.mk.injEq] at h
      obtain ⟨rfl, rfl⟩ := h
      exact ⟨⟨by simp [ToLower], by simp [ToLower]⟩, fun x hx => hx, fun _ => rfl⟩
    | succ k =>
      simp only [Option.some.injEq, Prod.mk.injEq] at h
      obtain ⟨pre, post, e, hl, hall, hhead⟩ := schemeScan_some raw 0 k hs
      have hlen : pre.length = k + 1 := by omega
      have e1 : raw.take (k + 1) = pre := by rw [e, ← hlen]; exact List.take_left _ _
      have e2 : raw.drop (k + 2) = post := by
        have hk : k + 2 = pre.length + 1 := by omega
        rw [e, hk, drop_append_cons]
      rw [e1, e2] at h
      obtain ⟨rfl, rfl⟩ := h
      have hascii : ∀ x ∈ pre, x < (128 : Byte) :=
        fun x hx => (scheme_byte_ascii x).1 (hall x hx)
      refine ⟨⟨?_, ?_⟩, ?_, ?_⟩
      · intro x hx
        rw [ToLower_eq pre hascii, List.mem_map] at hx
        obtain ⟨y, hy, rfl⟩ := hx
        exact hall y hy
      · intro c t hct
        rw [ToLower_eq pre hascii] at hct
        cases pre with
        | nil => simp at hct
        | cons p ps =>
          simp only [List.map_cons, List.cons.injEq] at hct
          rw [← hct.1]
          exact hhead rfl p ps rfl
      · intro x hx; rw [e]; simp [hx]
      · intro hnil; rw [hnil] at hlen; simp at hlen

theorem SchemeWF_ToLower (sch : Str) (h : SchemeWF sch) : ToLower sch = sch := by
  rw [ToLower_eq sch (fun x hx => (scheme_byte_ascii x).2 (h.all x hx))]
  conv_rhs => rw [← List.map_id sch]
  apply List.map_congr_left
  intro x hx
  exact ((letter_facts x).2.2 (h.all x hx)).1

theorem SchemeWF_not_mem (sch : Str) (h : SchemeWF sch) :
    B '#' ∉ sch ∧ B '?' ∉ sch ∧ B '/' ∉ sch ∧ B ':' ∉ sch := by
  refine ⟨?_, ?_, ?_, ?_⟩ <;> intro hm
  · exact ((letter_facts _).2.2 (h.all _ hm)).2.1 rfl
  · exact ((letter_facts _).2.2 (h.all _ hm)).2.2.1 rfl
  · exact ((letter_facts _).2.2 (h.all _ hm)).2.2.2.1 rfl
  · exact ((letter_facts _).2.2 (h.all _ hm)).2.2.2.2.1 rfl

end Url

namespace Url
open GoStrings Encoding

/-! ### The query split -/

theorem HasSuffix_iff (s p : Str) : HasSuffix s p = true ↔ p <:+ s := by
  unfold HasSuffix; exact List.isSuffixOf_iff_suffix

theorem HasPrefix_iff (s p : Str) : HasPrefix s p = true ↔ p <+: s := by
  unfold HasPrefix; exact List.isPrefixOf_iff_prefix

theorem HasPrefix_cons (c : Byte) (s : Str) : HasPrefix (c :: s) [c] = true := by
  rw [HasPrefix_iff]; exact ⟨s, rfl⟩

theorem HasPrefix_one (c : Byte) (s : Str) (h : HasPrefix s [c] = true) : ∃ t, s = c :: t := by
  rw [HasPrefix_iff] at h
  obtain ⟨t, ht⟩ := h
  exact ⟨t, ht.symm⟩

theorem HasPrefix_one_false (c : Byte) (s : Str) (h : HasPrefix s [c] = false) :
    s.head? ≠ some c := by
  intro hh
  cases s with
  | nil => simp at hh
  | cons d t =>
    simp only [List.head?_cons, Option.some.injEq] at hh
    subst hh
    rw [HasPrefix_cons] at h
    exact Bool.noConfusion h

/-- The query split of a printed URL gives back the body and the query. -/
theorem splitQuery_print (body Q : Str) (fq : Bool) (hb : B '?' ∉ body) (hQ : B '?' ∉ Q) :
    ∃ fq' : Bool,
      splitQuery (body ++ (if fq = true ∨ Q ≠ [] then B '?' :: Q else [])) = (body, fq', Q) ∧
      ((fq' = true ∨ Q ≠ []) ↔ (fq = true ∨ Q ≠ [])) := by
  by_cases hq : fq = true ∨ Q ≠ []
  · rw [if_pos hq]
    by_cases hQn : Q = []
    · subst hQn
      refine ⟨true, ?_, ⟨fun _ => hq, fun _ => Or.inl rfl⟩⟩
      have hs : HasSuffix (body ++ [B '?']) [B '?'] = true := by
        rw [HasSuffix_iff]; exact ⟨body, rfl⟩
      have hc : (body ++ [B '?']).count (B '?') = 1 := by
        rw [List.count_append, List.count_eq_zero_of_not_mem hb]; rfl
      simp [splitQuery, hs, hc]
    · refine ⟨false, ?_, by simp [hQn]⟩
      have hs : HasSuffix (body ++ B '?' :: Q) [B '?'] = false := by
        rw [← Bool.not_eq_true, HasSuffix_iff]
        rintro ⟨t, ht⟩
        have hlast : (body ++ B '?' :: Q).getLast? = some (B '?') := by
          rw [← ht]; simp
        have : (B '?' :: Q).getLast? = some (B '?') := by
          rw [List.getLast?_append_of_ne_nil _ (by simp)] at hlast
          exact hlast
        obtain ⟨q, Q', rfl⟩ := List.exists_cons_of_ne_nil hQn
        rw [List.getLast?_cons_cons] at this
        exact hQ (List.mem_of_getLast?_eq_some this)
      simp only [splitQuery, hs, Bool.false_and, Bool.false_eq_true, if_false]
      rw [cutBefore_append _ _ _ hb, cutAfter_append _ _ _ hb]
  · rw [if_neg hq]
    have hQn : Q = [] := by
      by_contra h; exact hq (Or.inr h)
    have hfq : fq = false := by
      cases fq
      · rfl
      · exact absurd (Or.inl rfl) hq
    subst hQn
    refine ⟨false, ?_, by simp [hfq]⟩
    have hs : HasSuffix (body ++ []) [B '?'] = false := by
      rw [← Bool.not_eq_true, HasSuffix_iff]
      rintro ⟨t, ht⟩
      apply hb
      rw [List.append_nil] at ht
      rw [← ht]; simp
    simp only [splitQuery, hs, Bool.false_and, Bool.false_eq_true, if_false]
    rw [List.append_nil, cutBefore_of_not_mem _ _ hb, cutAfter_of_not_mem _ _ hb]

/-- The rest that the query split leaves holds no `?` and only bytes of the input. -/
theorem splitQuery_rest (rest0 : Str) :
    B '?' ∉ (splitQuery rest0).1 ∧ ∀ x ∈ (splitQuery rest0).1, x ∈ rest0 := by
  unfold splitQuery
  split
  · next h =>
    simp only [Bool.and_eq_true, decide_eq_true_eq] at h
    obtain ⟨hs, hc⟩ := h
    rw [HasSuffix_iff] at hs
    obtain ⟨t, ht⟩ := hs
    have hd : rest0.dropLast = t := by rw [← ht]; simp
    simp only [hd]
    refine ⟨?_, fun x hx => by rw [← ht]; simp [hx]⟩
    intro hm
    rw [← ht, List.count_append] at hc
    have : 0 < t.count (B '?') := List.count_pos_iff.2 hm
    have h1 : [B '?'].count (B '?') = 1 := rfl
    omega
  · exact ⟨not_mem_cutBefore _ _, fun x hx => mem_of_mem_cutBefore _ _ _ hx⟩

end Url

namespace Url
open GoStrings Encoding

/-! ### What `Parse` returns -/

theorem setPath_some (u U : URL) (p : Str) (h : setPath u p = some U) :
    ∃ path, unescape p encodePath = some path ∧
      U = { u with Path := path, RawPath := if p = escape path encodePath then [] else p } := by
  unfold setPath at h
  cases hp : unescape p encodePath with
  | none => rw [hp] at h; simp at h
  | some path =>
    rw [hp] at h
    simp only [Option.some.injEq] at h
    exact ⟨path, rfl, h.symm⟩

theorem parseAuthority_password (a : Str) (user : Option Userinfo) (host : Str)
    (h : parseAuthority a = some (user, host)) :
    ∀ ui, user = some ui → ui.passwordSet = false → ui.password = [] := by
  unfold parseAuthority at h
  intro ui hui hps
  subst hui
  cases hl : LastIndex (B '@') a with
  | none =>
    rw [hl] at h
    simp only at h
    cases hh : parseHost a <;> rw [hh] at h <;> simp at h
  | some i =>
    rw [hl] at h
    simp only at h
    cases hh : parseHost (a.drop (i + 1)) with
    | none => rw [hh] at h; simp at h
    | some H =>
      rw [hh] at h
      simp only at h
      split at h
      · simp at h
      · split at h
        · cases hu : unescape (a.take i) encodeUserPassword with
          | none => rw [hu] at h; simp at h
          | some un =>
            rw [hu] at h
            simp only [Option.some.injEq, Prod.mk.injEq] at h
            rw [← h.1]
        · cases hu : unescape (cutBefore (B ':') (a.take i)) encodeUserPassword with
          | none => rw [hu] at h; simp at h
          | some un =>
            cases hp : unescape (cutAfter (B ':') (a.take i)) encodeUserPassword with
            | none => rw [hu, hp] at h; simp at h
            | some pw =>
              rw [hu, hp] at h
              simp only [Option.some.injEq, Prod.mk.injEq] at h
              rw [← h.1] at hps
              simp at hps

theorem cutBefore_slash_head (s : Str) (h : s = [] ∨ HasPrefix s [B '/'] = true) :
    cutBefore (B '/') s = [] := by
  rcases h with h | h
  · subst h; rfl
  · obtain ⟨t, rfl⟩ := HasPrefix_one _ _ h
    simp [cutBefore]

/-- The invariants of `parseHier`, started on a URL that holds only a well-formed scheme
and the query. -/
theorem parseHier_wf (sch rq rest : Str) (fq : Bool) (U : URL)
    (hsch : SchemeWF sch) (hh : B '#' ∉ rest) (hq : B '?' ∉ rest)
    (h : parseHier { Scheme := sch, ForceQuery := fq, RawQuery := rq } rest = some U) :
    ParsedWF U ∧ U.Fragment = [] ∧ U.RawFragment = [] := by
  unfold parseHier at h
  simp only at h
  split at h
  · next h1 =>
    simp only [Option.some.injEq] at h
    subst h
    refine ⟨⟨hsch, hh, hq, fun _ => ⟨h1.2, by simpa using h1.1⟩, by simp, by simp,
      by simp, by simp [cutBefore], by simp, by simp⟩, rfl, rfl⟩
  · next h1 =>
    split at h
    · simp at h
    · next h2 =>
      split at h
      · next h3 =>
        cases ha : parseAuthority (cutBefore (B '/') (rest.drop 2)) with
        | none => rw [ha] at h; simp at h
        | some uh =>
          obtain ⟨user, host⟩ := uh
          rw [ha] at h
          simp only at h
          obtain ⟨path, _, rfl⟩ := setPath_some _ _ _ h
          have hsub : ∀ x, x ∈ (rest.drop 2).dropWhile (fun c => c != B '/') → x ∈ rest :=
            fun x hx => (List.drop_sublist _ _).subset ((List.dropWhile_sublist _).subset hx)
          have hhead : (rest.drop 2).dropWhile (fun c => c != B '/') = [] ∨
              HasPrefix ((rest.drop 2).dropWhile (fun c => c != B '/')) [B '/'] = true := by
            rcases dropWhile_eq (B '/') (rest.drop 2) with e | e
            · exact Or.inl e
            · right; rw [e]; exact HasPrefix_cons _ _
          have hraw : ∀ P : Str → Prop, P [] →
              P ((rest.drop 2).dropWhile (fun c => c != B '/')) →
              P (if (rest.drop 2).dropWhile (fun c => c != B '/') = escape path encodePath
                  then [] else (rest.drop 2).dropWhile (fun c => c != B '/')) := by
            intro P h0 h1; split
            · exact h0
            · exact h1
          refine ⟨⟨hsch, by simp, by simp, by simp, ?_, ?_, by simp, ?_, ?_, ?_⟩, rfl, rfl⟩
          · exact hraw (fun s => B '#' ∉ s) (by simp) (fun hm => hh (hsub _ hm))
          · exact hraw (fun s => B '?' ∉ s) (by simp) (fun hm => hq (hsub _ hm))
          · intro _ _ _
            exact hraw (fun s => B ':' ∉ cutBefore (B '/') s) (by simp [cutBefore])
              (by show B ':' ∉ cutBefore (B '/') _; rw [cutBefore_slash_head _ hhead]; simp)
          · intro _
            exact hraw (fun s => s = [] ∨ HasPrefix s [B '/'] = true) (Or.inl rfl) hhead
          · exact parseAuthority_password _ _ _ ha
      · next h3 =>
        have hraw : ∀ (path : Str) (P : Str → Prop), P [] → P rest →
            P (if rest = escape path encodePath then [] else rest) := by
          intro path P h0 h1; split
          · exact h0
          · exact h1
        split at h
        · next h4 =>
          obtain ⟨path, _, rfl⟩ := setPath_some _ _ _ h
          refine ⟨⟨hsch, by simp, by simp, by simp, ?_, ?_, fun _ => ⟨h4.1, rfl, rfl⟩, ?_, ?_,
            by simp⟩, rfl, rfl⟩
          · exact hraw path (fun s => B '#' ∉ s) (by simp) hh
          · exact hraw path (fun s => B '?' ∉ s) (by simp) hq
          · intro hs; exact absurd hs h4.1
          · intro _
            exact hraw path (fun s => s = [] ∨ HasPrefix s [B '/'] = true) (Or.inl rfl)
              (Or.inr h4.2)
        · next h4 =>
          obtain ⟨path, _, rfl⟩ := setPath_some _ _ _ h
          refine ⟨⟨hsch, by simp, by simp, by simp, ?_, ?_, by simp, ?_, ?_, by simp⟩, rfl, rfl⟩
          · exact hraw path (fun s => B '#' ∉ s) (by simp) hh
          · exact hraw path (fun s => B '?' ∉ s) (by simp) hq
          · intro _ _ _
            apply hraw path (fun s => B ':' ∉ cutBefore (B '/') s) (by simp [cutBefore])
            show B ':' ∉ cutBefore (B '/') rest
            by_cases hp : HasPrefix rest [B '/'] = true
            · rw [cutBefore_slash_head _ (Or.inr hp)]; simp
            · intro hm
              exact h2 ⟨by simpa using hp, hm⟩
          · intro hor
            simp only [ne_eq, not_true_eq_false, or_false] at hor
            exfalso
            by_cases hp : HasPrefix rest [B '/'] = true
            · exact h4 ⟨hor, hp⟩
            · exact h1 ⟨by simpa using hp, hor⟩

theorem parse_wf (raw : Str) (U : URL) (hh : B '#' ∉ raw) (h : parse raw = some U) :
    ParsedWF U ∧ U.Fragment = [] ∧ U.RawFragment = [] := by
  unfold parse at h
  split at h
  · simp at h
  · split at h
    · simp only [Option.some.injEq] at h
      subst h
      exact ⟨⟨⟨by simp, by simp⟩, by simp, by simp, by simp, by simp, by simp, by simp,
        by simp [cutBefore], by simp, by simp⟩, rfl, rfl⟩
    · cases hg : getScheme raw with
      | none => rw [hg] at h; simp at h
      | some sr =>
        obtain ⟨sch0, rest0⟩ := sr
        rw [hg] at h
        simp only at h
        obtain ⟨hs, hmem, _⟩ := getScheme_some raw sch0 rest0 hg
        obtain ⟨hq, hsub⟩ := splitQuery_rest rest0
        exact parseHier_wf _ _ _ _ U hs (fun hm => hh (hmem _ (hsub _ hm))) hq h

theorem Parse_wf (raw : Str) (U : URL) (h : Parse raw = some U) : ParsedWF U := by
  unfold Parse at h
  simp only at h
  cases hp : parse (cutBefore (B '#') raw) with
  | none => rw [hp] at h; simp at h
  | some url =>
    rw [hp] at h
    simp only at h
    obtain ⟨hwf, _, _⟩ := parse_wf _ url (not_mem_cutBefore _ _) hp
    split at h
    · simp only [Option.some.injEq] at h
      subst h; exact hwf
    · unfold setFragment at h
      cases hf : unescape (cutAfter (B '#') raw) encodeFragment with
      | none => rw [hf] at h; simp at h
      | some frag =>
        rw [hf] at h
        simp only [Option.some.injEq] at h
        subst h
        exact ⟨hwf.scheme, hwf.opaque_hash, hwf.opaque_q, hwf.opaque_scheme, hwf.rawpath_hash,
          hwf.rawpath_q, hwf.omit_host, hwf.rel_colon, hwf.abs_slash, hwf.password⟩

end Url

namespace Url
open GoStrings Encoding

/-! ### The branches of `parseHier` -/

theorem HasPrefix_two (s : Str) (h : HasPrefix s (str "//") = true) :
    ∃ t, s = B '/' :: B '/' :: t := by
  rw [HasPrefix_iff] at h
  obtain ⟨t, ht⟩ := h
  exact ⟨t, ht.symm⟩

theorem HasPrefix_two_cons (t : Str) : HasPrefix (B '/' :: B '/' :: t) (str "//") = true := by
  rw [HasPrefix_iff]; exact ⟨t, rfl⟩

theorem HasPrefix_three_false (c : Byte) (t : Str) (hc : c ≠ B '/') :
    HasPrefix (B '/' :: B '/' :: c :: t) (str "///") = false := by
  rw [← Bool.not_eq_true, HasPrefix_iff]
  rintro ⟨r, hr⟩
  have : str "///" ++ r = B '/' :: B '/' :: B '/' :: r := rfl
  rw [this] at hr
  simp only [List.cons.injEq, true_and] at hr
  exact hc hr.1.symm

theorem parseHier_opaque (url : URL) (rest : Str) (h1 : HasPrefix rest [B '/'] = false)
    (h2 : url.Scheme ≠ []) : parseHier url rest = some { url with Opaque := rest } := by
  unfold parseHier
  rw [if_pos ⟨by simp [h1], h2⟩]

theorem parseHier_authority (url : URL) (t : Str)
    (h : url.Scheme ≠ [] ∨ HasPrefix (B '/' :: B '/' :: t) (str "///") = false) :
    parseHier url (B '/' :: B '/' :: t) =
      match parseAuthority (cutBefore (B '/') t) with
      | none => none
      | some (user, host) =>
        setPath { url with User := user, Host := host } (t.dropWhile (fun c => c != B '/')) := by
  unfold parseHier
  have hp : HasPrefix (B '/' :: B '/' :: t) [B '/'] = true := HasPrefix_cons _ _
  rw [if_neg (by simp [hp]), if_neg (by simp [hp]),
    if_pos ⟨by rcases h with h | h
               · exact Or.inl h
               · exact Or.inr (by simp [h]), HasPrefix_two_cons t⟩]
  rfl

theorem parseHier_omit (url : URL) (rest : Str) (h1 : url.Scheme ≠ [])
    (h2 : HasPrefix rest [B '/'] = true) (h3 : HasPrefix rest (str "//") = false) :
    parseHier url rest = setPath { url with OmitHost := true } rest := by
  unfold parseHier
  rw [if_neg (by simp [h2]), if_neg (by simp [h2]), if_neg (by simp [h3]), if_pos ⟨h1, h2⟩]

theorem parseHier_relative (url : URL) (rest : Str) (h1 : url.Scheme = [])
    (h2 : HasPrefix rest (str "//") = false) (h3 : B ':' ∉ cutBefore (B '/') rest) :
    parseHier url rest = setPath url rest := by
  unfold parseHier
  rw [if_neg (by simp [h1]), if_neg (by simp [h3]), if_neg (by simp [h2]),
    if_neg (by simp [h1])]

/-! ### The printed URL -/

theorem hierString_congr (w₁ w₂ : URL) (hs : w₁.Scheme = w₂.Scheme) (hh : w₁.Host = w₂.Host)
    (hu : w₁.User = w₂.User) (ho : w₁.OmitHost = w₂.OmitHost)
    (hp : w₁.Path ≠ [] ↔ w₂.Path ≠ []) (he : w₁.EscapedPath = w₂.EscapedPath) :
    w₁.hierString = w₂.hierString := by
  have ha : w₁.authorityString = w₂.authorityString := by
    unfold URL.authorityString
    rw [hs, hh, hu, ho]
    simp only [hp]
  unfold URL.hierString
  simp only [ha, he, hs, hh]

theorem escape_eq_nil (s : Str) (m : Encoding) (h : escape s m = []) : s = [] := by
  cases s with
  | nil => rfl
  | cons c t =>
    rw [escape_cons] at h
    rcases escByte_cases m c with ⟨e, _⟩ | ⟨e, _⟩ | ⟨e, _⟩ <;> rw [e] at h <;> simp at h

/-- The authority a URL with a non-empty path prints. -/
theorem authorityString_eq (u : URL) (hp : u.Path ≠ []) :
    u.authorityString =
      if (u.Scheme ≠ [] ∨ u.Host ≠ [] ∨ u.User ≠ none) ∧
          ¬ (u.OmitHost = true ∧ u.Host = [] ∧ u.User = none)
      then B '/' :: B '/' :: authorityText u.User u.Host else [] := by
  have hhost : (if u.Host ≠ [] then escape u.Host encodeHost else []) =
      escape u.Host encodeHost := by
    by_cases hh : u.Host = []
    · simp [hh, escape_nil]
    · simp [hh]
  unfold URL.authorityString authorityText
  rw [hhost]
  by_cases h1 : u.Scheme ≠ [] ∨ u.Host ≠ [] ∨ u.User ≠ none
  · by_cases h2 : u.OmitHost = true ∧ u.Host = [] ∧ u.User = none
    · rw [if_pos h1, if_pos h2]
      rw [if_neg]
      exact fun h => h.2 h2
    · rw [if_pos h1, if_neg h2, if_pos (Or.inr (Or.inl hp))]
      rw [if_pos (And.intro h1 h2)]
      generalize u.User = user
      cases user <;> simp [str, List.append_assoc]
  · rw [if_neg h1, if_neg (fun h => h1 h.1)]

theorem not_mem_authorityText (x : Byte) (hu : shouldEscape x encodeUserPassword = true)
    (hh : shouldEscape x encodeHost = true) (h1 : x ≠ B '%') (h2 : x ≠ B '+') (h3 : x ≠ B ':')
    (h4 : x ≠ B '@') (user : Option Userinfo) (host : Str) : x ∉ authorityText user host := by
  unfold authorityText
  rw [List.mem_append, not_or]
  refine ⟨?_, not_mem_escape _ x hh h1 h2 _⟩
  cases user with
  | none => simp
  | some ui =>
    simp only [List.mem_append, List.mem_singleton, not_or]
    exact ⟨not_mem_Userinfo_String x hu h1 h2 h3 ui, h4⟩

theorem authorityText_eq_nil (user : Option Userinfo) (host : Str)
    (h : authorityText user host = []) : user = none ∧ host = [] := by
  unfold authorityText at h
  rw [List.append_eq_nil] at h
  cases user with
  | none => exact ⟨rfl, escape_eq_nil _ _ h.2⟩
  | some ui => simp at h

end Url

namespace Crawler
open GoStrings Url Url.Encoding

/-! ### The URL that `filterQueryParams` prints -/

theorem canon_Path (u : URL) : (canon u).Path = cleanPath u.Path := rfl

theorem canon_Path_ne (u : URL) : (canon u).Path ≠ [] := by
  obtain ⟨t, h, _⟩ := cleanPath_head u.Path
  rw [canon_Path, h]; simp

theorem canon_star (u : URL) : (canon u).Path ≠ [B '*'] := cleanPath_ne_star u.Path

theorem escapedFacts (u : URL) (hwf : ParsedWF u) : EscapedFacts u (canon u).EscapedPath := by
  have hun := unescape_EscapedPath (canon u) (canon_star u)
  rw [canon_Path] at hun
  obtain ⟨t, ht, hthead⟩ := cleanPath_head u.Path
  have hne : (canon u).EscapedPath ≠ [] := by
    intro e
    rw [e] at hun
    have := (unescape_eq_some _ _ _ hun).2
    rw [ht] at this
    simp [unescapeRaw] at this
  have hesc : escape (cleanPath u.Path) encodePath = B '/' :: escape t encodePath := by
    rw [ht, escape_path_slash]
  refine ⟨hun, hne, ?_, ?_, ?_, ?_, ?_⟩
  · rcases EscapedPath_cases (canon u) (canon_star u) with ⟨h, _⟩ | h
    · rw [h]; exact hwf.rawpath_hash
    · rw [h]; exact not_mem_escape _ _ (by decide) (by decide) (by decide) _
  · rcases EscapedPath_cases (canon u) (canon_star u) with ⟨h, _⟩ | h
    · rw [h]; exact hwf.rawpath_q
    · rw [h]; exact not_mem_escape _ _ (by decide) (by decide) (by decide) _
  · rw [← Bool.not_eq_true]
    intro hp
    obtain ⟨r, hr⟩ := HasPrefix_two _ hp
    have := (unescape_eq_some _ _ _ hun).2
    rw [hr, unescapeRaw_head_slash, unescapeRaw_head_slash, ht] at this
    simp only [List.cons.injEq, true_and] at this
    rw [this] at hthead
    simp at hthead
  · intro hraw
    rcases EscapedPath_cases (canon u) (canon_star u) with ⟨h, h1, _⟩ | h
    · rw [h]
      rcases hraw with hraw | hraw
      · exact absurd hraw h1
      · exact HasPrefix_one _ _ hraw
    · rw [h, canon_Path, hesc]; exact ⟨_, rfl⟩
  · intro hc
    rcases EscapedPath_cases (canon u) (canon_star u) with ⟨h, _⟩ | h
    · rw [h]; exact hc
    · rw [h, canon_Path, hesc]; simp [cutBefore]

/-- The printed URL has no slash or `./` put before its path. -/
theorem canon_hierString (u : URL) (hwf : ParsedWF u) :
    (canon u).hierString = (canon u).authorityString ++ (canon u).EscapedPath := by
  have hE := escapedFacts u hwf
  have hauth := authorityString_eq (canon u) (canon_Path_ne u)
  have hslash : ¬ ((canon u).EscapedPath ≠ [] ∧
      (canon u).EscapedPath.head? ≠ some (B '/') ∧ (canon u).Host ≠ []) := by
    rintro ⟨_, h2, h3⟩
    obtain ⟨t, ht⟩ := hE.slash (hwf.abs_slash (Or.inr (Or.inl h3)))
    rw [ht] at h2
    simp at h2
  have hdot : ¬ (((if (canon u).Scheme ≠ [] then (canon u).Scheme ++ [B ':'] else []) ++
      (canon u).authorityString ++ ([] : Str)) = [] ∧
      B ':' ∈ cutBefore (B '/') (canon u).EscapedPath) := by
    rintro ⟨h1, h2⟩
    simp only [List.append_nil, List.append_eq_nil] at h1
    obtain ⟨hs, ha⟩ := h1
    have hsch : u.Scheme = [] := by
      by_contra hne
      have : (canon u).Scheme ≠ [] := hne
      rw [if_pos this] at hs
      simp at hs
    rw [hauth] at ha
    have hno : ¬ ((u.Scheme ≠ [] ∨ u.Host ≠ [] ∨ u.User ≠ none) ∧
        ¬ (u.OmitHost = true ∧ u.Host = [] ∧ u.User = none)) := by
      intro hc
      have : ((canon u).Scheme ≠ [] ∨ (canon u).Host ≠ [] ∨ (canon u).User ≠ none) ∧
          ¬ ((canon u).OmitHost = true ∧ (canon u).Host = [] ∧ (canon u).User = none) := hc
      rw [if_pos this] at ha
      simp at ha
    have hhu : u.Host = [] ∧ u.User = none := by
      by_contra hc
      apply hno
      refine ⟨?_, fun h => hc h.2⟩
      by_cases hh : u.Host = []
      · right; right; intro hu; exact hc ⟨hh, hu⟩
      · right; left; exact hh
    exact hE.colon (hwf.rel_colon hsch hhu.1 hhu.2) h2
  unfold URL.hierString
  simp only
  rw [if_neg hslash, if_neg hdot]
  simp

/-- The body of the printed URL: the opaque text, or `//`, the authority and the path. -/
theorem canon_body (u : URL) (hwf : ParsedWF u) :
    (canon u).bodyString =
      if u.Opaque ≠ [] then u.Opaque
      else (if (u.Scheme ≠ [] ∨ u.Host ≠ [] ∨ u.User ≠ none) ∧
              ¬ (u.OmitHost = true ∧ u.Host = [] ∧ u.User = none)
            then B '/' :: B '/' :: authorityText u.User u.Host else []) ++
           (canon u).EscapedPath := by
  unfold URL.bodyString
  rw [canon_hierString u hwf, authorityString_eq (canon u) (canon_Path_ne u)]
  rfl

end Crawler

namespace Crawler
open GoStrings Url Url.Encoding

/-! ### Parsing the printed URL again -/

/-- Calling `setPath` on the printed path gives a URL that prints the same body. -/
theorem setPath_print (url u W : URL) (hwf : ParsedWF u) (hO : u.Opaque = [])
    (hurlO : url.Opaque = []) (hs : url.Scheme = u.Scheme) (hh : url.Host = u.Host)
    (hu : url.User = u.User) (ho : url.OmitHost = u.OmitHost)
    (hf : url.Fragment = []) (hrf : url.RawFragment = [])
    (h : setPath url (canon u).EscapedPath = some W) :
    W.Scheme = url.Scheme ∧ W.ForceQuery = url.ForceQuery ∧ W.RawQuery = url.RawQuery ∧
    W.Fragment = [] ∧ W.RawFragment = [] ∧
    (canon W).bodyString = (canon u).bodyString := by
  have hE := escapedFacts u hwf
  obtain ⟨path, hp, hW⟩ := setPath_some _ _ _ h
  rw [hE.unesc] at hp
  have hpath : path = cleanPath u.Path := (Option.some.inj hp).symm
  subst hpath
  have hWP : W.Path = cleanPath u.Path := by rw [hW]
  have hWR : W.RawPath =
      if (canon u).EscapedPath = escape (cleanPath u.Path) encodePath then []
      else (canon u).EscapedPath := by rw [hW]
  have hWO : W.Opaque = [] := by rw [hW]; exact hurlO
  refine ⟨by rw [hW], by rw [hW], by rw [hW], by rw [hW]; exact hf, by rw [hW]; exact hrf, ?_⟩
  have hst : (canon W).EscapedPath = (canon u).EscapedPath := by
    apply EscapedPath_stable (canon u) _ (canon_star u)
    · show cleanPath W.Path = cleanPath u.Path
      rw [hWP]; exact cleanPath_idem _
    · exact hWR
  have hb : ∀ w : URL, w.Opaque = [] → (canon w).bodyString = (canon w).hierString := by
    intro w hw
    unfold URL.bodyString
    rw [if_neg]
    intro hne; exact hne hw
  rw [hb u hO, hb W hWO]
  apply hierString_congr
  · show W.Scheme = u.Scheme
    rw [hW]; exact hs
  · show W.Host = u.Host
    rw [hW]; exact hh
  · show W.User = u.User
    rw [hW]; exact hu
  · show W.OmitHost = u.OmitHost
    rw [hW]; exact ho
  · exact ⟨fun _ => canon_Path_ne u, fun _ => canon_Path_ne _⟩
  · exact hst

/-- Where `parse` goes on the body of the printed URL: the URL it returns prints the
same body. -/
theorem parseHier_print (u url W : URL) (hwf : ParsedWF u)
    (hs : url.Scheme = u.Scheme) (hurlO : url.Opaque = []) (huH : url.Host = [])
    (huU : url.User = none) (huO : url.OmitHost = false)
    (hf : url.Fragment = []) (hrf : url.RawFragment = [])
    (h : parseHier url (canon u).bodyString = some W) :
    W.Scheme = u.Scheme ∧ W.ForceQuery = url.ForceQuery ∧ W.RawQuery = url.RawQuery ∧
    W.Fragment = [] ∧ W.RawFragment = [] ∧
    (canon W).bodyString = (canon u).bodyString := by
  have hE := escapedFacts u hwf
  have hbody := canon_body u hwf
  by_cases hO : u.Opaque = []
  · rw [if_neg (fun hne => hne hO)] at hbody
    by_cases hauth : (u.Scheme ≠ [] ∨ u.Host ≠ [] ∨ u.User ≠ none) ∧
        ¬ (u.OmitHost = true ∧ u.Host = [] ∧ u.User = none)
    · -- `//`, authority, path
      rw [if_pos hauth] at hbody
      obtain ⟨t, ht⟩ := hE.slash (hwf.abs_slash hauth.1)
      have homit : u.OmitHost = false := by
        cases ho : u.OmitHost
        · rfl
        · exact absurd ⟨ho, (hwf.omit_host ho).2⟩ hauth.2
      have hslashA : B '/' ∉ authorityText u.User u.Host :=
        not_mem_authorityText _ (by decide) (by decide) (by decide) (by decide) (by decide)
          (by decide) _ _
      have hbody' : (canon u).bodyString =
          B '/' :: B '/' :: (authorityText u.User u.Host ++ B '/' :: t) := by
        rw [hbody, ht]; rfl
      have h3 : url.Scheme ≠ [] ∨ HasPrefix
          (B '/' :: B '/' :: (authorityText u.User u.Host ++ B '/' :: t)) (str "///") = false := by
        by_cases hsn : u.Scheme = []
        · right
          have hne : authorityText u.User u.Host ≠ [] := by
            intro e
            obtain ⟨e1, e2⟩ := authorityText_eq_nil _ _ e
            rcases hauth.1 with h1 | h1 | h1
            · exact h1 hsn
            · exact h1 e2
            · exact h1 e1
          obtain ⟨c, r, hcr⟩ := List.exists_cons_of_ne_nil hne
          rw [hcr]
          apply HasPrefix_three_false
          intro hc
          apply hslashA
          rw [hcr, hc]
          exact List.mem_cons_self _ _
        · left; rw [hs]; exact hsn
      rw [hbody', parseHier_authority url _ h3, cutBefore_append _ _ _ hslashA,
        dropWhile_append _ _ _ hslashA] at h
      cases ha : parseAuthority (authorityText u.User u.Host) with
      | none => rw [ha] at h; simp at h
      | some uh =>
        obtain ⟨user, host⟩ := uh
        rw [ha] at h
        simp only at h
        obtain ⟨hu', hh'⟩ := parseAuthority_authorityText _ _ _ _ hwf.password ha
        subst hu' hh'
        rw [← ht] at h
        obtain ⟨r1, r2, r3, r4, r5, r6⟩ :=
          setPath_print { url with User := u.User, Host := u.Host } u W hwf hO hurlO hs rfl rfl
            (huO.trans homit.symm) hf hrf h
        exact ⟨r1.trans hs, r2, r3, r4, r5, r6⟩
    · rw [if_neg hauth, List.nil_append] at hbody
      rw [hbody] at h
      by_cases hsn : u.Scheme = []
      · -- relative reference
        have hhu : u.Host = [] ∧ u.User = none := by
          by_contra hc
          apply hauth
          refine ⟨?_, fun hh => hc hh.2⟩
          by_cases hh : u.Host = []
          · right; right; intro hu; exact hc ⟨hh, hu⟩
          · right; left; exact hh
        have homit : u.OmitHost = false := by
          cases ho : u.OmitHost
          · rfl
          · exact absurd hsn (hwf.omit_host ho).1
        rw [parseHier_relative url _ (hs.trans hsn) hE.not_two
          (hE.colon (hwf.rel_colon hsn hhu.1 hhu.2))] at h
        obtain ⟨r1, r2, r3, r4, r5, r6⟩ :=
          setPath_print url u W hwf hO hurlO hs (huH.trans hhu.1.symm) (huU.trans hhu.2.symm)
            (huO.trans homit.symm) hf hrf h
        exact ⟨r1.trans hs, r2, r3, r4, r5, r6⟩
      · -- scheme and path, the empty host omitted
        have hom : u.OmitHost = true ∧ u.Host = [] ∧ u.User = none := by
          by_contra hc
          exact hauth ⟨Or.inl hsn, hc⟩
        obtain ⟨t, ht⟩ := hE.slash (hwf.abs_slash (Or.inl hsn))
        have hp1 : HasPrefix (canon u).EscapedPath [B '/'] = true := by
          rw [ht]; exact HasPrefix_cons _ _
        rw [parseHier_omit url _ (by rw [hs]; exact hsn) hp1 hE.not_two] at h
        obtain ⟨r1, r2, r3, r4, r5, r6⟩ :=
          setPath_print { url with OmitHost := true } u W hwf hO hurlO hs
            (huH.trans hom.2.1.symm) (huU.trans hom.2.2.symm) hom.1.symm hf hrf h
        exact ⟨r1.trans hs, r2, r3, r4, r5, r6⟩
  · -- opaque
    rw [if_pos hO] at hbody
    obtain ⟨hsn, hp⟩ := hwf.opaque_scheme hO
    rw [hbody, parseHier_opaque url _ hp (by rw [hs]; exact hsn)] at h
    simp only [Option.some.injEq] at h
    subst h
    refine ⟨hs, rfl, rfl, hf, hrf, ?_⟩
    rw [hbody]
    unfold URL.bodyString
    rw [if_pos]
    · rfl
    · exact hO

end Crawler

namespace Crawler
open GoStrings Url Url.Encoding

theorem mem_cutBefore_append (sep x : Byte) (a b : Str) (h : x ∈ cutBefore sep (a ++ b)) :
    x ∈ cutBefore sep a ∨ x ∈ b := by
  induction a with
  | nil => right; exact mem_of_mem_cutBefore _ _ _ h
  | cons c a ih =>
    simp only [cutBefore, List.cons_append] at h ih ⊢
    by_cases hc : c = sep
    · simp [List.takeWhile_cons, hc] at h
    · simp only [List.takeWhile_cons, bne_iff_ne, ne_eq, hc, not_false_eq_true, decide_True,
        if_true, List.mem_cons] at h ⊢
      rcases h with h | h
      · exact Or.inl (Or.inl h)
      · rcases ih h with h | h
        · exact Or.inl (Or.inr h)
        · exact Or.inr h

theorem cleanQuery_not_mem (x : Byte) (hx : shouldEscape x encodeQueryComponent = true)
    (h1 : x ≠ B '%') (h2 : x ≠ B '+') (h3 : x ≠ B '=') (h4 : x ≠ B '&') (q : Values) :
    x ∉ cleanQuery q :=
  not_mem_Encode x hx h1 h2 h3 h4 _

theorem cleanQuery_idem (q : Values) : cleanQuery (ParseQuery (cleanQuery q)) = cleanQuery q :=
  Encode_filter_idem ALLOWED_SEARCH_PARAMS q

theorem String_eq (u : URL) :
    u.String = schemeString u ++ u.bodyString ++ u.queryString ++ u.fragmentString := rfl

theorem canon_body_not_mem (u : URL) (hwf : ParsedWF u) (x : Byte) (h1 : x ∉ u.Opaque)
    (h2 : x ∉ (canon u).EscapedPath) (h3 : x ≠ B '/') (h4 : x ∉ authorityText u.User u.Host) :
    x ∉ (canon u).bodyString := by
  rw [canon_body u hwf]
  split
  · exact h1
  · rw [List.mem_append, not_or]
    refine ⟨?_, h2⟩
    split
    · simp only [List.mem_cons, not_or]
      exact ⟨h3, h3, h4⟩
    · simp

theorem schemeString_not_mem (u : URL) (x : Byte) (h1 : x ∉ u.Scheme)
    (h2 : x ≠ B ':') : x ∉ schemeString (canon u) := by
  unfold schemeString
  split
  · simp only [List.mem_append, List.mem_singleton, not_or]
    exact ⟨h1, h2⟩
  · simp

theorem queryString_not_mem (u : URL) (x : Byte) (h1 : x ∉ u.RawQuery) (h2 : x ≠ B '?') :
    x ∉ u.queryString := by
  unfold URL.queryString
  split
  · simp only [List.mem_cons, not_or]
    exact ⟨h2, h1⟩
  · simp

/-- The printed URL up to its fragment holds no `#`. -/
theorem print_no_hash (u : URL) (hwf : ParsedWF u) :
    B '#' ∉ schemeString (canon u) ++ (canon u).bodyString ++ (canon u).queryString := by
  have hE := escapedFacts u hwf
  simp only [List.mem_append, not_or]
  refine ⟨⟨?_, ?_⟩, ?_⟩
  · exact schemeString_not_mem u _ (SchemeWF_not_mem _ hwf.scheme).1 (by decide)
  · exact canon_body_not_mem u hwf _ hwf.opaque_hash hE.hash (by decide)
      (not_mem_authorityText _ (by decide) (by decide) (by decide) (by decide) (by decide)
        (by decide) _ _)
  · exact queryString_not_mem _ _
      (cleanQuery_not_mem _ (by decide) (by decide) (by decide) (by decide) (by decide) _)
      (by decide)

theorem body_no_quest (u : URL) (hwf : ParsedWF u) : B '?' ∉ (canon u).bodyString :=
  canon_body_not_mem u hwf _ hwf.opaque_q (escapedFacts u hwf).quest (by decide)
    (not_mem_authorityText _ (by decide) (by decide) (by decide) (by decide) (by decide)
      (by decide) _ _)

/-- Calling `getScheme` on the printed URL finds the scheme that was printed. -/
theorem getScheme_print (u : URL) (hwf : ParsedWF u) :
    getScheme (schemeString (canon u) ++ (canon u).bodyString ++ (canon u).queryString) =
      some (u.Scheme, (canon u).bodyString ++ (canon u).queryString) := by
  have hE := escapedFacts u hwf
  by_cases hs : u.Scheme = []
  · have hss : schemeString (canon u) = [] := by
      unfold schemeString
      rw [if_neg]
      intro hne; exact hne hs
    rw [hss, hs, List.nil_append]
    apply getScheme_none_found
    intro hm
    rcases mem_cutBefore_append _ _ _ _ hm with hm | hm
    · rw [canon_body u hwf] at hm
      have hO : u.Opaque = [] := by
        by_contra hne
        exact (hwf.opaque_scheme hne).1 hs
      rw [if_neg (fun hne => hne hO)] at hm
      split at hm
      · simp [cutBefore] at hm
      · next hauth =>
        have hhu : u.Host = [] ∧ u.User = none := by
          by_contra hc
          apply hauth
          refine ⟨?_, fun hh => hc hh.2⟩
          by_cases hh : u.Host = []
          · right; right; intro hu; exact hc ⟨hh, hu⟩
          · right; left; exact hh
        rw [List.nil_append] at hm
        exact hE.colon (hwf.rel_colon hs hhu.1 hhu.2) hm
    · exact queryString_not_mem _ _
        (cleanQuery_not_mem _ (by decide) (by decide) (by decide) (by decide) (by decide) _)
        (by decide) hm
  · have hss : schemeString (canon u) = u.Scheme ++ [B ':'] := by
      unfold schemeString
      rw [if_pos]
      · rfl
      · exact hs
    rw [hss]
    have := getScheme_found u.Scheme ((canon u).bodyString ++ (canon u).queryString)
      hwf.scheme hs
    simpa [List.append_assoc] using this

/-- The printed URL up to its fragment is not the lone `*`. -/
theorem print_ne_star (u : URL) (hwf : ParsedWF u) :
    schemeString (canon u) ++ (canon u).bodyString ++ (canon u).queryString ≠ [B '*'] := by
  have hE := escapedFacts u hwf
  intro h
  have hall : ∀ x ∈ schemeString (canon u) ++ (canon u).bodyString ++ (canon u).queryString,
      x = B '*' := by
    intro x hx; rw [h] at hx; simpa using hx
  have hE' : ∀ x ∈ (canon u).EscapedPath, x = B '*' := by
    intro x hx
    by_cases hO : u.Opaque = []
    · apply hall
      simp only [List.mem_append]
      left; right
      rw [canon_body u hwf, if_neg (fun hne => hne hO)]
      exact List.mem_append_right _ hx
    · exfalso
      have hs := (hwf.opaque_scheme hO).1
      have : B ':' ∈ schemeString (canon u) := by
        unfold schemeString
        rw [if_pos]
        · simp
        · exact hs
      have := hall (B ':') (by simp only [List.mem_append]; left; left; exact this)
      exact absurd this (by decide)
  obtain ⟨c, t, hct⟩ := List.exists_cons_of_ne_nil hE.ne
  have hc : c = B '*' := hE' c (by rw [hct]; exact List.mem_cons_self _ _)
  have hun := (unescape_eq_some _ _ _ hE.unesc).2
  rw [hct, hc, unescapeRaw_plain _ _ _ (by decide) (by decide)] at hun
  obtain ⟨r, hr, _⟩ := cleanPath_head u.Path
  rw [hr] at hun
  have := (List.cons.inj hun).1
  exact absurd this (by decide)

/-- Calling `parse` on the printed URL, up to its fragment, returns a URL that prints the same
scheme, body and query. -/
theorem parse_print (u W : URL) (hwf : ParsedWF u)
    (h : parse (schemeString (canon u) ++ (canon u).bodyString ++ (canon u).queryString)
      = some W) :
    W.Scheme = u.Scheme ∧ W.RawQuery = cleanQuery u.Query ∧
    ((W.ForceQuery = true ∨ cleanQuery u.Query ≠ []) ↔
      (u.ForceQuery = true ∨ cleanQuery u.Query ≠ [])) ∧
    W.Fragment = [] ∧ W.RawFragment = [] ∧
    (canon W).bodyString = (canon u).bodyString := by
  unfold parse at h
  split at h
  · simp at h
  · rw [if_neg (print_ne_star u hwf), getScheme_print u hwf] at h
    simp only at h
    have hq : (canon u).queryString =
        if u.ForceQuery = true ∨ cleanQuery u.Query ≠ [] then B '?' :: cleanQuery u.Query
        else [] := rfl
    obtain ⟨fq', hsq, hiff⟩ := splitQuery_print (canon u).bodyString (cleanQuery u.Query)
      u.ForceQuery (body_no_quest u hwf)
      (cleanQuery_not_mem _ (by decide) (by decide) (by decide) (by decide) (by decide) _)
    rw [hq, hsq, SchemeWF_ToLower _ hwf.scheme] at h
    obtain ⟨r1, r2, r3, r4, r5, r6⟩ := parseHier_print u
      { Scheme := u.Scheme, ForceQuery := fq', RawQuery := cleanQuery u.Query } W hwf
      rfl rfl rfl rfl rfl rfl rfl h
    refine ⟨r1, r3, ?_, r4, r5, r6⟩
    rw [r2]
    exact hiff

end Crawler

namespace Crawler
open GoStrings Url Url.Encoding

/-- Canonicalising the printed URL again prints the same text, when it parses. -/
theorem canon_reparse (u V : URL) (hwf : ParsedWF u) (h : Parse (canon u).String = some V) :
    (canon V).String = (canon u).String := by
  have hnh := print_no_hash u hwf
  have hcq : ∀ W : URL, W.RawQuery = cleanQuery u.Query →
      (canon W).RawQuery = cleanQuery u.Query := by
    intro W hW
    show cleanQuery (ParseQuery W.RawQuery) = cleanQuery u.Query
    rw [hW]
    exact cleanQuery_idem _
  have hqs : ∀ W : URL, W.RawQuery = cleanQuery u.Query →
      ((W.ForceQuery = true ∨ cleanQuery u.Query ≠ []) ↔
        (u.ForceQuery = true ∨ cleanQuery u.Query ≠ [])) →
      (canon W).queryString = (canon u).queryString := by
    intro W hW hiff
    have e1 : (canon W).queryString =
        if W.ForceQuery = true ∨ (canon W).RawQuery ≠ [] then B '?' :: (canon W).RawQuery
        else [] := rfl
    have e2 : (canon u).queryString =
        if u.ForceQuery = true ∨ cleanQuery u.Query ≠ [] then B '?' :: cleanQuery u.Query
        else [] := rfl
    rw [e1, e2, hcq W hW]
    by_cases hc : u.ForceQuery = true ∨ cleanQuery u.Query ≠ []
    · rw [if_pos hc, if_pos (hiff.2 hc)]
    · rw [if_neg hc, if_neg (fun hh => hc (hiff.1 hh))]
  have hss : ∀ W : URL, W.Scheme = u.Scheme → schemeString (canon W) = schemeString (canon u) := by
    intro W hW
    show (if W.Scheme ≠ [] then W.Scheme ++ [B ':'] else []) =
      (if u.Scheme ≠ [] then u.Scheme ++ [B ':'] else [])
    rw [hW]
  by_cases hF : u.Fragment = []
  · have hfs : (canon u).fragmentString = [] := by
      show (if u.Fragment ≠ [] then _ else _) = _
      rw [if_neg (fun hne => hne hF)]
    have hS : (canon u).String =
        schemeString (canon u) ++ (canon u).bodyString ++ (canon u).queryString := by
      rw [String_eq, hfs, List.append_nil]
    rw [hS] at h ⊢
    unfold Parse at h
    simp only at h
    rw [cutBefore_of_not_mem _ _ hnh, cutAfter_of_not_mem _ _ hnh] at h
    cases hp : parse (schemeString (canon u) ++ (canon u).bodyString ++ (canon u).queryString) with
    | none => rw [hp] at h; simp at h
    | some W =>
      rw [hp] at h
      simp only [if_true, Option.some.injEq] at h
      subst h
      obtain ⟨r1, r2, r3, r4, _, r6⟩ := parse_print u W hwf hp
      have hfW : (canon W).fragmentString = [] := by
        show (if W.Fragment ≠ [] then _ else _) = _
        rw [if_neg (fun hne => hne r4)]
      rw [String_eq, hfW, List.append_nil, hss W r1, r6, hqs W r2 r3]
  · have hfs : (canon u).fragmentString = B '#' :: (canon u).EscapedFragment := by
      show (if u.Fragment ≠ [] then _ else _) = _
      rw [if_pos hF]
    have hS : (canon u).String =
        (schemeString (canon u) ++ (canon u).bodyString ++ (canon u).queryString) ++
          B '#' :: (canon u).EscapedFragment := by
      rw [String_eq, hfs]
    have hun := unescape_EscapedFragment (canon u)
    have hEFne : (canon u).EscapedFragment ≠ [] := by
      intro e
      rw [e] at hun
      have := (unescape_eq_some _ _ _ hun).2
      simp only [unescapeRaw] at this
      exact hF this
    rw [hS] at h ⊢
    unfold Parse at h
    simp only at h
    rw [cutBefore_append _ _ _ hnh, cutAfter_append _ _ _ hnh] at h
    cases hp : parse (schemeString (canon u) ++ (canon u).bodyString ++ (canon u).queryString) with
    | none => rw [hp] at h; simp at h
    | some W =>
      rw [hp] at h
      simp only [hEFne, if_false] at h
      obtain ⟨r1, r2, r3, _, _, r6⟩ := parse_print u W hwf hp
      unfold setFragment at h
      rw [hun] at h
      simp only [Option.some.injEq] at h
      have hVS : V.Scheme = W.Scheme := by rw [← h]
      have hVQ : V.RawQuery = W.RawQuery := by rw [← h]
      have hVF : V.ForceQuery = W.ForceQuery := by rw [← h]
      have hVfr : V.Fragment = (canon u).Fragment := by rw [← h]
      have hVrf : V.RawFragment =
          if (canon u).EscapedFragment = escape (canon u).Fragment encodeFragment then []
          else (canon u).EscapedFragment := by rw [← h]
      have hVb : (canon V).bodyString = (canon W).bodyString := by rw [← h]; rfl
      have hEF : (canon V).EscapedFragment = (canon u).EscapedFragment :=
        EscapedFragment_stable (canon u) (canon V) hVfr hVrf
      have hfV : (canon V).fragmentString = B '#' :: (canon u).EscapedFragment := by
        show (if V.Fragment ≠ [] then B '#' :: (canon V).EscapedFragment else _) = _
        rw [if_pos (by rw [hVfr]; exact hF), hEF]
      rw [String_eq, hfV, hss V (hVS.trans r1), hVb, r6,
        hqs V (hVQ.trans r2) (by rw [hVF]; exact r3)]

/-- Calling `filterQueryParams` on its own output gives the output again, when the output parses. -/
theorem filterQueryParams_idem (u : Str) (h1 : filterQueryParams u ≠ [])
    (h2 : filterQueryParams (filterQueryParams u) ≠ []) :
    filterQueryParams (filterQueryParams u) = filterQueryParams u := by
  cases hp : Parse u with
  | none =>
    have : filterQueryParams u = [] := by rw [filterQueryParams_eq, hp]
    exact absurd this h1
  | some U =>
    have e1 : filterQueryParams u = (canon U).String := by rw [filterQueryParams_eq, hp]
    rw [e1] at h2 ⊢
    cases hp2 : Parse (canon U).String with
    | none =>
      have : filterQueryParams (canon U).String = [] := by rw [filterQueryParams_eq, hp2]
      exact absurd this h2
    | some V =>
      rw [filterQueryParams_eq, hp2]
      exact canon_reparse U V (Parse_wf u U hp) hp2

end Crawler

namespace Crawler
open GoStrings Url Url.Encoding

/-! ### `withBaseURL` -/

theorem cutBefore_append_left (sep : Byte) (a b : Str) (h : sep ∉ a) :
    cutBefore sep (a ++ b) = a ++ cutBefore sep b := by
  induction a with
  | nil => rfl
  | cons c a ih =>
    simp only [List.mem_cons, not_or] at h
    have hc : c ≠ sep := fun e => h.1 e.symm
    have := ih h.2
    simp only [cutBefore, List.cons_append] at this ⊢
    simp [List.takeWhile_cons, hc, this]

theorem splitQuery_slashes (y : Str) :
    ∃ r, (splitQuery (B '/' :: B '/' :: y)).1 = B '/' :: B '/' :: r := by
  unfold splitQuery
  split
  · next h =>
    simp only [Bool.and_eq_true, decide_eq_true_eq] at h
    rw [HasSuffix_iff] at h
    obtain ⟨t, ht⟩ := h.1
    have hy : y ≠ [] := by
      intro e
      subst e
      have := congrArg List.getLast? ht
      simp at this
      exact absurd this (by decide)
    refine ⟨y.dropLast, ?_⟩
    obtain ⟨c, r, rfl⟩ := List.exists_cons_of_ne_nil hy
    simp [List.dropLast]
  · refine ⟨cutBefore (B '?') y, ?_⟩
    have h1 : B '/' ≠ B '?' := by decide
    simp [cutBefore, List.takeWhile_cons, h1]

/-- A URL with a scheme followed by `//` parses to a URL with that scheme and an
authority. -/
theorem Parse_scheme_slashes (sch y : Str) (U : URL) (hs : SchemeWF sch) (hne : sch ≠ [])
    (h : Parse (sch ++ B ':' :: B '/' :: B '/' :: y) = some U) :
    U.Scheme = sch ∧ U.Opaque = [] ∧ U.OmitHost = false := by
  have hnh : B '#' ∉ sch ++ [B ':', B '/', B '/'] := by
    simp only [List.mem_append, List.mem_cons, List.mem_singleton, List.not_mem_nil, or_false,
      not_or]
    exact ⟨(SchemeWF_not_mem _ hs).1, by decide, by decide, by decide⟩
  have hsplit : sch ++ B ':' :: B '/' :: B '/' :: y = (sch ++ [B ':', B '/', B '/']) ++ y := by
    simp
  have hcut : cutBefore (B '#') (sch ++ B ':' :: B '/' :: B '/' :: y) =
      sch ++ B ':' :: B '/' :: B '/' :: cutBefore (B '#') y := by
    rw [hsplit, cutBefore_append_left _ _ _ hnh]; simp
  unfold Parse at h
  simp only at h
  rw [hcut] at h
  cases hp : parse (sch ++ B ':' :: B '/' :: B '/' :: cutBefore (B '#') y) with
  | none => rw [hp] at h; simp at h
  | some W =>
    rw [hp] at h
    simp only at h
    have hW : W.Scheme = sch ∧ W.Opaque = [] ∧ W.OmitHost = false := by
      unfold parse at hp
      split at hp
      · simp at hp
      · have hstar : sch ++ B ':' :: B '/' :: B '/' :: cutBefore (B '#') y ≠ [B '*'] := by
          intro e
          have := congrArg List.length e
          simp at this
          omega
        rw [if_neg hstar, getScheme_found _ _ hs hne] at hp
        simp only at hp
        obtain ⟨r, hr⟩ := splitQuery_slashes (cutBefore (B '#') y)
        rw [hr, SchemeWF_ToLower _ hs, parseHier_authority _ _ (Or.inl hne)] at hp
        cases ha : parseAuthority (cutBefore (B '/') r) with
        | none => rw [ha] at hp; simp at hp
        | some uh =>
          obtain ⟨user, host⟩ := uh
          rw [ha] at hp
          simp only at hp
          obtain ⟨path, _, rfl⟩ := setPath_some _ _ _ hp
          exact ⟨rfl, rfl, rfl⟩
    split at h
    · simp only [Option.some.injEq] at h
      subst h; exact hW
    · unfold setFragment at h
      cases hf : unescape (cutAfter (B '#') (sch ++ B ':' :: B '/' :: B '/' :: y))
          encodeFragment with
      | none => rw [hf] at h; simp at h
      | some frag =>
        rw [hf] at h
        simp only [Option.some.injEq] at h
        subst h
        exact hW

/-- The canonical form of a URL with a scheme followed by `//` starts the same way. -/
theorem filterQueryParams_scheme_slashes (sch y : Str) (hs : SchemeWF sch) (hne : sch ≠ [])
    (h : filterQueryParams (sch ++ B ':' :: B '/' :: B '/' :: y) ≠ []) :
    ∃ z, filterQueryParams (sch ++ B ':' :: B '/' :: B '/' :: y) =
      sch ++ B ':' :: B '/' :: B '/' :: z := by
  rw [filterQueryParams_eq] at h ⊢
  cases hp : Parse (sch ++ B ':' :: B '/' :: B '/' :: y) with
  | none => rw [hp] at h; exact absurd rfl h
  | some U =>
    simp only
    obtain ⟨h1, h2, h3⟩ := Parse_scheme_slashes sch y U hs hne hp
    have hwf := Parse_wf _ U hp
    have hsne : U.Scheme ≠ [] := by rw [h1]; exact hne
    have hbody := canon_body U hwf
    rw [if_neg (fun hn => hn h2), if_pos ⟨Or.inl hsne, fun hh => by
      rw [h3] at hh; exact Bool.noConfusion hh.1⟩] at hbody
    have hss : schemeString (canon U) = sch ++ [B ':'] := by
      show (if U.Scheme ≠ [] then U.Scheme ++ [B ':'] else []) = _
      rw [if_pos hsne, h1]
    refine ⟨authorityText U.User U.Host ++ (canon U).EscapedPath ++ (canon U).queryString ++
      (canon U).fragmentString, ?_⟩
    rw [String_eq, hss, hbody]
    simp [List.append_assoc]

theorem SchemeWF_http : SchemeWF (str "http") :=
  ⟨by decide, by
    intro c t h
    have : c = B 'h' := (List.cons.inj h).1.symm
    subst this; decide⟩

theorem SchemeWF_https : SchemeWF (str "https") :=
  ⟨by decide, by
    intro c t h
    have : c = B 'h' := (List.cons.inj h).1.symm
    subst this; decide⟩

theorem HasPrefix_append (p z : Str) : HasPrefix (p ++ z) p = true := by
  rw [HasPrefix_iff]; exact ⟨z, rfl⟩

/-- On a URL that starts with `http://` or `https://`, `withBaseURL` is
`filterQueryParams`, and a non-empty result starts the same way. -/
theorem withBaseURL_absolute (sch y : Str) (hsch : sch = str "http" ∨ sch = str "https") :
    withBaseURL (sch ++ B ':' :: B '/' :: B '/' :: y) =
      filterQueryParams (sch ++ B ':' :: B '/' :: B '/' :: y) ∧
    (filterQueryParams (sch ++ B ':' :: B '/' :: B '/' :: y) ≠ [] →
      ∃ z, filterQueryParams (sch ++ B ':' :: B '/' :: B '/' :: y) =
        sch ++ B ':' :: B '/' :: B '/' :: z) := by
  constructor
  · unfold withBaseURL
    rw [if_pos]
    rcases hsch with rfl | rfl
    · have : HasPrefix (str "http" ++ B ':' :: B '/' :: B '/' :: y) (str "http://") = true :=
        HasPrefix_append (str "http://") y
      simp [this]
    · have : HasPrefix (str "https" ++ B ':' :: B '/' :: B '/' :: y) (str "https://") = true :=
        HasPrefix_append (str "https://") y
      simp [this]
  · intro h
    rcases hsch with rfl | rfl
    · exact filterQueryParams_scheme_slashes _ y SchemeWF_http (by decide) h
    · exact filterQueryParams_scheme_slashes _ y SchemeWF_https (by decide) h

/-- What `withBaseURL` computes: `filterQueryParams` of a URL that starts with `http://`
or `https://`. -/
theorem withBaseURL_eq (href : Str) :
    ∃ sch y, (sch = str "http" ∨ sch = str "https") ∧
      withBaseURL href = filterQueryParams (sch ++ B ':' :: B '/' :: B '/' :: y) := by
  by_cases h1 : HasPrefix href (str "http://") = true
  · rw [HasPrefix_iff] at h1
    obtain ⟨y, rfl⟩ := h1
    exact ⟨str "http", y, Or.inl rfl, (withBaseURL_absolute (str "http") y (Or.inl rfl)).1⟩
  · by_cases h2 : HasPrefix href (str "https://") = true
    · rw [HasPrefix_iff] at h2
      obtain ⟨y, rfl⟩ := h2
      exact ⟨str "https", y, Or.inr rfl, (withBaseURL_absolute (str "https") y (Or.inr rfl)).1⟩
    · refine ⟨str "https",
        str "amazon.com" ++ (if !HasPrefix href [B '/'] then B '/' :: href else href),
        Or.inr rfl, ?_⟩
      unfold withBaseURL
      rw [if_neg (by simp [h1, h2])]
      rfl

/-- Calling `withBaseURL` on its own output gives the output again, when the output parses. -/
theorem withBaseURL_idem (u : Str) (h1 : withBaseURL u ≠ [])
    (h2 : withBaseURL (withBaseURL u) ≠ []) :
    withBaseURL (withBaseURL u) = withBaseURL u := by
  obtain ⟨sch, y, hsch, he⟩ := withBaseURL_eq u
  rw [he] at h1 h2 ⊢
  obtain ⟨z, hz⟩ := (withBaseURL_absolute sch y hsch).2 h1
  have hw : withBaseURL (filterQueryParams (sch ++ B ':' :: B '/' :: B '/' :: y)) =
      filterQueryParams (filterQueryParams (sch ++ B ':' :: B '/' :: B '/' :: y)) := by
    conv_lhs => rw [hz]
    conv_rhs => rw [hz]
    exact (withBaseURL_absolute sch z hsch).1
  rw [hw] at h2 ⊢
  exact filterQueryParams_idem _ h1 h2

end Crawler

namespace Crawler
open GoStrings Url Url.Encoding

/-- C1 (as stated, refuted): on the malformed input `%zz` the URL does not parse, so
`filterQueryParams` and `withBaseURL` return the empty string; canonicalising the empty
string gives `/` and `https://amazon.com/`, so neither function is idempotent there. -/
theorem canonicalization_not_idempotent_on_malformed :
    filterQueryParams (str "%zz") = [] ∧
    filterQueryParams (filterQueryParams (str "%zz")) = str "/" ∧
    filterQueryParams (filterQueryParams (str "%zz")) ≠ filterQueryParams (str "%zz") ∧
    withBaseURL (str "%zz") = [] ∧
    withBaseURL (withBaseURL (str "%zz")) = str "https://amazon.com/" ∧
    withBaseURL (withBaseURL (str "%zz")) ≠ withBaseURL (str "%zz") := by
  decide!

/-- A URL whose IPv6 zone holds a raw non-ASCII byte parses, but its canonical form
escapes that byte and does not parse again: the second canonicalisation is empty. -/
theorem canonical_form_with_zone_does_not_reparse :
    filterQueryParams (str "http://[::1%25" ++ [195, 169] ++ str "]/") =
      str "http://[::1%25%C3%A9]/" ∧
    filterQueryParams (filterQueryParams (str "http://[::1%25" ++ [195, 169] ++ str "]/")) = [] := by
  decide!

/-- C1 (amended): for every input whose canonical form is not empty (the input parses)
and parses again, canonicalising twice gives the same as canonicalising once, for
`filterQueryParams` and for `withBaseURL`. -/
theorem canonicalization_idempotent_when_reparsable (u : Str) :
    (filterQueryParams u ≠ [] → filterQueryParams (filterQueryParams u) ≠ [] →
      filterQueryParams (filterQueryParams u) = filterQueryParams u) ∧
    (withBaseURL u ≠ [] → withBaseURL (withBaseURL u) ≠ [] →
      withBaseURL (withBaseURL u) = withBaseURL u) :=
  ⟨filterQueryParams_idem u, withBaseURL_idem u⟩

theorem canonicalization_idempotent_when_reparsable_witness :
    filterQueryParams (str "https://amazon.com/b/ref=SHCC/?node=23528055011&junk=1") ≠ [] ∧
    filterQueryParams (filterQueryParams
      (str "https://amazon.com/b/ref=SHCC/?node=23528055011&junk=1")) =
      filterQueryParams (str "https://amazon.com/b/ref=SHCC/?node=23528055011&junk=1") ∧
    withBaseURL (withBaseURL (str "/s/ref=nb_sb_noss?k=lego&crid=1")) =
      withBaseURL (str "/s/ref=nb_sb_noss?k=lego&crid=1") :=
  ⟨by decide!,
   (canonicalization_idempotent_when_reparsable
      (str "https://amazon.com/b/ref=SHCC/?node=23528055011&junk=1")).1
      (by decide!) (by decide!),
   (canonicalization_idempotent_when_reparsable (str "/s/ref=nb_sb_noss?k=lego&crid=1")).2
      (by decide!) (by decide!)⟩

end Crawler

namespace Storage
open Status

theorem leasable_iff (now : Int) (r : Row) : leasable now r = true ↔ leasePredicate now r := by
  unfold leasable leasePredicate backoff
  cases hs : r.started_at <;> cases hf : r.failed_at <;> cases hst : r.status <;>
    simp [and_comm]

theorem minById_mem : ∀ (l : List Row) (m : Row), minById l = some m →
    m ∈ l ∧ ∀ r ∈ l, m.id ≤ r.id
  | [], m, h => by simp [minById] at h
  | r :: rs, m, h => by
    unfold minById at h
    cases hrs : minById rs with
    | none =>
      rw [hrs] at h
      simp only [Option.some.injEq] at h
      subst h
      have : rs = [] := by
        cases rs with
        | nil => rfl
        | cons a as =>
          unfold minById at hrs
          cases h2 : minById as <;> rw [h2] at hrs <;> simp at hrs
          split at hrs <;> simp at hrs
      subst this
      simp
    | some m' =>
      rw [hrs] at h
      obtain ⟨hm', hle⟩ := minById_mem rs m' hrs
      by_cases hc : r.id ≤ m'.id
      · simp only [hc, if_true, Option.some.injEq] at h
        subst h
        refine ⟨List.mem_cons_self _ _, ?_⟩
        intro x hx
        rcases List.mem_cons.1 hx with rfl | hx
        · exact le_refl _
        · exact le_trans hc (hle x hx)
      · simp only [hc, if_false, Option.some.injEq] at h
        subst h
        refine ⟨List.mem_cons_of_mem _ hm', ?_⟩
        intro x hx
        rcases List.mem_cons.1 hx with rfl | hx
        · omega
        · exact hle x hx

theorem minById_eq_none : ∀ (l : List Row), minById l = none → l = []
  | [], _ => rfl
  | r :: rs, h => by
    unfold minById at h
    cases hrs : minById rs <;> rw [hrs] at h <;> simp at h
    split at h <;> simp at h

theorem next_url_some (t : Table) (now : Int) (u : Str) (h : next_url t now = some u) :
    ∃ r ∈ t.rows, leasable now r = true ∧ r.url = u ∧
      ∀ r' ∈ t.rows, leasable now r' = true → r.id ≤ r'.id := by
  unfold next_url at h
  cases hm : minById (t.rows.filter (leasable now)) with
  | none => rw [hm] at h; simp at h
  | some m =>
    rw [hm] at h
    simp only [Option.map_some', Option.some.injEq] at h
    obtain ⟨hmem, hle⟩ := minById_mem _ _ hm
    rw [List.mem_filter] at hmem
    refine ⟨m, hmem.1, hmem.2, h, ?_⟩
    intro r' hr' hl
    exact hle r' (List.mem_filter.2 ⟨hr', hl⟩)

theorem next_url_none (t : Table) (now : Int) (h : next_url t now = none) :
    ∀ r ∈ t.rows, leasable now r = false := by
  unfold next_url at h
  simp only [Option.map_eq_none'] at h
  have := minById_eq_none _ h
  intro r hr
  by_contra hc
  have : r ∈ t.rows.filter (leasable now) := List.mem_filter.2 ⟨hr, by simpa using hc⟩
  simp_all

theorem next_url_isSome (t : Table) (now : Int) (r : Row) (hr : r ∈ t.rows)
    (hl : leasable now r = true) : ∃ u, next_url t now = some u := by
  cases h : next_url t now with
  | some u => exact ⟨u, rfl⟩
  | none => have := next_url_none t now h r hr; simp_all

theorem row_unique (rows : List Row) (h : (rows.map Row.url).Nodup) (a b : Row)
    (ha : a ∈ rows) (hb : b ∈ rows) (hab : a.url = b.url) : a = b :=
  List.inj_on_of_nodup_map h ha hb hab

end Storage

namespace Storage
open Status

theorem insertURL_spec (now : Int) (t : Table) (url : Str) :
    ∃ new : List Row, (insertURL now t url).rows = t.rows ++ new ∧
      (∀ r ∈ new, r.status = Queued ∧ r.retry_count = 0 ∧ r.url = url) ∧
      (new = [] ↔ url ∈ t.rows.map Row.url) ∧ new.length ≤ 1 := by
  unfold insertURL
  by_cases h : url ∈ t.rows.map Row.url
  · exact ⟨[], by simp [h], by simp, by simp [h], by simp⟩
  · refine ⟨[newRow (t.seq + 1) url now], by simp [h], ?_, by simp [h], by simp⟩
    intro r hr
    simp only [List.mem_singleton] at hr
    subst hr
    simp [newRow]

theorem foldl_insertURL_spec (now : Int) : ∀ (urls : List Str) (t : Table),
    (t.rows.map Row.url).Nodup →
    ∃ new : List Row, (urls.foldl (insertURL now) t).rows = t.rows ++ new ∧
      ((t.rows ++ new).map Row.url).Nodup ∧
      (∀ r ∈ new, r.status = Queued ∧ r.retry_count = 0) ∧
      (∀ u, u ∈ new.map Row.url ↔ u ∈ urls ∧ u ∉ t.rows.map Row.url)
  | [], t, h => ⟨[], by simp, by simpa using h, by simp, by simp⟩
  | url :: urls, t, h => by
    obtain ⟨n1, h1, h1p, h1e, h1l⟩ := insertURL_spec now t url
    have hnd : ((insertURL now t url).rows.map Row.url).Nodup := by
      rw [h1]
      by_cases hm : url ∈ t.rows.map Row.url
      · have : n1 = [] := h1e.2 hm
        subst this; simpa using h
      · have hne : n1 ≠ [] := fun hh => hm (h1e.1 hh)
        obtain ⟨r, rfl⟩ : ∃ r, n1 = [r] := by
          match n1, hne, h1l with
          | [r], _, _ => exact ⟨r, rfl⟩
          | _ :: _ :: _, _, hl => simp at hl
        have hr := (h1p r (List.mem_singleton_self r)).2.2
        rw [List.map_append, List.nodup_append]
        refine ⟨h, by simp, ?_⟩
        intro a ha hb
        simp only [List.map_cons, List.map_nil, List.mem_singleton] at hb
        rw [hb, hr] at ha
        exact hm ha
    obtain ⟨n2, h2, h2nd, h2p, h2m⟩ := foldl_insertURL_spec now urls (insertURL now t url) hnd
    refine ⟨n1 ++ n2, ?_, ?_, ?_, ?_⟩
    · rw [List.foldl_cons, h2, h1, List.append_assoc]
    · rw [← List.append_assoc, ← h1]; exact h2nd
    · intro r hr
      rcases List.mem_append.1 hr with hr | hr
      · exact ⟨(h1p r hr).1, (h1p r hr).2.1⟩
      · exact h2p r hr
    · intro u
      rw [List.map_append, List.mem_append, h2m u, h1, List.map_append, List.mem_append]
      constructor
      · rintro (hu | ⟨hu, hnot⟩)
        · obtain ⟨r, hr, rfl⟩ := List.mem_map.1 hu
          have hru := (h1p r hr).2.2
          refine ⟨by rw [hru]; exact List.mem_cons_self _ _, ?_⟩
          intro hin
          rw [hru] at hin
          have : n1 = [] := h1e.2 hin
          subst this
          simp at hr
        · exact ⟨List.mem_cons_of_mem _ hu, fun hh => hnot (Or.inl hh)⟩
      · rintro ⟨hu, hnot⟩
        by_cases hn1 : u ∈ n1.map Row.url
        · exact Or.inl hn1
        · right
          refine ⟨?_, fun hh => hh.elim hnot hn1⟩
          rcases List.mem_cons.1 hu with rfl | hu
          · exfalso
            have hne : n1 ≠ [] := fun hh => hnot (h1e.1 hh)
            obtain ⟨r, hr⟩ := List.exists_mem_of_ne_nil n1 hne
            exact hn1 (List.mem_map.2 ⟨r, hr, (h1p r hr).2.2⟩)
          · exact hu

theorem AddURLs_spec (t : Table) (urls : List Str) (now : Int)
    (h : (t.rows.map Row.url).Nodup) :
    (AddURLs t urls now).2 = none ∧
    (∃ new : List Row,
      (AddURLs t urls now).1.rows = t.rows ++ new ∧
      ((AddURLs t urls now).1.rows.map Row.url).Nodup ∧
      (new.map Row.url).Nodup ∧
      (∀ r ∈ new, r.status = Queued ∧ r.retry_count = 0) ∧
      (∀ u, u ∈ new.map Row.url ↔ u ∈ urls ∧ u ∉ t.rows.map Row.url)) ∧
    (urls = [] → (AddURLs t urls now).1 = t) := by
  refine ⟨?_, ?_, ?_⟩
  · unfold AddURLs; split <;> rfl
  · by_cases hl : urls.length = 0
    · have : urls = [] := List.length_eq_zero.1 hl
      subst this
      exact ⟨[], by simp [AddURLs], by simpa [AddURLs] using h, by simp, by simp, by simp⟩
    · obtain ⟨new, h1, h2, h3, h4⟩ := foldl_insertURL_spec now urls t h
      refine ⟨new, by simp [AddURLs, hl, h1], by simp only [AddURLs, hl, if_false, h1]; exact h2,
        ?_, h3, h4⟩
      rw [List.map_append] at h2
      exact (List.nodup_append.1 h2).2.1
  · intro he; subst he; simp [AddURLs]


end Storage

namespace Storage
open Status

theorem map_lease_url (now : Int) (u : Str) (rows : List Row) :
    (rows.map (lease now u)).map Row.url = rows.map Row.url := by
  rw [List.map_map]
  apply List.map_congr_left
  intro r _
  simp only [Function.comp, lease]
  split <;> rfl

theorem GetNextURL_urls (t : Table) (now : Int) :
    (GetNextURL t now).1.rows.map Row.url = t.rows.map Row.url := by
  unfold GetNextURL
  cases h : next_url t now with
  | none => rfl
  | some u => exact map_lease_url now u t.rows

theorem MarkDone_urls (t : Table) (url : Str) (now : Int) :
    (MarkDone t url now).1.rows.map Row.url = t.rows.map Row.url := by
  simp only [MarkDone, List.map_map]
  apply List.map_congr_left
  intro r _
  simp only [Function.comp]
  split <;> rfl

theorem MarkFailed_urls (t : Table) (url msg : Str) (now : Int) :
    (MarkFailed t url msg now).1.rows.map Row.url = t.rows.map Row.url := by
  unfold MarkFailed
  split
  · rfl
  · simp only [List.map_map]
    apply List.map_congr_left
    intro r _
    simp only [Function.comp]
    split <;> rfl

theorem step_nodup (t : Table) (op : Op) (h : (t.rows.map Row.url).Nodup) :
    ((step t op).rows.map Row.url).Nodup := by
  cases op with
  | addURLs urls now =>
    obtain ⟨_, ⟨new, _, h2, _⟩, _⟩ := AddURLs_spec t urls now h
    exact h2
  | getNextURL now => simp only [step]; rw [GetNextURL_urls]; exact h
  | markDone url now => simp only [step]; rw [MarkDone_urls]; exact h
  | markFailed url msg now => simp only [step]; rw [MarkFailed_urls]; exact h

theorem run_nodup : ∀ (ops : List Op) (t : Table), (t.rows.map Row.url).Nodup →
    ((run t ops).rows.map Row.url).Nodup
  | [], _, h => h
  | op :: ops, t, h => by
    simp only [run, List.foldl_cons]
    exact run_nodup ops (step t op) (step_nodup t op h)

theorem not_returns_of_not_leasable (t : Table) (now : Int) (r : Row)
    (hu : (t.rows.map Row.url).Nodup) (hr : r ∈ t.rows) (hl : leasable now r = false) :
    ¬ returnsURL (GetNextURL t now) r.url := by
  intro ⟨herr, hurl⟩
  unfold GetNextURL at herr hurl
  cases h : next_url t now with
  | none => rw [h] at herr; simp at herr
  | some u =>
    rw [h] at hurl
    simp only at hurl
    obtain ⟨r', hr', hl', hu', _⟩ := next_url_some t now u h
    have : r' = r := row_unique t.rows hu r' r hr' hr (by rw [hu', hurl])
    subst this
    rw [hl] at hl'
    exact Bool.false_ne_true hl'

theorem lease_other (now : Int) (t : Table) (u : Str) (r : Row)
    (hu : (t.rows.map Row.url).Nodup) (hr : r ∈ t.rows) (hl : leasable now r = false)
    (h : next_url t now = some u) : lease now u r = r := by
  unfold lease
  split
  · next heq =>
    exfalso
    obtain ⟨r', hr', hl', hu', _⟩ := next_url_some t now u h
    have : r' = r := row_unique t.rows hu r' r hr' hr (by rw [hu', heq])
    subst this
    rw [hl] at hl'
    exact Bool.false_ne_true hl'
  · rfl

theorem step_keeps_row (u : Str) (r : Row) (t : Table) (op : Op)
    (hurl : r.url = u) (hu : (t.rows.map Row.url).Nodup) (hr : r ∈ t.rows)
    (hc : op.completes u = false) (hl : leasable op.time r = false) :
    r ∈ (step t op).rows := by
  cases op with
  | addURLs urls now =>
    obtain ⟨_, ⟨new, h1, _⟩, _⟩ := AddURLs_spec t urls now hu
    simp only [step]
    rw [h1]
    exact List.mem_append_left _ hr
  | getNextURL now =>
    simp only [step, GetNextURL]
    cases h : next_url t now with
    | none => exact hr
    | some u' =>
      simp only
      have := lease_other now t u' r hu hr hl h
      exact List.mem_map.2 ⟨r, hr, this⟩
  | markDone url now =>
    simp only [Op.completes, decide_eq_false_iff_not] at hc
    simp only [step, MarkDone]
    refine List.mem_map.2 ⟨r, hr, ?_⟩
    rw [if_neg]
    rw [hurl]; exact fun h => hc h.symm
  | markFailed url msg now =>
    simp only [Op.completes, decide_eq_false_iff_not] at hc
    simp only [step, MarkFailed]
    split
    · exact hr
    · refine List.mem_map.2 ⟨r, hr, ?_⟩
      rw [if_neg]
      rw [hurl]; exact fun h => hc h.symm

theorem run_keeps_row (u : Str) (r : Row) (hurl : r.url = u) :
    ∀ (ops : List Op) (t : Table), (t.rows.map Row.url).Nodup → r ∈ t.rows →
      (∀ op ∈ ops, op.completes u = false ∧ leasable op.time r = false) →
      r ∈ (run t ops).rows
  | [], _, _, hr, _ => hr
  | op :: ops, t, hu, hr, h => by
    simp only [run, List.foldl_cons]
    have h1 := h op (List.mem_cons_self _ _)
    exact run_keeps_row u r hurl ops (step t op) (step_nodup t op hu)
      (step_keeps_row u r t op hurl hu hr h1.1 h1.2)
      (fun op' hop' => h op' (List.mem_cons_of_mem _ hop'))

theorem returns_leased_row (t : Table) (now : Int) (u : Str)
    (h : returnsURL (GetNextURL t now) u) :
    ∃ r ∈ t.rows, r.url = u ∧ leasable now r = true ∧
      (∀ r' ∈ t.rows, leasable now r' = true → r.id ≤ r'.id) ∧
      next_url t now = some u ∧
      ({ r with status := Processing, started_at := some now } : Row) ∈ (GetNextURL t now).1.rows := by
  obtain ⟨herr, hurl⟩ := h
  unfold GetNextURL at herr hurl ⊢
  cases hn : next_url t now with
  | none => rw [hn] at herr; simp at herr
  | some u' =>
    rw [hn] at hurl
    simp only at hurl
    subst hurl
    obtain ⟨r, hr, hl, hru, hmin⟩ := next_url_some t now u' hn
    refine ⟨r, hr, hru, hl, hmin, rfl, ?_⟩
    simp only
    refine List.mem_map.2 ⟨r, hr, ?_⟩
    simp [lease, hru]

end Storage

namespace Storage
open Status

theorem empty_capInv : CapInv Table.empty := by
  simp [CapInv, Table.empty]

theorem leasable_retry_lt (t : Table) (now : Int) (r : Row) (h : CapInv t) (hr : r ∈ t.rows)
    (hl : leasable now r = true) : r.retry_count < 3 := by
  rcases (leasable_iff now r).1 hl with hq | ⟨hp, _⟩ | ⟨_, hlt, _⟩
  · exact h.2 r hr (Or.inl hq)
  · exact h.2 r hr (Or.inr hp)
  · exact hlt

theorem step_capInv (t : Table) (op : Op) (h : CapInv t) : CapInv (step t op) := by
  refine ⟨step_nodup t op h.1, ?_⟩
  cases op with
  | addURLs urls now =>
    obtain ⟨_, ⟨new, h1, _, _, h4, _⟩, _⟩ := AddURLs_spec t urls now h.1
    simp only [step]
    rw [h1]
    intro r hr hs
    rcases List.mem_append.1 hr with hr | hr
    · exact h.2 r hr hs
    · rw [(h4 r hr).2]; decide
  | getNextURL now =>
    simp only [step, GetNextURL]
    cases hn : next_url t now with
    | none => exact h.2
    | some u =>
      simp only
      intro r hr hs
      obtain ⟨x, hx, rfl⟩ := List.mem_map.1 hr
      unfold lease at hs ⊢
      by_cases hxu : x.url = u
      · simp only [hxu, if_true]
        obtain ⟨r', hr', hl', hu', _⟩ := next_url_some t now u hn
        have : r' = x := row_unique t.rows h.1 r' x hr' hx (by rw [hu', hxu])
        subst this
        exact leasable_retry_lt t now r' h hr' hl'
      · simp only [hxu, if_false] at hs ⊢
        exact h.2 x hx hs
  | markDone url now =>
    simp only [step, MarkDone]
    intro r hr hs
    obtain ⟨x, hx, rfl⟩ := List.mem_map.1 hr
    by_cases hxu : x.url = url
    · simp [hxu] at hs
    · simp only [hxu, if_false] at hs ⊢
      exact h.2 x hx hs
  | markFailed url msg now =>
    simp only [step, MarkFailed]
    split
    · exact h.2
    · intro r hr hs
      obtain ⟨x, hx, rfl⟩ := List.mem_map.1 hr
      by_cases hxu : x.url = url
      · simp [hxu, failRow] at hs
      · simp only [hxu, if_false] at hs ⊢
        exact h.2 x hx hs

theorem run_capInv : ∀ (ops : List Op) (t : Table), CapInv t → CapInv (run t ops)
  | [], _, h => h
  | op :: ops, t, h => by
    simp only [run, List.foldl_cons]
    exact run_capInv ops (step t op) (step_capInv t op h)

theorem reachable_capInv (t : Table) (h : Reachable t) : CapInv t := by
  obtain ⟨ops, rfl⟩ := h
  exact run_capInv ops _ empty_capInv

theorem step_keeps_capped (u : Str) (t : Table) (op : Op)
    (h : ∃ r ∈ t.rows, r.url = u ∧ 3 ≤ r.retry_count) :
    ∃ r ∈ (step t op).rows, r.url = u ∧ 3 ≤ r.retry_count := by
  obtain ⟨r, hr, hru, hrc⟩ := h
  cases op with
  | addURLs urls now =>
    simp only [step, AddURLs]
    split
    · exact ⟨r, hr, hru, hrc⟩
    · have : ∀ (urls : List Str) (t : Table), r ∈ t.rows →
          r ∈ (urls.foldl (insertURL now) t).rows := by
        intro urls
        induction urls with
        | nil => intro t h; exact h
        | cons a as ih =>
          intro t h
          simp only [List.foldl_cons]
          apply ih
          unfold insertURL
          split
          · exact h
          · exact List.mem_append_left _ h
      exact ⟨r, this urls t hr, hru, hrc⟩
  | getNextURL now =>
    simp only [step, GetNextURL]
    cases hn : next_url t now with
    | none => exact ⟨r, hr, hru, hrc⟩
    | some u' =>
      refine ⟨lease now u' r, List.mem_map.2 ⟨r, hr, rfl⟩, ?_, ?_⟩ <;>
        (unfold lease; split <;> simp [hru, hrc])
  | markDone url now =>
    simp only [step, MarkDone]
    refine ⟨_, List.mem_map.2 ⟨r, hr, rfl⟩, ?_, ?_⟩ <;> (split <;> simp [hru, hrc])
  | markFailed url msg now =>
    simp only [step, MarkFailed]
    split
    · exact ⟨r, hr, hru, hrc⟩
    · refine ⟨_, List.mem_map.2 ⟨r, hr, rfl⟩, ?_, ?_⟩
      · split <;> simp [failRow, hru]
      · split
        · simp only [failRow]; omega
        · exact hrc

theorem run_keeps_capped (u : Str) : ∀ (ops : List Op) (t : Table),
    (∃ r ∈ t.rows, r.url = u ∧ 3 ≤ r.retry_count) →
    ∃ r ∈ (run t ops).rows, r.url = u ∧ 3 ≤ r.retry_count
  | [], _, h => h
  | op :: ops, t, h => by
    simp only [run, List.foldl_cons]
    exact run_keeps_capped u ops (step t op) (step_keeps_capped u t op h)

theorem run_append (t : Table) (a b : List Op) : run t (a ++ b) = run (run t a) b := by
  simp [run, List.foldl_append]

end Storage

namespace Storage
open Status

/-- C2: on a table with pairwise-distinct URLs, `AddURLs` returns no error, keeps every
existing row as it is (the new table is the old rows followed by new rows), keeps the
URLs pairwise distinct, creates only rows with status queued and retry_count 0, one for
each distinct URL of the list that was absent before and none for the others; on the
empty list the table is unchanged. -/
theorem AddURLs_keeps_urls_unique (t : Table) (urls : List Str) (now : Int)
    (h : (t.rows.map Row.url).Nodup) :
    (AddURLs t urls now).2 = none ∧
    (∃ new : List Row,
      (AddURLs t urls now).1.rows = t.rows ++ new ∧
      ((AddURLs t urls now).1.rows.map Row.url).Nodup ∧
      (new.map Row.url).Nodup ∧
      (∀ r ∈ new, r.status = Queued ∧ r.retry_count = 0) ∧
      (∀ u, u ∈ new.map Row.url ↔ u ∈ urls ∧ u ∉ t.rows.map Row.url)) ∧
    (urls = [] → (AddURLs t urls now).1 = t) :=
  AddURLs_spec t urls now h

end Storage

namespace Storage
open Status

/-- C3: on a table with pairwise-distinct URLs in which some row satisfies the lease
predicate, `GetNextURL` at time `now` returns, without error, the URL of a row with the
smallest id among the rows satisfying the predicate, with status processing; in the new
table exactly that row has status processing and started_at `now`, every other field of
it and every other row are unchanged, and the id sequence is unchanged. -/
theorem GetNextURL_leases_fifo_head (t : Table) (now : Int)
    (hu : (t.rows.map Row.url).Nodup) (hq : ∃ r ∈ t.rows, leasePredicate now r) :
    ∃ r ∈ t.rows, leasePredicate now r ∧
      (∀ r' ∈ t.rows, leasePredicate now r' → r.id ≤ r'.id) ∧
      (GetNextURL t now).2.1 = { URL := r.url, Status := Processing } ∧
      (GetNextURL t now).2.2 = none ∧
      (GetNextURL t now).1.rows =
        t.rows.map (fun x =>
          if x = r then { x with status := Processing, started_at := some now } else x) ∧
      (GetNextURL t now).1.seq = t.seq := by
  obtain ⟨r0, hr0, hp0⟩ := hq
  obtain ⟨u, hn⟩ := next_url_isSome t now r0 hr0 ((leasable_iff now r0).2 hp0)
  obtain ⟨r, hr, hl, hru, hmin⟩ := next_url_some t now u hn
  refine ⟨r, hr, (leasable_iff now r).1 hl, ?_, ?_, ?_, ?_, ?_⟩
  · intro r' hr' hp'
    exact hmin r' hr' ((leasable_iff now r').2 hp')
  · simp [GetNextURL, hn, hru]
  · simp [GetNextURL, hn]
  · simp only [GetNextURL, hn]
    apply List.map_congr_left
    intro x hx
    unfold lease
    by_cases hxr : x = r
    · subst hxr; simp [hru]
    · have : x.url ≠ u := by
        intro hxu
        exact hxr (row_unique t.rows hu x r hx hr (by rw [hxu, hru]))
      simp [hxr, this]
  · simp [GetNextURL, hn]

/-- C4: if `GetNextURL` at time `now` returns `U`, then after any calls made before
`now + 5 min`, none of them `MarkDone` or `MarkFailed` on `U`, a `GetNextURL` at a time
before `now + 5 min` does not return `U`; and on a table whose only row is queued, the
first call returns its URL and a second call within the five minutes returns the empty
`QueuedURL` (URL "") with the error "no queued url available". -/
theorem lease_exclusive_within_ttl (t : Table) (now : Int) (U : Str) (ops : List Op)
    (now' : Int) (hu : (t.rows.map Row.url).Nodup)
    (hret : returnsURL (GetNextURL t now) U)
    (hops : ∀ op ∈ ops, op.completes U = false ∧ op.time < now + 5 * minute)
    (hnow : now' < now + 5 * minute) :
    ¬ returnsURL (GetNextURL (run (GetNextURL t now).1 ops) now') U ∧
    (∀ (r : Row) (seq : Int), r.status = Queued →
      returnsURL (GetNextURL ⟨[r], seq⟩ now) r.url ∧
      (GetNextURL (GetNextURL ⟨[r], seq⟩ now).1 now').2.1 = {} ∧
      (GetNextURL (GetNextURL ⟨[r], seq⟩ now).1 now').2.1.URL = [] ∧
      (GetNextURL (GetNextURL ⟨[r], seq⟩ now).1 now').2.2 =
        some (str "no queued url available")) := by
  constructor
  · obtain ⟨r, hr, hru, _, _, _, hmem⟩ := returns_leased_row t now U hret
    have hu1 : ((GetNextURL t now).1.rows.map Row.url).Nodup := by
      rw [GetNextURL_urls]; exact hu
    have hnl : ∀ τ, τ < now + 5 * minute →
        leasable τ { r with status := Processing, started_at := some now } = false := by
      intro τ hτ
      simp only [leasable, Bool.or_eq_false_iff, Bool.and_eq_false_iff, decide_eq_false_iff_not]
      refine ⟨⟨by simp, Or.inr (by omega)⟩, Or.inl (Or.inl (by simp))⟩
    have hkeep := run_keeps_row U { r with status := Processing, started_at := some now } hru
      ops (GetNextURL t now).1 hu1 hmem
      (fun op hop => ⟨(hops op hop).1, hnl _ (hops op hop).2⟩)
    have := not_returns_of_not_leasable (run (GetNextURL t now).1 ops) now' _
      (run_nodup ops _ hu1) hkeep (hnl now' hnow)
    simpa [hru] using this
  · intro r seq hq
    have h1 : next_url ⟨[r], seq⟩ now = some r.url := by
      simp [next_url, leasable, hq, minById]
    have h2 : next_url ⟨[lease now r.url r], seq⟩ now' = none := by
      have : leasable now' (lease now r.url r) = false := by
        simp only [lease, if_true, leasable, Bool.or_eq_false_iff, Bool.and_eq_false_iff,
          decide_eq_false_iff_not]
        refine ⟨⟨by simp, Or.inr (by omega)⟩, Or.inl (Or.inl (by simp))⟩
      simp [next_url, this, minById]
    refine ⟨by simp [returnsURL, GetNextURL, h1], ?_, ?_, ?_⟩ <;>
      simp [GetNextURL, h1, h2]

/-- C6: on a table with pairwise-distinct URLs and ids, a processing row whose started_at
is more than five minutes before `now` is returned by `GetNextURL` at `now` when no other
row satisfying the lease predicate has a lower id; a processing row whose started_at
lies within the last five minutes is not returned. -/
theorem stale_lease_reclaimed (t : Table) (now : Int) (r : Row) (s : Int)
    (hu : (t.rows.map Row.url).Nodup) (hid : (t.rows.map Row.id).Nodup)
    (hr : r ∈ t.rows) (hst : r.status = Processing) (hs : r.started_at = some s) :
    (s < now - 5 * minute →
      (∀ r' ∈ t.rows, r' ≠ r → leasePredicate now r' → ¬ r'.id < r.id) →
      returnsURL (GetNextURL t now) r.url) ∧
    (now - 5 * minute ≤ s → ¬ returnsURL (GetNextURL t now) r.url) := by
  constructor
  · intro hstale hmin
    have hl : leasable now r = true := by
      rw [leasable_iff]; exact Or.inr (Or.inl ⟨hst, s, hs, hstale⟩)
    obtain ⟨u, hn⟩ := next_url_isSome t now r hr hl
    obtain ⟨r', hr', hl', hru', hmin'⟩ := next_url_some t now u hn
    have hle := hmin' r hr hl
    have : r' = r := by
      by_contra hne
      have h1 := hmin r' hr' hne ((leasable_iff now r').1 hl')
      have : r'.id = r.id := by omega
      exact hne (List.inj_on_of_nodup_map hid hr' hr this)
    subst this
    simp [returnsURL, GetNextURL, hn, hru']
  · intro hfresh
    apply not_returns_of_not_leasable t now r hu hr
    simp only [leasable, hst, hs, Bool.or_eq_false_iff, Bool.and_eq_false_iff,
      decide_eq_false_iff_not]
    exact ⟨⟨by simp, Or.inr (by omega)⟩, Or.inl (Or.inl (by simp))⟩

end Storage

namespace Storage
open Status

/-- C7: when `MarkFailed` at time `T` puts the row of `u` into status failed and leaves
retry_count `r` with `1 ≤ r < 3`, then after any calls made before
`T + 5 min * 2^(r-1)`, none of them `MarkDone` or `MarkFailed` on `u`, no `GetNextURL`
before that time returns `u`, and from that time on the row satisfies the lease
predicate; for `r = 1` on a table holding only that row, `GetNextURL` at `T + 1 min`
returns the empty `QueuedURL` with an error and at `T + 5 min` returns `u`. -/
theorem retry_backoff (t : Table) (u msg : Str) (T : Int) (r0 : Row)
    (hu : (t.rows.map Row.url).Nodup) (hr0 : r0 ∈ t.rows) (hurl : r0.url = u)
    (hrc : 0 ≤ r0.retry_count ∧ r0.retry_count < 2) :
    ∃ row ∈ (MarkFailed t u msg T).1.rows,
      row.url = u ∧ row.status = Failed ∧ row.failed_at = some T ∧
      row.retry_count = r0.retry_count + 1 ∧ 1 ≤ row.retry_count ∧ row.retry_count < 3 ∧
      (∀ (ops : List Op) (now : Int),
        (∀ op ∈ ops, op.completes u = false ∧
          op.time < T + 5 * minute * 2 ^ (row.retry_count - 1).toNat) →
        now < T + 5 * minute * 2 ^ (row.retry_count - 1).toNat →
        ¬ returnsURL (GetNextURL (run (MarkFailed t u msg T).1 ops) now) u) ∧
      (∀ now : Int, T + 5 * minute * 2 ^ (row.retry_count - 1).toNat ≤ now →
        leasePredicate now row) ∧
      (t.rows = [r0] → r0.retry_count = 0 →
        (GetNextURL (MarkFailed t u msg T).1 (T + minute)).2.1 = {} ∧
        (GetNextURL (MarkFailed t u msg T).1 (T + minute)).2.2 ≠ none ∧
        returnsURL (GetNextURL (MarkFailed t u msg T).1 (T + 5 * minute)) u) := by
  have hguard : t.rows.any
      (fun r => decide (r.url = u) && decide (r.retry_count + 1 > maxInt)) = false := by
    rw [List.any_eq_false]
    intro x hx
    simp only [Bool.and_eq_true, decide_eq_true_eq, not_and]
    intro hxu
    have : x = r0 := row_unique t.rows hu x r0 hx hr0 (by rw [hxu, hurl])
    subst this
    simp only [maxInt]; omega
  have hrows : (MarkFailed t u msg T).1.rows =
      t.rows.map (fun r => if r.url = u then failRow msg T r else r) := by
    simp [MarkFailed, hguard]
  have hexp : max (r0.retry_count + 1 - 1) 0 = r0.retry_count + 1 - 1 := by
    apply max_eq_left; omega
  have hnl : ∀ τ, τ < T + 5 * minute * 2 ^ (r0.retry_count + 1 - 1).toNat →
      leasable τ (failRow msg T r0) = false := by
    intro τ hτ
    simp only [leasable, failRow, backoff, hexp, Bool.or_eq_false_iff, Bool.and_eq_false_iff,
      decide_eq_false_iff_not]
    exact ⟨⟨by simp, Or.inl (by simp)⟩, Or.inl (Or.inr (by omega))⟩
  have hu1 : ((MarkFailed t u msg T).1.rows.map Row.url).Nodup := by
    rw [MarkFailed_urls]; exact hu
  have hmem : failRow msg T r0 ∈ (MarkFailed t u msg T).1.rows := by
    rw [hrows]
    exact List.mem_map.2 ⟨r0, hr0, by simp [hurl]⟩
  have hfu : (failRow msg T r0).url = u := hurl
  refine ⟨failRow msg T r0, hmem, hurl, rfl, rfl, rfl, by simp only [failRow]; omega,
    by simp only [failRow]; omega, ?_, ?_, ?_⟩
  · intro ops now hops hnow
    have hkeep := run_keeps_row u _ hfu ops (MarkFailed t u msg T).1 hu1 hmem
      (fun op hop => ⟨(hops op hop).1, hnl _ (hops op hop).2⟩)
    have := not_returns_of_not_leasable (run (MarkFailed t u msg T).1 ops) now _
      (run_nodup ops _ hu1) hkeep (hnl now hnow)
    rw [hfu] at this
    exact this
  · intro now hnow
    refine Or.inr (Or.inr ⟨rfl, by simp only [failRow]; omega, T, rfl, ?_⟩)
    simp only [failRow, hexp] at hnow ⊢
    exact hnow
  · intro hsingle hzero
    have e1 : (MarkFailed t u msg T).1 = ⟨[failRow msg T r0], t.seq⟩ := by
      simp [MarkFailed, hsingle, hurl, maxInt, hzero]
    rw [e1]
    have hb : backoff (r0.retry_count + 1) = 5 * minute := by
      simp [backoff, hzero]
    have h1 : next_url ⟨[failRow msg T r0], t.seq⟩ (T + minute) = none := by
      simp [next_url, leasable, failRow, hb, minute, minById]
    have hl2 : leasable (T + 5 * minute) (failRow msg T r0) = true := by
      have hb1 : backoff 1 = 5 * minute := by simp [backoff]
      simp [leasable, failRow, hb1, hzero]
    have h2 : next_url ⟨[failRow msg T r0], t.seq⟩ (T + 5 * minute) = some u := by
      simp [next_url, List.filter, hl2, minById, hfu]
    refine ⟨by simp [GetNextURL, h1], by simp [GetNextURL, h1], ?_⟩
    simp [returnsURL, GetNextURL, h2]

/-- C8: in a table reached from the empty table by `AddURLs`, `GetNextURL`, `MarkDone`
and `MarkFailed` calls, a row whose retry_count has reached 3 is not returned by
`GetNextURL` at any time, nor after any further sequence of such calls. -/
theorem retry_cap (t : Table) (u : Str) (ops : List Op) (now : Int)
    (hreach : Reachable t) (hrow : ∃ r ∈ t.rows, r.url = u ∧ 3 ≤ r.retry_count) :
    ¬ returnsURL (GetNextURL (run t ops) now) u := by
  have hinv := run_capInv ops t (reachable_capInv t hreach)
  obtain ⟨r, hr, hru, hrc⟩ := run_keeps_capped u ops t hrow
  intro hret
  obtain ⟨r', hr', hru', hl', _⟩ := returns_leased_row _ now u hret
  have : r' = r := row_unique _ hinv.1 r' r hr' hr (by rw [hru', hru])
  subst this
  have := leasable_retry_lt _ now r' hinv hr' hl'
  omega

end Storage

namespace Storage
open Status

theorem AddURLs_keeps_urls_unique_witness :
    (oneQueued.rows.map Row.url).Nodup ∧
    (AddURLs oneQueued [str "/a", str "https://amazon.com/s?k=lego", str "/a"] 7).2 = none ∧
    ((AddURLs oneQueued [str "/a", str "https://amazon.com/s?k=lego", str "/a"] 7).1.rows.map
      Row.url) = [str "https://amazon.com/s?k=lego", str "/a"] :=
  ⟨by decide,
   (AddURLs_keeps_urls_unique oneQueued [str "/a", str "https://amazon.com/s?k=lego", str "/a"] 7
      (by decide)).1,
   by decide⟩

theorem GetNextURL_leases_fifo_head_witness :
    (mixedTable.rows.map Row.url).Nodup ∧
    (∃ r ∈ mixedTable.rows, leasePredicate (5 * minute) r) ∧
    ∃ r ∈ mixedTable.rows, leasePredicate (5 * minute) r ∧
      (∀ r' ∈ mixedTable.rows, leasePredicate (5 * minute) r' → r.id ≤ r'.id) ∧
      (GetNextURL mixedTable (5 * minute)).2.1 = { URL := r.url, Status := Processing } ∧
      (GetNextURL mixedTable (5 * minute)).2.2 = none ∧
      (GetNextURL mixedTable (5 * minute)).1.rows =
        mixedTable.rows.map (fun x =>
          if x = r then { x with status := Processing, started_at := some (5 * minute) }
          else x) ∧
      (GetNextURL mixedTable (5 * minute)).1.seq = mixedTable.seq :=
  ⟨by decide,
   ⟨queuedRow 5 (str "https://amazon.com/s?k=duplo"), by decide, Or.inl rfl⟩,
   GetNextURL_leases_fifo_head mixedTable (5 * minute) (by decide)
     ⟨queuedRow 5 (str "https://amazon.com/s?k=duplo"), by decide, Or.inl rfl⟩⟩

theorem lease_exclusive_within_ttl_witness :
    returnsURL (GetNextURL oneQueued 0) (str "https://amazon.com/s?k=lego") ∧
    ¬ returnsURL
      (GetNextURL (run (GetNextURL oneQueued 0).1
        [.addURLs [str "/a"] 1, .getNextURL 2, .markDone (str "/a") 3]) (4 * minute))
      (str "https://amazon.com/s?k=lego") :=
  ⟨by decide,
   (lease_exclusive_within_ttl oneQueued 0 (str "https://amazon.com/s?k=lego")
      [.addURLs [str "/a"] 1, .getNextURL 2, .markDone (str "/a") 3] (4 * minute)
      (by decide) (by decide) (by decide) (by decide)).1⟩

theorem stale_lease_reclaimed_witness :
    (6 * minute - 5 * minute ≤ 2 * minute →
      ¬ returnsURL (GetNextURL
          ⟨[{ queuedRow 3 (str "/b") with status := Processing, started_at := some (2 * minute) }],
            3⟩ (6 * minute)) (str "/b")) ∧
    returnsURL (GetNextURL
        ⟨[{ queuedRow 3 (str "/b") with status := Processing, started_at := some 0 }], 3⟩
        (6 * minute)) (str "/b") :=
  ⟨(stale_lease_reclaimed
      ⟨[{ queuedRow 3 (str "/b") with status := Processing, started_at := some (2 * minute) }], 3⟩
      (6 * minute)
      { queuedRow 3 (str "/b") with status := Processing, started_at := some (2 * minute) }
      (2 * minute) (by decide) (by decide) (by decide) rfl rfl).2,
   (stale_lease_reclaimed
      ⟨[{ queuedRow 3 (str "/b") with status := Processing, started_at := some 0 }], 3⟩
      (6 * minute)
      { queuedRow 3 (str "/b") with status := Processing, started_at := some 0 }
      0 (by decide) (by decide) (by decide) rfl rfl).1 (by decide)
      (by intro r' hr' hne; simp only [List.mem_singleton] at hr'; exact absurd hr' hne)⟩

theorem retry_backoff_witness :
    (GetNextURL (MarkFailed oneQueued (str "https://amazon.com/s?k=lego") (str "x") 0).1
      (0 + minute)).2.1 = {} ∧
    returnsURL
      (GetNextURL (MarkFailed oneQueued (str "https://amazon.com/s?k=lego") (str "x") 0).1
        (0 + 5 * minute)) (str "https://amazon.com/s?k=lego") := by
  obtain ⟨_, _, _, _, _, _, _, _, _, _, h⟩ :=
    retry_backoff oneQueued (str "https://amazon.com/s?k=lego") (str "x") 0
      (queuedRow 1 (str "https://amazon.com/s?k=lego")) (by decide) (by decide) rfl
      (by decide)
  exact ⟨(h rfl rfl).1, (h rfl rfl).2.2⟩

theorem retry_cap_witness :
    Reachable (run Table.empty failThrice) ∧
    (∃ r ∈ (run Table.empty failThrice).rows,
      r.url = str "https://amazon.com/s?k=lego" ∧ 3 ≤ r.retry_count) ∧
    ¬ returnsURL (GetNextURL (run (run Table.empty failThrice) [.getNextURL (60 * minute)])
        (600 * minute)) (str "https://amazon.com/s?k=lego") :=
  ⟨⟨failThrice, rfl⟩,
   ⟨failRow (str "response status 503") 4 (failRow (str "response status 503") 3
      (failRow (str "response status 503") 2
        (lease 1 (str "https://amazon.com/s?k=lego")
          (newRow 1 (str "https://amazon.com/s?k=lego") 0)))), by decide, by decide, by decide⟩,
   retry_cap (run Table.empty failThrice) (str "https://amazon.com/s?k=lego")
     [.getNextURL (60 * minute)] (600 * minute) ⟨failThrice, rfl⟩
     ⟨failRow (str "response status 503") 4 (failRow (str "response status 503") 3
        (failRow (str "response status 503") 2
          (lease 1 (str "https://amazon.com/s?k=lego")
            (newRow 1 (str "https://amazon.com/s?k=lego") 0)))),
      by decide, by decide, by decide⟩⟩

end Storage

namespace Crawler

theorem wrap32_id (x : Int) (hlo : -2147483648 ≤ x) (hhi : x ≤ 2147483647) : wrap32 x = x := by
  unfold wrap32; omega

theorem cancelled_append (c : crawler) (ev : List Event) :
    cancelled { c with trace := c.trace ++ ev } = (cancelled c || decide (Event.Cancel ∈ ev)) := by
  simp [cancelled, List.mem_append]

theorem onError_spec (c : crawler) (url : Str) (err : JobError)
    (hlo : -2147483648 ≤ c.errorCount) (hhi : c.errorCount < 2147483647) :
    (onError c url err).errorCount = c.errorCount + 1 ∧
    (onError c url err).errorThreshold = c.errorThreshold ∧
    (onError c url err).trace =
      c.trace ++ Event.MarkFailed url err.Error ::
        (if c.errorCount + 1 > c.errorThreshold then [Event.Cancel] else []) := by
  have hw : wrap32 (c.errorCount + 1) = c.errorCount + 1 := wrap32_id _ (by omega) (by omega)
  unfold onError incrementErrorCount
  simp only [hw]
  by_cases h : c.errorCount + 1 > c.errorThreshold
  · simp [h]
  · simp [h]

theorem onError_cancelled (c : crawler) (url : Str) (err : JobError)
    (hlo : -2147483648 ≤ c.errorCount) (hhi : c.errorCount < 2147483647) :
    cancelled (onError c url err) =
      (cancelled c || decide (c.errorCount + 1 > c.errorThreshold)) := by
  obtain ⟨_, _, h3⟩ := onError_spec c url err hlo hhi
  unfold cancelled
  rw [h3]
  by_cases h : c.errorCount + 1 > c.errorThreshold <;> simp [h, List.mem_append]

theorem onErrors_spec : ∀ (calls : List (Str × JobError)) (c : crawler),
    c.errorThreshold = 5 → 0 ≤ c.errorCount → c.errorCount + calls.length ≤ 2147483647 →
    (onErrors c calls).errorCount = c.errorCount + calls.length ∧
    (onErrors c calls).errorThreshold = 5 ∧
    (cancelled c = false → c.errorCount + calls.length ≤ 5 →
      cancelled (onErrors c calls) = false) ∧
    (calls ≠ [] → c.errorCount + calls.length > 5 → cancelled (onErrors c calls) = true) ∧
    (cancelled c = true → cancelled (onErrors c calls) = true)
  | [], c, hth, _, _ => by
    simp only [onErrors, List.foldl_nil, List.length_nil, Nat.cast_zero, add_zero]
    exact ⟨trivial, hth, fun h _ => h, fun h => absurd rfl h, fun h => h⟩
  | call :: calls, c, hth, h0, hmax => by
    simp only [List.length_cons, Nat.cast_add, Nat.cast_one] at hmax
    obtain ⟨e1, e2, _⟩ := onError_spec c call.1 call.2 (by omega) (by omega)
    have e3 := onError_cancelled c call.1 call.2 (by omega) (by omega)
    obtain ⟨i1, i2, i3, i4, i5⟩ := onErrors_spec calls (onError c call.1 call.2)
      (by rw [e2, hth]) (by omega) (by omega)
    have hfold : onErrors c (call :: calls) = onErrors (onError c call.1 call.2) calls := rfl
    rw [hfold]
    simp only [List.length_cons, Nat.cast_add, Nat.cast_one]
    refine ⟨by rw [i1, e1]; ring, i2, ?_, ?_, ?_⟩
    · intro hc hle
      apply i3
      · rw [e3, hc, hth]; simp; omega
      · omega
    · intro _ hgt
      by_cases hnil : calls = []
      · subst hnil
        simp only [onErrors, List.foldl_nil]
        rw [e3, hth]
        simp only [List.length_nil, Nat.cast_zero, add_zero] at hgt
        simp; right; omega
      · exact i4 hnil (by omega)
    · intro hc
      apply i5
      rw [e3, hc]; rfl

theorem runMiddlewares_no_cancel (mk : Nat → Event) (hmk : ∀ i, mk i ≠ Event.Cancel) :
    ∀ (l : List (Option Str)) (i : Nat), Event.Cancel ∉ (runMiddlewares mk i l).1
  | [], i => by simp [runMiddlewares]
  | none :: rest, i => by
    simp only [runMiddlewares, List.mem_cons, not_or]
    exact ⟨fun h => hmk i h.symm, runMiddlewares_no_cancel mk hmk rest (i + 1)⟩
  | some e :: rest, i => by
    simp only [runMiddlewares, List.mem_singleton]
    exact fun h => hmk i h.symm

/-- A job that fails before its page is accepted ends in an error and leaves the error
counter, the threshold and the cancellation state as they were. -/
theorem processURL_early (c : crawler) (url : Str) (env : JobEnv)
    (h : failsBeforePageAccepted env = true) :
    ∃ e, (processURL c url env).2 = .error e ∧
      (processURL c url env).1.errorCount = c.errorCount ∧
      (processURL c url env).1.errorThreshold = c.errorThreshold ∧
      cancelled (processURL c url env).1 = cancelled c := by
  have hreq := runMiddlewares_no_cancel Event.RequestMiddleware (by intro i; simp)
    env.requestMiddlewares 0
  have hres := runMiddlewares_no_cancel Event.ResponseMiddleware (by intro i; simp)
    env.responseMiddlewares 0
  unfold failsBeforePageAccepted at h
  unfold processURL
  cases h1 : env.newContext with
  | some e => exact ⟨_, rfl, rfl, rfl, by simp [cancelled]⟩
  | none =>
    cases h2 : env.newPage with
    | some e => exact ⟨_, rfl, rfl, rfl, by simp [cancelled]⟩
    | none =>
      simp only
      rcases h3 : runMiddlewares Event.RequestMiddleware 0 env.requestMiddlewares with ⟨ev, r⟩
      rw [h3] at hreq
      cases r with
      | some e => exact ⟨_, rfl, rfl, rfl, by simp only at hreq; simp [cancelled, hreq]⟩
      | none =>
        cases h4 : env.goto with
        | some e => exact ⟨_, rfl, rfl, rfl, by simp only at hreq; simp [cancelled, hreq]⟩
        | none =>
          cases h5 : env.resOk with
          | false => exact ⟨_, rfl, rfl, rfl, by simp only at hreq; simp [cancelled, hreq]⟩
          | true =>
            simp only
            rcases h6 : runMiddlewares Event.ResponseMiddleware 0 env.responseMiddlewares
              with ⟨ev', r'⟩
            rw [h6] at hres
            cases r' with
            | some e =>
              refine ⟨_, rfl, rfl, rfl, ?_⟩
              simp only [cancelled, Bool.not_true, Bool.false_eq_true, if_false,
                List.append_assoc, List.mem_append, List.mem_cons, List.mem_singleton]
              simp only at hreq hres
              simp [hreq, hres]
            | none =>
              simp [h1, h2, h3, h4, h5, h6] at h

theorem processJob_early (c : crawler) (url : Str) (env : JobEnv)
    (h : failsBeforePageAccepted env = true)
    (hlo : -2147483648 ≤ c.errorCount) (hhi : c.errorCount < 2147483647) :
    jobFails c url env = true ∧
    (processJob c url env).errorCount = c.errorCount + 1 ∧
    (processJob c url env).errorThreshold = c.errorThreshold ∧
    cancelled (processJob c url env) =
      (cancelled c || decide (c.errorCount + 1 > c.errorThreshold)) := by
  obtain ⟨e, h1, h2, h3, h4⟩ := processURL_early c url env h
  have hj : processJob c url env = onError (processURL c url env).1 url e := by
    unfold processJob
    rcases hp : processURL c url env with ⟨c', r⟩
    rw [hp] at h1
    simp only at h1
    subst h1
    rfl
  refine ⟨by simp [jobFails, h1], ?_, ?_, ?_⟩
  · rw [hj, (onError_spec _ url e (by omega) (by omega)).1, h2]
  · rw [hj, (onError_spec _ url e (by omega) (by omega)).2.1, h3]
  · rw [hj, onError_cancelled _ url e (by omega) (by omega), h2, h3, h4]

theorem processJobs_early : ∀ (jobs : List (Str × JobEnv)) (c : crawler),
    c.errorThreshold = 5 → 0 ≤ c.errorCount → c.errorCount + jobs.length ≤ 2147483647 →
    (∀ j ∈ jobs, failsBeforePageAccepted j.2 = true) →
    (processJobs c jobs).errorCount = c.errorCount + jobs.length ∧
    (jobs ≠ [] → c.errorCount + jobs.length > 5 → cancelled (processJobs c jobs) = true) ∧
    (cancelled c = true → cancelled (processJobs c jobs) = true)
  | [], c, _, _, _, _ => by simp [processJobs]
  | j :: jobs, c, hth, h0, hmax, hall => by
    simp only [List.length_cons, Nat.cast_add, Nat.cast_one] at hmax
    obtain ⟨_, e1, e2, e3⟩ := processJob_early c j.1 j.2 (hall j (List.mem_cons_self _ _))
      (by omega) (by omega)
    obtain ⟨i1, i2, i3⟩ := processJobs_early jobs (processJob c j.1 j.2)
      (by rw [e2, hth]) (by omega) (by omega) (fun x hx => hall x (List.mem_cons_of_mem _ hx))
    have hfold : processJobs c (j :: jobs) = processJobs (processJob c j.1 j.2) jobs := rfl
    rw [hfold]
    simp only [List.length_cons, Nat.cast_add, Nat.cast_one]
    refine ⟨by rw [i1, e1]; ring, ?_, ?_⟩
    · intro _ hgt
      by_cases hnil : jobs = []
      · subst hnil
        simp only [processJobs, List.foldl_nil]
        rw [e3, hth]
        simp only [List.length_nil, Nat.cast_zero, add_zero] at hgt
        simp; right; omega
      · exact i2 hnil (by omega)
    · intro hc
      apply i3
      rw [e3, hc]; rfl

end Crawler

namespace Crawler

/-- C9 (as stated, refuted): six consecutive jobs that fail in the product extractor,
with no successful job in between, run from a fresh crawler: every one of them fails,
yet the cancellation function has not been called after the sixth, and the error
counter stands at 1. -/
theorem six_extractor_failures_do_not_cancel :
    (∀ j ∈ sixExtractorFailures, jobFails NewCrawler j.1 j.2 = true) ∧
    cancelled (processJobs NewCrawler sixExtractorFailures) = false ∧
    (processJobs NewCrawler sixExtractorFailures).errorCount = 1 := by
  decide

/-- C9 (amended): six consecutive jobs that each fail before the page has passed the
response middlewares (context or page creation error, request-middleware rejection,
navigation error, non-2xx status, response-middleware rejection), run one after the
other from a counter that is not negative: each of them is a failed job, the counter
has grown by six, and the cancellation function has been called by the end of the
sixth. -/
theorem six_early_failures_cancel (c : crawler) (jobs : List (Str × JobEnv))
    (hth : c.errorThreshold = 5) (h0 : 0 ≤ c.errorCount) (hmax : c.errorCount ≤ 2147483641)
    (hlen : jobs.length = 6) (hfail : ∀ j ∈ jobs, failsBeforePageAccepted j.2 = true) :
    (∀ j ∈ jobs, ∀ c' : crawler, jobFails c' j.1 j.2 = true) ∧
    (processJobs c jobs).errorCount = c.errorCount + 6 ∧
    cancelled (processJobs c jobs) = true := by
  obtain ⟨h1, h2, _⟩ := processJobs_early jobs c hth h0 (by rw [hlen]; omega) hfail
  refine ⟨?_, by rw [h1, hlen]; rfl, ?_⟩
  · intro j hj c'
    obtain ⟨e, he, _⟩ := processURL_early c' j.1 j.2 (hfail j hj)
    simp [jobFails, he]
  · apply h2
    · intro hnil; rw [hnil] at hlen; simp at hlen
    · rw [hlen]; push_cast; omega

/-- C10: when `onError` runs with the (32-bit) error counter at a value `c` below the
largest one and the threshold 5 of `NewCrawler`, it calls `MarkFailed(url, reason)`, sets
the counter to `c + 1`, and calls the cancellation function exactly when `c + 1 > 5`;
hence from a zero counter and no cancellation so far, up to five consecutive calls do
not cancel and the sixth does. -/
theorem onError_threshold (c : crawler) (url : Str) (err : JobError)
    (hth : c.errorThreshold = 5)
    (hlo : -2147483648 ≤ c.errorCount) (hhi : c.errorCount < 2147483647) :
    (onError c url err).errorCount = c.errorCount + 1 ∧
    (onError c url err).trace =
      c.trace ++ Event.MarkFailed url err.Error ::
        (if c.errorCount + 1 > 5 then [Event.Cancel] else []) ∧
    (∀ calls : List (Str × JobError), c.errorCount = 0 → cancelled c = false →
      (calls.length ≤ 5 → cancelled (onErrors c calls) = false) ∧
      (calls.length = 6 → cancelled (onErrors c calls) = true)) := by
  obtain ⟨h1, _, h3⟩ := onError_spec c url err hlo hhi
  refine ⟨h1, by rw [h3, hth], ?_⟩
  intro calls hz hc
  constructor
  · intro hlen
    obtain ⟨_, _, i3, _, _⟩ := onErrors_spec calls c hth (by omega) (by omega)
    exact i3 hc (by omega)
  · intro hlen
    obtain ⟨_, _, _, i4, _⟩ := onErrors_spec calls c hth (by omega) (by omega)
    apply i4
    · intro hnil; rw [hnil] at hlen; simp at hlen
    · omega

end Crawler

namespace Crawler

theorem six_early_failures_cancel_witness :
    (∀ j ∈ sixNavigationFailures, failsBeforePageAccepted j.2 = true) ∧
    cancelled (processJobs NewCrawler sixNavigationFailures) = true :=
  ⟨by decide,
   (six_early_failures_cancel NewCrawler sixNavigationFailures rfl (by decide) (by decide)
      (by decide) (by decide)).2.2⟩

theorem onError_threshold_witness :
    (onError NewCrawler (str "https://amazon.com/s?k=lego") (.responseStatus 503)).errorCount
      = 0 + 1 ∧
    (onError NewCrawler (str "https://amazon.com/s?k=lego") (.responseStatus 503)).trace =
      [] ++ Event.MarkFailed (str "https://amazon.com/s?k=lego")
          (JobError.responseStatus 503).Error ::
        (if (0 : Int) + 1 > 5 then [Event.Cancel] else []) :=
  ⟨(onError_threshold NewCrawler (str "https://amazon.com/s?k=lego") (.responseStatus 503)
      rfl (by decide) (by decide)).1,
   (onError_threshold NewCrawler (str "https://amazon.com/s?k=lego") (.responseStatus 503)
      rfl (by decide) (by decide)).2.1⟩

end Crawler

namespace Crawler

/-- The error counter after `processURL`: untouched when the job fails before its page is
accepted, zero otherwise. -/
theorem processURL_count (c : crawler) (url : Str) (env : JobEnv) :
    (processURL c url env).1.errorCount =
      if failsBeforePageAccepted env = true then c.errorCount else 0 := by
  unfold failsBeforePageAccepted processURL
  cases h1 : env.newContext with
  | some e => simp
  | none =>
    cases h2 : env.newPage with
    | some e => simp
    | none =>
      simp only
      rcases h3 : runMiddlewares Event.RequestMiddleware 0 env.requestMiddlewares with ⟨ev, r⟩
      cases r with
      | some e => simp
      | none =>
        cases h4 : env.goto with
        | some e => simp
        | none =>
          cases h5 : env.resOk with
          | false => simp
          | true =>
            simp only
            rcases h6 : runMiddlewares Event.ResponseMiddleware 0 env.responseMiddlewares
              with ⟨ev', r'⟩
            cases r' with
            | some e => simp
            | none =>
              simp only [Option.isSome_none, Bool.or_false, Bool.not_true, Bool.false_eq_true,
                if_false, resetErrorCount]
              split <;> rfl

/-- The error counter after a job: zero after a success, one more than `processURL` left
it (in 32 bits) after a failure. -/
theorem processJob_count (c : crawler) (url : Str) (env : JobEnv) :
    (processJob c url env).errorCount =
      if jobFails c url env = true then wrap32 ((processURL c url env).1.errorCount + 1)
      else (processURL c url env).1.errorCount := by
  unfold processJob jobFails
  rcases hp : processURL c url env with ⟨c', r⟩
  cases r with
  | error e =>
    simp only [if_true]
    unfold onError incrementErrorCount
    simp only
    split <;> rfl
  | ok links =>
    simp only [Bool.false_eq_true, if_false]
    split <;> rfl

theorem jobFails_of_early (c : crawler) (url : Str) (env : JobEnv)
    (h : failsBeforePageAccepted env = true) : jobFails c url env = true := by
  obtain ⟨e, he, _⟩ := processURL_early c url env h
  simp [jobFails, he]

/-- After a job that succeeds the counter is zero; a failure of the job after it leaves one. -/
theorem processJob_reset (c : crawler) (url : Str) (env : JobEnv)
    (hok : jobFails c url env = false) :
    (processJob c url env).errorCount = 0 ∧
    ∀ (url2 : Str) (env2 : JobEnv), jobFails (processJob c url env) url2 env2 = true →
      (processJob (processJob c url env) url2 env2).errorCount = 1 := by
  have hne : failsBeforePageAccepted env ≠ true := by
    intro h
    rw [jobFails_of_early c url env h] at hok
    exact Bool.noConfusion hok
  have h0 : (processJob c url env).errorCount = 0 := by
    rw [processJob_count, hok, processURL_count, if_neg hne]
    simp
  refine ⟨h0, ?_⟩
  intro url2 env2 hf
  rw [processJob_count, hf, processURL_count, h0]
  simp only [if_true, ite_self]
  decide

end Crawler

namespace GoStrings

theorem Index_isSome_iff (pat : Str) : ∀ s : Str, (Index pat s).isSome = true ↔ pat <:+: s
  | [] => by
    unfold Index
    by_cases h : pat = []
    · subst h; simp
    · simp [h, List.infix_nil]
  | c :: t => by
    unfold Index
    by_cases h : pat.isPrefixOf (c :: t) = true
    · rw [if_pos h]
      simp only [Option.isSome_some, true_iff]
      exact (List.isPrefixOf_iff_prefix.1 h).isInfix
    · rw [if_neg h]
      have hm : (Option.map (fun i => i + 1) (Index pat t)).isSome = (Index pat t).isSome := by
        cases Index pat t <;> rfl
      rw [hm, Index_isSome_iff pat t, List.infix_cons_iff]
      constructor
      · intro h'; exact Or.inr h'
      · rintro (h' | h')
        · exact absurd (List.isPrefixOf_iff_prefix.2 h') h
        · exact h'

/-- The call `strings.Contains(s, pat)` holds exactly when `pat` occurs in `s`. -/
theorem Contains_iff (s pat : Str) : Contains s pat = true ↔ pat <:+: s :=
  Index_isSome_iff pat s

theorem Contains_eq_false_iff (s pat : Str) : Contains s pat = false ↔ ¬ pat <:+: s := by
  rw [← Contains_iff]; simp

end GoStrings

namespace Regexp

theorem mem_andThen (first : List Thread) (next : Str → List Thread) (th : Thread) :
    th ∈ andThen first next ↔
      ∃ th1 ∈ first, ∃ th2 ∈ next th1.1, th = (th2.1, th1.2 ++ th2.2) := by
  simp only [andThen, List.mem_flatMap, List.mem_map]
  constructor
  · rintro ⟨th1, h1, th2, h2, rfl⟩
    exact ⟨th1, h1, th2, h2, rfl⟩
  · rintro ⟨th1, h1, th2, h2, rfl⟩
    exact ⟨th1, h1, th2, h2, rfl⟩

theorem mem_run_empty (s : Str) (th : Thread) :
    th ∈ Regex.empty.run s ↔ s = th.1 ∧ th.2 = [] := by
  obtain ⟨r, c⟩ := th
  simp only [Regex.run, List.mem_singleton, Prod.mk.injEq]
  constructor
  · rintro ⟨rfl, rfl⟩; exact ⟨rfl, rfl⟩
  · rintro ⟨rfl, rfl⟩; exact ⟨rfl, rfl⟩

theorem mem_run_lit (c : Byte) (s : Str) (th : Thread) :
    th ∈ (Regex.lit c).run s ↔ s = c :: th.1 ∧ th.2 = [] := by
  obtain ⟨r, caps⟩ := th
  cases s with
  | nil => simp [Regex.run]
  | cons x t =>
    simp only [Regex.run]
    by_cases h : x = c
    · subst h
      simp only [if_true, List.mem_singleton, Prod.mk.injEq, List.cons.injEq, true_and]
      constructor
      · rintro ⟨rfl, rfl⟩; exact ⟨rfl, rfl⟩
      · rintro ⟨rfl, rfl⟩; exact ⟨rfl, rfl⟩
    · simp only [if_neg h, List.not_mem_nil, List.cons.injEq, false_iff, not_and]
      intro hx; exact absurd hx.1 h

theorem mem_run_cls (ranges : List (Byte × Byte)) (s : Str) (th : Thread) :
    th ∈ (Regex.cls ranges).run s ↔
      ∃ x, inClass ranges x = true ∧ s = x :: th.1 ∧ th.2 = [] := by
  obtain ⟨r, caps⟩ := th
  cases s with
  | nil => simp [Regex.run]
  | cons x t =>
    simp only [Regex.run]
    by_cases h : inClass ranges x = true
    · simp only [if_pos h, List.mem_singleton, Prod.mk.injEq, List.cons.injEq]
      constructor
      · rintro ⟨rfl, rfl⟩; exact ⟨x, h, ⟨rfl, rfl⟩, rfl⟩
      · rintro ⟨y, _, ⟨rfl, rfl⟩, rfl⟩; exact ⟨rfl, rfl⟩
    · simp only [if_neg h, List.not_mem_nil, List.cons.injEq, false_iff, not_exists, not_and]
      rintro y hy ⟨rfl, _⟩
      exact absurd hy h

theorem mem_run_cat (r q : Regex) (s : Str) (th : Thread) :
    th ∈ (Regex.cat r q).run s ↔
      ∃ th1 ∈ r.run s, ∃ th2 ∈ q.run th1.1, th = (th2.1, th1.2 ++ th2.2) := by
  simp only [Regex.run]
  exact mem_andThen _ _ _

theorem mem_run_alt (r q : Regex) (s : Str) (th : Thread) :
    th ∈ (Regex.alt r q).run s ↔ th ∈ r.run s ∨ th ∈ q.run s := by
  simp only [Regex.run, List.mem_append]

theorem mem_run_cap (r : Regex) (s : Str) (th : Thread) :
    th ∈ (Regex.cap r).run s ↔
      ∃ th1 ∈ r.run s, th = (th1.1, s.take (s.length - th1.1.length) :: th1.2) := by
  simp only [Regex.run, List.mem_map]
  constructor
  · rintro ⟨th1, h1, rfl⟩; exact ⟨th1, h1, rfl⟩
  · rintro ⟨th1, h1, rfl⟩; exact ⟨th1, h1, rfl⟩

theorem mem_run_text (p : Str) : ∀ (s : Str) (th : Thread),
    th ∈ (Regex.text p).run s ↔ s = p ++ th.1 ∧ th.2 = [] := by
  induction p with
  | nil =>
    intro s th
    exact mem_run_empty s th
  | cons c p ih =>
    intro s th
    show th ∈ (Regex.cat (Regex.lit c) (Regex.text p)).run s ↔ _
    rw [mem_run_cat]
    constructor
    · rintro ⟨th1, h1, th2, h2, rfl⟩
      obtain ⟨e1, e2⟩ := (mem_run_lit _ _ _).1 h1
      obtain ⟨e3, e4⟩ := (ih _ _).1 h2
      refine ⟨?_, ?_⟩
      · rw [e1, e3]; rfl
      · simp only [e2, e4, List.append_nil]
    · rintro ⟨e1, e2⟩
      refine ⟨(p ++ th.1, []), (mem_run_lit _ _ _).2 ⟨by rw [e1]; rfl, rfl⟩, th,
        (ih _ _).2 ⟨rfl, e2⟩, ?_⟩
      simp

theorem mem_runRep_cls (ranges : List (Byte × Byte)) : ∀ (n : Nat) (s : Str) (th : Thread),
    th ∈ runRep (fun t => (Regex.cls ranges).run t) n s ↔
      ∃ a : Str, a.length = n ∧ (∀ x ∈ a, inClass ranges x = true) ∧ s = a ++ th.1 ∧ th.2 = []
  | 0, s, th => by
    obtain ⟨r, caps⟩ := th
    simp only [runRep, List.mem_singleton, Prod.mk.injEq]
    constructor
    · rintro ⟨rfl, rfl⟩
      exact ⟨[], rfl, by simp, rfl, rfl⟩
    · rintro ⟨a, ha, _, hs, hc⟩
      rw [List.length_eq_zero] at ha
      subst ha
      exact ⟨hs.symm, hc⟩
  | n + 1, s, th => by
    simp only [runRep]
    rw [mem_andThen]
    constructor
    · rintro ⟨th1, h1, th2, h2, rfl⟩
      obtain ⟨x, hx, e1, e2⟩ := (mem_run_cls _ _ _).1 h1
      obtain ⟨a, ha, hall, e3, e4⟩ := (mem_runRep_cls ranges n _ _).1 h2
      refine ⟨x :: a, by simp [ha], ?_, ?_, ?_⟩
      · intro y hy
        rcases List.mem_cons.1 hy with rfl | hy
        · exact hx
        · exact hall y hy
      · rw [e1, e3]; rfl
      · simp only [e2, e4, List.append_nil]
    · rintro ⟨a, ha, hall, hs, hc⟩
      cases a with
      | nil => simp at ha
      | cons x a =>
        refine ⟨(a ++ th.1, []), (mem_run_cls _ _ _).2 ⟨x, hall x (List.mem_cons_self _ _),
          by rw [hs]; rfl, rfl⟩, th, (mem_runRep_cls ranges n _ _).2
            ⟨a, by simpa using ha, fun y hy => hall y (List.mem_cons_of_mem _ hy), rfl, hc⟩, ?_⟩
        simp

theorem mem_run_rep_cls (ranges : List (Byte × Byte)) (n : Nat) (s : Str) (th : Thread) :
    th ∈ (Regex.rep n (Regex.cls ranges)).run s ↔
      ∃ a : Str, a.length = n ∧ (∀ x ∈ a, inClass ranges x = true) ∧ s = a ++ th.1 ∧ th.2 = [] := by
  show th ∈ runRep (fun t => (Regex.cls ranges).run t) n s ↔ _
  exact mem_runRep_cls ranges n s th

/-- No match: the expression matches at no position of the input. -/
theorem find_eq_nil_iff (re : Regex) : ∀ s : Str,
    re.FindStringSubmatch s = [] ↔ ∀ a t : Str, s = a ++ t → re.run t = []
  | [] => by
    unfold Regex.FindStringSubmatch
    cases h : re.run [] with
    | nil =>
      simp only [true_iff]
      intro a t hs
      have : t = [] := (List.append_eq_nil.1 hs.symm).2
      rw [this, h]
    | cons th more =>
      simp only
      constructor
      · intro hc; exact absurd hc (List.cons_ne_nil _ _)
      · intro hall
        have := hall [] [] rfl
        rw [h] at this
        exact absurd this (List.cons_ne_nil _ _)
  | c :: s => by
    unfold Regex.FindStringSubmatch
    cases h : re.run (c :: s) with
    | nil =>
      simp only
      rw [find_eq_nil_iff re s]
      constructor
      · intro hall a t hs
        cases a with
        | nil => rw [List.nil_append] at hs; rw [← hs, h]
        | cons x a =>
          rw [List.cons_append, List.cons.injEq] at hs
          exact hall a t hs.2
      · intro hall a t hs
        exact hall (c :: a) t (by rw [hs]; rfl)
    | cons th more =>
      simp only
      constructor
      · intro hc; exact absurd hc (List.cons_ne_nil _ _)
      · intro hall
        have := hall [] (c :: s) rfl
        rw [h] at this
        exact absurd this (List.cons_ne_nil _ _)

/-- A match: the expression matches at some position, by its preferred thread there, and at
no position before. -/
theorem find_eq_cons (re : Regex) : ∀ (s m : Str) (caps : List Str),
    re.FindStringSubmatch s = m :: caps →
      ∃ (a t : Str) (th : Thread) (more : List Thread), s = a ++ t ∧ re.run t = th :: more ∧
        caps = th.2 ∧ m = t.take (t.length - th.1.length) ∧
        ∀ a2 t2 : Str, s = a2 ++ t2 → a2.length < a.length → re.run t2 = []
  | [], m, caps, h => by
    unfold Regex.FindStringSubmatch at h
    cases hr : re.run [] with
    | nil => rw [hr] at h; simp at h
    | cons th more =>
      rw [hr] at h
      simp only [List.cons.injEq] at h
      refine ⟨[], [], th, more, rfl, hr, h.2.symm, ?_, ?_⟩
      · rw [← h.1]; simp
      · intro a2 t2 _ hlt; simp at hlt
  | c :: s, m, caps, h => by
    unfold Regex.FindStringSubmatch at h
    cases hr : re.run (c :: s) with
    | nil =>
      rw [hr] at h
      simp only at h
      obtain ⟨a, t, th, more, hs, hrun, hc, hm, hleft⟩ := find_eq_cons re s m caps h
      refine ⟨c :: a, t, th, more, by rw [hs]; rfl, hrun, hc, hm, ?_⟩
      intro a2 t2 hs2 hlt
      cases a2 with
      | nil => rw [List.nil_append] at hs2; rw [← hs2, hr]
      | cons x a2 =>
        rw [List.cons_append, List.cons.injEq] at hs2
        exact hleft a2 t2 hs2.2 (by simpa using hlt)
    | cons th more =>
      rw [hr] at h
      simp only [List.cons.injEq] at h
      refine ⟨[], c :: s, th, more, rfl, hr, h.2.symm, h.1.symm, ?_⟩
      intro a2 t2 _ hlt; simp at hlt

theorem MatchString_iff (re : Regex) (s : Str) :
    re.MatchString s = true ↔ ∃ a t : Str, s = a ++ t ∧ re.run t ≠ [] := by
  unfold Regex.MatchString
  rw [bne_iff_ne, Ne, find_eq_nil_iff]
  constructor
  · intro h
    by_contra hc
    apply h
    intro a t hs
    by_contra hr
    exact hc ⟨a, t, hs, hr⟩
  · rintro ⟨a, t, hs, hr⟩ hall
    exact hr (hall a t hs)

end Regexp

namespace Crawler
open GoStrings Regexp

theorem inClass_lower (x : Byte) :
    inClass [(B 'a', B 'z')] x = true ↔ (B 'a' ≤ x ∧ x ≤ B 'z') := by
  simp [inClass]

/-- Where the locale pattern matches at the start of a text. -/
theorem localeRe_run (t : Str) :
    localeRe.run t ≠ [] ↔
      ∃ (x y : Byte) (rest : Str), (B 'a' ≤ x ∧ x ≤ B 'z') ∧ (B 'a' ≤ y ∧ y ≤ B 'z') ∧
        t = str "/-/" ++ [x, y] ++ B '/' :: rest := by
  unfold localeRe
  constructor
  · intro hne
    obtain ⟨th, hth⟩ := List.exists_mem_of_ne_nil _ hne
    obtain ⟨th1, h1, th2, h2, _⟩ := (mem_run_cat _ _ _ _).1 hth
    obtain ⟨e1, _⟩ := (mem_run_text _ _ _).1 h1
    obtain ⟨th3, h3, th4, h4, e5⟩ := (mem_run_cat _ _ _ _).1 h2
    obtain ⟨a, ha, hall, e3, _⟩ := (mem_run_rep_cls _ _ _ _).1 h3
    obtain ⟨e4, _⟩ := (mem_run_lit _ _ _).1 h4
    match a, ha with
    | [x, y], _ =>
      refine ⟨x, y, th4.1, (inClass_lower x).1 (hall x (by simp)),
        (inClass_lower y).1 (hall y (by simp)), ?_⟩
      rw [e1, e3, e4]
      simp
  · rintro ⟨x, y, rest, hx, hy, rfl⟩
    have hm : ((rest, []) : Thread) ∈ (Regex.cat (Regex.text (str "/-/"))
        (Regex.cat (Regex.rep 2 (Regex.cls [(B 'a', B 'z')])) (Regex.lit (B '/')))).run
        (str "/-/" ++ [x, y] ++ B '/' :: rest) := by
      refine ((mem_run_cat _ _ _ _).2 ⟨(x :: y :: B '/' :: rest, []),
      (mem_run_text _ _ _).2 ⟨by simp, rfl⟩, (rest, []), (mem_run_cat _ _ _ _).2
        ⟨(B '/' :: rest, []), (mem_run_rep_cls _ _ _ _).2 ⟨[x, y], rfl, ?_, rfl, rfl⟩,
          (rest, []), (mem_run_lit _ _ _).2 ⟨rfl, rfl⟩, rfl⟩, rfl⟩)
      intro c hc
      simp only [List.mem_cons, List.mem_singleton, List.not_mem_nil, or_false] at hc
      rcases hc with rfl | rfl
      · exact (inClass_lower _).2 hx
      · exact (inClass_lower _).2 hy
    exact List.ne_nil_of_mem hm

/-- The locale pattern matches in `u` exactly when `u` contains a locale segment. -/
theorem localeRe_MatchString (u : Str) :
    localeRe.MatchString u = true ↔ hasLocaleSegment u := by
  rw [MatchString_iff]
  unfold hasLocaleSegment
  constructor
  · rintro ⟨a, t, hs, hr⟩
    obtain ⟨x, y, rest, hx, hy, ht⟩ := (localeRe_run t).1 hr
    refine ⟨x, y, hx, hy, a, rest, ?_⟩
    rw [hs, ht]
    simp
  · rintro ⟨x, y, hx, hy, a, rest, hs⟩
    refine ⟨a, str "/-/" ++ [x, y] ++ B '/' :: rest, ?_, ?_⟩
    · rw [← hs]; simp
    · exact (localeRe_run _).2 ⟨x, y, rest, hx, hy, rfl⟩

theorem containsAny_iff (url : Str) : ∀ pats : List Str,
    containsAny url pats = true ↔ ∃ p ∈ pats, p <:+: url
  | [] => by simp [containsAny]
  | c :: rest => by
    unfold containsAny
    by_cases h : Contains url c = true
    · rw [if_pos h]
      simp only [true_iff]
      exact ⟨c, List.mem_cons_self _ _, (Contains_iff _ _).1 h⟩
    · rw [if_neg h, containsAny_iff url rest]
      constructor
      · rintro ⟨p, hp, hi⟩
        exact ⟨p, List.mem_cons_of_mem _ hp, hi⟩
      · rintro ⟨p, hp, hi⟩
        rcases List.mem_cons.1 hp with rfl | hp
        · exact absurd ((Contains_iff _ _).2 hi) h
        · exact ⟨p, hp, hi⟩

theorem isSearchURL_iff (url : Str) :
    isSearchURL url = true ↔ (str "/s?" <:+: url ∨ str "/s/" <:+: url) := by
  unfold isSearchURL
  rw [containsAny_iff]
  simp

theorem isCategoryURL_iff (url : Str) :
    isCategoryURL url = true ↔
      ¬ str "/Amazon-Video/" <:+: url ∧ (str "/b?" <:+: url ∨ str "/b/" <:+: url) := by
  unfold isCategoryURL
  by_cases h : Contains url (str "/Amazon-Video/") = true
  · rw [if_pos h]
    simp only [Bool.false_eq_true, false_iff, not_and]
    intro hn
    exact absurd ((Contains_iff _ _).1 h) hn
  · rw [if_neg h, containsAny_iff]
    have hn : ¬ str "/Amazon-Video/" <:+: url := fun hi => h ((Contains_iff _ _).2 hi)
    simp [hn]

/-- What `isRelevantURL` computes, in terms of the texts the URL contains. -/
theorem isRelevantURL_iff (url : Str) :
    isRelevantURL url = true ↔
      ¬ hasLocaleSegment url ∧
      ((str "/s?" <:+: url ∨ str "/s/" <:+: url) ∨
        (¬ str "/Amazon-Video/" <:+: url ∧ (str "/b?" <:+: url ∨ str "/b/" <:+: url))) := by
  unfold isRelevantURL
  simp only
  by_cases h : localeRe.MatchString url = true
  · rw [if_pos h]
    have := (localeRe_MatchString url).1 h
    simp [this]
  · rw [if_neg h]
    have hn : ¬ hasLocaleSegment url := fun hl => h ((localeRe_MatchString url).2 hl)
    rw [Bool.or_eq_true, isSearchURL_iff, isCategoryURL_iff]
    simp [hn]

end Crawler

namespace GoStrings

theorem isSpace2_ascii : ∀ a b : Byte, a < 128 → isSpace2 a b = false := by
  intro a b h
  unfold isSpace2
  have : a ≠ 0xC2 := by intro e; rw [e] at h; exact absurd h (by decide)
  simp [this]

theorem isSpace3_ascii : ∀ a b c : Byte, a < 128 → isSpace3 a b c = false := by
  intro a b c h
  unfold isSpace3
  have h1 : a ≠ 0xE1 := by intro e; rw [e] at h; exact absurd h (by decide)
  have h2 : a ≠ 0xE2 := by intro e; rw [e] at h; exact absurd h (by decide)
  have h3 : a ≠ 0xE3 := by intro e; rw [e] at h; exact absurd h (by decide)
  simp [h1, h2, h3]

/-- Nothing is trimmed in front of an ASCII byte that is not white space. -/
theorem trimLeftSpace_cons (a : Byte) (t : Str) (h1 : a < 128) (h2 : isAsciiSpace a = false) :
    trimLeftSpace (a :: t) = a :: t := by
  rw [trimLeftSpace.eq_def]
  simp only [h2, Bool.false_eq_true, if_false]
  cases t with
  | nil => rfl
  | cons b t2 =>
    simp only [isSpace2_ascii a b h1, Bool.false_eq_true, if_false]
    cases t2 with
    | nil => rfl
    | cons c t3 => simp only [isSpace3_ascii a b c h1, Bool.false_eq_true, if_false]

theorem isSpace2_ascii_snd : ∀ a b : Byte, b < 128 → isSpace2 a b = false := by
  intro a b h
  unfold isSpace2
  have h1 : b ≠ 0x85 := by intro e; rw [e] at h; exact absurd h (by decide)
  have h2 : b ≠ 0xA0 := by intro e; rw [e] at h; exact absurd h (by decide)
  simp [h1, h2]

theorem isSpace3_ascii_thd : ∀ a b c : Byte, c < 128 → isSpace3 a b c = false := by
  intro a b c h
  unfold isSpace3
  have h1 : c ≠ 0x80 := by intro e; rw [e] at h; exact absurd h (by decide)
  have h2 : c ≠ 0xA8 := by intro e; rw [e] at h; exact absurd h (by decide)
  have h3 : c ≠ 0xA9 := by intro e; rw [e] at h; exact absurd h (by decide)
  have h4 : c ≠ 0xAF := by intro e; rw [e] at h; exact absurd h (by decide)
  have h5 : c ≠ 0x9F := by intro e; rw [e] at h; exact absurd h (by decide)
  have h6 : ¬ (0x80 : Byte) ≤ c := by
    intro e
    exact absurd (lt_of_le_of_lt e h) (by decide)
  simp [h1, h2, h3, h4, h5, h6]

theorem trimLeftSpaceRev_cons (a : Byte) (t : Str) (h1 : a < 128)
    (h2 : isAsciiSpace a = false) : trimLeftSpaceRev (a :: t) = a :: t := by
  rw [trimLeftSpaceRev.eq_def]
  simp only [h2, Bool.false_eq_true, if_false]
  cases t with
  | nil => rfl
  | cons b t2 =>
    simp only [isSpace2_ascii_snd b a h1, Bool.false_eq_true, if_false]
    cases t2 with
    | nil => rfl
    | cons c t3 => simp only [isSpace3_ascii_thd c b a h1, Bool.false_eq_true, if_false]

/-- Nothing is trimmed behind an ASCII byte that is not white space. -/
theorem trimRightSpace_concat (s : Str) (a : Byte) (h1 : a < 128)
    (h2 : isAsciiSpace a = false) : trimRightSpace (s ++ [a]) = s ++ [a] := by
  unfold trimRightSpace
  rw [List.reverse_append, List.reverse_singleton, List.singleton_append,
    trimLeftSpaceRev_cons a _ h1 h2]
  simp

/-- A text of ASCII bytes none of which is white space is its own `TrimSpace`. -/
theorem TrimSpace_plain (s : Str) (h : ∀ c ∈ s, c < 128 ∧ isAsciiSpace c = false) :
    TrimSpace s = s := by
  unfold TrimSpace
  cases s with
  | nil => rfl
  | cons a t =>
    obtain ⟨h1, h2⟩ := h a (List.mem_cons_self _ _)
    rw [trimLeftSpace_cons a t h1 h2]
    obtain ⟨init, last, hl⟩ : ∃ init last, a :: t = init ++ [last] := by
      have hne : a :: t ≠ [] := List.cons_ne_nil _ _
      exact ⟨(a :: t).dropLast, (a :: t).getLast hne, (List.dropLast_append_getLast hne).symm⟩
    rw [hl]
    have hm : last ∈ a :: t := by rw [hl]; simp
    obtain ⟨h3, h4⟩ := h last hm
    exact trimRightSpace_concat init last h3 h4

end GoStrings

namespace Internal
open GoStrings Regexp

theorem inClass_asin (c : Byte) :
    inClass [(B 'A', B 'Z'), (B '0', B '9')] c = true ↔ isAsinByte c := by
  simp [inClass, isAsinByte]

theorem inClass_Ff (c : Byte) :
    inClass [(B 'F', B 'F'), (B 'f', B 'f')] c = true ↔ (c = B 'F' ∨ c = B 'f') := by
  simp only [inClass, List.any_cons, List.any_nil, Bool.or_false, Bool.or_eq_true,
    Bool.and_eq_true, decide_eq_true_eq]
  constructor
  · rintro (⟨h1, h2⟩ | ⟨h1, h2⟩)
    · exact Or.inl (le_antisymm h2 h1)
    · exact Or.inr (le_antisymm h2 h1)
  · rintro (rfl | rfl)
    · exact Or.inl ⟨le_refl _, le_refl _⟩
    · exact Or.inr ⟨le_refl _, le_refl _⟩

theorem isAsinByte_plain (c : Byte) (h : isAsinByte c) : c < 128 ∧ isAsciiSpace c = false := by
  revert c
  unfold isAsinByte
  decide

/-- The threads of the ASIN pattern at the start of a text: `dp`, a separator, ten
characters of the class, captured. -/
theorem asinRe_run (t : Str) (th : Thread) :
    th ∈ asinRe.run t ↔
      ∃ sep a : Str, sep ∈ asinSeps ∧ a.length = 10 ∧ (∀ c ∈ a, isAsinByte c) ∧
        t = str "dp" ++ sep ++ a ++ th.1 ∧ th.2 = [a] := by
  unfold asinRe
  rw [mem_run_cat]
  constructor
  · rintro ⟨th1, h1, th2, h2, rfl⟩
    obtain ⟨e1, c1⟩ := (mem_run_text _ _ _).1 h1
    obtain ⟨th3, h3, th4, h4, rfl⟩ := (mem_run_cat _ _ _ _).1 h2
    obtain ⟨th5, h5, rfl⟩ := (mem_run_cap _ _ _).1 h4
    obtain ⟨a, ha, hall, e5, c5⟩ := (mem_run_rep_cls _ _ _ _).1 h5
    have hsep : ∃ sep, sep ∈ asinSeps ∧ th1.1 = sep ++ th3.1 ∧ th3.2 = [] := by
      rcases (mem_run_alt _ _ _ _).1 h3 with h | h
      · obtain ⟨e, c⟩ := (mem_run_lit _ _ _).1 h
        exact ⟨str "/", by simp [asinSeps], e, c⟩
      · obtain ⟨th6, h6, th7, h7, rfl⟩ := (mem_run_cat _ _ _ _).1 h
        obtain ⟨e6, c6⟩ := (mem_run_text _ _ _).1 h6
        obtain ⟨x, hx, e7, c7⟩ := (mem_run_cls _ _ _).1 h7
        rcases (inClass_Ff x).1 hx with rfl | rfl
        · exact ⟨str "%2F", by simp [asinSeps], by rw [e6, e7]; rfl, by simp [c6, c7]⟩
        · exact ⟨str "%2f", by simp [asinSeps], by rw [e6, e7]; rfl, by simp [c6, c7]⟩
    obtain ⟨sep, hsep, e3, c3⟩ := hsep
    refine ⟨sep, a, hsep, ha, fun c hc => (inClass_asin c).1 (hall c hc), ?_, ?_⟩
    · rw [e1, e3, e5]; simp
    · simp only [c1, c3, c5, List.nil_append]
      rw [e5]
      simp [ha]
  · rintro ⟨sep, a, hsep, ha, hall, ht, hc⟩
    obtain ⟨rest, caps⟩ := th
    simp only at ht hc
    subst hc
    have hcap : ((rest, [a]) : Thread) ∈
        (Regex.cap (Regex.rep 10 (Regex.cls [(B 'A', B 'Z'), (B '0', B '9')]))).run
          (a ++ rest) := by
      refine (mem_run_cap _ _ _).2 ⟨(rest, []), (mem_run_rep_cls _ _ _ _).2
        ⟨a, ha, fun c hc => (inClass_asin c).2 (hall c hc), rfl, rfl⟩, ?_⟩
      simp [ha]
    have halt : ((a ++ rest, []) : Thread) ∈
        (Regex.alt (Regex.lit (B '/'))
          (Regex.cat (Regex.text (str "%2")) (Regex.cls [(B 'F', B 'F'), (B 'f', B 'f')]))).run
          (sep ++ (a ++ rest)) := by
      rw [mem_run_alt]
      simp only [asinSeps, List.mem_cons, List.mem_singleton, List.not_mem_nil, or_false] at hsep
      rcases hsep with rfl | rfl | rfl
      · left
        exact (mem_run_lit _ _ _).2 ⟨rfl, rfl⟩
      · right
        exact (mem_run_cat _ _ _ _).2 ⟨(B 'F' :: (a ++ rest), []),
          (mem_run_text _ _ _).2 ⟨rfl, rfl⟩, (a ++ rest, []),
          (mem_run_cls _ _ _).2 ⟨B 'F', by decide, rfl, rfl⟩, rfl⟩
      · right
        exact (mem_run_cat _ _ _ _).2 ⟨(B 'f' :: (a ++ rest), []),
          (mem_run_text _ _ _).2 ⟨rfl, rfl⟩, (a ++ rest, []),
          (mem_run_cls _ _ _).2 ⟨B 'f', by decide, rfl, rfl⟩, rfl⟩
    refine ⟨(sep ++ (a ++ rest), []), (mem_run_text _ _ _).2 ⟨by rw [ht]; simp, rfl⟩,
      (rest, [a]), (mem_run_cat _ _ _ _).2 ⟨(a ++ rest, []), halt, (rest, [a]), hcap, rfl⟩, rfl⟩

/-- The ASIN pattern matches at the start of `t` exactly when an ASIN occurrence starts
there. -/
theorem asinRe_run_ne_nil (pre t : Str) :
    asinRe.run t ≠ [] ↔ ∃ a, AsinAt (pre ++ t) pre a := by
  constructor
  · intro hne
    obtain ⟨th, hth⟩ := List.exists_mem_of_ne_nil _ hne
    obtain ⟨sep, a, hsep, ha, hall, ht, _⟩ := (asinRe_run t th).1 hth
    exact ⟨a, sep, th.1, hsep, ha, hall, by rw [ht]; simp⟩
  · rintro ⟨a, sep, post, hsep, ha, hall, hu⟩
    have ht : t = str "dp" ++ sep ++ a ++ post := by
      have : pre ++ t = pre ++ (str "dp" ++ sep ++ a ++ post) := by rw [hu]; simp
      exact List.append_cancel_left this
    exact List.ne_nil_of_mem ((asinRe_run t (post, [a])).2 ⟨sep, a, hsep, ha, hall, ht, rfl⟩)

/-- What `AsinFromURL` returns: either the ten characters of the leftmost ASIN occurrence and
no error, or the empty string and an error when there is no occurrence. -/
theorem AsinFromURL_spec (u : Str) :
    (∃ pre a, AsinFromURL u = (a, none) ∧ AsinAt u pre a ∧
      ∀ pre2 a2, AsinAt u pre2 a2 → pre.length ≤ pre2.length) ∨
    (AsinFromURL u = ([], some (str "url doesn't contain asin")) ∧ ∀ pre a, ¬ AsinAt u pre a) := by
  cases hf : asinRe.FindStringSubmatch u with
  | nil =>
    right
    refine ⟨by simp [AsinFromURL, hf], ?_⟩
    intro pre a hat
    obtain ⟨sep, post, hsep, ha, hall, hu⟩ := hat
    have hnil := (find_eq_nil_iff asinRe u).1 hf pre (str "dp" ++ sep ++ a ++ post)
      (by rw [hu]; simp)
    have hmem := (asinRe_run (str "dp" ++ sep ++ a ++ post) (post, [a])).2
      ⟨sep, a, hsep, ha, hall, rfl, rfl⟩
    rw [hnil] at hmem
    exact absurd hmem (List.not_mem_nil _)
  | cons m caps =>
    left
    obtain ⟨pre, t, th, more, hs, hrun, hc, _, hleft⟩ := find_eq_cons asinRe u m caps hf
    have hth : th ∈ asinRe.run t := by rw [hrun]; exact List.mem_cons_self _ _
    obtain ⟨sep, a, hsep, ha, hall, ht, hc2⟩ := (asinRe_run t th).1 hth
    refine ⟨pre, a, ?_, ⟨sep, th.1, hsep, ha, hall, by rw [hs, ht]; simp⟩, ?_⟩
    · have : asinRe.FindStringSubmatch u = [m, a] := by rw [hf, hc, hc2]
      simp only [AsinFromURL, this]
      rw [TrimSpace_plain a (fun c hc => isAsinByte_plain c (hall c hc))]
    · intro pre2 a2 hat
      by_contra hlt
      obtain ⟨sep2, post2, hsep2, ha2, hall2, hu2⟩ := hat
      have hnil := hleft pre2 (str "dp" ++ sep2 ++ a2 ++ post2) (by rw [hu2]; simp)
        (by omega)
      have hmem := (asinRe_run (str "dp" ++ sep2 ++ a2 ++ post2) (post2, [a2])).2
        ⟨sep2, a2, hsep2, ha2, hall2, rfl, rfl⟩
      rw [hnil] at hmem
      exact absurd hmem (List.not_mem_nil _)

end Internal

namespace Crawler
open GoStrings Url Url.Encoding

/-- The printed URL up to its fragment: nothing in it is a `#`. -/
theorem cutBefore_hash_print (u : URL) (hwf : ParsedWF u) :
    cutBefore (B '#') (canon u).String =
      schemeString (canon u) ++ (canon u).bodyString ++ (canon u).queryString := by
  have hnh := print_no_hash u hwf
  rw [String_eq]
  by_cases hF : u.Fragment = []
  · have hfs : (canon u).fragmentString = [] := by
      show (if u.Fragment ≠ [] then _ else _) = _
      rw [if_neg (fun hne => hne hF)]
    rw [hfs, List.append_nil]
    exact cutBefore_of_not_mem _ _ hnh
  · have hfs : (canon u).fragmentString = B '#' :: (canon u).EscapedFragment := by
      show (if u.Fragment ≠ [] then _ else _) = _
      rw [if_pos hF]
    rw [hfs]
    exact cutBefore_append _ _ _ hnh

/-- The query of the printed URL is the query `filterQueryParams` wrote. -/
theorem queryOf_print (u : URL) (hwf : ParsedWF u) :
    queryOf (canon u).String = cleanQuery u.Query := by
  unfold queryOf
  rw [cutBefore_hash_print u hwf]
  have hq : (canon u).queryString =
      if u.ForceQuery = true ∨ cleanQuery u.Query ≠ [] then B '?' :: cleanQuery u.Query
      else [] := rfl
  have hsb : B '?' ∉ schemeString (canon u) ++ (canon u).bodyString := by
    intro hm
    rcases List.mem_append.1 hm with h | h
    · exact schemeString_not_mem u _ (SchemeWF_not_mem _ hwf.scheme).2.1 (by decide) h
    · exact body_no_quest u hwf h
  rw [hq]
  by_cases hc : u.ForceQuery = true ∨ cleanQuery u.Query ≠ []
  · rw [if_pos hc]
    exact cutAfter_append _ _ _ hsb
  · rw [if_neg hc, List.append_nil, cutAfter_of_not_mem _ _ hsb]
    by_contra hne
    exact hc (Or.inr (fun e => hne e.symm))

theorem get_filter_key (p : Str → Bool) (v : Values) (k : Str) :
    Values.get (v.filter (fun kv => p kv.1)) k = if p k = true then Values.get v k else [] := by
  unfold Values.get
  rw [List.filter_filter]
  by_cases hk : p k = true
  · rw [if_pos hk]
    congr 1
    apply List.filter_congr
    intro kv _
    by_cases e : kv.1 = k
    · simp [e, hk]
    · simp [e]
  · rw [if_neg hk]
    have : v.filter (fun a => decide (a.1 = k) && p a.1) = [] := by
      rw [List.filter_eq_nil_iff]
      intro kv _
      by_cases e : kv.1 = k
      · simp [e, hk]
      · simp [e]
    rw [this]
    rfl

/-- Reading the written query back gives, for every key, the values the parsed query held
for it when the key is allowed, and nothing otherwise. -/
theorem get_cleanQuery (q : Values) (k : Str) :
    Values.get (ParseQuery (cleanQuery q)) k =
      if ALLOWED_SEARCH_PARAMS k = true then Values.get q k else [] := by
  unfold cleanQuery
  simp only
  rw [ParseQuery_Encode, get_sortedPairs, get_filter_key]

end Crawler

namespace GoStrings

theorem mem_of_mem_Split (sep x : Byte) : ∀ (s p : Str), p ∈ Split sep s → x ∈ p → x ∈ s
  | [], p, h, hx => by
    simp only [Split, List.mem_singleton] at h
    subst h
    exact hx
  | c :: s, p, h, hx => by
    unfold Split at h
    by_cases hc : c = sep
    · rw [if_pos hc] at h
      rcases List.mem_cons.1 h with rfl | h
      · exact absurd hx (List.not_mem_nil _)
      · exact List.mem_cons_of_mem _ (mem_of_mem_Split sep x s p h hx)
    · rw [if_neg hc] at h
      cases hs : Split sep s with
      | nil =>
        rw [hs] at h
        simp only [List.mem_singleton] at h
        subst h
        rcases List.mem_singleton.1 hx with rfl
        exact List.mem_cons_self _ _
      | cons hd r =>
        rw [hs] at h
        simp only at h
        rcases List.mem_cons.1 h with rfl | h
        · rcases List.mem_cons.1 hx with rfl | hx
          · exact List.mem_cons_self _ _
          · exact List.mem_cons_of_mem _
              (mem_of_mem_Split sep x s hd (by rw [hs]; exact List.mem_cons_self _ _) hx)
        · exact List.mem_cons_of_mem _
            (mem_of_mem_Split sep x s p (by rw [hs]; exact List.mem_cons_of_mem _ h) hx)

end GoStrings

namespace Crawler
open GoStrings Url Url.Encoding

theorem semicolon_not_mem_cleanQuery (q : Values) : B ';' ∉ cleanQuery q :=
  cleanQuery_not_mem _ (by decide) (by decide) (by decide) (by decide) (by decide) _

/-- The query of what `filterQueryParams` returns, for a URL that parses. -/
theorem filterQueryParams_query (raw : Str) (u : URL) (h : Parse raw = some u) :
    queryOf (filterQueryParams raw) = Values.Encode (u.Query.filter
      (fun kv => ALLOWED_SEARCH_PARAMS kv.1)) ∧
    (∀ key : Str, Values.get (ParseQuery (queryOf (filterQueryParams raw))) key =
      if ALLOWED_SEARCH_PARAMS key = true then Values.get u.Query key else []) := by
  have e1 : filterQueryParams raw = (canon u).String := by rw [filterQueryParams_eq, h]
  have e2 := queryOf_print u (Parse_wf raw u h)
  rw [e1, e2]
  exact ⟨rfl, fun key => get_cleanQuery _ key⟩

end Crawler

namespace Crawler
open GoStrings Url Url.Encoding

theorem keepSegment_eq (s : Str) :
    keepSegment s = decide (s ≠ [] ∧ ¬ str "ref=" <+: s ∧ ¬ str "ref-" <+: s) := by
  unfold keepSegment
  rw [Bool.eq_iff_iff]
  simp only [Bool.and_eq_true, decide_eq_true_eq, Bool.not_eq_true', ← Bool.not_eq_true,
    HasPrefix_iff, and_assoc]

/-- The path `filterQueryParams` writes back, in the words of the claim. -/
theorem cleanPath_kept (p : Str) : cleanPath p = B '/' :: Join (B '/') (keptSegments p) := by
  unfold cleanPath keptSegments
  simp only
  congr 2
  apply List.filter_congr
  intro s _
  exact keepSegment_eq s

theorem mem_keptSegments (p s : Str) (h : s ∈ keptSegments p) :
    s ≠ [] ∧ B '/' ∉ s ∧ ¬ str "ref=" <+: s ∧ ¬ str "ref-" <+: s := by
  unfold keptSegments at h
  rw [List.mem_filter, decide_eq_true_eq] at h
  exact ⟨h.2.1, not_mem_of_mem_Split _ _ _ h.1, h.2.2⟩

theorem getLast?_Join (sep : Byte) : ∀ (pieces : List Str) (last : Str), last ≠ [] →
    (Join sep (pieces ++ [last])).getLast? = last.getLast?
  | [], last, _ => by rw [List.nil_append, Join_singleton]
  | p :: pieces, last, h => by
    obtain ⟨q, r, hqr⟩ : ∃ q r, pieces ++ [last] = q :: r := by
      cases pieces with
      | nil => exact ⟨last, [], rfl⟩
      | cons q r => exact ⟨q, r ++ [last], rfl⟩
    have ih := getLast?_Join sep pieces last h
    rw [List.cons_append, hqr, Join_cons_cons, ← hqr]
    have hne : Join sep (pieces ++ [last]) ≠ [] := by
      intro e
      rw [e] at ih
      obtain ⟨c, t, hct⟩ := List.exists_cons_of_ne_nil h
      have : last.getLast? ≠ none := by
        rw [hct]; simp [List.getLast?_eq_getLast]
      exact this ih.symm
    rw [List.getLast?_append_of_ne_nil _ (List.cons_ne_nil _ _)]
    obtain ⟨c, t, hct⟩ := List.exists_cons_of_ne_nil hne
    rw [← ih, hct, List.getLast?_cons_cons]

/-- The shape of the written path: a slash and the kept segments joined by slashes; with
a segment kept it splits back into these segments and does not end in a slash. -/
theorem cleanPath_shape (p : Str) :
    (keptSegments p = [] → cleanPath p = [B '/']) ∧
    (keptSegments p ≠ [] →
      Split (B '/') (cleanPath p) = [] :: keptSegments p ∧
      (cleanPath p).getLast? ≠ some (B '/')) := by
  rw [cleanPath_kept]
  constructor
  · intro h
    rw [h]; rfl
  · intro hne
    obtain ⟨a, r, har⟩ := List.exists_cons_of_ne_nil hne
    have hJ : B '/' :: Join (B '/') (keptSegments p) =
        Join (B '/') ([] :: keptSegments p) := by
      rw [har, Join_cons_cons]; rfl
    constructor
    · rw [hJ]
      apply Split_Join _ _ (List.cons_ne_nil _ _)
      intro x hx
      rcases List.mem_cons.1 hx with rfl | hx
      · exact List.not_mem_nil _
      · exact (mem_keptSegments p x hx).2.1
    · have hl : keptSegments p =
          (keptSegments p).dropLast ++ [(keptSegments p).getLast hne] :=
        (List.dropLast_append_getLast hne).symm
      have hmem : (keptSegments p).getLast hne ∈ keptSegments p := List.getLast_mem hne
      obtain ⟨h1, h2, _⟩ := mem_keptSegments p _ hmem
      rw [hJ, hl, ← List.cons_append, getLast?_Join _ _ _ h1]
      intro e
      apply h2
      exact List.mem_of_getLast?_eq_some e

/-- The path `setPath` stores for the printed path. -/
theorem setPath_print_Path (url u W : URL) (hwf : ParsedWF u)
    (h : setPath url (canon u).EscapedPath = some W) : W.Path = cleanPath u.Path := by
  have hE := escapedFacts u hwf
  obtain ⟨path, hp, hW⟩ := setPath_some _ _ _ h
  rw [hE.unesc] at hp
  have hpath : path = cleanPath u.Path := (Option.some.inj hp).symm
  subst hpath
  rw [hW]

/-- The path `parse` stores for the body of the printed URL, when it is not opaque. -/
theorem parseHier_print_Path (u url W : URL) (hwf : ParsedWF u) (hO : u.Opaque = [])
    (hs : url.Scheme = u.Scheme)
    (h : parseHier url (canon u).bodyString = some W) : W.Path = cleanPath u.Path := by
  have hE := escapedFacts u hwf
  have hbody := canon_body u hwf
  rw [if_neg (fun hne => hne hO)] at hbody
  by_cases hauth : (u.Scheme ≠ [] ∨ u.Host ≠ [] ∨ u.User ≠ none) ∧
      ¬ (u.OmitHost = true ∧ u.Host = [] ∧ u.User = none)
  · rw [if_pos hauth] at hbody
    obtain ⟨t, ht⟩ := hE.slash (hwf.abs_slash hauth.1)
    have hslashA : B '/' ∉ authorityText u.User u.Host :=
      not_mem_authorityText _ (by decide) (by decide) (by decide) (by decide) (by decide)
        (by decide) _ _
    have hbody' : (canon u).bodyString =
        B '/' :: B '/' :: (authorityText u.User u.Host ++ B '/' :: t) := by
      rw [hbody, ht]; rfl
    have h3 : url.Scheme ≠ [] ∨ HasPrefix
        (B '/' :: B '/' :: (authorityText u.User u.Host ++ B '/' :: t)) (str "///") = false := by
      by_cases hsn : u.Scheme = []
      · right
        have hne : authorityText u.User u.Host ≠ [] := by
          intro e
          obtain ⟨e1, e2⟩ := authorityText_eq_nil _ _ e
          rcases hauth.1 with h1 | h1 | h1
          · exact h1 hsn
          · exact h1 e2
          · exact h1 e1
        obtain ⟨c, r, hcr⟩ := List.exists_cons_of_ne_nil hne
        rw [hcr]
        apply HasPrefix_three_false
        intro hc
        apply hslashA
        rw [hcr, hc]
        exact List.mem_cons_self _ _
      · left; rw [hs]; exact hsn
    rw [hbody', parseHier_authority url _ h3, cutBefore_append _ _ _ hslashA,
      dropWhile_append _ _ _ hslashA] at h
    cases ha : parseAuthority (authorityText u.User u.Host) with
    | none => rw [ha] at h; simp at h
    | some uh =>
      obtain ⟨user, host⟩ := uh
      rw [ha] at h
      simp only at h
      rw [← ht] at h
      exact setPath_print_Path { url with User := user, Host := host } u W hwf h
  · rw [if_neg hauth, List.nil_append] at hbody
    rw [hbody] at h
    by_cases hsn : u.Scheme = []
    · have hhu : u.Host = [] ∧ u.User = none := by
        by_contra hc
        apply hauth
        refine ⟨?_, fun hh => hc hh.2⟩
        by_cases hh : u.Host = []
        · right; right; intro hu; exact hc ⟨hh, hu⟩
        · right; left; exact hh
      rw [parseHier_relative url _ (hs.trans hsn) hE.not_two
        (hE.colon (hwf.rel_colon hsn hhu.1 hhu.2))] at h
      exact setPath_print_Path url u W hwf h
    · obtain ⟨t, ht⟩ := hE.slash (hwf.abs_slash (Or.inl hsn))
      have hp1 : HasPrefix (canon u).EscapedPath [B '/'] = true := by
        rw [ht]; exact HasPrefix_cons _ _
      rw [parseHier_omit url _ (by rw [hs]; exact hsn) hp1 hE.not_two] at h
      exact setPath_print_Path { url with OmitHost := true } u W hwf h

theorem parse_print_Path (u W : URL) (hwf : ParsedWF u) (hO : u.Opaque = [])
    (h : parse (schemeString (canon u) ++ (canon u).bodyString ++ (canon u).queryString)
      = some W) : W.Path = cleanPath u.Path := by
  unfold parse at h
  split at h
  · simp at h
  · rw [if_neg (print_ne_star u hwf), getScheme_print u hwf] at h
    simp only at h
    have hq : (canon u).queryString =
        if u.ForceQuery = true ∨ cleanQuery u.Query ≠ [] then B '?' :: cleanQuery u.Query
        else [] := rfl
    obtain ⟨fq', hsq, _⟩ := splitQuery_print (canon u).bodyString (cleanQuery u.Query)
      u.ForceQuery (body_no_quest u hwf)
      (cleanQuery_not_mem _ (by decide) (by decide) (by decide) (by decide) (by decide) _)
    rw [hq, hsq, SchemeWF_ToLower _ hwf.scheme] at h
    exact parseHier_print_Path u
      { Scheme := u.Scheme, ForceQuery := fq', RawQuery := cleanQuery u.Query } W hwf hO rfl h

/-- The path Go reads from the printed URL, when it parses and is not opaque. -/
theorem Parse_print_Path (u V : URL) (hwf : ParsedWF u) (hO : u.Opaque = [])
    (h : Parse (canon u).String = some V) : V.Path = cleanPath u.Path := by
  have hcut := cutBefore_hash_print u hwf
  unfold Parse at h
  simp only at h
  rw [hcut] at h
  cases hp : parse (schemeString (canon u) ++ (canon u).bodyString ++ (canon u).queryString) with
  | none => rw [hp] at h; simp at h
  | some W =>
    rw [hp] at h
    simp only at h
    have hW := parse_print_Path u W hwf hO hp
    split at h
    · simp only [Option.some.injEq] at h
      rw [← h]; exact hW
    · unfold setFragment at h
      split at h
      · simp at h
      · simp only [Option.some.injEq] at h
        rw [← h]; exact hW

/-- The text `filterQueryParams` prints for a URL that is not opaque: scheme, authority,
escaped path, query, fragment. -/
theorem canon_String_parts (u : URL) (hwf : ParsedWF u) (hO : u.Opaque = []) :
    (canon u).String = schemeString (canon u) ++ (canon u).authorityString ++
      (canon u).EscapedPath ++ (canon u).queryString ++ (canon u).fragmentString := by
  rw [String_eq]
  have hb : (canon u).bodyString = (canon u).hierString := by
    unfold URL.bodyString
    rw [if_neg]
    intro hne; exact hne hO
  rw [hb, canon_hierString u hwf]
  simp only [List.append_assoc]

/-- The path of what `filterQueryParams` returns, for a URL that parses and is not opaque. -/
theorem filterQueryParams_path (raw : Str) (u : URL) (h : Parse raw = some u)
    (hO : u.Opaque = []) :
    (filterQueryParams raw = schemeString (canon u) ++ (canon u).authorityString ++
        (canon u).EscapedPath ++ (canon u).queryString ++ (canon u).fragmentString ∧
      unescape (canon u).EscapedPath encodePath =
        some (B '/' :: Join (B '/') (keptSegments u.Path)) ∧
      B '?' ∉ (canon u).EscapedPath ∧ B '#' ∉ (canon u).EscapedPath) ∧
    (∀ V : URL, Parse (filterQueryParams raw) = some V →
      V.Path = B '/' :: Join (B '/') (keptSegments u.Path)) ∧
    (keptSegments u.Path = [] → B '/' :: Join (B '/') (keptSegments u.Path) = [B '/']) ∧
    (keptSegments u.Path ≠ [] →
      Split (B '/') (B '/' :: Join (B '/') (keptSegments u.Path)) = [] :: keptSegments u.Path ∧
      (B '/' :: Join (B '/') (keptSegments u.Path)).getLast? ≠ some (B '/')) := by
  have hwf := Parse_wf raw u h
  have e1 : filterQueryParams raw = (canon u).String := by rw [filterQueryParams_eq, h]
  have hE := escapedFacts u hwf
  rw [← cleanPath_kept]
  refine ⟨⟨?_, hE.unesc, hE.quest, hE.hash⟩, ?_, (cleanPath_shape u.Path).1,
    (cleanPath_shape u.Path).2⟩
  · rw [e1]; exact canon_String_parts u hwf hO
  · intro V hV
    rw [e1] at hV
    exact Parse_print_Path u V hwf hO hV

end Crawler

namespace Strconv

theorem roundHalfEven_mul (q d : Nat) (hd : 0 < d) : roundHalfEven (q * d) d = q := by
  unfold roundHalfEven
  simp only [Nat.mul_mod_left, Nat.mul_zero]
  rw [if_pos hd, Nat.mul_div_cancel _ hd]

theorem log2_le_52 (k : Nat) (hk0 : 0 < k) (hk : k < 2 ^ 53) : Nat.log2 k ≤ 52 := by
  have := (Nat.log2_lt (Nat.pos_iff_ne_zero.1 hk0)).2 hk
  omega

theorem floorLog2_mul (k d : Nat) (hd : 0 < d) (hk0 : 0 < k) :
    floorLog2 (k * d) d = (Nat.log2 k : Int) := by
  unfold floorLog2
  have hle : d ≤ k * d := Nat.le_mul_of_pos_left d hk0
  rw [if_pos hle, Nat.mul_div_cancel _ hd]

/-- Rounding an integer below `2^53` is exact. -/
theorem round_int (neg : Bool) (k d : Nat) (hd : 0 < d) (hk0 : 0 < k) (hk : k < 2 ^ 53) :
    F64.round neg (k * d) d =
      .fin neg (k * 2 ^ (52 - Nat.log2 k)) ((Nat.log2 k : Int) - 52) := by
  have hl := log2_le_52 k hk0 hk
  have hn : k * d ≠ 0 := Nat.pos_iff_ne_zero.1 (Nat.mul_pos hk0 hd)
  unfold F64.round
  rw [if_neg hn, floorLog2_mul k d hd hk0]
  have hmax : max (Nat.log2 k : Int) (-1022) = (Nat.log2 k : Int) := by omega
  simp only [hmax]
  have hov : ¬ (1024 ≤ (Nat.log2 k : Int) ∨ ((Nat.log2 k : Int) = 1023 ∧
      (if 0 ≤ (Nat.log2 k : Int) - 52 then
          roundHalfEven (k * d) (d * 2 ^ ((Nat.log2 k : Int) - 52).toNat)
        else roundHalfEven (k * d * 2 ^ (-((Nat.log2 k : Int) - 52)).toNat) d) = 2 ^ 53)) := by
    omega
  rw [if_neg hov]
  by_cases h52 : Nat.log2 k = 52
  · have hq : (0 : Int) ≤ (Nat.log2 k : Int) - 52 := by omega
    rw [if_pos hq]
    have ht : ((Nat.log2 k : Int) - 52).toNat = 0 := by omega
    rw [ht, pow_zero, Nat.mul_one, roundHalfEven_mul k d hd, h52]
    simp
  · have hq : ¬ (0 : Int) ≤ (Nat.log2 k : Int) - 52 := by omega
    rw [if_neg hq]
    have ht : (-((Nat.log2 k : Int) - 52)).toNat = 52 - Nat.log2 k := by omega
    rw [ht]
    have : k * d * 2 ^ (52 - Nat.log2 k) = (k * 2 ^ (52 - Nat.log2 k)) * d := by ring
    rw [this, roundHalfEven_mul _ d hd]

theorem ofNat_zero : F64.ofNat 0 = .fin false 0 0 := rfl

theorem ofNat_eq (k : Nat) (hk0 : 0 < k) (hk : k < 2 ^ 53) :
    F64.ofNat k = .fin false (k * 2 ^ (52 - Nat.log2 k)) ((Nat.log2 k : Int) - 52) := by
  have := round_int false k 1 (by decide) hk0 hk
  rw [Nat.mul_one] at this
  exact this

/-- Converting the `float64` of an integer below `2^53` back gives the integer. -/
theorem toInt_ofNat (k : Nat) (hk : k < 2 ^ 53) : (F64.ofNat k).toInt = (k : Int) := by
  rcases Nat.eq_zero_or_pos k with rfl | hk0
  · rfl
  · have hl := log2_le_52 k hk0 hk
    rw [ofNat_eq k hk0 hk]
    unfold F64.toInt
    simp only [Bool.false_eq_true, if_false]
    have hval : (if (0 : Int) ≤ (Nat.log2 k : Int) - 52
        then k * 2 ^ (52 - Nat.log2 k) * 2 ^ ((Nat.log2 k : Int) - 52).toNat
        else k * 2 ^ (52 - Nat.log2 k) / 2 ^ (-((Nat.log2 k : Int) - 52)).toNat) = k := by
      by_cases h52 : Nat.log2 k = 52
      · have hq : (0 : Int) ≤ (Nat.log2 k : Int) - 52 := by omega
        rw [if_pos hq]
        have ht : ((Nat.log2 k : Int) - 52).toNat = 0 := by omega
        rw [ht, h52]
        simp
      · have hq : ¬ (0 : Int) ≤ (Nat.log2 k : Int) - 52 := by omega
        rw [if_neg hq]
        have ht : (-((Nat.log2 k : Int) - 52)).toNat = 52 - Nat.log2 k := by omega
        rw [ht, Nat.mul_div_cancel _ (Nat.pos_pow_of_pos _ (by decide))]
    rw [hval]
    have hk' : (k : Int) < 9223372036854775808 := by
      have : k < 9223372036854775808 := lt_trans hk (by norm_num)
      exact_mod_cast this
    have hk0' : (-9223372036854775808 : Int) ≤ (k : Int) := by omega
    rw [if_pos ⟨hk0', hk'⟩]

/-- The product of the `float64` of two integers is exact when it is below `2^53`. -/
theorem mul_ofNat (a b : Nat) (ha : a < 2 ^ 53) (hb : b < 2 ^ 53) (hab : a * b < 2 ^ 53) :
    (F64.ofNat a).mul (F64.ofNat b) = F64.ofNat (a * b) := by
  have hz : ∀ (d : Nat), F64.round (false != false) 0 d = F64.fin false 0 0 := fun d => rfl
  rcases Nat.eq_zero_or_pos a with rfl | ha0
  · rw [Nat.zero_mul, ofNat_zero]
    rcases Nat.eq_zero_or_pos b with rfl | hb0
    · rfl
    · rw [ofNat_eq b hb0 hb]
      unfold F64.mul
      simp only [Nat.zero_mul]
      split <;> exact hz _
  · rcases Nat.eq_zero_or_pos b with rfl | hb0
    · rw [Nat.mul_zero, ofNat_zero, ofNat_eq a ha0 ha]
      unfold F64.mul
      simp only [Nat.mul_zero, Nat.zero_mul]
      split <;> exact hz _
    · have hla := log2_le_52 a ha0 ha
      have hlb := log2_le_52 b hb0 hb
      have hab0 : 0 < a * b := Nat.mul_pos ha0 hb0
      rw [ofNat_eq a ha0 ha, ofNat_eq b hb0 hb]
      unfold F64.mul
      simp only
      have hff : (false != false) = false := rfl
      rw [hff]
      by_cases h0 : (0 : Int) ≤ (Nat.log2 a : Int) - 52 + ((Nat.log2 b : Int) - 52)
      · rw [if_pos h0]
        have e1 : Nat.log2 a = 52 := by omega
        have e2 : Nat.log2 b = 52 := by omega
        have ht : ((Nat.log2 a : Int) - 52 + ((Nat.log2 b : Int) - 52)).toNat = 0 := by omega
        rw [ht, e1, e2]
        simp only [Nat.sub_self, pow_zero, Nat.mul_one]
        rfl
      · rw [if_neg h0]
        have ht : (-((Nat.log2 a : Int) - 52 + ((Nat.log2 b : Int) - 52))).toNat =
            (52 - Nat.log2 a) + (52 - Nat.log2 b) := by omega
        rw [ht]
        have hmul : a * 2 ^ (52 - Nat.log2 a) * (b * 2 ^ (52 - Nat.log2 b)) =
            (a * b) * 2 ^ ((52 - Nat.log2 a) + (52 - Nat.log2 b)) := by
          rw [pow_add]; ring
        rw [hmul, round_int false (a * b) _ (Nat.pos_pow_of_pos _ (by decide)) hab0 hab,
          ofNat_eq (a * b) hab0 hab]

end Strconv

namespace Strconv
open GoStrings Internal

theorem digit_facts : ∀ c : Byte, isDigit c →
    c ≠ B '_' ∧ c ≠ B '.' ∧ c ≠ B '+' ∧ c ≠ B '-' ∧ c ≠ B 'i' ∧ c ≠ B 'I' ∧ c ≠ B 'n' ∧
    c ≠ B 'N' ∧ lower c ≠ B 'x' ∧ c ≠ B ',' ∧ c < 128 ∧ isAsciiSpace c = false ∧
    ¬ (B 'A' ≤ c ∧ c ≤ B 'Z') ∧ c ≠ B 'k' ∧ c ≠ B 'm' := by
  unfold isDigit
  decide

/-- The digit loop of `readFloat` on decimal digits: all of them are read into the number. -/
theorem scanDigits_digits : ∀ (ds : Str) (st : Digits), (∀ c ∈ ds, isDigit c) →
    st.sawdot = false → st.underscores = false → (st.nd = 0 → st.mant = 0) →
    (scanDigits false st ds).2 = [] ∧
    (scanDigits false st ds).1.mant = ds.foldl (fun a c => a * 10 + (c.val - 48)) st.mant ∧
    (scanDigits false st ds).1.sawdot = false ∧
    (scanDigits false st ds).1.underscores = false ∧
    ((st.sawdigits = true ∨ ds ≠ []) → (scanDigits false st ds).1.sawdigits = true)
  | [], st, _, h1, h2, _ => by
    exact ⟨rfl, rfl, h1, h2, fun h => h.elim id (fun hh => absurd rfl hh)⟩
  | c :: t, st, hall, h1, h2, h3 => by
    have hc := hall c (List.mem_cons_self _ _)
    obtain ⟨f1, f2, _⟩ := digit_facts c hc
    have ht : ∀ x ∈ t, isDigit x := fun x hx => hall x (List.mem_cons_of_mem _ hx)
    rw [scanDigits]
    simp only [f1, f2, if_false, List.foldl_cons]
    have hd : B '0' ≤ c ∧ c ≤ B '9' := hc
    rw [if_pos hd]
    by_cases hz : c = B '0' ∧ st.nd = 0
    · rw [if_pos hz]
      obtain ⟨r1, r2, r3, r4, r5⟩ := scanDigits_digits t
        { st with sawdigits := true, dp := st.dp - 1 } ht h1 h2 h3
      refine ⟨r1, ?_, r3, r4, fun _ => r5 (Or.inl rfl)⟩
      rw [r2]
      have hm : st.mant = 0 := h3 hz.2
      have hv : st.mant * 10 + (c.val - 48) = st.mant := by
        rw [hm, hz.1]; rfl
      rw [hv]
    · rw [if_neg hz]
      obtain ⟨r1, r2, r3, r4, r5⟩ := scanDigits_digits t
        { st with sawdigits := true, nd := st.nd + 1,
                  mant := st.mant * (if false = true then 16 else 10) + (c.val - 48) }
        ht h1 h2 (fun h => absurd h (Nat.succ_ne_zero _))
      refine ⟨r1, ?_, r3, r4, fun _ => r5 (Or.inl rfl)⟩
      rw [r2]
      rfl

theorem special_digit (c : Byte) (t : Str) (hc : isDigit c) : special (c :: t) = none := by
  obtain ⟨_, _, f3, f4, f5, f6, f7, f8, _⟩ := digit_facts c hc
  unfold special
  simp [f3, f4, f5, f6, f7, f8]

/-- What `readFloat` reads from a text of decimal digits. -/
theorem readFloat_digits (ds : Str) (hne : ds ≠ []) (hall : ∀ c ∈ ds, isDigit c) :
    readFloat ds = some { neg := false, hex := false, mant := digitsValue ds, exp := 0,
                          rest := [] } := by
  obtain ⟨c, t, rfl⟩ := List.exists_cons_of_ne_nil hne
  have hc := hall c (List.mem_cons_self _ _)
  obtain ⟨_, _, f3, f4, _⟩ := digit_facts c hc
  have hhex : hexPrefix (c :: t) = false := by
    unfold hexPrefix
    cases t with
    | nil => rfl
    | cons x t2 =>
      cases t2 with
      | nil => rfl
      | cons y t3 =>
        have hx := hall x (by simp)
        have := (digit_facts x hx).2.2.2.2.2.2.2.2.1
        simp [this]
  obtain ⟨r1, r2, r3, r4, r5⟩ := scanDigits_digits (c :: t) {} hall rfl rfl (fun _ => rfl)
  have r5' := r5 (Or.inr (List.cons_ne_nil _ _))
  unfold readFloat
  simp only [f3, f4, or_self, if_false, hhex, Bool.false_eq_true]
  simp only [r5', Bool.not_true, Bool.false_eq_true, if_false, r3, r1, r4]
  simp only [readExp, Bool.false_eq_true, if_false, Bool.false_or, Bool.false_and,
    add_zero, sub_self, ite_self, decide_False]
  rw [r2]
  rfl

/-- On a text of decimal digits that writes a number below `2^53`, `ParseFloat` returns
this number. -/
theorem ParseFloat_digits (ds : Str) (hne : ds ≠ []) (hall : ∀ c ∈ ds, isDigit c)
    (hv : digitsValue ds < 2 ^ 53) : ParseFloat ds = .ok (F64.ofNat (digitsValue ds)) := by
  obtain ⟨c, t, hct⟩ := List.exists_cons_of_ne_nil hne
  have hsp : special ds = none := by
    rw [hct]; exact special_digit c t (hall c (by rw [hct]; exact List.mem_cons_self _ _))
  unfold ParseFloat
  rw [hsp, readFloat_digits ds hne hall]
  simp only [ne_eq, not_true_eq_false, if_false, Bool.false_eq_true]
  have hs : F64.ofScaled false (digitsValue ds) 10 0 = F64.ofNat (digitsValue ds) := by
    unfold F64.ofScaled F64.ofNat
    simp
  rw [hs]
  rcases Nat.eq_zero_or_pos (digitsValue ds) with h0 | h0
  · rw [h0]; rfl
  · rw [ofNat_eq _ h0 hv]

end Strconv

namespace GoStrings
open Internal

/-- One white-space rune at the start is trimmed. -/
theorem trimLeftSpace_rune : ∀ r ∈ spaceRunes, ∀ y : Str,
    trimLeftSpace (r ++ y) = trimLeftSpace y := by
  intro r hr y
  simp only [spaceRunes, List.mem_cons, List.mem_singleton, List.not_mem_nil, or_false] at hr
  rcases hr with h | h | h | h | h | h | h | h | h | h | h | h | h | h | h | h | h | h | h |
    h | h | h | h | h | h <;> subst h <;>
  · rw [trimLeftSpace.eq_def]
    simp [isAsciiSpace, isSpace2, isSpace3]

theorem trimLeftSpace_space (w : Str) (hw : IsSpaceText w) (y : Str) :
    trimLeftSpace (w ++ y) = trimLeftSpace y := by
  obtain ⟨runes, hall, rfl⟩ := hw
  induction runes with
  | nil => rfl
  | cons r rs ih =>
    rw [List.flatten_cons, List.append_assoc,
      trimLeftSpace_rune r (hall r (List.mem_cons_self _ _))]
    exact ih (fun x hx => hall x (List.mem_cons_of_mem _ hx))

/-- One white-space rune at the end, read backwards, is trimmed. -/
theorem trimLeftSpaceRev_rune : ∀ r ∈ spaceRunes, ∀ y : Str,
    trimLeftSpaceRev (r.reverse ++ y) = trimLeftSpaceRev y := by
  intro r hr y
  simp only [spaceRunes, List.mem_cons, List.mem_singleton, List.not_mem_nil, or_false] at hr
  rcases hr with h | h | h | h | h | h | h | h | h | h | h | h | h | h | h | h | h | h | h |
    h | h | h | h | h | h <;> subst h <;>
  · rw [trimLeftSpaceRev.eq_def]
    simp [isAsciiSpace, isSpace2, isSpace3]

theorem trimLeftSpaceRev_space : ∀ (runes : List Str), (∀ r ∈ runes, r ∈ spaceRunes) →
    ∀ y : Str, trimLeftSpaceRev (runes.flatten.reverse ++ y) = trimLeftSpaceRev y
  | [], _, y => rfl
  | r :: rs, hall, y => by
    rw [List.flatten_cons, List.reverse_append, List.append_assoc,
      trimLeftSpaceRev_space rs (fun x hx => hall x (List.mem_cons_of_mem _ hx)),
      trimLeftSpaceRev_rune r (hall r (List.mem_cons_self _ _))]

theorem trimRightSpace_space (w : Str) (hw : IsSpaceText w) (y : Str) :
    trimRightSpace (y ++ w) = trimRightSpace y := by
  obtain ⟨runes, hall, rfl⟩ := hw
  unfold trimRightSpace
  rw [List.reverse_append, trimLeftSpaceRev_space runes hall]

/-- White space around a text that starts and ends with ASCII bytes that are not white
space is trimmed, and nothing else. -/
theorem TrimSpace_around (w1 w2 : Str) (h1 : IsSpaceText w1) (h2 : IsSpaceText w2)
    (a b : Byte) (mid : Str) (ha : a < 128 ∧ isAsciiSpace a = false)
    (hb : b < 128 ∧ isAsciiSpace b = false) :
    TrimSpace (w1 ++ (a :: mid ++ [b]) ++ w2) = a :: mid ++ [b] := by
  unfold TrimSpace
  rw [List.append_assoc, trimLeftSpace_space w1 h1, List.cons_append, List.cons_append,
    trimLeftSpace_cons a _ ha.1 ha.2, ← List.cons_append, ← List.cons_append,
    trimRightSpace_space w2 h2, trimRightSpace_concat _ b hb.1 hb.2]

theorem ToLower_of_no_upper (s : Str) (ha : ∀ c ∈ s, c < (128 : Byte))
    (h : ∀ c ∈ s, ¬ (B 'A' ≤ c ∧ c ≤ B 'Z')) : ToLower s = s := by
  rw [Url.ToLower_eq s ha]
  conv_rhs => rw [← List.map_id s]
  apply List.map_congr_left
  intro c hc
  unfold Url.lowerByte
  rw [if_neg (h c hc)]
  rfl

theorem ToLower_append (s t : Str) (hs : ∀ c ∈ s, c < (128 : Byte))
    (ht : ∀ c ∈ t, c < (128 : Byte)) : ToLower (s ++ t) = ToLower s ++ ToLower t := by
  have hst : ∀ c ∈ s ++ t, c < (128 : Byte) := by
    intro c hc
    rcases List.mem_append.1 hc with h | h
    · exact hs c h
    · exact ht c h
  rw [Url.ToLower_eq _ hst, Url.ToLower_eq _ hs, Url.ToLower_eq _ ht]
  exact List.map_append _ _ _

theorem ReplaceAll_of_not_mem (s : Str) (old : Byte) (new : Str) (h : old ∉ s) :
    ReplaceAll s old new = s := by
  unfold ReplaceAll
  induction s with
  | nil => rfl
  | cons c t ih =>
    simp only [List.mem_cons, not_or] at h
    rw [List.flatMap_cons, ih h.2, if_neg (fun e => h.1 e.symm)]
    rfl

theorem HasSuffix_concat (s : Str) (b c : Byte) :
    HasSuffix (s ++ [b]) [c] = decide (b = c) := by
  rw [Bool.eq_iff_iff, Url.HasSuffix_iff, decide_eq_true_eq]
  constructor
  · rintro ⟨t, ht⟩
    have := congrArg List.getLast? ht
    rw [List.getLast?_append_of_ne_nil _ (List.cons_ne_nil _ _),
      List.getLast?_append_of_ne_nil _ (List.cons_ne_nil _ _)] at this
    simp only [List.getLast?_singleton, Option.some.injEq] at this
    exact this.symm
  · rintro rfl
    exact ⟨s, rfl⟩

theorem TrimSuffix_concat (s : Str) (b : Byte) : TrimSuffix (s ++ [b]) [b] = s := by
  unfold TrimSuffix
  rw [HasSuffix_concat, decide_eq_true rfl, if_pos rfl]
  simp

end GoStrings

namespace Internal
open GoStrings Strconv

theorem byte_facts :
    (B ',' < (128 : Byte) ∧ isAsciiSpace (B ',') = false ∧ ¬ (B 'A' ≤ B ',' ∧ B ',' ≤ B 'Z')) ∧
    (B '.' < (128 : Byte) ∧ isAsciiSpace (B '.') = false ∧ ¬ (B 'A' ≤ B '.' ∧ B '.' ≤ B 'Z')) ∧
    (∀ u : Byte, (u = B 'k' ∨ u = B 'K' ∨ u = B 'm' ∨ u = B 'M') →
      u < 128 ∧ isAsciiSpace u = false) := by
  decide

theorem not_HasSuffix_of_not_mem (s : Str) (c : Byte) (h : c ∉ s) : HasSuffix s [c] = false := by
  rw [← Bool.not_eq_true, Url.HasSuffix_iff]
  rintro ⟨t, ht⟩
  apply h
  rw [← ht]
  simp

/-- Taking `,` and `.` out of a text of digits, `,` and `.` leaves its digits. -/
theorem ReplaceAll_separators : ∀ s : Str, (∀ c ∈ s, isDigit c ∨ c = B ',' ∨ c = B '.') →
    ReplaceAll (ReplaceAll s (B ',') []) (B '.') [] = s.filter (fun c => decide (isDigit c))
  | [], _ => rfl
  | c :: t, h => by
    have ih := ReplaceAll_separators t (fun x hx => h x (List.mem_cons_of_mem _ hx))
    unfold ReplaceAll at ih ⊢
    rw [List.flatMap_cons]
    rcases h c (List.mem_cons_self _ _) with hc | hc | hc
    · have f := digit_facts c hc
      rw [if_neg f.2.2.2.2.2.2.2.2.2.1, List.singleton_append, List.flatMap_cons,
        if_neg f.2.1, List.singleton_append, ih, List.filter_cons_of_pos (by simpa using hc)]
    · subst hc
      rw [if_pos rfl, List.nil_append, ih, List.filter_cons_of_neg (by decide)]
    · subst hc
      rw [if_neg (by decide), List.singleton_append, List.flatMap_cons, if_pos rfl,
        List.nil_append, ih, List.filter_cons_of_neg (by decide)]

/-- What `parseInt` returns on a text of digits, `,` and `.` that holds a digit and whose
digits write a number below `2^53`. -/
theorem parseInt_separators (s : Str) (hall : ∀ c ∈ s, isDigit c ∨ c = B ',' ∨ c = B '.')
    (hd : ∃ c ∈ s, isDigit c)
    (hv : digitsValue (s.filter (fun c => decide (isDigit c))) < 2 ^ 53) :
    parseInt s = ((digitsValue (s.filter (fun c => decide (isDigit c))) : Int), none) := by
  have hplain : ∀ c ∈ s, c < 128 ∧ isAsciiSpace c = false := by
    intro c hc
    rcases hall c hc with h | h | h
    · exact ⟨(digit_facts c h).2.2.2.2.2.2.2.2.2.2.1, (digit_facts c h).2.2.2.2.2.2.2.2.2.2.2.1⟩
    · subst h; exact ⟨byte_facts.1.1, byte_facts.1.2.1⟩
    · subst h; exact ⟨byte_facts.2.1.1, byte_facts.2.1.2.1⟩
  have hup : ∀ c ∈ s, ¬ (B 'A' ≤ c ∧ c ≤ B 'Z') := by
    intro c hc
    rcases hall c hc with h | h | h
    · exact (digit_facts c h).2.2.2.2.2.2.2.2.2.2.2.2.1
    · subst h; exact byte_facts.1.2.2
    · subst h; exact byte_facts.2.1.2.2
  have hk : B 'k' ∉ s := by
    intro hm
    rcases hall _ hm with h | h | h
    · exact (digit_facts _ h).2.2.2.2.2.2.2.2.2.2.2.2.2.1 rfl
    · exact absurd h (by decide)
    · exact absurd h (by decide)
  have hm : B 'm' ∉ s := by
    intro hm
    rcases hall _ hm with h | h | h
    · exact (digit_facts _ h).2.2.2.2.2.2.2.2.2.2.2.2.2.2 rfl
    · exact absurd h (by decide)
    · exact absurd h (by decide)
  have hsu : splitUnit s = (F64.ofNat 1, s, false) := by
    unfold splitUnit
    have e1 : str "k" = [B 'k'] := rfl
    have e2 : str "m" = [B 'm'] := rfl
    rw [e1, e2, not_HasSuffix_of_not_mem s _ hk, not_HasSuffix_of_not_mem s _ hm]
    rfl
  have hne : s.filter (fun c => decide (isDigit c)) ≠ [] := by
    obtain ⟨c, hc, hdc⟩ := hd
    exact List.ne_nil_of_mem (List.mem_filter.2 ⟨hc, by simpa using hdc⟩)
  have hdig : ∀ c ∈ s.filter (fun c => decide (isDigit c)), isDigit c := by
    intro c hc
    simpa using (List.mem_filter.1 hc).2
  unfold parseInt
  simp only [TrimSpace_plain s hplain, ToLower_of_no_upper s (fun c hc => (hplain c hc).1) hup,
    hsu, Bool.false_eq_true,
    if_false, ReplaceAll_separators s hall, ParseFloat_digits _ hne hdig hv]
  rw [mul_ofNat _ 1 hv (by norm_num) (by rw [Nat.mul_one]; exact hv), Nat.mul_one,
    toInt_ofNat _ hv]

/-- What `parseInt` returns on a numeral of digits followed by a unit letter, with white
space around it. -/
theorem parseInt_unit (w1 w2 n : Str) (u : Byte) (mult : Nat)
    (h1 : IsSpaceText w1) (h2 : IsSpaceText w2) (hne : n ≠ []) (hall : ∀ c ∈ n, isDigit c)
    (hu : ((u = B 'k' ∨ u = B 'K') ∧ mult = 1000) ∨ ((u = B 'm' ∨ u = B 'M') ∧ mult = 1000000))
    (hv : digitsValue n ≤ 1000000000) :
    parseInt (w1 ++ (n ++ [u]) ++ w2) = (((digitsValue n * mult : Nat) : Int), none) := by
  obtain ⟨a, mid, rfl⟩ := List.exists_cons_of_ne_nil hne
  have ha := hall a (List.mem_cons_self _ _)
  have hua : u < 128 ∧ isAsciiSpace u = false := by
    apply byte_facts.2.2
    rcases hu with ⟨h | h, _⟩ | ⟨h | h, _⟩ <;> simp [h]
  have htrim := TrimSpace_around w1 w2 h1 h2 a u mid
    ⟨(digit_facts a ha).2.2.2.2.2.2.2.2.2.2.1, (digit_facts a ha).2.2.2.2.2.2.2.2.2.2.2.1⟩ hua
  have hdig128 : ∀ c ∈ a :: mid, c < (128 : Byte) :=
    fun c hc => (digit_facts c (hall c hc)).2.2.2.2.2.2.2.2.2.2.1
  have hlow : ToLower (a :: mid) = a :: mid :=
    ToLower_of_no_upper _ hdig128
      (fun c hc => (digit_facts c (hall c hc)).2.2.2.2.2.2.2.2.2.2.2.2.1)
  have hcomma : B ',' ∉ a :: mid := fun hm =>
    (digit_facts _ (hall _ hm)).2.2.2.2.2.2.2.2.2.1 rfl
  have hv53 : digitsValue (a :: mid) < 2 ^ 53 := lt_of_le_of_lt hv (by norm_num)
  have hsu : splitUnit (ToLower (a :: mid ++ [u])) = (F64.ofNat mult, a :: mid, true) := by
    have hu128 : ∀ c ∈ [u], c < (128 : Byte) := by
      intro c hc
      rw [List.mem_singleton] at hc
      rw [hc]
      exact hua.1
    rw [ToLower_append _ _ hdig128 hu128, hlow]
    unfold splitUnit
    have e1 : str "k" = [B 'k'] := rfl
    have e2 : str "m" = [B 'm'] := rfl
    rw [e1, e2]
    rcases hu with ⟨h | h, hm⟩ | ⟨h | h, hm⟩ <;> subst h <;> subst hm
    · have : ToLower [B 'k'] = [B 'k'] := by decide
      rw [this, HasSuffix_concat, TrimSuffix_concat]
      rfl
    · have : ToLower [B 'K'] = [B 'k'] := by decide
      rw [this, HasSuffix_concat, TrimSuffix_concat]
      rfl
    · have : ToLower [B 'm'] = [B 'm'] := by decide
      rw [this, HasSuffix_concat, HasSuffix_concat, TrimSuffix_concat]
      rfl
    · have : ToLower [B 'M'] = [B 'm'] := by decide
      rw [this, HasSuffix_concat, HasSuffix_concat, TrimSuffix_concat]
      rfl
  have hmult : mult < 2 ^ 53 ∧ digitsValue (a :: mid) * mult < 2 ^ 53 := by
    rcases hu with ⟨_, hm⟩ | ⟨_, hm⟩ <;> subst hm
    · constructor
      · norm_num
      · calc digitsValue (a :: mid) * 1000 ≤ 1000000000 * 1000 := Nat.mul_le_mul_right _ hv
          _ < 2 ^ 53 := by norm_num
    · constructor
      · norm_num
      · calc digitsValue (a :: mid) * 1000000 ≤ 1000000000 * 1000000 :=
              Nat.mul_le_mul_right _ hv
          _ < 2 ^ 53 := by norm_num
  unfold parseInt
  simp only [htrim, hsu, if_true, ReplaceAll_of_not_mem _ _ _ hcomma,
    ParseFloat_digits _ hne hall hv53]
  rw [mul_ofNat _ mult hv53 hmult.1 hmult.2, toInt_ofNat _ hmult.2]

end Internal

namespace Crawler
open GoStrings Url

/-- C11: after any job that succeeds (its `processURL` returns no error) the error counter
is 0, whatever its value before the job; and when the job that runs next fails, the counter
stands at exactly 1 after it. -/
theorem error_counter_reset (c : crawler) (url : Str) (env : JobEnv)
    (hok : jobFails c url env = false) :
    (processJob c url env).errorCount = 0 ∧
    ∀ (url2 : Str) (env2 : JobEnv), jobFails (processJob c url env) url2 env2 = true →
      (processJob (processJob c url env) url2 env2).errorCount = 1 :=
  processJob_reset c url env hok

/-- C13 (as stated, refuted): the URL `mailto:a/ref=b` parses, as an opaque URL with an
empty path; `filterQueryParams` returns it unchanged, the `ref=` segment still in it, and
the path Go reads from the result is empty, not the slash that the kept segments of an
empty path give. -/
theorem opaque_url_keeps_ref_segment :
    (Url.Parse (str "mailto:a/ref=b")).map (fun u => (u.Opaque, u.Path)) =
      some (str "a/ref=b", []) ∧
    filterQueryParams (str "mailto:a/ref=b") = str "mailto:a/ref=b" ∧
    (Url.Parse (filterQueryParams (str "mailto:a/ref=b"))).map (fun v => v.Path) = some [] ∧
    B '/' :: Join (B '/') (keptSegments []) = str "/" := by
  decide!

/-- C13 (amended): for every raw URL that parses and is not opaque (no scheme followed by
text that does not start with a slash), `filterQueryParams(raw)` is the scheme, the
authority, the escaped path, the query and the fragment, where the escaped path decodes
to a slash followed by the non-empty path segments of raw that do not begin with `ref=`
or `ref-`, in their original order, joined by slashes; when the result parses again, this
is its path.  The path is the slash alone when no segment is kept; otherwise it splits
back into the kept segments and does not end in a slash. -/
theorem ref_segment_stripping (raw : Str) (u : URL) (h : Url.Parse raw = some u)
    (hO : u.Opaque = []) :
    (filterQueryParams raw = schemeString (canon u) ++ (canon u).authorityString ++
        (canon u).EscapedPath ++ (canon u).queryString ++ (canon u).fragmentString ∧
      unescape (canon u).EscapedPath Encoding.encodePath =
        some (B '/' :: Join (B '/') (keptSegments u.Path)) ∧
      B '?' ∉ (canon u).EscapedPath ∧ B '#' ∉ (canon u).EscapedPath) ∧
    (∀ V : URL, Url.Parse (filterQueryParams raw) = some V →
      V.Path = B '/' :: Join (B '/') (keptSegments u.Path)) ∧
    (keptSegments u.Path = [] → B '/' :: Join (B '/') (keptSegments u.Path) = [B '/']) ∧
    (keptSegments u.Path ≠ [] →
      Split (B '/') (B '/' :: Join (B '/') (keptSegments u.Path)) = [] :: keptSegments u.Path ∧
      (B '/' :: Join (B '/') (keptSegments u.Path)).getLast? ≠ some (B '/')) :=
  filterQueryParams_path raw u h hO

/-- C14: every string that contains a locale segment (a slash, a hyphen, a slash, two
lower-case letters a to z, a slash) is irrelevant, whatever else it contains. -/
theorem locale_exclusion_has_priority (u : Str) (h : hasLocaleSegment u) :
    isRelevantURL u = false := by
  rw [← Bool.not_eq_true, isRelevantURL_iff]
  intro hc
  exact hc.1 h

/-- C15 (the code at the failing input): the URL
`https://www.amazon.com/Amazon-Video/s?k=lego` contains `/Amazon-Video/`; the category rule
rejects it, the search rule accepts it, and `isRelevantURL` returns true. -/
theorem amazon_video_search_url_is_relevant :
    str "/Amazon-Video/" <:+: str "https://www.amazon.com/Amazon-Video/s?k=lego" ∧
    isCategoryURL (str "https://www.amazon.com/Amazon-Video/s?k=lego") = false ∧
    isSearchURL (str "https://www.amazon.com/Amazon-Video/s?k=lego") = true ∧
    isRelevantURL (str "https://www.amazon.com/Amazon-Video/s?k=lego") = true := by
  decide

/-- C16: for every string that contains neither a locale segment nor `/Amazon-Video/`,
`isRelevantURL` is true exactly when the string contains one of `/s?`, `/s/`, `/b?`,
`/b/`. -/
theorem search_category_classification (u : Str) (h1 : ¬ hasLocaleSegment u)
    (h2 : ¬ str "/Amazon-Video/" <:+: u) :
    isRelevantURL u = true ↔
      (str "/s?" <:+: u ∨ str "/s/" <:+: u ∨ str "/b?" <:+: u ∨ str "/b/" <:+: u) := by
  rw [isRelevantURL_iff]
  constructor
  · rintro ⟨_, (h | h) | ⟨_, (h | h)⟩⟩
    · exact Or.inl h
    · exact Or.inr (Or.inl h)
    · exact Or.inr (Or.inr (Or.inl h))
    · exact Or.inr (Or.inr (Or.inr h))
  · rintro (h | h | h | h)
    · exact ⟨h1, Or.inl (Or.inl h)⟩
    · exact ⟨h1, Or.inl (Or.inr h)⟩
    · exact ⟨h1, Or.inr ⟨h2, Or.inl h⟩⟩
    · exact ⟨h1, Or.inr ⟨h2, Or.inr h⟩⟩

end Crawler

namespace Internal
open GoStrings

/-- C17: whenever `AsinFromURL(u)` returns no error, the token it returns has length 10,
consists of characters A-Z and 0-9 only, and stands in `u` right after `dp/`, `dp%2F` or
`dp%2f`, at the leftmost place of `u` where `dp` and one of these separators are followed
by ten such characters. -/
theorem AsinFromURL_sound (u : Str) (h : (AsinFromURL u).2 = none) :
    (AsinFromURL u).1.length = 10 ∧ (∀ c ∈ (AsinFromURL u).1, isAsinByte c) ∧
    ∃ pre : Str, AsinAt u pre (AsinFromURL u).1 ∧
      ∀ pre2 a2 : Str, AsinAt u pre2 a2 → pre.length ≤ pre2.length := by
  rcases AsinFromURL_spec u with ⟨pre, a, he, hat, hleft⟩ | ⟨he, _⟩
  · rw [he]
    obtain ⟨sep, post, hsep, ha, hall, hu⟩ := hat
    exact ⟨ha, hall, pre, ⟨sep, post, hsep, ha, hall, hu⟩, hleft⟩
  · rw [he] at h
    exact absurd h (by simp)

/-- C18: `AsinFromURL(u)` returns an error exactly when `u` has no place where `dp`, one of
`/`, `%2F`, `%2f`, and ten characters from A-Z and 0-9 follow one another, and with the
error it returns the empty string; so it succeeds on every text that holds `dp`, a
separator and ten such characters, and fails on `/dp/` and on every text without `dp`. -/
theorem AsinFromURL_fails_iff (u : Str) :
    ((AsinFromURL u).2 ≠ none ↔ ¬ ∃ pre a : Str, AsinAt u pre a) ∧
    ((AsinFromURL u).2 ≠ none →
      AsinFromURL u = ([], some (str "url doesn't contain asin"))) ∧
    (∀ pre sep X post : Str, sep ∈ asinSeps → X.length = 10 → (∀ c ∈ X, isAsinByte c) →
      (AsinFromURL (pre ++ str "dp" ++ sep ++ X ++ post)).2 = none) ∧
    (AsinFromURL (str "/dp/")).2 ≠ none ∧
    (¬ str "dp" <:+: u → (AsinFromURL u).2 ≠ none) := by
  have key : ∀ v : Str, (AsinFromURL v).2 ≠ none ↔ ¬ ∃ pre a : Str, AsinAt v pre a := by
    intro v
    rcases AsinFromURL_spec v with ⟨pre, a, he, hat, _⟩ | ⟨he, hno⟩
    · rw [he]
      constructor
      · intro hc; exact absurd rfl hc
      · intro hc; exact absurd ⟨pre, a, hat⟩ hc
    · rw [he]
      constructor
      · rintro _ ⟨pre, a, hat⟩
        exact hno pre a hat
      · intro _; simp
  refine ⟨key u, ?_, ?_, by decide, ?_⟩
  · intro hne
    rcases AsinFromURL_spec u with ⟨pre, a, he, _, _⟩ | ⟨he, _⟩
    · rw [he] at hne
      exact absurd rfl hne
    · exact he
  · intro pre sep X post hsep hX hall
    by_contra hc
    exact (key _).1 hc ⟨pre, X, sep, post, hsep, hX, hall, rfl⟩
  · intro hno
    rw [key]
    rintro ⟨pre, a, sep, post, _, _, _, hu⟩
    apply hno
    refine ⟨pre, sep ++ a ++ post, ?_⟩
    rw [hu]
    simp

/-- C19: for every text made of decimal digits, `,` and `.` that holds a digit (so without a
unit letter) and whose digits write a number below 2^53, `parseInt` returns, without an
error, the integer written by the digits with every `,` and `.` taken out. -/
theorem parseInt_thousands_separators (s : Str)
    (hall : ∀ c ∈ s, isDigit c ∨ c = B ',' ∨ c = B '.') (hd : ∃ c ∈ s, isDigit c)
    (hv : digitsValue (s.filter (fun c => decide (isDigit c))) < 2 ^ 53) :
    parseInt s = ((digitsValue (s.filter (fun c => decide (isDigit c))) : Int), none) :=
  parseInt_separators s hall hd hv

/-- C20: for every numeral `n` of decimal digits only, with a value of at most 10^9, and
any white space `w1` before and `w2` behind (none included), `parseInt` returns without an
error `n * 1000` on `n` followed by `k` or `K`, and `n * 1000000` on `n` followed by `m` or
`M`. -/
theorem parseInt_unit_suffixes (n w1 w2 : Str) (hne : n ≠ []) (hall : ∀ c ∈ n, isDigit c)
    (hv : digitsValue n ≤ 1000000000) (h1 : IsSpaceText w1) (h2 : IsSpaceText w2) :
    parseInt (w1 ++ (n ++ str "k") ++ w2) = (((digitsValue n * 1000 : Nat) : Int), none) ∧
    parseInt (w1 ++ (n ++ str "K") ++ w2) = (((digitsValue n * 1000 : Nat) : Int), none) ∧
    parseInt (w1 ++ (n ++ str "m") ++ w2) = (((digitsValue n * 1000000 : Nat) : Int), none) ∧
    parseInt (w1 ++ (n ++ str "M") ++ w2) = (((digitsValue n * 1000000 : Nat) : Int), none) :=
  ⟨parseInt_unit w1 w2 n (B 'k') 1000 h1 h2 hne hall (Or.inl ⟨Or.inl rfl, rfl⟩) hv,
   parseInt_unit w1 w2 n (B 'K') 1000 h1 h2 hne hall (Or.inl ⟨Or.inr rfl, rfl⟩) hv,
   parseInt_unit w1 w2 n (B 'm') 1000000 h1 h2 hne hall (Or.inr ⟨Or.inl rfl, rfl⟩) hv,
   parseInt_unit w1 w2 n (B 'M') 1000000 h1 h2 hne hall (Or.inr ⟨Or.inr rfl, rfl⟩) hv⟩

end Internal

namespace Crawler
open GoStrings Url

theorem error_counter_reset_witness :
    jobFails { errorCount := 4 } (str "https://amazon.com/s?k=lego") {} = false ∧
    (processJob { errorCount := 4 } (str "https://amazon.com/s?k=lego") {}).errorCount = 0 ∧
    (processJob (processJob { errorCount := 4 } (str "https://amazon.com/s?k=lego") {})
      extractorFailure.1 extractorFailure.2).errorCount = 1 :=
  ⟨by decide,
   (error_counter_reset { errorCount := 4 } (str "https://amazon.com/s?k=lego") {}
      (by decide)).1,
   (error_counter_reset { errorCount := 4 } (str "https://amazon.com/s?k=lego") {}
      (by decide)).2 extractorFailure.1 extractorFailure.2 (by decide)⟩

theorem ref_segment_stripping_witness :
    filterQueryParams (str "https://amazon.com/b/ref=SHCC/?node=23528055011") =
      str "https://amazon.com/b?node=23528055011" ∧
    keptSegments (str "/b/ref=SHCC/") = [str "b"] ∧
    unescape (str "/b") Encoding.encodePath =
      some (B '/' :: Join (B '/') (keptSegments (str "/b/ref=SHCC/"))) ∧
    str "/b" = B '/' :: Join (B '/') (keptSegments (str "/b/ref=SHCC/")) :=
  ⟨by decide!, by decide,
   (ref_segment_stripping (str "https://amazon.com/b/ref=SHCC/?node=23528055011")
      { Scheme := str "https", Host := str "amazon.com", Path := str "/b/ref=SHCC/", RawQuery := str "node=23528055011" }
      (by decide!) rfl).1.2.1,
   (ref_segment_stripping (str "https://amazon.com/b/ref=SHCC/?node=23528055011")
      { Scheme := str "https", Host := str "amazon.com", Path := str "/b/ref=SHCC/", RawQuery := str "node=23528055011" }
      (by decide!) rfl).2.1
      { Scheme := str "https", Host := str "amazon.com", Path := str "/b", RawQuery := str "node=23528055011" }
      (by decide!)⟩

theorem locale_exclusion_has_priority_witness :
    hasLocaleSegment (str "https://www.amazon.com/-/es/s?k=lego") ∧
    str "/s?" <:+: str "https://www.amazon.com/-/es/s?k=lego" ∧
    isRelevantURL (str "https://www.amazon.com/-/es/s?k=lego") = false :=
  ⟨⟨B 'e', B 's', by decide, by decide, by decide⟩, by decide,
   locale_exclusion_has_priority (str "https://www.amazon.com/-/es/s?k=lego")
     ⟨B 'e', B 's', by decide, by decide, by decide⟩⟩

theorem search_category_classification_witness :
    (isRelevantURL (str "https://www.amazon.com/b/toys") = true ↔
      (str "/s?" <:+: str "https://www.amazon.com/b/toys" ∨
       str "/s/" <:+: str "https://www.amazon.com/b/toys" ∨
       str "/b?" <:+: str "https://www.amazon.com/b/toys" ∨
       str "/b/" <:+: str "https://www.amazon.com/b/toys")) ∧
    isRelevantURL (str "https://www.amazon.com/b/toys") = true :=
  ⟨search_category_classification (str "https://www.amazon.com/b/toys")
     (fun hl => absurd ((localeRe_MatchString _).2 hl) (by decide)) (by decide),
   by decide⟩

end Crawler

namespace Internal
open GoStrings

theorem AsinFromURL_sound_witness :
    AsinFromURL (str "/tonies-Simba-Figurine-Disneys-Lion/dp/1250365945/ref=test") =
      (str "1250365945", none) ∧
    (AsinFromURL (str "/tonies-Simba-Figurine-Disneys-Lion/dp/1250365945/ref=test")).1.length
      = 10 :=
  ⟨by decide,
   (AsinFromURL_sound (str "/tonies-Simba-Figurine-Disneys-Lion/dp/1250365945/ref=test")
      (by decide)).1⟩

theorem AsinFromURL_fails_iff_witness :
    (AsinFromURL (str "/sspa/click?url=%2FCoogam-Educational%2F" ++ str "dp" ++ str "%2F" ++
      str "B09Q82N7DN" ++ str "%3Fpsc%3D1")).2 = none ∧
    (AsinFromURL (str "https://amazon.com/super-nice-book")).2 ≠ none :=
  ⟨(AsinFromURL_fails_iff []).2.2.1 (str "/sspa/click?url=%2FCoogam-Educational%2F")
      (str "%2F") (str "B09Q82N7DN") (str "%3Fpsc%3D1") (by decide) (by decide) (by decide),
   (AsinFromURL_fails_iff (str "https://amazon.com/super-nice-book")).2.2.2.2 (by decide)⟩

theorem parseInt_thousands_separators_witness :
    parseInt (str "663,088") = (663088, none) ∧ parseInt (str "663.088") = (663088, none) ∧
    parseInt (str "1521") = (1521, none) ∧ parseInt (str "0") = (0, none) :=
  ⟨parseInt_thousands_separators (str "663,088") (by decide) (by decide) (by decide),
   parseInt_thousands_separators (str "663.088") (by decide) (by decide) (by decide),
   parseInt_thousands_separators (str "1521") (by decide) (by decide) (by decide),
   parseInt_thousands_separators (str "0") (by decide) (by decide) (by decide)⟩

theorem parseInt_unit_suffixes_witness :
    parseInt (str " \t" ++ (str "12" ++ str "k") ++ [0xC2, 0xA0, 10]) = (12000, none) ∧
    parseInt ([] ++ (str "1" ++ str "M") ++ []) = (1000000, none) :=
  ⟨(parseInt_unit_suffixes (str "12") (str " \t") [0xC2, 0xA0, 10] (by decide) (by decide)
      (by decide) ⟨[[32], [9]], by decide, rfl⟩ ⟨[[0xC2, 0xA0], [10]], by decide, rfl⟩).1,
   (parseInt_unit_suffixes (str "1") [] [] (by decide) (by decide)
      (by decide) ⟨[], by decide, rfl⟩ ⟨[], by decide, rfl⟩).2.2.2⟩

end Internal

namespace Storage
open Status

/-- Every row after the inserts is an old row or a freshly created one. -/
theorem foldl_insertURL_rows (now : Int) : ∀ (urls : List Str) (t : Table),
    ∀ r ∈ (urls.foldl (insertURL now) t).rows, r ∈ t.rows ∨ ∃ id u, r = newRow id u now
  | [], _, r, hr => Or.inl hr
  | url :: urls, t, r, hr => by
    rw [List.foldl_cons] at hr
    rcases foldl_insertURL_rows now urls (insertURL now t url) r hr with h | h
    · unfold insertURL at h
      split at h
      · exact Or.inl h
      · simp only [List.mem_append, List.mem_singleton] at h
        rcases h with h | h
        · exact Or.inl h
        · exact Or.inr ⟨_, _, h⟩
    · exact Or.inr h

theorem AddURLs_rows (t : Table) (urls : List Str) (now : Int) :
    ∀ r ∈ (AddURLs t urls now).1.rows, r ∈ t.rows ∨ ∃ id u, r = newRow id u now := by
  intro r hr
  unfold AddURLs at hr
  split at hr
  · exact Or.inl hr
  · exact foldl_insertURL_rows now urls t r hr

theorem empty_retryInv : RetryInv Table.empty := by
  simp [RetryInv, Table.empty]

theorem step_retryInv (t : Table) (op : Op) (h : RetryInv t) : RetryInv (step t op) := by
  cases op with
  | addURLs urls now =>
    simp only [step]
    intro r hr
    rcases AddURLs_rows t urls now r hr with hr | ⟨id, u, rfl⟩
    · exact h r hr
    · exact ⟨le_refl _, fun hs => by simp [newRow] at hs⟩
  | getNextURL now =>
    simp only [step, GetNextURL]
    cases hn : next_url t now with
    | none => exact h
    | some u =>
      simp only
      intro r hr
      obtain ⟨x, hx, rfl⟩ := List.mem_map.1 hr
      unfold lease
      by_cases hxu : x.url = u
      · simp only [hxu, if_true]
        exact ⟨(h x hx).1, fun hs => by simp at hs⟩
      · simp only [hxu, if_false]
        exact h x hx
  | markDone url now =>
    simp only [step, MarkDone]
    intro r hr
    obtain ⟨x, hx, rfl⟩ := List.mem_map.1 hr
    by_cases hxu : x.url = url
    · simp only [hxu, if_true]
      exact ⟨(h x hx).1, fun hs => by simp at hs⟩
    · simp only [hxu, if_false]
      exact h x hx
  | markFailed url msg now =>
    simp only [step, MarkFailed]
    split
    · exact h
    · intro r hr
      obtain ⟨x, hx, rfl⟩ := List.mem_map.1 hr
      by_cases hxu : x.url = url
      · simp only [hxu, if_true, failRow]
        have := (h x hx).1
        exact ⟨by omega, fun _ => by omega⟩
      · simp only [hxu, if_false]
        exact h x hx

theorem run_retryInv : ∀ (ops : List Op) (t : Table), RetryInv t → RetryInv (run t ops)
  | [], _, h => h
  | op :: ops, t, h => by
    simp only [run, List.foldl_cons]
    exact run_retryInv ops (step t op) (step_retryInv t op h)

/-- In a reachable table a failed row has failed at least once, so the clamp of the lease
query does nothing on it and its delay is `5 min * 2^(retry_count - 1)`. -/
theorem reachable_failed_retry (t : Table) (h : Reachable t) :
    ∀ r ∈ t.rows, r.status = Failed →
      1 ≤ r.retry_count ∧ max (r.retry_count - 1) 0 = r.retry_count - 1 ∧
      backoff r.retry_count = 5 * minute * 2 ^ (r.retry_count - 1).toNat := by
  obtain ⟨ops, rfl⟩ := h
  intro r hr hs
  have h1 := ((run_retryInv ops _ empty_retryInv) r hr).2 hs
  have h2 : max (r.retry_count - 1) 0 = r.retry_count - 1 := by omega
  refine ⟨h1, h2, ?_⟩
  unfold backoff
  rw [h2]

/-- A done row always has `done_at` set. -/
theorem step_done_has_time (t : Table) (op : Op)
    (h : ∀ r ∈ t.rows, r.status = Done → r.done_at ≠ none) :
    ∀ r ∈ (step t op).rows, r.status = Done → r.done_at ≠ none := by
  cases op with
  | addURLs urls now =>
    simp only [step]
    intro r hr
    rcases AddURLs_rows t urls now r hr with hr | ⟨id, u, rfl⟩
    · exact h r hr
    · intro hs; simp [newRow] at hs
  | getNextURL now =>
    simp only [step, GetNextURL]
    cases hn : next_url t now with
    | none => exact h
    | some u =>
      simp only
      intro r hr
      obtain ⟨x, hx, rfl⟩ := List.mem_map.1 hr
      unfold lease
      by_cases hxu : x.url = u
      · simp only [hxu, if_true]
        intro hs; simp at hs
      · simp only [hxu, if_false]
        exact h x hx
  | markDone url now =>
    simp only [step, MarkDone]
    intro r hr
    obtain ⟨x, hx, rfl⟩ := List.mem_map.1 hr
    by_cases hxu : x.url = url
    · simp only [hxu, if_true]
      intro _; simp
    · simp only [hxu, if_false]
      exact h x hx
  | markFailed url msg now =>
    simp only [step, MarkFailed]
    split
    · exact h
    · intro r hr
      obtain ⟨x, hx, rfl⟩ := List.mem_map.1 hr
      by_cases hxu : x.url = url
      · simp only [hxu, if_true, failRow]
        intro hs; simp at hs
      · simp only [hxu, if_false]
        exact h x hx

theorem run_done_has_time : ∀ (ops : List Op) (t : Table),
    (∀ r ∈ t.rows, r.status = Done → r.done_at ≠ none) →
    ∀ r ∈ (run t ops).rows, r.status = Done → r.done_at ≠ none
  | [], _, h => h
  | op :: ops, t, h => by
    simp only [run, List.foldl_cons]
    exact run_done_has_time ops (step t op) (step_done_has_time t op h)

theorem empty_doneInv : DoneInv Table.empty := by
  simp [DoneInv, Table.empty]

/-- A call that is not `MarkFailed` on a done row keeps `done_at` on done rows only. -/
theorem step_doneInv (t : Table) (op : Op) (h : DoneInv t) (hop : op.failsDone t = false) :
    DoneInv (step t op) := by
  refine ⟨step_nodup t op h.1, ?_⟩
  cases op with
  | addURLs urls now =>
    simp only [step]
    intro r hr
    rcases AddURLs_rows t urls now r hr with hr | ⟨id, u, rfl⟩
    · exact h.2 r hr
    · intro hs; simp [newRow] at hs
  | getNextURL now =>
    simp only [step, GetNextURL]
    cases hn : next_url t now with
    | none => exact h.2
    | some u =>
      simp only
      intro r hr
      obtain ⟨x, hx, rfl⟩ := List.mem_map.1 hr
      unfold lease
      by_cases hxu : x.url = u
      · simp only [hxu, if_true]
        intro hd
        exfalso
        obtain ⟨r', hr', hl', hu', _⟩ := next_url_some t now u hn
        have : r' = x := row_unique t.rows h.1 r' x hr' hx (by rw [hu', hxu])
        subst this
        have hdone := h.2 r' hr' hd
        rcases (leasable_iff now r').1 hl' with hq | ⟨hp, _⟩ | ⟨hf, _⟩
        · rw [hdone] at hq; exact Status.noConfusion hq
        · rw [hdone] at hp; exact Status.noConfusion hp
        · rw [hdone] at hf; exact Status.noConfusion hf
      · simp only [hxu, if_false]
        exact h.2 x hx
  | markDone url now =>
    simp only [step, MarkDone]
    intro r hr
    obtain ⟨x, hx, rfl⟩ := List.mem_map.1 hr
    by_cases hxu : x.url = url
    · simp only [hxu, if_true]
      intro _; trivial
    · simp only [hxu, if_false]
      exact h.2 x hx
  | markFailed url msg now =>
    simp only [step, MarkFailed]
    split
    · exact h.2
    · intro r hr
      obtain ⟨x, hx, rfl⟩ := List.mem_map.1 hr
      by_cases hxu : x.url = url
      · simp only [hxu, if_true, failRow]
        intro hd
        exfalso
        have hdone := h.2 x hx hd
        simp only [Op.failsDone, List.any_eq_false, Bool.and_eq_true, decide_eq_true_eq,
          not_and] at hop
        exact hop x hx hxu hdone
      · simp only [hxu, if_false]
        exact h.2 x hx

theorem run_doneInv : ∀ (ops : List Op) (t : Table), DoneInv t → neverFailsDone t ops →
    DoneInv (run t ops)
  | [], _, h, _ => h
  | op :: ops, t, h, hn => by
    simp only [run, List.foldl_cons]
    exact run_doneInv ops (step t op) (step_doneInv t op h hn.1) hn.2

/-- The statements of `MarkDone` and `MarkFailed` on a URL without a row: no error, and the
table as it was. -/
theorem Mark_absent (t : Table) (u msg : Str) (now : Int) (h : u ∉ t.rows.map Row.url) :
    MarkDone t u now = (t, none) ∧ MarkFailed t u msg now = (t, none) := by
  have hne : ∀ r ∈ t.rows, r.url ≠ u := by
    intro r hr e
    exact h (List.mem_map.2 ⟨r, hr, e⟩)
  have hmap : ∀ f : Row → Row, t.rows.map (fun r => if r.url = u then f r else r) = t.rows := by
    intro f
    conv_rhs => rw [← List.map_id t.rows]
    apply List.map_congr_left
    intro r hr
    rw [if_neg (hne r hr)]
    rfl
  constructor
  · unfold MarkDone
    rw [hmap]
  · unfold MarkFailed
    have hany : t.rows.any (fun r => decide (r.url = u) && decide (r.retry_count + 1 > maxInt))
        = false := by
      rw [List.any_eq_false]
      intro r hr
      simp [hne r hr]
    rw [hany]
    simp only [Bool.false_eq_true, if_false]
    rw [hmap]

end Storage

namespace Crawler
open GoStrings

/-- The calls of a loop over middlewares are calls of middlewares. -/
theorem runMiddlewares_events (mk : Nat → Event) :
    ∀ (l : List (Option Str)) (i : Nat), ∀ x ∈ (runMiddlewares mk i l).1, ∃ j, x = mk j
  | [], i, x, hx => by simp [runMiddlewares] at hx
  | none :: rest, i, x, hx => by
    simp only [runMiddlewares, List.mem_cons] at hx
    rcases hx with rfl | hx
    · exact ⟨i, rfl⟩
    · exact runMiddlewares_events mk rest (i + 1) x hx
  | some e :: rest, i, x, hx => by
    simp only [runMiddlewares, List.mem_singleton] at hx
    exact ⟨i, hx⟩

/-- The loop over middlewares stops at the first one that rejects: the ones before it
and itself are called, in order, and its error is returned. -/
theorem runMiddlewares_reject (mk : Nat → Event) :
    ∀ (pre : List (Option Str)) (e : Str) (post : List (Option Str)) (i : Nat),
      (∀ x ∈ pre, x = none) →
      runMiddlewares mk i (pre ++ some e :: post) =
        ((List.range (pre.length + 1)).map (fun j => mk (i + j)), some e)
  | [], e, post, i, _ => by
    simp [runMiddlewares, List.range_succ]
  | p :: pre, e, post, i, h => by
    have hp : p = none := h p (List.mem_cons_self _ _)
    subst hp
    have ih := runMiddlewares_reject mk pre e post (i + 1)
      (fun x hx => h x (List.mem_cons_of_mem _ hx))
    have step : runMiddlewares mk i (none :: (pre ++ some e :: post)) =
        (mk i :: (runMiddlewares mk (i + 1) (pre ++ some e :: post)).1,
          (runMiddlewares mk (i + 1) (pre ++ some e :: post)).2) := rfl
    rw [List.cons_append, step, ih, List.length_cons, List.range_succ_eq_map (pre.length + 1)]
    simp only [List.map_cons, List.map_map, Nat.add_zero, Prod.mk.injEq, List.cons.injEq,
      true_and, and_true]
    apply List.map_congr_left
    intro j _
    simp only [Function.comp]
    congr 1
    omega

/-- The events of the product extraction are no calls on the frontier. -/
theorem parseProductDetails_events (env : JobEnv) :
    ∀ x ∈ (parseProductDetails env).1, ∀ now, Event.storageOp now x = none := by
  unfold parseProductDetails
  cases env.productFromPage with
  | some e => simp [Event.storageOp]
  | none =>
    cases env.consume with
    | some e => simp [Event.storageOp]
    | none => simp [Event.storageOp]

/-- The events `processURL` adds are calls on the browser, the middlewares, the extractor
and the sink: none of them is a call on the frontier. -/
theorem processURL_trace (c : crawler) (url : Str) (env : JobEnv) :
    ∃ ev : List Event, (processURL c url env).1.trace = c.trace ++ ev ∧
      ∀ x ∈ ev, ∀ now, Event.storageOp now x = none := by
  have hreq : ∀ x ∈ (runMiddlewares Event.RequestMiddleware 0 env.requestMiddlewares).1,
      ∀ now, Event.storageOp now x = none := by
    intro x hx now
    obtain ⟨j, rfl⟩ := runMiddlewares_events Event.RequestMiddleware env.requestMiddlewares 0 x hx
    rfl
  have hres : ∀ x ∈ (runMiddlewares Event.ResponseMiddleware 0 env.responseMiddlewares).1,
      ∀ now, Event.storageOp now x = none := by
    intro x hx now
    obtain ⟨j, rfl⟩ :=
      runMiddlewares_events Event.ResponseMiddleware env.responseMiddlewares 0 x hx
    rfl
  have hpp : ∀ x ∈ (if Contains url (str "/dp/") = true then parseProductDetails env
      else ([], none)).1, ∀ now, Event.storageOp now x = none := by
    split
    · exact parseProductDetails_events env
    · simp
  unfold processURL
  cases h1 : env.newContext with
  | some e => exact ⟨[Event.NewContext], rfl, by simp [Event.storageOp]⟩
  | none =>
    cases h2 : env.newPage with
    | some e =>
      exact ⟨[Event.NewContext, Event.NewPage, Event.CloseContext], by simp,
        by simp [Event.storageOp]⟩
    | none =>
      simp only
      rcases h3 : runMiddlewares Event.RequestMiddleware 0 env.requestMiddlewares with ⟨ev, r⟩
      rw [h3] at hreq
      simp only at hreq
      cases r with
      | some e =>
        refine ⟨[Event.NewContext, Event.NewPage] ++ ev ++ [Event.CloseContext], by simp, ?_⟩
        simp only [List.forall_mem_append, List.forall_mem_cons, List.forall_mem_singleton]
        simp [Event.storageOp]
        exact hreq
      | none =>
        cases h4 : env.goto with
        | some e =>
          refine ⟨[Event.NewContext, Event.NewPage] ++ ev ++ [Event.Goto url, Event.CloseContext],
            by simp, ?_⟩
          simp only [List.forall_mem_append, List.forall_mem_cons, List.forall_mem_singleton]
          simp [Event.storageOp]
          exact hreq
        | none =>
          cases h5 : env.resOk with
          | false =>
            refine ⟨[Event.NewContext, Event.NewPage] ++ ev ++
              [Event.Goto url, Event.CloseContext], by simp, ?_⟩
            simp only [List.forall_mem_append, List.forall_mem_cons, List.forall_mem_singleton]
            simp [Event.storageOp]
            exact hreq
          | true =>
            simp only
            rcases h6 : runMiddlewares Event.ResponseMiddleware 0 env.responseMiddlewares
              with ⟨ev', r'⟩
            rw [h6] at hres
            simp only at hres
            cases r' with
            | some e =>
              refine ⟨[Event.NewContext, Event.NewPage] ++ ev ++ [Event.Goto url] ++ ev' ++
                [Event.CloseContext], by simp, ?_⟩
              simp only [List.forall_mem_append, List.forall_mem_cons, List.forall_mem_singleton]
              simp [Event.storageOp]
              exact ⟨hreq, hres⟩
            | none =>
              simp only [Bool.not_true, Bool.false_eq_true, if_false, resetErrorCount]
              split
              · refine ⟨[Event.NewContext, Event.NewPage] ++ ev ++ [Event.Goto url] ++ ev' ++
                  (if Contains url (str "/dp/") = true then parseProductDetails env
                    else ([], none)).1 ++ [Event.CloseContext], by simp, ?_⟩
                simp only [List.forall_mem_append, List.forall_mem_cons,
                  List.forall_mem_singleton]
                simp [Event.storageOp]
                exact ⟨⟨hreq, hres⟩, hpp⟩
              · refine ⟨[Event.NewContext, Event.NewPage] ++ ev ++ [Event.Goto url] ++ ev' ++
                  (if Contains url (str "/dp/") = true then parseProductDetails env
                    else ([], none)).1 ++ [Event.GetRelevantLinks, Event.CloseContext],
                  by simp, ?_⟩
                simp only [List.forall_mem_append, List.forall_mem_cons,
                  List.forall_mem_singleton]
                simp [Event.storageOp]
                exact ⟨⟨hreq, hres⟩, hpp⟩

/-- A job whose browser context and page are created and whose request middleware
rejects makes exactly these calls and returns the rejection. -/
theorem processURL_reject (c : crawler) (url : Str) (env : JobEnv) (e : Str)
    (pre post : List (Option Str))
    (hctx : env.newContext = none) (hpage : env.newPage = none)
    (hmw : env.requestMiddlewares = pre ++ some e :: post) (hpre : ∀ x ∈ pre, x = none) :
    processURL c url env =
      ({ c with trace := c.trace ++ ([Event.NewContext, Event.NewPage] ++
          (List.range (pre.length + 1)).map Event.RequestMiddleware ++ [Event.CloseContext]) },
        .error (.external e)) := by
  have h := runMiddlewares_reject Event.RequestMiddleware pre e post 0 hpre
  simp only [Nat.zero_add] at h
  unfold processURL
  rw [hctx, hpage]
  simp only [hmw, h]
  simp

/-- The calls a job makes on the frontier: `MarkDone` or `MarkFailed` on its own URL. -/
theorem processJob_storageOps (c : crawler) (url : Str) (env : JobEnv) (now : Int) :
    ∃ ev : List Event, (processJob c url env).trace = c.trace ++ ev ∧
      ∀ op ∈ ev.filterMap (Event.storageOp now),
        op = Storage.Op.markDone url now ∨ ∃ msg, op = Storage.Op.markFailed url msg now := by
  obtain ⟨ev, htr, hev⟩ := processURL_trace c url env
  have hnone : ev.filterMap (Event.storageOp now) = [] := by
    rw [List.filterMap_eq_nil_iff]
    intro x hx
    exact hev x hx now
  unfold processJob
  rcases hp : processURL c url env with ⟨c1, r⟩
  rw [hp] at htr
  simp only at htr
  cases r with
  | error err =>
    simp only [onError, incrementErrorCount]
    split
    · refine ⟨ev ++ [Event.MarkFailed url err.Error, Event.Cancel], by simp [htr], ?_⟩
      intro op hop
      rw [List.filterMap_append, hnone] at hop
      simp [Event.storageOp] at hop
      exact Or.inr ⟨_, hop⟩
    · refine ⟨ev ++ [Event.MarkFailed url err.Error], by simp [htr], ?_⟩
      intro op hop
      rw [List.filterMap_append, hnone] at hop
      simp [Event.storageOp] at hop
      exact Or.inr ⟨_, hop⟩
  | ok links =>
    simp only
    split
    · refine ⟨ev, htr, ?_⟩
      intro op hop
      rw [hnone] at hop
      simp at hop
    · refine ⟨ev ++ [Event.Publish links, Event.MarkDone url], by simp [htr], ?_⟩
      intro op hop
      rw [List.filterMap_append, hnone] at hop
      simp [Event.storageOp] at hop
      exact Or.inl hop

/-- Calls of `MarkDone` and `MarkFailed` on a URL without a row leave the table as it is. -/
theorem run_marks_absent (u : Str) (now : Int) :
    ∀ (ops : List Storage.Op) (t : Storage.Table), u ∉ t.rows.map Storage.Row.url →
      (∀ op ∈ ops, op = Storage.Op.markDone u now ∨ ∃ msg, op = Storage.Op.markFailed u msg now) →
      Storage.run t ops = t
  | [], t, _, _ => rfl
  | op :: ops, t, h, hops => by
    have hstep : Storage.step t op = t := by
      rcases hops op (List.mem_cons_self _ _) with rfl | ⟨msg, rfl⟩
      · exact congrArg Prod.fst (Storage.Mark_absent t u [] now h).1
      · exact congrArg Prod.fst (Storage.Mark_absent t u msg now h).2
    have ih := run_marks_absent u now ops t h (fun op hop => hops op (List.mem_cons_of_mem _ hop))
    show Storage.run (Storage.step t op) ops = t
    rw [hstep]
    exact ih

end Crawler

namespace Polite
open GoStrings Url

/-- The function `getRobotsData` fails exactly when the request fails, the body cannot be
read, or the robots.txt parser fails. -/
theorem getRobotsData_error (net : Net) (url : URL) :
    (∃ err, getRobotsData net url = .error err) ↔
      (∃ err, net.Get (url.Scheme ++ str "://" ++ url.Host ++ str "/robots.txt") = .error err) ∨
      (∃ status err, net.Get (url.Scheme ++ str "://" ++ url.Host ++ str "/robots.txt") =
        .ok (status, .error err)) ∨
      (∃ status body err, net.Get (url.Scheme ++ str "://" ++ url.Host ++ str "/robots.txt") =
        .ok (status, .ok body) ∧ net.FromStatusAndBytes status body = .error err) := by
  unfold getRobotsData
  simp only
  rcases hg : net.Get (url.Scheme ++ str "://" ++ url.Host ++ str "/robots.txt") with
    err | ⟨status, read⟩
  · simp
  · cases read with
    | error err => simp
    | ok body =>
      constructor
      · rintro ⟨err, h⟩
        exact Or.inr (Or.inr ⟨status, body, err, rfl, h⟩)
      · rintro (⟨err, h⟩ | ⟨s, err, h⟩ | ⟨s, b, err, h, h2⟩)
        · cases h
        · cases h
        · cases h
          exact ⟨err, h2⟩

/-- The error of `Check` is `nil` or "forbidden by robots.txt", and it is the latter exactly
when the URL parses, a policy is in the cache or is fetched and parsed, and the policy's
`TestAgent` says no. -/
theorem Check_spec (r : RobotsChecker) (net : Net) (rawURL ua : Str) :
    ((Check r net rawURL ua).2 = none ∨
      (Check r net rawURL ua).2 = some (str "forbidden by robots.txt")) ∧
    ((Check r net rawURL ua).2 = some (str "forbidden by robots.txt") ↔
      ∃ parsed data, Url.Parse rawURL = some parsed ∧
        (r.robotsMap parsed.Host = some data ∨
          (r.robotsMap parsed.Host = none ∧ getRobotsData net parsed = .ok data)) ∧
        data.TestAgent parsed.Path ua = false) := by
  unfold Check
  cases hp : Url.Parse rawURL with
  | none => simp
  | some parsed =>
    cases hm : r.robotsMap parsed.Host with
    | some data =>
      cases ht : data.TestAgent parsed.Path ua <;> simp [hm, ht]
    | none =>
      cases hg : getRobotsData net parsed with
      | error err => simp [hm, hg]
      | ok data =>
        cases ht : data.TestAgent parsed.Path ua <;> simp [hm, hg, ht]

/-- The function `Check` returns `nil` when the URL does not parse, and when nothing is cached
for the host and `getRobotsData` fails. -/
theorem Check_open (r : RobotsChecker) (net : Net) (rawURL ua : Str) :
    (Url.Parse rawURL = none → Check r net rawURL ua = (r, none)) ∧
    (∀ parsed err, Url.Parse rawURL = some parsed → r.robotsMap parsed.Host = none →
      getRobotsData net parsed = .error err → Check r net rawURL ua = (r, none)) := by
  constructor
  · intro hp
    unfold Check
    rw [hp]
  · intro parsed err hp hm hg
    unfold Check
    rw [hp]
    simp only [hm, hg]

end Polite

namespace Crawler
open GoStrings Internal

/-- The function `createProductURL` puts the ASIN behind the base URL and `/dp/`. -/
theorem createProductURL_eq (a : Str) :
    createProductURL a = str "https://amazon.com/dp/" ++ a := by
  unfold createProductURL
  rw [show AMAZON_BASE_URL ++ str "/dp/" = str "https://amazon.com/dp/" from by decide]

/-- The function `AsinFromURL` finds the ASIN of a product URL made by `createProductURL`. -/
theorem AsinFromURL_createProductURL (a : Str) (hlen : a.length = 10)
    (hall : ∀ c ∈ a, isAsinByte c) :
    AsinFromURL (createProductURL a) = (a, none) := by
  rw [createProductURL_eq]
  have hat : AsinAt (str "https://amazon.com/dp/" ++ a) (str "https://amazon.com/") a :=
    ⟨str "/", [], by decide, hlen, hall, by
      rw [show str "https://amazon.com/dp/" = str "https://amazon.com/" ++ str "dp" ++ str "/"
        from by decide]
      simp⟩
  rcases AsinFromURL_spec (str "https://amazon.com/dp/" ++ a) with
    ⟨pre, a2, he, ⟨sep, post, hsep, ha2, hall2, hu⟩, hleft⟩ | ⟨_, hno⟩
  · rw [he]
    have hle : pre.length ≤ 19 := hleft _ _ hat
    have hu2 : str "https://amazon.com/" ++ (str "dp/" ++ a) =
        pre ++ (str "dp" ++ sep ++ a2 ++ post) := by
      rw [← List.append_assoc,
        show str "https://amazon.com/" ++ str "dp/" = str "https://amazon.com/dp/" from by decide,
        hu]
      simp
    have hpre : pre = str "https://amazon.com/" ∧ str "dp/" ++ a = str "dp" ++ sep ++ a2 ++ post := by
      rcases List.append_eq_append_iff.1 hu2 with ⟨x, hp, hr⟩ | ⟨x, hp, hr⟩
      · have hx : x = [] := by
          have hl := congrArg List.length hp
          rw [List.length_append] at hl
          have h19 : (str "https://amazon.com/").length = 19 := by decide
          rw [h19] at hl
          exact List.length_eq_zero.1 (by omega)
        subst hx
        rw [List.append_nil] at hp
        rw [List.nil_append] at hr
        exact ⟨hp, hr⟩
      · cases x with
        | nil =>
          rw [List.append_nil] at hp
          rw [List.nil_append] at hr
          exact ⟨hp.symm, hr.symm⟩
        | cons c x =>
          have hc : c = B 'd' := by
            have := hr
            simp only [List.append_assoc] at this
            rw [show str "dp" = B 'd' :: [B 'p'] from by decide] at this
            simp only [List.cons_append, List.cons.injEq] at this
            exact this.1.symm
          have hmem : B 'd' ∈ str "https://amazon.com/" := by
            rw [hp, hc]
            simp
          exact absurd hmem (by decide)
    obtain ⟨_, hrest⟩ := hpre
    have hrest2 : str "/" ++ a = sep ++ (a2 ++ post) := by
      have := hrest
      rw [show str "dp/" = str "dp" ++ str "/" from by decide] at this
      simp only [List.append_assoc] at this
      exact List.append_cancel_left this
    have hsep2 : sep = str "/" := by
      simp only [asinSeps, List.mem_cons, List.mem_singleton, List.not_mem_nil, or_false] at hsep
      rcases hsep with rfl | rfl | rfl
      · rfl
      · have hh : (B '/' :: a).head? = (B '%' :: (str "2F" ++ (a2 ++ post))).head? :=
          congrArg List.head? hrest2
        simp only [List.head?_cons, Option.some.injEq] at hh
        exact absurd hh (by decide)
      · have hh : (B '/' :: a).head? = (B '%' :: (str "2f" ++ (a2 ++ post))).head? :=
          congrArg List.head? hrest2
        simp only [List.head?_cons, Option.some.injEq] at hh
        exact absurd hh (by decide)
    subst hsep2
    have h3 : a = a2 ++ post := List.append_cancel_left hrest2
    have hpost : post = [] := by
      have hl := congrArg List.length h3
      rw [List.length_append, hlen, ha2] at hl
      exact List.length_eq_zero.1 (by omega)
    rw [hpost, List.append_nil] at h3
    rw [h3]
  · exact absurd hat (hno _ _)

end Crawler

namespace Url
open GoStrings Encoding

/-- Two maps with the same values for every key are written in the same order. -/
theorem sortedPairs_congr (v1 v2 : Values) (h : ∀ k, Values.get v1 k = Values.get v2 k) :
    Values.sortedPairs v1 = Values.sortedPairs v2 := by
  have hk : Values.sortedKeys v1 = Values.sortedKeys v2 := by
    unfold Values.sortedKeys
    apply insertionSort_eq_of_mem _ _ (List.nodup_dedup _) (List.nodup_dedup _)
    intro k
    show k ∈ Values.keys v1 ↔ k ∈ Values.keys v2
    rw [mem_keys, mem_keys]
    constructor
    · rintro ⟨val, hv⟩
      exact ⟨val, (mem_get v2 k val).1 (h k ▸ (mem_get v1 k val).2 hv)⟩
    · rintro ⟨val, hv⟩
      exact ⟨val, (mem_get v1 k val).1 ((h k).symm ▸ (mem_get v2 k val).2 hv)⟩
  unfold Values.sortedPairs
  rw [hk]
  apply List.flatMap_congr
  intro k _
  rw [h k]

theorem strLE_refl : ∀ a : Str, StrLE a a
  | [] => by simp [StrLE, strLE]
  | a :: s => by
    have := strLE_refl s
    simp only [StrLE] at this ⊢
    simp [strLE, this]

/-- The keys of the settings `Encode` writes stand in sorted order. -/
theorem sortedPairs_sorted (v : Values) :
    ((Values.sortedPairs v).map Prod.fst).Pairwise StrLE := by
  haveI : IsTotal Str StrLE := ⟨strLE_total⟩
  haveI : IsTrans Str StrLE := ⟨strLE_trans⟩
  have hs : (Values.sortedKeys v).Pairwise StrLE := List.sorted_insertionSort StrLE _
  unfold Values.sortedPairs
  generalize Values.sortedKeys v = l at hs
  induction l with
  | nil => simp
  | cons a l ih =>
    rw [List.pairwise_cons] at hs
    rw [List.flatMap_cons, List.map_append, List.pairwise_append]
    refine ⟨?_, ih hs.2, ?_⟩
    · rw [List.map_map]
      rw [List.pairwise_map]
      exact List.pairwise_of_forall (fun _ _ => strLE_refl a)
    · intro x hx y hy
      rw [List.map_map] at hx
      obtain ⟨_, _, rfl⟩ := List.mem_map.1 hx
      obtain ⟨kv, hkv, rfl⟩ := List.mem_map.1 hy
      obtain ⟨k, hk, hkv2⟩ := List.mem_flatMap.1 hkv
      obtain ⟨_, _, rfl⟩ := List.mem_map.1 hkv2
      exact hs.1 k hk

end Url

namespace Crawler
open GoStrings Url Url.Encoding

/-- Two queries with the same values for every allowed key are written back alike. -/
theorem cleanQuery_congr (q1 q2 : Values)
    (h : ∀ key, ALLOWED_SEARCH_PARAMS key = true → Values.get q1 key = Values.get q2 key) :
    cleanQuery q1 = cleanQuery q2 := by
  unfold cleanQuery Values.Encode
  simp only
  rw [sortedPairs_congr]
  intro k
  rw [get_filter_key, get_filter_key]
  split
  · next hk => exact h k hk
  · rfl

/-- Two paths with the same kept segments are written back alike. -/
theorem cleanPath_congr (p1 p2 : Str) (h : keptSegments p1 = keptSegments p2) :
    cleanPath p1 = cleanPath p2 := by
  rw [cleanPath_kept, cleanPath_kept, h]

/-- The URL `filterQueryParams` prints is the same for two parsed URLs that agree in their
kept segments, their allowed parameters and every field other than path and query. -/
theorem canon_congr (u1 u2 : URL)
    (hScheme : u1.Scheme = u2.Scheme) (hOpaque : u1.Opaque = u2.Opaque)
    (hUser : u1.User = u2.User) (hHost : u1.Host = u2.Host)
    (hRawPath : u1.RawPath = u2.RawPath) (hOmit : u1.OmitHost = u2.OmitHost)
    (hForce : u1.ForceQuery = u2.ForceQuery) (hFrag : u1.Fragment = u2.Fragment)
    (hRawFrag : u1.RawFragment = u2.RawFragment)
    (hseg : keptSegments u1.Path = keptSegments u2.Path)
    (hq : ∀ key, ALLOWED_SEARCH_PARAMS key = true →
      Values.get u1.Query key = Values.get u2.Query key) :
    canon u1 = canon u2 := by
  have h1 := cleanQuery_congr u1.Query u2.Query hq
  have h2 := cleanPath_congr u1.Path u2.Path hseg
  cases u1
  cases u2
  simp only at hScheme hOpaque hUser hHost hRawPath hOmit hForce hFrag hRawFrag
  simp only [canon, URL.mk.injEq]
  exact ⟨hScheme, hOpaque, hUser, hHost, h2, hRawPath, hOmit, hForce, h1, hFrag, hRawFrag⟩

end Crawler

namespace Crawler
open GoStrings Url Internal

theorem mem_addLink (links : List Str) (x y : Str) :
    y ∈ addLink links x ↔ y ∈ links ∨ y = x := by
  unfold addLink
  split
  · next h =>
    constructor
    · exact Or.inl
    · rintro (h' | rfl)
      · exact h'
      · exact h
  · simp

theorem mem_addAnchor (links : List Str) (link : Option Str) (y : Str) :
    y ∈ addAnchor links link ↔ y ∈ links ∨ ∃ href, link = some href ∧
      (((AsinFromURL href).2 = none ∧ y = createProductURL (AsinFromURL href).1) ∨
       (isRelevantURL href = true ∧ y = withBaseURL href)) := by
  unfold addAnchor
  cases link with
  | none => simp
  | some href =>
    simp only [Option.some.injEq, exists_eq_left']
    cases ha : (AsinFromURL href).2 with
    | none =>
      cases hr : isRelevantURL href <;> simp [mem_addLink, or_assoc]
    | some e =>
      cases hr : isRelevantURL href <;> simp [mem_addLink]

theorem mem_addPagination (links : List Str) (link : Option Str) (y : Str) :
    y ∈ addPagination links link ↔ y ∈ links ∨ ∃ href, link = some href ∧ y = withBaseURL href := by
  unfold addPagination
  cases link with
  | none => simp
  | some href => simp [mem_addLink]

theorem mem_foldl_addAnchor (y : Str) : ∀ (a : List (Option Str)) (links : List Str),
    y ∈ a.foldl addAnchor links ↔ y ∈ links ∨ ∃ href, some href ∈ a ∧
      (((AsinFromURL href).2 = none ∧ y = createProductURL (AsinFromURL href).1) ∨
       (isRelevantURL href = true ∧ y = withBaseURL href))
  | [], links => by simp
  | link :: a, links => by
    rw [List.foldl_cons, mem_foldl_addAnchor y a, mem_addAnchor]
    constructor
    · rintro ((h | ⟨href, rfl, h⟩) | ⟨href, hm, h⟩)
      · exact Or.inl h
      · exact Or.inr ⟨href, List.mem_cons_self _ _, h⟩
      · exact Or.inr ⟨href, List.mem_cons_of_mem _ hm, h⟩
    · rintro (h | ⟨href, hm, h⟩)
      · exact Or.inl (Or.inl h)
      · rcases List.mem_cons.1 hm with e | hm
        · exact Or.inl (Or.inr ⟨href, e.symm, h⟩)
        · exact Or.inr ⟨href, hm, h⟩

theorem mem_foldl_addPagination (y : Str) : ∀ (a : List (Option Str)) (links : List Str),
    y ∈ a.foldl addPagination links ↔ y ∈ links ∨ ∃ href, some href ∈ a ∧ y = withBaseURL href
  | [], links => by simp
  | link :: a, links => by
    rw [List.foldl_cons, mem_foldl_addPagination y a, mem_addPagination]
    constructor
    · rintro ((h | ⟨href, rfl, h⟩) | ⟨href, hm, h⟩)
      · exact Or.inl h
      · exact Or.inr ⟨href, List.mem_cons_self _ _, h⟩
      · exact Or.inr ⟨href, List.mem_cons_of_mem _ hm, h⟩
    · rintro (h | ⟨href, hm, h⟩)
      · exact Or.inl (Or.inl h)
      · rcases List.mem_cons.1 hm with e | hm
        · exact Or.inl (Or.inr ⟨href, e.symm, h⟩)
        · exact Or.inr ⟨href, hm, h⟩

/-- The members of the link set: the product URL of an anchor with an ASIN, the canonical
form of a relevant anchor, the canonical form of a pagination anchor. -/
theorem mem_getRelevantLinks (page : PageLinks) (y : Str) :
    y ∈ (getRelevantLinks page).1 ↔
      (∃ a href, page.anchors = some a ∧ some href ∈ a ∧
        (((AsinFromURL href).2 = none ∧ y = createProductURL (AsinFromURL href).1) ∨
         (isRelevantURL href = true ∧ y = withBaseURL href))) ∨
      (∃ a href, page.pagination = some a ∧ some href ∈ a ∧ y = withBaseURL href) := by
  unfold getRelevantLinks
  simp only
  cases hp : page.pagination with
  | none =>
    cases ha : page.anchors with
    | none => simp
    | some a => simp [mem_foldl_addAnchor]
  | some b =>
    cases ha : page.anchors with
    | none => simp [mem_foldl_addPagination]
    | some a => simp [mem_foldl_addPagination, mem_foldl_addAnchor]

theorem createProductURL_ne_nil (a : Str) : createProductURL a ≠ [] := by
  rw [createProductURL_eq]
  intro h
  have := congrArg List.length h
  rw [List.length_append, show (str "https://amazon.com/dp/").length = 22 from by decide] at this
  simp at this

/-- The empty string is in the link set exactly when `withBaseURL` returns it for a relevant
anchor or for a pagination anchor. -/
theorem nil_mem_getRelevantLinks (page : PageLinks) :
    [] ∈ (getRelevantLinks page).1 ↔
      (∃ a href, page.anchors = some a ∧ some href ∈ a ∧ isRelevantURL href = true ∧
        withBaseURL href = []) ∨
      (∃ a href, page.pagination = some a ∧ some href ∈ a ∧ withBaseURL href = []) := by
  rw [mem_getRelevantLinks]
  constructor
  · rintro (⟨a, href, ha, hm, (⟨_, h⟩ | ⟨hr, h⟩)⟩ | ⟨a, href, ha, hm, h⟩)
    · exact absurd h.symm (createProductURL_ne_nil _)
    · exact Or.inl ⟨a, href, ha, hm, hr, h.symm⟩
    · exact Or.inr ⟨a, href, ha, hm, h.symm⟩
  · rintro (⟨a, href, ha, hm, hr, h⟩ | ⟨a, href, ha, hm, h⟩)
    · exact Or.inl ⟨a, href, ha, hm, Or.inr ⟨hr, h.symm⟩⟩
    · exact Or.inr ⟨a, href, ha, hm, h.symm⟩

/-- The loop of `poll` hands no empty URL to the workers. -/
theorem pollOnce_ne_nil (t : Storage.Table) (now : Int) : (pollOnce t now).2 ≠ some [] := by
  unfold pollOnce
  simp only
  split
  · simp
  · split
    · simp
    · next h =>
      intro hc
      exact h (Option.some.inj hc)

end Crawler

namespace Crawler
open GoStrings Url Url.Encoding

/-- The function `filterQueryParams` returns the empty string exactly when the URL does not
parse. -/
theorem filterQueryParams_eq_nil_iff (raw : Str) :
    filterQueryParams raw = [] ↔ Url.Parse raw = none := by
  rw [filterQueryParams_eq]
  cases h : Url.Parse raw with
  | none => simp
  | some u =>
    simp only [reduceCtorEq, iff_false]
    have hwf := Parse_wf raw u h
    have hb : (canon u).bodyString ≠ [] := by
      rw [canon_body u hwf]
      split
      · next hO => exact hO
      · intro hc
        exact (escapedFacts u hwf).ne (List.append_eq_nil.1 hc).2
    rw [String_eq]
    intro hc
    simp only [List.append_eq_nil] at hc
    exact hb hc.1.1.2

end Crawler

namespace Strconv
open GoStrings

/-- The number `Nat.log2 n` is the exponent of the power of two at or below `n`. -/
theorem log2_eq (n k : Nat) (h1 : 2 ^ k ≤ n) (h2 : n < 2 ^ (k + 1)) : Nat.log2 n = k := by
  have hn : n ≠ 0 := by
    have : 0 < 2 ^ k := Nat.two_pow_pos k
    omega
  have hlt : Nat.log2 n < k + 1 := (Nat.log2_lt hn).2 h2
  have hge : ¬ Nat.log2 n < k := fun h => by
    have := (Nat.log2_lt hn).1 h
    omega
  omega

/-- Rounding a quotient of at least 1 whose binary exponent is known. -/
theorem round_eq (neg : Bool) (n d k : Nat) (hd : d ≤ n) (h1 : 2 ^ k ≤ n / d)
    (h2 : n / d < 2 ^ (k + 1)) (hn : n ≠ 0) :
    F64.round neg n d =
      if 1024 ≤ max (k : Int) (-1022) ∨ (max (k : Int) (-1022) = 1023 ∧
          (if 0 ≤ max (k : Int) (-1022) - 52
            then roundHalfEven n (d * 2 ^ (max (k : Int) (-1022) - 52).toNat)
            else roundHalfEven (n * 2 ^ (-(max (k : Int) (-1022) - 52)).toNat) d) = 2 ^ 53)
      then .inf neg
      else .fin neg
        (if 0 ≤ max (k : Int) (-1022) - 52
          then roundHalfEven n (d * 2 ^ (max (k : Int) (-1022) - 52).toNat)
          else roundHalfEven (n * 2 ^ (-(max (k : Int) (-1022) - 52)).toNat) d)
        (max (k : Int) (-1022) - 52) := by
  have hf : floorLog2 n d = (k : Int) := by
    unfold floorLog2
    rw [if_pos hd, log2_eq (n / d) k h1 h2]
  unfold F64.round
  rw [if_neg hn, hf]

/-- What `ParseFloat` returns, from what `special` and `readFloat` return. -/
theorem ParseFloat_eval (s : Str) (r : Read) (neg : Bool) (m : Nat) (e : Int)
    (h1 : special s = none) (h2 : readFloat s = some r) (h3 : r.rest = [])
    (h4 : F64.ofScaled r.neg r.mant (if r.hex = true then 2 else 10) r.exp = .fin neg m e) :
    ParseFloat s = .ok (.fin neg m e) := by
  unfold ParseFloat
  rw [h1]
  simp only
  rw [h2]
  simp only
  rw [if_neg (by rw [h3]; simp), h4]

/-- The product of two finite values with exponents that add up below zero. -/
theorem mul_fin_neg (m1 m2 : Nat) (e1 e2 : Int) (k : Nat) (h : e1 + e2 = -(k : Int))
    (hk : 0 < k) :
    (F64.fin false m1 e1).mul (.fin false m2 e2) = F64.round false (m1 * m2) (2 ^ k) := by
  unfold F64.mul
  have hneg : ¬ (0 : Int) ≤ e1 + e2 := by omega
  have ht : (-(e1 + e2)).toNat = k := by omega
  simp only [hneg, if_false, ht, bne_self_eq_false]

/-- The value `ofScaled` gives for a negative decimal exponent. -/
theorem ofScaled_neg (neg : Bool) (mant k : Nat) (hk : 0 < k) :
    F64.ofScaled neg mant 10 (-(k : Int)) = F64.round neg mant (10 ^ k) := by
  unfold F64.ofScaled
  have hneg : ¬ (0 : Int) ≤ -(k : Int) := by omega
  have ht : (-(-(k : Int))).toNat = k := by omega
  rw [if_neg hneg, ht]

/-- The value `ofScaled` gives for a decimal exponent that is not negative. -/
theorem ofScaled_pos (neg : Bool) (mant k : Nat) :
    F64.ofScaled neg mant 10 (k : Int) = F64.round neg (mant * 10 ^ k) 1 := by
  unfold F64.ofScaled
  have hpos : (0 : Int) ≤ (k : Int) := by omega
  rw [if_pos hpos, Int.toNat_ofNat]

end Strconv

namespace Internal
open GoStrings Strconv

/-- What `parseInt` returns, from what its steps return. -/
theorem parseInt_eval (text s1 s2 : Str) (mult f : F64) (hu : Bool) (v : Int)
    (h1 : ToLower (TrimSpace text) = s1) (h2 : splitUnit s1 = (mult, s2, hu))
    (h3 : ParseFloat (if hu = true then ReplaceAll s2 (B ',') (str ".")
      else ReplaceAll (ReplaceAll s2 (B ',') []) (B '.') []) = .ok f)
    (h4 : (f.mul mult).toInt = v) : parseInt text = (v, none) := by
  unfold parseInt
  simp only [h1, h2, h3, h4]

end Internal

namespace Strconv
open GoStrings

theorem ofNat_1000 : F64.ofNat 1000 = .fin false 8796093022208000 (-43) := by
  rw [ofNat_eq 1000 (by decide) (by decide), log2_eq 1000 9 (by decide) (by decide)]
  decide

theorem ofNat_1 : F64.ofNat 1 = .fin false 4503599627370496 (-52) := by
  rw [ofNat_eq 1 (by decide) (by decide), log2_eq 1 0 (by decide) (by decide)]
  decide

/-- The `float64` nearest to 1.001 lies below it. -/
theorem ParseFloat_1001 :
    ParseFloat (str "1.001") = .ok (.fin false 4508103226997866 (-52)) := by
  apply ParseFloat_eval (str "1.001")
    { neg := false, hex := false, mant := 1001, exp := -3, rest := [] }
  · decide!
  · decide!
  · rfl
  · show F64.ofScaled false 1001 10 (-((3 : Nat) : Int)) = _
    rw [ofScaled_neg false 1001 3 (by decide),
      round_eq false 1001 (10 ^ 3) 0 (by decide) (by decide) (by decide) (by decide)]
    decide!

/-- The product of the `float64` values of 1.001 and 1000 lies below 1001. -/
theorem mul_1001_1000 :
    (F64.fin false 4508103226997866 (-52)).mul (.fin false 8796093022208000 (-43)) =
      .fin false 8804889115230207 (-43) := by
  rw [mul_fin_neg 4508103226997866 8796093022208000 (-52) (-43) 95 (by decide) (by decide),
    round_eq false (4508103226997866 * 8796093022208000) (2 ^ 95) 9 (by decide) (by decide)
      (by decide) (by decide)]
  decide!

theorem ParseFloat_1e3 :
    ParseFloat (str "1e3") = .ok (.fin false 8796093022208000 (-43)) := by
  apply ParseFloat_eval (str "1e3")
    { neg := false, hex := false, mant := 1, exp := 3, rest := [] }
  · decide!
  · decide!
  · rfl
  · show F64.ofScaled false 1 10 ((3 : Nat) : Int) = _
    rw [ofScaled_pos false 1 3, show F64.round false (1 * 10 ^ 3) 1 = F64.ofNat 1000 from rfl,
      ofNat_1000]

theorem mul_1000_1 :
    (F64.fin false 8796093022208000 (-43)).mul (.fin false 4503599627370496 (-52)) =
      .fin false 8796093022208000 (-43) := by
  rw [mul_fin_neg 8796093022208000 4503599627370496 (-43) (-52) 95 (by decide) (by decide),
    round_eq false (8796093022208000 * 4503599627370496) (2 ^ 95) 9 (by decide) (by decide)
      (by decide) (by decide)]
  decide!

end Strconv

namespace Internal
open GoStrings Strconv

/-- The text `1.001k` gives 1000: the product of two `float64` values is cut, not rounded. -/
theorem parseInt_1001k : parseInt (str "1.001k") = (1000, none) := by
  apply parseInt_eval (str "1.001k") (str "1.001k") (str "1.001") (F64.ofNat 1000)
    (.fin false 4508103226997866 (-52)) true 1000
  · decide!
  · rfl
  · exact ParseFloat_1001
  · rw [ofNat_1000, mul_1001_1000]
    decide!

/-- The text `1e3` is read as a number in exponent notation. -/
theorem parseInt_1e3 : parseInt (str "1e3") = (1000, none) := by
  apply parseInt_eval (str "1e3") (str "1e3") (str "1e3") (F64.ofNat 1)
    (.fin false 8796093022208000 (-43)) false 1000
  · decide!
  · rfl
  · exact ParseFloat_1e3
  · rw [ofNat_1, mul_1000_1]
    decide!

end Internal

namespace Strconv
open GoStrings

theorem ofNat_16 : F64.ofNat 16 = .fin false 4503599627370496 (-48) := by
  rw [ofNat_eq 16 (by decide) (by decide), log2_eq 16 4 (by decide) (by decide)]
  decide

/-- The value `ofScaled` gives for a binary exponent that is not negative. -/
theorem ofScaled_two (neg : Bool) (mant k : Nat) :
    F64.ofScaled neg mant 2 (k : Int) = F64.round neg (mant * 2 ^ k) 1 := by
  unfold F64.ofScaled
  have hpos : (0 : Int) ≤ (k : Int) := by omega
  rw [if_pos hpos, Int.toNat_ofNat]

theorem ParseFloat_0x1p4 :
    ParseFloat (str "0x1p4") = .ok (.fin false 4503599627370496 (-48)) := by
  apply ParseFloat_eval (str "0x1p4")
    { neg := false, hex := true, mant := 1, exp := 4, rest := [] }
  · decide!
  · decide!
  · rfl
  · show F64.ofScaled false 1 2 ((4 : Nat) : Int) = _
    rw [ofScaled_two false 1 4, show F64.round false (1 * 2 ^ 4) 1 = F64.ofNat 16 from rfl,
      ofNat_16]

theorem mul_16_1 :
    (F64.fin false 4503599627370496 (-48)).mul (.fin false 4503599627370496 (-52)) =
      .fin false 4503599627370496 (-48) := by
  rw [mul_fin_neg 4503599627370496 4503599627370496 (-48) (-52) 100 (by decide) (by decide),
    round_eq false (4503599627370496 * 4503599627370496) (2 ^ 100) 4 (by decide) (by decide)
      (by decide) (by decide)]
  decide!

theorem ParseFloat_inf : ParseFloat (str "inf") = .ok (.inf false) := by
  unfold ParseFloat
  rw [show special (str "inf") = some (.inf false, 3) from by decide!]
  rfl

theorem ParseFloat_nan : ParseFloat (str "nan") = .ok .nan := by
  unfold ParseFloat
  rw [show special (str "nan") = some (.nan, 3) from by decide!]
  rfl

end Strconv

namespace Internal
open GoStrings Strconv

/-- The text `0x1p4` is read as a hexadecimal number. -/
theorem parseInt_0x1p4 : parseInt (str "0x1p4") = (16, none) := by
  apply parseInt_eval (str "0x1p4") (str "0x1p4") (str "0x1p4") (F64.ofNat 1)
    (.fin false 4503599627370496 (-48)) false 16
  · decide!
  · rfl
  · exact ParseFloat_0x1p4
  · rw [ofNat_1, mul_16_1]
    decide!

/-- The text `inf` is read as an infinity, which the conversion to `int` turns into the
smallest integer. -/
theorem parseInt_inf : parseInt (str "inf") = (-9223372036854775808, none) := by
  apply parseInt_eval (str "inf") (str "inf") (str "inf") (F64.ofNat 1) (.inf false) false
  · decide!
  · rfl
  · exact ParseFloat_inf
  · rw [ofNat_1]
    decide!

/-- The text `nan` is read as a NaN, which the conversion to `int` turns into the smallest
integer. -/
theorem parseInt_nan : parseInt (str "nan") = (-9223372036854775808, none) := by
  apply parseInt_eval (str "nan") (str "nan") (str "nan") (F64.ofNat 1) .nan false
  · decide!
  · rfl
  · exact ParseFloat_nan
  · rw [ofNat_1]
    decide!

end Internal

/-! ### The parameters of a URL as they are written -/

namespace Url
open GoStrings Encoding

theorem mem_cut_iff (sep x : Byte) (hx : x ≠ sep) (p : Str) :
    x ∈ p ↔ x ∈ cutBefore sep p ∨ x ∈ cutAfter sep p := by
  constructor
  · intro h
    rw [← cutBefore_append_dropWhile sep p] at h
    rcases List.mem_append.1 h with h | h
    · exact Or.inl h
    · rcases dropWhile_eq sep p with e | e
      · rw [e] at h; exact absurd h (List.not_mem_nil _)
      · rw [e] at h
        rcases List.mem_cons.1 h with h | h
        · exact absurd h hx
        · exact Or.inr h
  · rintro (h | h)
    · exact mem_of_mem_cutBefore _ _ _ h
    · exact mem_of_mem_cutAfter _ _ _ h

/-- What Go's `parseQuery` makes of one setting is the reading of the setting as written. -/
theorem parsePair_eq_readParameter (p : Str) :
    parsePair p =
      if p ≠ [] then Crawler.readParameter (cutBefore (B '=') p, cutAfter (B '=') p)
      else none := by
  unfold parsePair Crawler.readParameter
  have hsemi := mem_cut_iff (B '=') (B ';') (by decide) p
  by_cases hp : p = []
  · simp [hp]
  · rw [if_pos hp]
    by_cases hm : Crawler.malformedParameter (cutBefore (B '=') p, cutAfter (B '=') p)
    · rw [if_pos hm]
      unfold Crawler.malformedParameter at hm
      by_cases hs : B ';' ∈ p
      · rw [if_pos hs]
      · rw [if_neg hs, if_neg hp]
        rcases hm with h | h | h | h
        · exact absurd (hsemi.2 (Or.inl h)) hs
        · exact absurd (hsemi.2 (Or.inr h)) hs
        · dsimp only at h
          rw [h]
        · dsimp only at h
          rw [h]
          cases QueryUnescape (cutBefore (B '=') p) <;> rfl
    · rw [if_neg hm]
      unfold Crawler.malformedParameter at hm
      have hs : B ';' ∉ p := by
        intro hs
        rcases hsemi.1 hs with h | h
        · exact hm (Or.inl h)
        · exact hm (Or.inr (Or.inl h))
      rw [if_neg hs, if_neg hp]

/-- Go's `ParseQuery` reads the well-formed parameters of the query and skips the others. -/
theorem ParseQuery_eq_read (q : Str) :
    ParseQuery q = (Crawler.rawParameters q).filterMap Crawler.readParameter := by
  unfold ParseQuery Crawler.rawParameters
  rw [List.filterMap_map]
  induction Split (B '&') q with
  | nil => rfl
  | cons p l ih =>
    rw [List.filterMap_cons, parsePair_eq_readParameter p]
    by_cases hp : p = []
    · have hf : (p :: l).filter (fun p => decide (p ≠ [])) = l.filter (fun p => decide (p ≠ [])) := by
        rw [List.filter_cons_of_neg]
        simp [hp]
      rw [hf, ← ih]
      simp [hp]
    · have hf : (p :: l).filter (fun p => decide (p ≠ [])) =
          p :: l.filter (fun p => decide (p ≠ [])) := by
        rw [List.filter_cons_of_pos]
        simp [hp]
      rw [hf, List.filterMap_cons, ← ih, if_pos hp]
      rfl

theorem cutAfter_append_left (sep : Byte) (a b : Str) (h : sep ∉ a) :
    cutAfter sep (a ++ b) = cutAfter sep b := by
  induction a with
  | nil => rfl
  | cons c a ih =>
    simp only [List.mem_cons, not_or] at h
    have hc : c ≠ sep := fun e => h.1 e.symm
    have := ih h.2
    simp only [cutAfter] at this ⊢
    simp only [List.cons_append, List.dropWhile_cons, bne_iff_ne, ne_eq, hc, not_false_eq_true,
      if_true]
    exact this

theorem cutAfter_append_singleton (sep : Byte) (a : Str) (h : sep ∉ a) :
    cutAfter sep (a ++ [sep]) = [] :=
  cutAfter_append sep a [] h

theorem splitQuery_query (rest0 : Str) : (splitQuery rest0).2.2 = cutAfter (B '?') rest0 := by
  unfold splitQuery
  split
  · next h =>
    simp only [Bool.and_eq_true, decide_eq_true_eq] at h
    obtain ⟨hs, hc⟩ := h
    rw [HasSuffix_iff] at hs
    obtain ⟨t, ht⟩ := hs
    have hm : B '?' ∉ t := by
      intro hm
      rw [← ht, List.count_append] at hc
      have : 0 < t.count (B '?') := List.count_pos_iff.2 hm
      have h1 : [B '?'].count (B '?') = 1 := rfl
      omega
    rw [← ht]
    exact (cutAfter_append_singleton _ t hm).symm
  · rfl

theorem setPath_RawQuery (u U : URL) (p : Str) (h : setPath u p = some U) :
    U.RawQuery = u.RawQuery := by
  obtain ⟨path, _, rfl⟩ := setPath_some u U p h
  rfl

theorem parseHier_RawQuery (url U : URL) (rest : Str) (h : parseHier url rest = some U) :
    U.RawQuery = url.RawQuery := by
  unfold parseHier at h
  split at h
  · simp only [Option.some.injEq] at h
    rw [← h]
  · split at h
    · exact absurd h (by simp)
    · split at h
      · simp only at h
        split at h
        · exact absurd h (by simp)
        · have := setPath_RawQuery _ _ _ h
          exact this
      · split at h
        · have := setPath_RawQuery _ _ _ h
          exact this
        · exact setPath_RawQuery _ _ _ h

theorem getScheme_query (raw sch0 rest0 : Str) (h : getScheme raw = some (sch0, rest0)) :
    cutAfter (B '?') rest0 = cutAfter (B '?') raw := by
  unfold getScheme at h
  cases hs : schemeScan 0 raw with
  | none => rw [hs] at h; simp at h
  | some n =>
    rw [hs] at h
    cases n with
    | zero =>
      simp only [Option.some.injEq, Prod.mk.injEq] at h
      rw [h.2]
    | succ k =>
      simp only [Option.some.injEq, Prod.mk.injEq] at h
      obtain ⟨pre, post, e, hl, hall, _⟩ := schemeScan_some raw 0 k hs
      have e2 : raw.drop (k + 2) = post := by
        have hk : k + 2 = pre.length + 1 := by omega
        rw [e, hk, drop_append_cons]
      rw [e2] at h
      rw [← h.2, e]
      have hq : B '?' ∉ pre ++ [B ':'] := by
        intro hm
        rcases List.mem_append.1 hm with hm | hm
        · have := hall _ hm
          revert this
          decide
        · simp only [List.mem_singleton] at hm
          exact absurd hm (by decide)
      have e3 : pre ++ B ':' :: post = (pre ++ [B ':']) ++ post := by simp
      rw [e3]
      symm
      have hc := cutAfter_append_left (B '?') (pre ++ [B ':']) post hq
      exact hc

/-- The field `RawQuery` of the URL that `parse` returns is the text after the first `?`. -/
theorem parse_RawQuery (s : Str) (U : URL) (h : parse s = some U) :
    U.RawQuery = cutAfter (B '?') s := by
  unfold parse at h
  split at h
  · exact absurd h (by simp)
  · split at h
    · next hstar =>
      simp only [Option.some.injEq] at h
      rw [← h, hstar]
      rfl
    · split at h
      · exact absurd h (by simp)
      · next scheme0 rest0 hg =>
        rw [parseHier_RawQuery _ _ _ h]
        show (splitQuery rest0).2.2 = _
        rw [splitQuery_query, getScheme_query _ _ _ hg]

/-- The field `RawQuery` of the URL that `Parse` returns is the query of the text. -/
theorem Parse_RawQuery (raw : Str) (U : URL) (h : Parse raw = some U) :
    U.RawQuery = Crawler.queryOf raw := by
  unfold Parse at h
  simp only at h
  unfold Crawler.queryOf
  cases hp : parse (cutBefore (B '#') raw) with
  | none => rw [hp] at h; simp at h
  | some url =>
    rw [hp] at h
    simp only at h
    rw [← parse_RawQuery _ _ hp]
    split at h
    · simp only [Option.some.injEq] at h
      rw [h]
    · unfold setFragment at h
      split at h
      · exact absurd h (by simp)
      · simp only [Option.some.injEq] at h
        rw [← h]

end Url

namespace Crawler
open GoStrings Url Url.Encoding

/-- The parameters written in an encoded query: the escaped keys and values. -/
theorem rawParameters_Join (l : Values) :
    rawParameters (Join (B '&') (l.map encPair)) =
      l.map (fun kv => (QueryEscape kv.1, QueryEscape kv.2)) := by
  unfold rawParameters
  by_cases hl : l = []
  · subst hl
    simp [Join_nil, Split]
  · rw [Split_Join _ _ (by simpa using hl)]
    · rw [List.filter_eq_self.2, List.map_map]
      · apply List.map_congr_left
        intro kv _
        have heq : B '=' ∉ QueryEscape kv.1 :=
          not_mem_QueryEscape (B '=') (by decide) (by decide) (by decide) _
        show (cutBefore (B '=') (encPair kv), cutAfter (B '=') (encPair kv)) = _
        simp only [encPair]
        rw [cutBefore_append _ _ _ heq, cutAfter_append _ _ _ heq]
      · intro p hp
        obtain ⟨kv, _, rfl⟩ := List.mem_map.1 hp
        simp [encPair]
    · intro p hp
      obtain ⟨kv, _, rfl⟩ := List.mem_map.1 hp
      exact not_mem_encPair (B '&') (by decide) (by decide) (by decide) (by decide) kv

/-- An escaped key with an escaped value is not malformed. -/
theorem not_malformed_escaped (kv : Str × Str) :
    ¬ malformedParameter (QueryEscape kv.1, QueryEscape kv.2) := by
  unfold malformedParameter
  have h1 : B ';' ∉ QueryEscape kv.1 :=
    not_mem_QueryEscape (B ';') (by decide) (by decide) (by decide) _
  have h2 : B ';' ∉ QueryEscape kv.2 :=
    not_mem_QueryEscape (B ';') (by decide) (by decide) (by decide) _
  have h3 : QueryUnescape (QueryEscape kv.1) = some kv.1 :=
    unescape_escape _ (by decide) (by decide) _
  have h4 : QueryUnescape (QueryEscape kv.2) = some kv.2 :=
    unescape_escape _ (by decide) (by decide) _
  simp [h1, h2, h3, h4]

/-- No parameter of the query that `filterQueryParams` writes is malformed. -/
theorem cleanQuery_not_malformed (q : Values) :
    ∀ kv ∈ rawParameters (cleanQuery q), ¬ malformedParameter kv := by
  intro kv hkv
  unfold cleanQuery Values.Encode at hkv
  simp only at hkv
  rw [rawParameters_Join] at hkv
  obtain ⟨kv0, _, rfl⟩ := List.mem_map.1 hkv
  exact not_malformed_escaped kv0

end Crawler

/-! ### `strings.Map` and `strings.ToLower` around an ASCII byte -/

namespace Utf8
open GoStrings

theorem AppendRune_ne_nil (r : Nat) : AppendRune r ≠ [] := by
  unfold AppendRune
  dsimp only
  split_ifs <;> simp

theorem first_facts : ∀ b : Byte, (first b).1 ≤ 4 ∧ (2 ≤ (first b).1 → 0x80 ≤ (first b).2.1) ∧
    (b < (128 : Byte) → first b = (1, 0, 0)) := by
  decide

theorem Decode_ascii (c : Byte) (t : Str) (h : c < (128 : Byte)) :
    DecodeRuneInString (c :: t) = (c.val, 1) := by
  unfold DecodeRuneInString
  simp only [(first_facts c).2.2 h]
  rfl

/-- The width of the rune at the start of a text that is not empty. -/
theorem Decode_width (s : Str) (h : s ≠ []) :
    1 ≤ (DecodeRuneInString s).2 ∧ (DecodeRuneInString s).2 ≤ s.length := by
  cases s with
  | nil => exact absurd rfl h
  | cons s0 t =>
    have hf := (first_facts s0).1
    simp only [DecodeRuneInString, List.length_cons]
    generalize first s0 = x at hf ⊢
    split_ifs <;> simp only [le_refl, true_and] <;> omega

/-- The checks of `DecodeRuneInString` on a text and on a longer text that agrees with it
and goes on with an ASCII byte. -/
theorem cascade (n lo hi E : Nat) (R2 : Nat → Nat) (R3 : Nat → Nat → Nat)
    (R4 : Nat → Nat → Nat → Nat) (len len2 s1 s2 s3 t1 t2 t3 : Nat)
    (hn : 2 ≤ n) (hn4 : n ≤ 4) (hlo : 0x80 ≤ lo) (hlen : 1 ≤ len) (hlen2 : len < len2)
    (h1 : (1 < len → t1 = s1) ∧ (1 = len → t1 < 0x80))
    (h2 : (2 < len → t2 = s2) ∧ (2 = len → t2 < 0x80))
    (h3 : (3 < len → t3 = s3) ∧ (3 = len → t3 < 0x80)) :
    (if len2 < n then (E, 1)
     else if t1 < lo ∨ hi < t1 then (E, 1)
     else if n ≤ 2 then (R2 t1, 2)
     else if t2 < 0x80 ∨ 0xBF < t2 then (E, 1)
     else if n ≤ 3 then (R3 t1 t2, 3)
     else if t3 < 0x80 ∨ 0xBF < t3 then (E, 1)
     else (R4 t1 t2 t3, 4)) =
    (if len < n then (E, 1)
     else if s1 < lo ∨ hi < s1 then (E, 1)
     else if n ≤ 2 then (R2 s1, 2)
     else if s2 < 0x80 ∨ 0xBF < s2 then (E, 1)
     else if n ≤ 3 then (R3 s1 s2, 3)
     else if s3 < 0x80 ∨ 0xBF < s3 then (E, 1)
     else (R4 s1 s2 s3, 4)) := by
  by_cases hl : len < n
  · rw [if_pos hl]
    split_ifs <;> first | rfl | omega
  · have e1 : t1 = s1 := h1.1 (by omega)
    subst e1
    rw [if_neg hl, if_neg (by omega : ¬ len2 < n)]
    by_cases c2 : n ≤ 2
    · simp only [c2, if_true]
    · have e2 : t2 = s2 := h2.1 (by omega)
      subst e2
      simp only [c2, if_false]
      by_cases c3 : n ≤ 3
      · simp only [c3, if_true]
      · have e3 : t3 = s3 := h3.1 (by omega)
        subst e3
        rfl

theorem getD_facts (a0 : Byte) (a : Str) (c : Byte) (b : Str) (hc : c.val < 128) (i : Nat) :
    (i < (a0 :: a).length → ((a0 :: (a ++ c :: b)).getD i 0).val = ((a0 :: a).getD i 0).val) ∧
    (i = (a0 :: a).length → ((a0 :: (a ++ c :: b)).getD i 0).val < 0x80) := by
  have e : a0 :: (a ++ c :: b) = (a0 :: a) ++ c :: b := rfl
  constructor
  · intro h
    rw [e, List.getD_append _ _ _ _ h]
  · intro h
    rw [e, List.getD_append_right _ _ _ _ (by omega), h]
    simpa using hc

theorem Decode_append (a : Str) (c : Byte) (b : Str) (ha : a ≠ []) (hc : c < (128 : Byte)) :
    DecodeRuneInString (a ++ c :: b) = DecodeRuneInString a := by
  have hcv : c.val < 128 := hc
  rcases a with _ | ⟨a0, a⟩
  · exact absurd rfl ha
  have hf := first_facts a0
  obtain ⟨h4, h80, _⟩ := hf
  by_cases h1 : (first a0).1 ≤ 1
  · simp only [DecodeRuneInString, List.cons_append, h1, if_true]
  have h80 := h80 (by omega)
  simp only [DecodeRuneInString, List.cons_append, h1, if_false]
  have g1 := getD_facts a0 a c b hcv 1
  have g2 := getD_facts a0 a c b hcv 2
  have g3 := getD_facts a0 a c b hcv 3
  have hlen : (a0 :: a).length < (a0 :: (a ++ c :: b)).length := by simp
  have hlen1 : 1 ≤ (a0 :: a).length := by simp
  exact cascade (first a0).1 (first a0).2.1 (first a0).2.2 RuneError
    (fun s1 => ((a0.val &&& 0x1F) <<< 6) ||| (s1 &&& 0x3F))
    (fun s1 s2 => ((a0.val &&& 0x0F) <<< 12) ||| ((s1 &&& 0x3F) <<< 6) ||| (s2 &&& 0x3F))
    (fun s1 s2 s3 => ((a0.val &&& 0x07) <<< 18) ||| ((s1 &&& 0x3F) <<< 12) |||
      ((s2 &&& 0x3F) <<< 6) ||| (s3 &&& 0x3F))
    _ _ _ _ _ _ _ _ (by omega) h4 h80 hlen1 hlen
    ⟨fun h => g1.1 (by omega), fun h => g1.2 (by omega)⟩
    ⟨fun h => g2.1 (by omega), fun h => g2.2 (by omega)⟩
    ⟨fun h => g3.1 (by omega), fun h => g3.2 (by omega)⟩
end Utf8

namespace GoStrings
open Utf8

theorem mapLoop_nil (f : Nat → Nat) (n : Nat) : mapLoop f n [] = [] := by
  cases n <;> rfl

theorem mapLoop_cons (f : Nat → Nat) (n : Nat) (c : Byte) (t : Str) :
    mapLoop f (n + 1) (c :: t) =
      AppendRune (f (DecodeRuneInString (c :: t)).1) ++
        mapLoop f n ((c :: t).drop (DecodeRuneInString (c :: t)).2) := rfl

/-- The loop of `Map` does not depend on its bound once the bound is the length. -/
theorem mapLoop_fuel (f : Nat → Nat) : ∀ (n m : Nat) (s : Str), s.length ≤ n → s.length ≤ m →
    mapLoop f n s = mapLoop f m s
  | 0, m, s, hn, _ => by
    have : s = [] := List.length_eq_zero.1 (by omega)
    subst this
    rw [mapLoop_nil, mapLoop_nil]
  | n + 1, m, [], _, _ => by rw [mapLoop_nil, mapLoop_nil]
  | n + 1, 0, c :: t, _, hm => by simp at hm
  | n + 1, m + 1, c :: t, hn, hm => by
    rw [mapLoop_cons, mapLoop_cons]
    have hw := Decode_width (c :: t) (by simp)
    have hl : ((c :: t).drop (DecodeRuneInString (c :: t)).2).length ≤ t.length := by
      rw [List.length_drop]
      simp only [List.length_cons]
      omega
    simp only [List.length_cons] at hn hm
    rw [mapLoop_fuel f n m _ (by omega) (by omega)]

theorem Map_nil (f : Nat → Nat) : Map f [] = [] := rfl

/-- The step of `Map` on a text that is not empty. -/
theorem Map_step (f : Nat → Nat) (s : Str) (h : s ≠ []) :
    Map f s = AppendRune (f (DecodeRuneInString s).1) ++
      Map f (s.drop (DecodeRuneInString s).2) := by
  cases s with
  | nil => exact absurd rfl h
  | cons c t =>
    have hw := Decode_width (c :: t) (by simp)
    unfold Map
    rw [List.length_cons, mapLoop_cons]
    congr 1
    apply mapLoop_fuel
    · rw [List.length_drop]
      simp only [List.length_cons]
      omega
    · exact le_refl _

theorem Map_ne_nil (f : Nat → Nat) (s : Str) (h : s ≠ []) : Map f s ≠ [] := by
  rw [Map_step f s h]
  intro e
  exact AppendRune_ne_nil _ (List.append_eq_nil.1 e).1

theorem Map_cons_ascii (f : Nat → Nat) (c : Byte) (t : Str) (h : c < (128 : Byte)) :
    Map f (c :: t) = AppendRune (f c.val) ++ Map f t := by
  rw [Map_step f _ (by simp), Decode_ascii c t h]
  rfl

/-- An ASCII byte of a text is mapped on its own, and so are the texts before and after it. -/
theorem Map_append_ascii (f : Nat → Nat) (c : Byte) (b : Str) (hc : c < (128 : Byte)) :
    ∀ (n : Nat) (a : Str), a.length ≤ n →
      Map f (a ++ c :: b) = Map f a ++ (AppendRune (f c.val) ++ Map f b)
  | _, [], _ => by
    rw [List.nil_append, Map_cons_ascii f c b hc, Map_nil, List.nil_append]
  | 0, a0 :: a, h => by simp at h
  | n + 1, a0 :: a, h => by
    have hne : a0 :: a ≠ [] := by simp
    have hw := Decode_width (a0 :: a) hne
    rw [Map_step f (a0 :: a ++ c :: b) (by simp), Decode_append (a0 :: a) c b hne hc,
      List.drop_append_of_le_length hw.2,
      Map_append_ascii f c b hc n ((a0 :: a).drop (DecodeRuneInString (a0 :: a)).2)
        (by rw [List.length_drop]; simp only [List.length_cons] at h ⊢; omega),
      Map_step f (a0 :: a) hne, List.append_assoc]

end GoStrings

namespace GoStrings
open Utf8

theorem lower_ascii : ∀ c : Byte, c < (128 : Byte) →
    AppendRune (Unicode.ToLower c.val) = [Url.lowerByte c] := by
  decide

theorem Map_lower_ascii : ∀ (s : Str), (∀ c ∈ s, c < (128 : Byte)) →
    Map Unicode.ToLower s = s.map Url.lowerByte
  | [], _ => rfl
  | c :: t, h => by
    rw [Map_cons_ascii _ c t (h c (List.mem_cons_self _ _)),
      lower_ascii c (h c (List.mem_cons_self _ _)),
      Map_lower_ascii t (fun x hx => h x (List.mem_cons_of_mem _ hx))]
    rfl

/-- On every text `ToLower` is `Map` with `unicode.ToLower`. -/
theorem ToLower_eq_Map (s : Str) : ToLower s = Map Unicode.ToLower s := by
  by_cases h : ∀ c ∈ s, c < (128 : Byte)
  · rw [Url.ToLower_eq s h, Map_lower_ascii s h]
  · unfold ToLower
    rw [if_neg]
    intro hall
    apply h
    intro c hc
    exact of_decide_eq_true (List.all_eq_true.1 hall c hc)

/-- An ASCII byte of a text is lowered on its own, and so are the texts before and after. -/
theorem ToLower_append_ascii (a : Str) (c : Byte) (b : Str) (hc : c < (128 : Byte)) :
    ToLower (a ++ c :: b) = ToLower a ++ Url.lowerByte c :: ToLower b := by
  rw [ToLower_eq_Map, ToLower_eq_Map, ToLower_eq_Map,
    Map_append_ascii _ c b hc a.length a (le_refl _), lower_ascii c hc]
  rfl

theorem ToLower_ne_nil (s : Str) (h : s ≠ []) : ToLower s ≠ [] := by
  rw [ToLower_eq_Map]
  exact Map_ne_nil _ s h

end GoStrings

/-! ### The texts that `ParseFloat` reads -/

namespace Strconv
open GoStrings Internal

/-- A byte of a mantissa: a digit, an underscore or a point. -/
theorem mantissa_byte_facts (hex : Bool) : ∀ c : Byte,
    (c = B '_' → isFloatDigit hex c = false ∧ c ≠ B '.') ∧
    (c = B '.' → isFloatDigit hex c = false) ∧
    ((B '0' ≤ c ∧ c ≤ B '9') → isFloatDigit hex c = true ∧ c ≠ B '.') ∧
    ((hex = true ∧ B 'a' ≤ lower c ∧ lower c ≤ B 'f') → isFloatDigit hex c = true ∧ c ≠ B '.') ∧
    ((isFloatDigit hex c || decide (c = B '_') || decide (c = B '.')) = true →
      isExponentMark hex c = false) ∧
    (lower c = (if hex = true then B 'p' else B 'e') ↔ isExponentMark hex c = true) := by
  cases hex <;> decide

/-- What the bytes of a decimal number, a sign and a digit are. -/
theorem plain_byte_facts : ∀ c : Byte,
    ((isFloatDigit false c || decide (c = B '_') || decide (c = B '.')) = true →
      ¬ isLetter c ∧ c < (128 : Byte)) ∧
    ((c = B '+' ∨ c = B '-') → ¬ isLetter c ∧ c < (128 : Byte) ∧ Url.lowerByte c = c) ∧
    (¬ (c < B '0' ∨ B '9' < c) → isFloatDigit false c = true) ∧
    (lower c = B 'x' → c = B 'x' ∨ c = B 'X') := by
  unfold isLetter
  decide

/-- What the digit loop reads: bytes of a mantissa, with a point at most once. -/
theorem scanDigits_spec (hex : Bool) : ∀ (s : Str) (st : Digits),
    ∃ pre : Str, s = pre ++ (scanDigits hex st s).2 ∧
      pre.all (fun c => isFloatDigit hex c || decide (c = B '_') || decide (c = B '.')) = true ∧
      (scanDigits hex st s).1.sawdigits = (st.sawdigits || pre.any (isFloatDigit hex)) ∧
      (if st.sawdot = true then pre.count (B '.') = 0 else pre.count (B '.') ≤ 1) ∧
      (scanDigits hex st s).1.underscores = (st.underscores || decide (B '_' ∈ pre))
  | [], st => ⟨[], by simp [scanDigits], rfl, by simp [scanDigits], by simp,
      by simp [scanDigits]⟩
  | c :: t, st => by
    obtain ⟨f1, f2, f3, f4, _⟩ := mantissa_byte_facts hex c
    rw [scanDigits]
    by_cases h1 : c = B '_'
    · rw [if_pos h1]
      obtain ⟨pre, e, hall, hsd, hdot, hus⟩ :=
        scanDigits_spec hex t { st with underscores := true }
      refine ⟨c :: pre, by rw [List.cons_append, ← e], ?_, ?_, ?_, ?_⟩
      · simp [h1, hall]
      · rw [hsd]
        simp [(f1 h1).1]
      · rw [List.count_cons_of_ne (f1 h1).2.symm]
        exact hdot
      · rw [hus]
        simp [h1]
    · rw [if_neg h1]
      have hmem : ∀ pre : Str, decide (B '_' ∈ c :: pre) = decide (B '_' ∈ pre) := by
        intro pre
        have : B '_' ≠ c := fun e => h1 e.symm
        simp [List.mem_cons, this]
      by_cases h2 : c = B '.'
      · rw [if_pos h2]
        by_cases h3 : st.sawdot = true
        · rw [if_pos h3]
          exact ⟨[], rfl, rfl, by simp, by simp, by simp⟩
        · rw [if_neg h3]
          obtain ⟨pre, e, hall, hsd, hdot, hus⟩ :=
            scanDigits_spec hex t { st with sawdot := true, dp := st.nd }
          refine ⟨c :: pre, by rw [List.cons_append, ← e], ?_, ?_, ?_, ?_⟩
          · simp [h2, hall]
          · rw [hsd]
            simp [f2 h2]
          · simp only [if_true] at hdot
            rw [if_neg h3, h2, List.count_cons_self, hdot]
          · rw [hus, hmem]
      · rw [if_neg h2]
        by_cases h4 : B '0' ≤ c ∧ c ≤ B '9'
        · rw [if_pos h4]
          by_cases h5 : c = B '0' ∧ st.nd = 0
          · rw [if_pos h5]
            obtain ⟨pre, e, hall, hsd, hdot, hus⟩ :=
              scanDigits_spec hex t { st with sawdigits := true, dp := st.dp - 1 }
            refine ⟨c :: pre, by rw [List.cons_append, ← e], ?_, ?_, ?_, ?_⟩
            · simp [(f3 h4).1, hall]
            · rw [hsd]
              simp [(f3 h4).1]
            · rw [List.count_cons_of_ne (f3 h4).2.symm]
              exact hdot
            · rw [hus, hmem]
          · rw [if_neg h5]
            obtain ⟨pre, e, hall, hsd, hdot, hus⟩ :=
              scanDigits_spec hex t { st with sawdigits := true, nd := st.nd + 1,
                                              mant := st.mant * (if hex then 16 else 10) +
                                                (c.val - 48) }
            refine ⟨c :: pre, by rw [List.cons_append, ← e], ?_, ?_, ?_, ?_⟩
            · simp [(f3 h4).1, hall]
            · rw [hsd]
              simp [(f3 h4).1]
            · rw [List.count_cons_of_ne (f3 h4).2.symm]
              exact hdot
            · rw [hus, hmem]
        · rw [if_neg h4]
          by_cases h6 : hex = true ∧ B 'a' ≤ lower c ∧ lower c ≤ B 'f'
          · rw [if_pos h6]
            obtain ⟨pre, e, hall, hsd, hdot, hus⟩ :=
              scanDigits_spec hex t { st with sawdigits := true, nd := st.nd + 1,
                                              mant := st.mant * 16 + ((lower c).val - 97 + 10) }
            refine ⟨c :: pre, by rw [List.cons_append, ← e], ?_, ?_, ?_, ?_⟩
            · simp [(f4 h6).1, hall]
            · rw [hsd]
              simp [(f4 h6).1]
            · rw [List.count_cons_of_ne (f4 h6).2.symm]
              exact hdot
            · rw [hus, hmem]
          · rw [if_neg h6]
            exact ⟨[], rfl, rfl, by simp, by simp, by simp⟩

/-- The digit loop of the exponent reads digits and underscores, and tells whether it saw
an underscore. -/
theorem scanExp_spec : ∀ (s : Str) (e : Nat) (us : Bool), (scanExp e us s).2.2 = [] →
    s.all (fun c => isFloatDigit false c || decide (c = B '_')) = true ∧
    (scanExp e us s).2.1 = (us || decide (B '_' ∈ s))
  | [], _, _, _ => ⟨rfl, by simp [scanExp]⟩
  | c :: t, e, us, h => by
    rw [scanExp] at h ⊢
    by_cases h1 : c = B '_'
    · rw [if_pos h1] at h ⊢
      obtain ⟨i1, i2⟩ := scanExp_spec t _ _ h
      refine ⟨by simp [h1, i1], ?_⟩
      rw [i2]
      simp [h1]
    · rw [if_neg h1] at h ⊢
      have hmem : decide (B '_' ∈ c :: t) = decide (B '_' ∈ t) := by
        have : B '_' ≠ c := fun e => h1 e.symm
        simp [List.mem_cons, this]
      by_cases h2 : B '0' ≤ c ∧ c ≤ B '9'
      · rw [if_pos h2] at h ⊢
        have := ((mantissa_byte_facts false c).2.2.1 h2).1
        obtain ⟨i1, i2⟩ := scanExp_spec t _ _ h
        refine ⟨by simp [this, i1], ?_⟩
        rw [i2, hmem]
      · rw [if_neg h2] at h
        simp at h

theorem mem_unsigned (x : Byte) (h1 : x ≠ B '+') (h2 : x ≠ B '-') (s : Str) :
    x ∈ unsigned s ↔ x ∈ s := by
  cases s with
  | nil => rfl
  | cons c t =>
    unfold unsigned
    simp only
    by_cases hc : c = B '+' ∨ c = B '-'
    · rw [if_pos hc]
      have : x ≠ c := by
        rcases hc with rfl | rfl
        · exact h1
        · exact h2
      simp [List.mem_cons, this]
    · rw [if_neg hc]

/-- What the exponent part reads when it reads to the end: nothing, in a decimal number, or
the letter of the exponent and an exponent. -/
theorem readExp_spec (hex : Bool) (rem : Str) (e : Int) (us : Bool)
    (h : readExp hex rem = some (e, us, [])) :
    (hex = false ∧ rem = [] ∧ us = false) ∨
    ∃ m ex, rem = m :: ex ∧ isExponentMark hex m = true ∧ isExponent ex = true ∧
      us = decide (B '_' ∈ ex) := by
  unfold readExp at h
  cases rem with
  | nil =>
    cases hex with
    | false =>
      simp only [Bool.false_eq_true, if_false, Option.some.injEq, Prod.mk.injEq] at h
      exact Or.inl ⟨rfl, rfl, h.2.1.symm⟩
    | true => simp at h
  | cons c t =>
    right
    simp only at h
    by_cases hm : lower c = (if hex = true then B 'p' else B 'e')
    · rw [if_pos hm] at h
      refine ⟨c, t, rfl, (mantissa_byte_facts hex c).2.2.2.2.2.1 hm, ?_⟩
      cases t with
      | nil => simp at h
      | cons c2 t2 =>
        simp only at h
        have hmu := mem_unsigned (B '_') (by decide) (by decide) (c2 :: t2)
        unfold isExponent
        unfold unsigned at hmu ⊢
        simp only at hmu ⊢
        generalize (if c2 = B '+' ∨ c2 = B '-' then t2 else c2 :: t2) = t3 at h hmu ⊢
        cases t3 with
        | nil => simp at h
        | cons d ds =>
          simp only at h ⊢
          by_cases hd : d < B '0' ∨ B '9' < d
          · rw [if_pos hd] at h
            simp at h
          · rw [if_neg hd] at h
            simp only [Option.some.injEq, Prod.mk.injEq] at h
            obtain ⟨hall, hus⟩ := scanExp_spec (d :: ds) 0 false h.2.2
            rw [List.all_cons] at hall
            rw [(plain_byte_facts d).2.2.1 hd, Bool.true_and]
            simp only [Bool.and_eq_true] at hall
            refine ⟨hall.2, ?_⟩
            rw [← h.2.1, hus, Bool.false_or]
            exact decide_eq_decide.2 hmu
    · rw [if_neg hm] at h
      cases hex with
      | false => simp at h
      | true => simp at h

theorem takeWhile_append_stop (p : Byte → Bool) (m : Byte) (ex : Str) (hm : p m = false) :
    ∀ pre : Str, pre.all p = true →
      (pre ++ m :: ex).takeWhile p = pre ∧ (pre ++ m :: ex).dropWhile p = m :: ex
  | [], _ => by simp [List.takeWhile_cons, List.dropWhile_cons, hm]
  | c :: pre, h => by
    rw [List.all_cons, Bool.and_eq_true] at h
    obtain ⟨i1, i2⟩ := takeWhile_append_stop p m ex hm pre h.2
    simp [List.takeWhile_cons, List.dropWhile_cons, h.1, i1, i2]

/-- A mantissa that the digit loop read, followed by what the exponent part read to the
end, is a mantissa with an exponent, or a decimal number without letters. -/
theorem scan_spec (hex : Bool) (s2 : Str) (e : Int) (us : Bool)
    (hd : (scanDigits hex {} s2).1.sawdigits = true)
    (he : readExp hex (scanDigits hex {} s2).2 = some (e, us, [])) :
    (hex = false ∧ ∀ c ∈ s2, ¬ isLetter c ∧ c < (128 : Byte)) ∨
    (isScientific hex s2 = true ∧
      ((scanDigits hex {} s2).1.underscores || us) = decide (B '_' ∈ s2)) := by
  obtain ⟨pre, e1, hall, hsd, hdot, hund⟩ := scanDigits_spec hex s2 {}
  rw [hd] at hsd
  have hany : pre.any (isFloatDigit hex) = true := by simpa using hsd.symm
  have hcount : pre.count (B '.') ≤ 1 := by simpa using hdot
  rcases readExp_spec hex _ e us he with ⟨hh, hrem, _⟩ | ⟨m, ex, hrem, hm, hex2, hus⟩
  · left
    refine ⟨hh, ?_⟩
    rw [hrem, List.append_nil] at e1
    subst hh
    rw [e1]
    intro c hc
    exact (plain_byte_facts c).1 (List.all_eq_true.1 hall c hc)
  · right
    rw [hrem] at e1
    have hstop : (fun c => !isExponentMark hex c) m = false := by simp [hm]
    have hpre : pre.all (fun c => !isExponentMark hex c) = true := by
      rw [List.all_eq_true]
      intro c hc
      rw [(mantissa_byte_facts hex c).2.2.2.2.1 (List.all_eq_true.1 hall c hc)]
      rfl
    obtain ⟨t1, t2⟩ := takeWhile_append_stop _ m ex hstop pre hpre
    constructor
    · unfold isScientific
      rw [e1, t2]
      simp only
      rw [t1, hex2, Bool.and_true]
      unfold isMantissa
      rw [hall, hany]
      simp [hcount]
    · rw [hund, hus]
      have hm_ne : B '_' ≠ m := by
        intro e0
        rw [← e0] at hm
        revert hm
        cases hex <;> decide
      conv_rhs => rw [e1]
      simp [List.mem_append, List.mem_cons, hm_ne]

/-- The bytes that agree with a lower-case text, in the count of `commonPrefixLenIgnoreCase`. -/
theorem commonPrefix_take : ∀ (k : Nat) (t p : Str), k ≤ commonPrefixLenIgnoreCase t p →
    (t.take k).map Url.lowerByte = p.take k
  | 0, _, _, _ => by simp
  | k + 1, [], p, h => by simp [commonPrefixLenIgnoreCase] at h
  | k + 1, c :: t, [], h => by simp [commonPrefixLenIgnoreCase] at h
  | k + 1, c :: t, q :: p, h => by
    rw [commonPrefixLenIgnoreCase] at h
    by_cases hc : (if B 'A' ≤ c ∧ c ≤ B 'Z' then c + 32 else c) ≠ q
    · rw [if_pos hc] at h
      omega
    · rw [if_neg hc] at h
      have hq : Url.lowerByte c = q := not_not.1 hc
      rw [List.take_succ_cons, List.take_succ_cons, List.map_cons, hq,
        commonPrefix_take k t p (by omega)]

theorem infLen_spec (t : Str) (m : Nat) (h : infLen t = some m) (hm : m = t.length) :
    t.map Url.lowerByte = str "inf" ∨ t.map Url.lowerByte = str "infinity" := by
  unfold infLen at h
  simp only at h
  generalize hn : commonPrefixLenIgnoreCase t (str "infinity") = n0 at h
  have key : m ≤ n0 ∧ (m = 3 ∨ m = 8) := by
    by_cases h1 : 3 < n0 ∧ n0 < 8
    · rw [if_pos h1] at h
      simp only [true_or, if_true, Option.some.injEq] at h
      omega
    · rw [if_neg h1] at h
      by_cases h2 : n0 = 3 ∨ n0 = 8
      · rw [if_pos h2] at h
        simp only [Option.some.injEq] at h
        omega
      · rw [if_neg h2] at h
        simp at h
  have ht := commonPrefix_take m t (str "infinity") (by rw [hn]; exact key.1)
  rw [hm, List.take_length] at ht
  rcases key.2 with h3 | h8
  · left
    rw [ht, ← hm, h3]
    rfl
  · right
    rw [ht, ← hm, h8]
    rfl

/-- A text that `special` reads to its end is an infinity or a NaN. -/
theorem special_spec (s : Str) (f : F64) (n : Nat) (h : special s = some (f, n))
    (hn : n = s.length) : isInfNaN s := by
  unfold isInfNaN
  cases s with
  | nil => simp [special] at h
  | cons c t =>
    unfold special at h
    simp only at h
    by_cases h1 : c = B '+' ∨ c = B '-'
    · rw [if_pos h1] at h
      cases hi : infLen t with
      | none => rw [hi] at h; simp at h
      | some m =>
        rw [hi] at h
        simp only [Option.map_some', Option.some.injEq, Prod.mk.injEq] at h
        have hm : m = t.length := by
          rw [List.length_cons] at hn
          omega
        have hc := ((plain_byte_facts c).2.1 h1).2.2
        rw [List.map_cons, hc]
        rcases infLen_spec t m hi hm with e | e <;> rcases h1 with rfl | rfl <;> rw [e] <;> decide
    · rw [if_neg h1] at h
      by_cases h2 : c = B 'i' ∨ c = B 'I'
      · rw [if_pos h2] at h
        cases hi : infLen (c :: t) with
        | none => rw [hi] at h; simp at h
        | some m =>
          rw [hi] at h
          simp only [Option.map_some', Option.some.injEq, Prod.mk.injEq] at h
          rcases infLen_spec (c :: t) m hi (by rw [h.2]; exact hn) with e | e <;> rw [e] <;>
            decide
      · rw [if_neg h2] at h
        by_cases h3 : c = B 'n' ∨ c = B 'N'
        · rw [if_pos h3] at h
          by_cases h4 : commonPrefixLenIgnoreCase (c :: t) (str "nan") = 3
          · rw [if_pos h4] at h
            simp only [Option.some.injEq, Prod.mk.injEq] at h
            have ht := commonPrefix_take 3 (c :: t) (str "nan") (by rw [h4])
            have h3l : 3 = (c :: t).length := by rw [← hn, h.2]
            rw [h3l, List.take_length] at ht
            rw [ht, ← h3l]
            decide
          · rw [if_neg h4] at h
            simp at h
        · rw [if_neg h3] at h
          simp at h

/-- What `readFloat` returns goes back to its digit loop, its exponent part and its test
of the underscores. -/
theorem readFloat_some (s : Str) (r : Read) (h : readFloat s = some r) :
    ∃ e us,
      (scanDigits (hexPrefix (unsigned s)) {}
        (if hexPrefix (unsigned s) = true then (unsigned s).drop 2
          else unsigned s)).1.sawdigits = true ∧
      readExp (hexPrefix (unsigned s))
        (scanDigits (hexPrefix (unsigned s)) {}
          (if hexPrefix (unsigned s) = true then (unsigned s).drop 2
            else unsigned s)).2 = some (e, us, r.rest) ∧
      (((scanDigits (hexPrefix (unsigned s)) {}
        (if hexPrefix (unsigned s) = true then (unsigned s).drop 2
          else unsigned s)).1.underscores || us) &&
        !underscoreOK (s.take (s.length - r.rest.length))) = false := by
  cases s with
  | nil => simp [readFloat] at h
  | cons c t =>
    unfold readFloat at h
    unfold unsigned
    dsimp only at h ⊢
    generalize (if c = B '+' ∨ c = B '-' then t else c :: t) = s1 at h ⊢
    generalize hexPrefix s1 = hex at h ⊢
    generalize scanDigits hex {} (if hex = true then s1.drop 2 else s1) = R at h ⊢
    by_cases hsd : R.1.sawdigits = true
    · simp only [hsd, Bool.not_true, Bool.false_eq_true, if_false] at h
      cases hE : readExp hex R.2 with
      | none => rw [hE] at h; simp at h
      | some x =>
        obtain ⟨e, us, rest⟩ := x
        rw [hE] at h
        simp only at h
        split at h
        · simp at h
        · next hus =>
          simp only [Option.some.injEq] at h
          refine ⟨e, us, hsd, ?_, ?_⟩
          · rw [← h]
          · rw [← h]
            simpa using hus
    · simp [hsd] at h

theorem hexPrefix_spec (s1 : Str) (h : hexPrefix s1 = true) :
    ∃ x body, s1 = B '0' :: x :: body ∧ (x = B 'x' ∨ x = B 'X') ∧ s1.drop 2 = body := by
  unfold hexPrefix at h
  split at h
  · next z x y rest =>
    simp only [Bool.and_eq_true, decide_eq_true_eq] at h
    refine ⟨x, y :: rest, by rw [h.1], (plain_byte_facts x).2.2.2 h.2, rfl⟩
  · simp at h

theorem unsigned_plain (s : Str) (h : ∀ c ∈ unsigned s, ¬ isLetter c ∧ c < (128 : Byte)) :
    ∀ c ∈ s, ¬ isLetter c ∧ c < (128 : Byte) := by
  cases s with
  | nil => simp
  | cons c t =>
    unfold unsigned at h
    simp only at h
    by_cases hc : c = B '+' ∨ c = B '-'
    · rw [if_pos hc] at h
      intro x hx
      rcases List.mem_cons.1 hx with rfl | hx
      · exact ⟨((plain_byte_facts x).2.1 hc).1, ((plain_byte_facts x).2.1 hc).2.1⟩
      · exact h x hx
    · rw [if_neg hc] at h
      exact h

theorem outOfRange_of_ok (s : Str) (f : F64) (h : ParseFloat s = .ok f) :
    outOfRange s = false := by
  unfold outOfRange
  rw [h]

/-- The texts for which `ParseFloat` returns a number: a literal with letters, or a text of
ASCII bytes without a letter. -/
theorem ParseFloat_ok_shape (s : Str) (f : F64) (h : ParseFloat s = .ok f) :
    readsAsLiteral s ∨ (s ≠ [] ∧ ∀ c ∈ s, ¬ isLetter c ∧ c < (128 : Byte)) := by
  have hrange := outOfRange_of_ok s f h
  unfold ParseFloat at h
  unfold readsAsLiteral
  cases hsp : special s with
  | some fn =>
    obtain ⟨f1, n⟩ := fn
    rw [hsp] at h
    simp only at h
    by_cases hn : n = s.length
    · exact Or.inl (Or.inl (special_spec s f1 n hsp hn))
    · rw [if_neg hn] at h
      exact absurd h (by simp)
  | none =>
    rw [hsp] at h
    simp only at h
    cases hr : readFloat s with
    | none => rw [hr] at h; exact absurd h (by simp)
    | some r =>
      rw [hr] at h
      simp only at h
      by_cases hrest : r.rest = []
      · obtain ⟨e, us, hsd, hexp, hund⟩ := readFloat_some s r hr
        rw [hrest] at hexp hund
        rw [List.length_nil, Nat.sub_zero, List.take_length] at hund
        have hne : s ≠ [] := by
          intro e0
          rw [e0] at hr
          simp [readFloat] at hr
        have hmu := mem_unsigned (B '_') (by decide) (by decide) s
        cases hhex : hexPrefix (unsigned s) with
        | false =>
          rw [hhex] at hsd hexp hund
          simp only [Bool.false_eq_true, if_false] at hsd hexp hund
          rcases scan_spec false (unsigned s) e us hsd hexp with ⟨_, hp⟩ | ⟨hsci, hflag⟩
          · exact Or.inr ⟨hne, unsigned_plain s hp⟩
          · refine Or.inl (Or.inr ⟨Or.inl hsci, ?_, hrange⟩)
            intro hmem
            rw [hflag, decide_eq_true (hmu.2 hmem)] at hund
            simpa using hund
        | true =>
          rw [hhex] at hsd hexp hund
          simp only [if_true] at hsd hexp hund
          obtain ⟨x, body, e1, hx, e2⟩ := hexPrefix_spec _ hhex
          rw [e2] at hsd hexp hund
          rcases scan_spec true body e us hsd hexp with ⟨hf, _⟩ | ⟨hsci, hflag⟩
          · exact absurd hf (by simp)
          · refine Or.inl (Or.inr ⟨Or.inr ?_, ?_, hrange⟩)
            · unfold isHexForm
              rw [e1]
              exact ⟨rfl, hx, hsci⟩
            · intro hmem
              have hb : B '_' ∈ body := by
                have h1 := hmu.2 hmem
                rw [e1] at h1
                rcases List.mem_cons.1 h1 with h1 | h1
                · exact absurd h1 (by decide)
                · rcases List.mem_cons.1 h1 with h1 | h1
                  · rcases hx with rfl | rfl
                    · exact absurd h1 (by decide)
                    · exact absurd h1 (by decide)
                  · exact h1
              rw [hflag, decide_eq_true hb] at hund
              simpa using hund
      · rw [if_pos hrest] at h
        exact absurd h (by simp)

end Strconv

/-! ### The literals that `ParseFloat` reads -/

namespace Strconv
open GoStrings Internal

/-- What the letter of an exponent and a byte of a mantissa are. -/
theorem mark_byte_facts (hex : Bool) : ∀ c : Byte,
    (isExponentMark hex c = true →
      c ≠ B '_' ∧ c ≠ B '.' ∧ ¬ (B '0' ≤ c ∧ c ≤ B '9') ∧
      ¬ (hex = true ∧ B 'a' ≤ lower c ∧ lower c ≤ B 'f') ∧ lower c ≠ B 'x') ∧
    ((isFloatDigit hex c || decide (c = B '_') || decide (c = B '.')) = true →
      (c = B '_' ∨ c = B '.' ∨ (B '0' ≤ c ∧ c ≤ B '9') ∨
        (hex = true ∧ B 'a' ≤ lower c ∧ lower c ≤ B 'f')) ∧
      c ≠ B 'i' ∧ c ≠ B 'I' ∧ c ≠ B 'n' ∧ c ≠ B 'N' ∧ c ≠ B '+' ∧ c ≠ B '-' ∧
      (if B 'A' ≤ c ∧ c ≤ B 'Z' then c + 32 else c) ≠ B 'i' ∧
      (hex = false → lower c ≠ B 'x')) := by
  cases hex <;> decide

theorem digit_byte_facts : ∀ d : Byte, isFloatDigit false d = true →
    ¬ (d < B '0' ∨ B '9' < d) := by
  decide

/-- The digit loop reads a mantissa up to the letter of the exponent. -/
theorem scanDigits_rest (hex : Bool) (m : Byte) (ex : Str) (hm : isExponentMark hex m = true) :
    ∀ (pre : Str) (st : Digits),
      pre.all (fun c => isFloatDigit hex c || decide (c = B '_') || decide (c = B '.')) = true →
      (if st.sawdot = true then pre.count (B '.') = 0 else pre.count (B '.') ≤ 1) →
      (scanDigits hex st (pre ++ m :: ex)).2 = m :: ex
  | [], st, _, _ => by
    obtain ⟨g1, g2, g3, g4, _⟩ := (mark_byte_facts hex m).1 hm
    rw [List.nil_append, scanDigits, if_neg g1, if_neg g2, if_neg g3, if_neg g4]
  | c :: pre, st, hall, hdot => by
    rw [List.all_cons, Bool.and_eq_true] at hall
    obtain ⟨hc, hpre⟩ := hall
    have hcases := ((mark_byte_facts hex c).2 hc).1
    rw [List.cons_append, scanDigits]
    by_cases h1 : c = B '_'
    · rw [if_pos h1]
      apply scanDigits_rest hex m ex hm pre _ hpre
      have : B '.' ≠ c := by rw [h1]; decide
      rw [List.count_cons_of_ne this] at hdot
      exact hdot
    · rw [if_neg h1]
      by_cases h2 : c = B '.'
      · rw [if_pos h2]
        rw [h2, List.count_cons_self] at hdot
        by_cases h3 : st.sawdot = true
        · rw [if_pos h3] at hdot
          omega
        · rw [if_neg h3] at hdot ⊢
          apply scanDigits_rest hex m ex hm pre _ hpre
          simp only [if_true]
          omega
      · rw [if_neg h2]
        have hne : B '.' ≠ c := fun e => h2 e.symm
        rw [List.count_cons_of_ne hne] at hdot
        by_cases h4 : B '0' ≤ c ∧ c ≤ B '9'
        · rw [if_pos h4]
          by_cases h5 : c = B '0' ∧ st.nd = 0
          · rw [if_pos h5]
            exact scanDigits_rest hex m ex hm pre _ hpre hdot
          · rw [if_neg h5]
            exact scanDigits_rest hex m ex hm pre _ hpre hdot
        · rw [if_neg h4]
          by_cases h6 : hex = true ∧ B 'a' ≤ lower c ∧ lower c ≤ B 'f'
          · rw [if_pos h6]
            exact scanDigits_rest hex m ex hm pre _ hpre hdot
          · rcases hcases with h | h | h | h
            · exact absurd h h1
            · exact absurd h h2
            · exact absurd h h4
            · exact absurd h h6

/-- The digit loop of the exponent reads digits and underscores to the end. -/
theorem scanExp_rest : ∀ (s : Str) (e : Nat) (us : Bool),
    s.all (fun c => isFloatDigit false c || decide (c = B '_')) = true →
    (scanExp e us s).2.2 = []
  | [], _, _, _ => rfl
  | c :: t, e, us, h => by
    rw [List.all_cons, Bool.and_eq_true] at h
    rw [scanExp]
    by_cases h1 : c = B '_'
    · rw [if_pos h1]
      exact scanExp_rest t _ _ h.2
    · rw [if_neg h1]
      have h2 : B '0' ≤ c ∧ c ≤ B '9' := by
        have := h.1
        simp only [h1, decide_False, Bool.or_false] at this
        revert this
        unfold isFloatDigit
        simp
      rw [if_pos h2]
      exact scanExp_rest t _ _ h.2

/-- The exponent part reads the letter of the exponent and an exponent to the end. -/
theorem readExp_rest (hex : Bool) (m : Byte) (ex : Str) (hm : isExponentMark hex m = true)
    (he : isExponent ex = true) : ∃ e us, readExp hex (m :: ex) = some (e, us, []) := by
  have hl := (mantissa_byte_facts hex m).2.2.2.2.2.2 hm
  unfold readExp
  simp only
  rw [if_pos hl]
  cases ex with
  | nil => simp [isExponent, unsigned] at he
  | cons c2 t2 =>
    simp only
    unfold isExponent unsigned at he
    simp only at he
    generalize (if c2 = B '+' ∨ c2 = B '-' then t2 else c2 :: t2) = t3 at he ⊢
    cases t3 with
    | nil => simp at he
    | cons d ds =>
      simp only [Bool.and_eq_true] at he ⊢
      have hd : ¬ (d < B '0' ∨ B '9' < d) := digit_byte_facts d he.1
      rw [if_neg hd]
      have hall : (d :: ds).all (fun c => isFloatDigit false c || decide (c = B '_')) = true := by
        rw [List.all_cons, he.1, Bool.true_or, Bool.true_and]
        exact he.2
      exact ⟨_, _, by rw [scanExp_rest (d :: ds) 0 false hall]⟩

theorem dropWhile_head (p : Byte → Bool) : ∀ (l : Str) (a : Byte) (r : Str),
    l.dropWhile p = a :: r → p a = false
  | [], _, _, h => by simp at h
  | c :: l, a, r, h => by
    rw [List.dropWhile_cons] at h
    by_cases hc : p c = true
    · rw [if_pos hc] at h
      exact dropWhile_head p l a r h
    · rw [if_neg hc] at h
      rw [← (List.cons.inj h).1]
      simpa using hc

/-- A mantissa with an exponent, taken apart. -/
theorem isScientific_parts (hex : Bool) (body : Str) (h : isScientific hex body = true) :
    ∃ mant m ex, body = mant ++ m :: ex ∧
      mant.all (fun c => isFloatDigit hex c || decide (c = B '_') || decide (c = B '.')) = true ∧
      mant.any (isFloatDigit hex) = true ∧ mant.count (B '.') ≤ 1 ∧
      isExponentMark hex m = true ∧ isExponent ex = true := by
  unfold isScientific at h
  cases hd : body.dropWhile (fun c => !isExponentMark hex c) with
  | nil => rw [hd] at h; simp at h
  | cons m ex =>
    rw [hd] at h
    simp only [Bool.and_eq_true] at h
    have hm := dropWhile_head _ body m ex hd
    have hb : body = body.takeWhile (fun c => !isExponentMark hex c) ++ m :: ex := by
      rw [← hd, List.takeWhile_append_dropWhile]
    have hmant := h.1
    unfold isMantissa at hmant
    simp only [Bool.and_eq_true, decide_eq_true_eq] at hmant
    exact ⟨_, m, ex, hb, hmant.1.1, hmant.1.2, hmant.2, by simpa using hm, h.2⟩

theorem infLen_none (t : Str)
    (h : ∀ x r, t = x :: r → (if B 'A' ≤ x ∧ x ≤ B 'Z' then x + 32 else x) ≠ B 'i') :
    infLen t = none := by
  have h0 : commonPrefixLenIgnoreCase t (str "infinity") = 0 := by
    rw [show str "infinity" = B 'i' :: str "nfinity" from by decide]
    cases t with
    | nil => rfl
    | cons x r =>
      have hx := h x r rfl
      simp only [commonPrefixLenIgnoreCase, ne_eq, hx, not_false_eq_true, if_true]
  unfold infLen
  simp only [h0]
  decide

/-- A text that starts, after its sign, with a byte of a mantissa is no infinity and no
NaN. -/
theorem special_none (hex : Bool) (s : Str) (b : Byte) (rest : Str)
    (h : unsigned s = b :: rest)
    (hb : (isFloatDigit hex b || decide (b = B '_') || decide (b = B '.')) = true) :
    special s = none := by
  obtain ⟨_, g1, g2, g3, g4, g5, g6, g7, _⟩ := (mark_byte_facts hex b).2 hb
  cases s with
  | nil => rfl
  | cons c t =>
    unfold unsigned at h
    simp only at h
    unfold special
    simp only
    by_cases hc : c = B '+' ∨ c = B '-'
    · rw [if_pos hc] at h ⊢
      rw [infLen_none]
      · rfl
      · intro x r hx
        rw [h] at hx
        rw [← (List.cons.inj hx).1]
        exact g7
    · rw [if_neg hc] at h ⊢
      have hcb : c = b := (List.cons.inj h).1
      rw [hcb]
      simp [g1, g2, g3, g4]

/-- What `readFloat` returns when its digit loop and its exponent part read to the end. -/
theorem readFloat_of_scan (s : Str) (hne : s ≠ []) (e : Int) (us : Bool)
    (hsd : (scanDigits (hexPrefix (unsigned s)) {}
        (if hexPrefix (unsigned s) = true then (unsigned s).drop 2
          else unsigned s)).1.sawdigits = true)
    (hexp : readExp (hexPrefix (unsigned s))
        (scanDigits (hexPrefix (unsigned s)) {}
          (if hexPrefix (unsigned s) = true then (unsigned s).drop 2
            else unsigned s)).2 = some (e, us, []))
    (hus : (((scanDigits (hexPrefix (unsigned s)) {}
        (if hexPrefix (unsigned s) = true then (unsigned s).drop 2
          else unsigned s)).1.underscores || us) && !underscoreOK s) = false) :
    ∃ r, readFloat s = some r ∧ r.rest = [] := by
  cases s with
  | nil => exact absurd rfl hne
  | cons c t =>
    unfold readFloat
    unfold unsigned at hsd hexp hus
    dsimp only at hsd hexp hus ⊢
    generalize (if c = B '+' ∨ c = B '-' then t else c :: t) = s1 at hsd hexp hus ⊢
    generalize hexPrefix s1 = hex at hsd hexp hus ⊢
    generalize scanDigits hex {} (if hex = true then s1.drop 2 else s1) = R at hsd hexp hus ⊢
    rw [hsd, hexp]
    simp only [Bool.not_true, Bool.false_eq_true, if_false, List.length_nil, Nat.sub_zero,
      List.take_length, hus]
    exact ⟨_, rfl, rfl⟩

/-- What `ParseFloat` returns for a text that `readFloat` reads to the end and that is not
out of range. -/
theorem ParseFloat_of_read (s : Str) (r : Read) (h1 : special s = none)
    (h2 : readFloat s = some r) (h3 : r.rest = []) (h4 : outOfRange s = false) :
    ∃ f, ParseFloat s = .ok f := by
  unfold outOfRange at h4
  unfold ParseFloat at h4 ⊢
  rw [h1] at h4 ⊢
  simp only at h4 ⊢
  rw [h2] at h4 ⊢
  simp only at h4 ⊢
  rw [if_neg (by rw [h3]; simp)] at h4 ⊢
  cases hv : F64.ofScaled r.neg r.mant (if r.hex = true then 2 else 10) r.exp with
  | fin neg m e => exact ⟨_, rfl⟩
  | inf neg => rw [hv] at h4; simp at h4
  | nan => exact ⟨_, rfl⟩

end Strconv

namespace Strconv
open GoStrings Internal

/-- A text whose digits and exponent are a mantissa with an exponent is read by
`ParseFloat` when its underscores are placed well and it is not out of range. -/
theorem ParseFloat_of_scientific (s : Str) (hex : Bool) (body : Str)
    (hhex : hexPrefix (unsigned s) = hex)
    (hbody : (if hex = true then (unsigned s).drop 2 else unsigned s) = body)
    (hsci : isScientific hex body = true)
    (hfirst : ∃ b rest, unsigned s = b :: rest ∧
      (isFloatDigit hex b || decide (b = B '_') || decide (b = B '.')) = true)
    (hund : B '_' ∈ s → underscoreOK s = true) (hr : outOfRange s = false) :
    ∃ f, ParseFloat s = .ok f := by
  obtain ⟨mant, m, ex, e1, hall, hany, hcount, hm, hex2⟩ := isScientific_parts hex body hsci
  obtain ⟨b, rest, hb, hbm⟩ := hfirst
  have hne : s ≠ [] := by
    intro e0
    rw [e0] at hb
    simp [unsigned] at hb
  have hrest : (scanDigits hex {} body).2 = m :: ex := by
    rw [e1]
    exact scanDigits_rest hex m ex hm mant {} hall (by simpa using hcount)
  obtain ⟨pre, e2, _, hsd, _, hus1⟩ := scanDigits_spec hex body {}
  rw [hrest] at e2
  have hpre : pre = mant := by
    rw [e1] at e2
    exact (List.append_cancel_right e2).symm
  rw [hpre] at hsd hus1
  obtain ⟨e, us, hexp⟩ := readExp_rest hex m ex hm hex2
  have hus2 : us = decide (B '_' ∈ ex) := by
    rcases readExp_spec hex (m :: ex) e us hexp with ⟨_, h0, _⟩ | ⟨m2, ex2, h0, _, _, h1⟩
    · exact absurd h0 (by simp)
    · rw [(List.cons.inj h0).2]
      exact h1
  have hbs : ∀ x ∈ body, x ∈ unsigned s := by
    intro x hx
    rw [← hbody] at hx
    split at hx
    · exact List.mem_of_mem_drop hx
    · exact hx
  have hflag : (((scanDigits hex {} body).1.underscores || us) && !underscoreOK s) = false := by
    by_cases hmem : B '_' ∈ mant ∨ B '_' ∈ ex
    · have h1 : B '_' ∈ body := by
        rw [e1]
        rcases hmem with h | h
        · exact List.mem_append_left _ h
        · exact List.mem_append_right _ (List.mem_cons_of_mem _ h)
      have h2 := (mem_unsigned (B '_') (by decide) (by decide) s).1 (hbs _ h1)
      rw [hund h2]
      simp
    · rw [hus1, hus2]
      simp only [not_or] at hmem
      simp [hmem.1, hmem.2]
  have hsd2 : (scanDigits hex {} body).1.sawdigits = true := by
    rw [hsd, hany]
    rfl
  rw [← hrest] at hexp
  subst hhex
  subst hbody
  obtain ⟨r, hr1, hr2⟩ := readFloat_of_scan s hne e us hsd2 hexp hflag
  exact ParseFloat_of_read s r (special_none _ s b rest hb hbm) hr1 hr2 hr

theorem hexPrefix_false (mant : Str) (m : Byte) (ex : Str)
    (hall : mant.all (fun c => isFloatDigit false c || decide (c = B '_') ||
      decide (c = B '.')) = true)
    (hne : mant ≠ []) (hm : isExponentMark false m = true) :
    hexPrefix (mant ++ m :: ex) = false := by
  have hmx := ((mark_byte_facts false m).1 hm).2.2.2.2
  rw [List.all_eq_true] at hall
  cases mant with
  | nil => exact absurd rfl hne
  | cons a mant =>
    cases mant with
    | nil =>
      unfold hexPrefix
      split
      · next z x _ _ heq =>
        simp only [List.cons_append, List.nil_append, List.cons.injEq] at heq
        have : lower x ≠ B 'x' := by rw [← heq.2.1]; exact hmx
        simp [this]
      · rfl
    | cons b mant =>
      have hb := ((mark_byte_facts false b).2 (hall b (by simp))).2.2.2.2.2.2.2.2 rfl
      unfold hexPrefix
      split
      · next z x _ _ heq =>
        simp only [List.cons_append, List.cons.injEq] at heq
        have : lower x ≠ B 'x' := by rw [← heq.2.1]; exact hb
        simp [this]
      · rfl

/-- The function `ParseFloat` reads a decimal literal with an exponent. -/
theorem ParseFloat_of_exponentForm (s : Str) (h : isExponentForm s)
    (hund : B '_' ∈ s → underscoreOK s = true) (hr : outOfRange s = false) :
    ∃ f, ParseFloat s = .ok f := by
  unfold isExponentForm at h
  obtain ⟨mant, m, ex, e1, hall, hany, _, hm, _⟩ := isScientific_parts false _ h
  have hne : mant ≠ [] := by
    intro e0
    rw [e0] at hany
    simp at hany
  have hhex : hexPrefix (unsigned s) = false := by
    rw [e1]
    exact hexPrefix_false mant m ex hall hne hm
  obtain ⟨b, mant2, rfl⟩ := List.exists_cons_of_ne_nil hne
  refine ParseFloat_of_scientific s false (unsigned s) hhex (by simp) h
    ⟨b, mant2 ++ m :: ex, by rw [e1]; rfl, ?_⟩ hund hr
  rw [List.all_cons, Bool.and_eq_true] at hall
  exact hall.1

/-- The function `ParseFloat` reads a hexadecimal floating-point literal. -/
theorem ParseFloat_of_hexForm (s : Str) (h : isHexForm s)
    (hund : B '_' ∈ s → underscoreOK s = true) (hr : outOfRange s = false) :
    ∃ f, ParseFloat s = .ok f := by
  unfold isHexForm at h
  split at h
  · next z x body heq =>
    obtain ⟨hz, hx, hsci⟩ := h
    obtain ⟨mant, m, ex, e1, _⟩ := isScientific_parts true _ hsci
    have hlx : lower x = B 'x' := by
      rcases hx with rfl | rfl <;> decide
    have hhex : hexPrefix (unsigned s) = true := by
      rw [heq, e1, hz]
      cases mant with
      | nil => simp [hexPrefix, hlx]
      | cons a mant => simp [hexPrefix, hlx]
    refine ParseFloat_of_scientific s true body hhex (by rw [heq]; rfl) hsci
      ⟨z, x :: body, heq, ?_⟩ hund hr
    rw [hz]
    decide
  · exact absurd h (by simp)

theorem commonPrefix_of_map : ∀ (s p q : Str), s.map Url.lowerByte = p →
    commonPrefixLenIgnoreCase s (p ++ q) = p.length
  | [], p, q, h => by
    rw [List.map_nil] at h
    rw [← h]
    cases q <;> rfl
  | c :: s, [], q, h => by simp at h
  | c :: s, lc :: p, q, h => by
    rw [List.map_cons, List.cons.injEq] at h
    rw [List.cons_append, commonPrefixLenIgnoreCase]
    have hc : ¬ (if B 'A' ≤ c ∧ c ≤ B 'Z' then c + 32 else c) ≠ lc := not_not.2 h.1
    rw [if_neg hc, commonPrefix_of_map s p q h.2, List.length_cons]

theorem infLen_of_map (t : Str)
    (h : t.map Url.lowerByte = str "inf" ∨ t.map Url.lowerByte = str "infinity") :
    infLen t = some t.length := by
  unfold infLen
  rcases h with h | h
  · have hl : t.length = 3 := by
      have := congrArg List.length h
      rw [List.length_map] at this
      exact this
    have := commonPrefix_of_map t (str "inf") (str "inity") h
    rw [show str "inf" ++ str "inity" = str "infinity" from by decide] at this
    rw [this, hl]
    rfl
  · have hl : t.length = 8 := by
      have := congrArg List.length h
      rw [List.length_map] at this
      exact this
    have := commonPrefix_of_map t (str "infinity") [] h
    rw [List.append_nil] at this
    rw [this, hl]
    rfl

theorem lowerByte_facts : ∀ c : Byte,
    (Url.lowerByte c = B '+' → c = B '+') ∧ (Url.lowerByte c = B '-' → c = B '-') ∧
    (Url.lowerByte c = B 'i' → (c = B 'i' ∨ c = B 'I') ∧ ¬ (c = B '+' ∨ c = B '-')) ∧
    (Url.lowerByte c = B 'n' → (c = B 'n' ∨ c = B 'N') ∧ ¬ (c = B '+' ∨ c = B '-') ∧
      ¬ (c = B 'i' ∨ c = B 'I')) := by
  decide

/-- The function `ParseFloat` reads an infinity and a NaN. -/
theorem ParseFloat_of_infNaN (s : Str) (h : isInfNaN s) : ∃ f, ParseFloat s = .ok f := by
  unfold isInfNaN at h
  have key : ∃ f, special s = some (f, s.length) := by
    cases s with
    | nil => exact absurd h (by decide)
    | cons c t =>
      rw [List.map_cons] at h
      obtain ⟨f1, f2, f3, f4⟩ := lowerByte_facts c
      have hsign : ∀ lit : Str, lit = str "inf" ∨ lit = str "infinity" →
          (Url.lowerByte c = B '+' ∨ Url.lowerByte c = B '-') → t.map Url.lowerByte = lit →
          ∃ f, special (c :: t) = some (f, (c :: t).length) := by
        intro lit hlit hc ht
        have hc2 : c = B '+' ∨ c = B '-' := by
          rcases hc with hc | hc
          · exact Or.inl (f1 hc)
          · exact Or.inr (f2 hc)
        unfold special
        simp only
        rw [if_pos hc2, infLen_of_map t (by rcases hlit with rfl | rfl; exact Or.inl ht; exact Or.inr ht)]
        refine ⟨F64.inf (decide (c = B '-')), ?_⟩
        simp [Nat.add_comm]
      have hinf : ∀ lit : Str, lit = str "inf" ∨ lit = str "infinity" →
          (c :: t).map Url.lowerByte = lit → Url.lowerByte c = B 'i' →
          ∃ f, special (c :: t) = some (f, (c :: t).length) := by
        intro lit hlit ht hc
        obtain ⟨g1, g2⟩ := f3 hc
        unfold special
        simp only
        rw [if_neg g2, if_pos g1,
          infLen_of_map (c :: t) (by rcases hlit with rfl | rfl; exact Or.inl ht; exact Or.inr ht)]
        exact ⟨_, rfl⟩
      simp only [List.mem_cons, List.mem_singleton, List.not_mem_nil, or_false] at h
      rcases h with h | h | h | h | h | h | h
      · exact hinf _ (Or.inl rfl) h (List.cons.inj h).1
      · exact hsign _ (Or.inl rfl) (Or.inl (List.cons.inj h).1) (List.cons.inj h).2
      · exact hsign _ (Or.inl rfl) (Or.inr (List.cons.inj h).1) (List.cons.inj h).2
      · exact hinf _ (Or.inr rfl) h (List.cons.inj h).1
      · exact hsign _ (Or.inr rfl) (Or.inl (List.cons.inj h).1) (List.cons.inj h).2
      · exact hsign _ (Or.inr rfl) (Or.inr (List.cons.inj h).1) (List.cons.inj h).2
      · obtain ⟨g1, g2, g3⟩ := f4 (List.cons.inj h).1
        have hl : (c :: t).length = 3 := by
          have := congrArg List.length h
          rw [← List.map_cons, List.length_map] at this
          exact this
        have hcp := commonPrefix_of_map (c :: t) (str "nan") [] h
        rw [List.append_nil] at hcp
        unfold special
        simp only
        rw [if_neg g2, if_neg g3, if_pos g1, hcp, hl]
        exact ⟨_, rfl⟩
  obtain ⟨f, hf⟩ := key
  refine ⟨f, ?_⟩
  unfold ParseFloat
  rw [hf]
  simp

/-- The function `ParseFloat` reads every literal with letters. -/
theorem ParseFloat_of_literal (s : Str) (h : readsAsLiteral s) : ∃ f, ParseFloat s = .ok f := by
  unfold readsAsLiteral at h
  rcases h with h | ⟨h | h, hund, hr⟩
  · exact ParseFloat_of_infNaN s h
  · exact ParseFloat_of_exponentForm s h hund hr
  · exact ParseFloat_of_hexForm s h hund hr

end Strconv

/-! ### What `parseInt` rejects -/

namespace Internal
open GoStrings Strconv

/-- The function `parseInt` returns an error exactly when `ParseFloat` does. -/
theorem parseInt_of_floatText_error (text : Str) (e : NumError)
    (h : ParseFloat (floatText text) = .error e) :
    parseInt text = (0, some (str "invalid number format")) := by
  unfold floatText at h
  unfold parseInt
  generalize splitUnit (ToLower (TrimSpace text)) = su at h ⊢
  obtain ⟨m, s, hu⟩ := su
  simp only at h ⊢
  rw [h]

theorem ParseFloat_cases (s : Str) : (∃ e, ParseFloat s = .error e) ∨ ∃ f, ParseFloat s = .ok f := by
  cases h : ParseFloat s with
  | error e => exact Or.inl ⟨e, rfl⟩
  | ok f => exact Or.inr ⟨f, rfl⟩

theorem unit_byte_facts : ∀ c : Byte,
    (isLetter c → c < (128 : Byte) ∧ isLetter (Url.lowerByte c) ∧ Url.lowerByte c ≠ B ',' ∧
      Url.lowerByte c ≠ B '.') ∧
    (¬ (c = B 'k' ∨ c = B 'K' ∨ c = B 'm' ∨ c = B 'M') →
      Url.lowerByte c ≠ B 'k' ∧ Url.lowerByte c ≠ B 'm') ∧
    ((128 : Byte) ≤ c → c ≠ B 'k' ∧ c ≠ B 'm' ∧ c ≠ B ',' ∧ c ≠ B '.' ∧ ¬ c < (128 : Byte)) ∧
    ((c = B 'k' ∨ c = B 'K' ∨ c = B 'm' ∨ c = B 'M') →
      c < (128 : Byte) ∧ (Url.lowerByte c = B 'k' ∨ Url.lowerByte c = B 'm')) := by
  unfold isLetter
  decide

/-- A byte of the text without its unit: a byte of the text that is not the unit at its
end. -/
theorem mem_stripUnit (t : Str) (c : Byte) (h : c ∈ stripUnit t) :
    ∃ a b, t = a ++ c :: b ∧ (b ≠ [] ∨ ¬ (c = B 'k' ∨ c = B 'K' ∨ c = B 'm' ∨ c = B 'M')) := by
  rcases List.eq_nil_or_concat t with rfl | ⟨t0, l, rfl⟩
  · simp [stripUnit] at h
  · rw [List.concat_eq_append] at h ⊢
    unfold stripUnit at h
    rw [List.getLast?_append, List.getLast?_singleton] at h
    simp only [Option.or] at h
    by_cases hl : l = B 'k' ∨ l = B 'K' ∨ l = B 'm' ∨ l = B 'M'
    · rw [if_pos hl, List.dropLast_concat] at h
      obtain ⟨a, b, rfl⟩ := List.append_of_mem h
      exact ⟨a, b ++ [l], by simp, Or.inl (by simp)⟩
    · rw [if_neg hl] at h
      rcases List.mem_append.1 h with h | h
      · obtain ⟨a, b, rfl⟩ := List.append_of_mem h
        exact ⟨a, b ++ [l], by simp, Or.inl (by simp)⟩
      · rw [List.mem_singleton] at h
        subst h
        exact ⟨t0, [], rfl, Or.inr hl⟩

theorem stripUnit_eq_nil (t : Str) (h : stripUnit t = []) :
    t = [] ∨ ∃ u, t = [u] ∧ (u = B 'k' ∨ u = B 'K' ∨ u = B 'm' ∨ u = B 'M') := by
  rcases List.eq_nil_or_concat t with rfl | ⟨t0, l, rfl⟩
  · exact Or.inl rfl
  · right
    rw [List.concat_eq_append] at h ⊢
    unfold stripUnit at h
    rw [List.getLast?_append, List.getLast?_singleton] at h
    simp only [Option.or] at h
    by_cases hl : l = B 'k' ∨ l = B 'K' ∨ l = B 'm' ∨ l = B 'M'
    · rw [if_pos hl, List.dropLast_concat] at h
      subst h
      exact ⟨l, rfl, hl⟩
    · rw [if_neg hl] at h
      simp at h

/-- The unit switch leaves the text as it is or takes the `k` or `m` at its end. -/
theorem splitUnit_spec (s : Str) :
    ((splitUnit s).2.2 = false ∧ (splitUnit s).2.1 = s ∧ ∀ u, (u = B 'k' ∨ u = B 'm') →
      ∀ s0, s ≠ s0 ++ [u]) ∨
    ((splitUnit s).2.2 = true ∧ ∃ u, (u = B 'k' ∨ u = B 'm') ∧ s = (splitUnit s).2.1 ++ [u]) := by
  unfold splitUnit
  have e1 : str "k" = [B 'k'] := rfl
  have e2 : str "m" = [B 'm'] := rfl
  rw [e1, e2]
  by_cases hk : HasSuffix s [B 'k'] = true
  · right
    rw [if_pos hk]
    obtain ⟨s0, rfl⟩ := (Url.HasSuffix_iff _ _).1 hk
    refine ⟨rfl, B 'k', Or.inl rfl, ?_⟩
    simp only
    rw [TrimSuffix_concat]
  · rw [if_neg hk]
    by_cases hm : HasSuffix s [B 'm'] = true
    · right
      rw [if_pos hm]
      obtain ⟨s0, rfl⟩ := (Url.HasSuffix_iff _ _).1 hm
      refine ⟨rfl, B 'm', Or.inr rfl, ?_⟩
      simp only
      rw [TrimSuffix_concat]
    · left
      rw [if_neg hm]
      refine ⟨rfl, rfl, ?_⟩
      rintro u (rfl | rfl) s0 rfl
      · exact hk ((Url.HasSuffix_iff _ _).2 ⟨s0, rfl⟩)
      · exact hm ((Url.HasSuffix_iff _ _).2 ⟨s0, rfl⟩)

theorem mem_ReplaceAll (s : Str) (old : Byte) (new : Str) (x : Byte) (hx : x ≠ old)
    (h : x ∈ s) : x ∈ ReplaceAll s old new := by
  unfold ReplaceAll
  rw [List.mem_flatMap]
  exact ⟨x, h, by rw [if_neg hx]; exact List.mem_singleton_self x⟩

/-- A byte of the text after the unit switch, other than a separator, is a byte of the text
handed to `ParseFloat`. -/
theorem mem_floatText (text : Str) (x : Byte) (h1 : x ≠ B ',') (h2 : x ≠ B '.')
    (h : x ∈ (splitUnit (ToLower (TrimSpace text))).2.1) : x ∈ floatText text := by
  unfold floatText
  dsimp only
  by_cases hu : (splitUnit (ToLower (TrimSpace text))).2.2 = true
  · rw [if_pos hu]
    exact mem_ReplaceAll _ _ _ _ h1 h
  · rw [if_neg hu]
    exact mem_ReplaceAll _ _ _ _ h2 (mem_ReplaceAll _ _ _ _ h1 h)

/-- A byte of a text that is not its last byte, or is not `k` or `m`, stays after the unit
switch. -/
theorem mem_splitUnit (a b : Str) (x : Byte) (h : b ≠ [] ∨ (x ≠ B 'k' ∧ x ≠ B 'm')) :
    x ∈ (splitUnit (a ++ x :: b)).2.1 := by
  rcases splitUnit_spec (a ++ x :: b) with ⟨_, e, _⟩ | ⟨_, u, hu, e⟩
  · rw [e]
    simp
  · generalize (splitUnit (a ++ x :: b)).2.1 = s1 at e ⊢
    rcases List.eq_nil_or_concat b with rfl | ⟨b0, l, rfl⟩
    · have e3 : a ++ [x] = s1 ++ [u] := e
      have := List.append_inj_right' e3 rfl
      simp only [List.cons.injEq, and_true] at this
      rcases h with h | h
      · exact absurd rfl h
      · rcases hu with rfl | rfl
        · exact absurd this h.1
        · exact absurd this h.2
    · rw [List.concat_eq_append] at e
      have e3 : (a ++ x :: b0) ++ [l] = s1 ++ [u] := by rw [← e]; simp
      have := List.append_inj_left' e3 rfl
      rw [← this]
      simp

theorem floatText_nil (text : Str) (h : stripUnit (TrimSpace text) = []) :
    floatText text = [] := by
  unfold floatText
  rcases stripUnit_eq_nil _ h with e | ⟨u, e, hu⟩
  · rw [e]
    rfl
  · rw [e]
    rcases hu with rfl | rfl | rfl | rfl <;> rfl

theorem parseInt_of_floatText_ok (text : Str) (f : F64)
    (h : ParseFloat (floatText text) = .ok f) : (parseInt text).2 = none := by
  unfold floatText at h
  unfold parseInt
  generalize splitUnit (ToLower (TrimSpace text)) = su at h ⊢
  obtain ⟨m, s, hu⟩ := su
  simp only at h ⊢
  rw [h]

/-- For a text that is empty without its unit, holds a letter then, or holds a byte that is
not ASCII once in lower case: `parseInt` returns the error exactly when the text it hands to
`ParseFloat` is no literal with letters. -/
theorem parseInt_reject (text : Str)
    (h : stripUnit (TrimSpace text) = [] ∨
      (∃ c ∈ stripUnit (TrimSpace text), isLetter c) ∨
      (∃ c ∈ ToLower (TrimSpace text), (128 : Byte) ≤ c)) :
    parseInt text = (0, some (str "invalid number format")) ↔
      ¬ readsAsLiteral (floatText text) := by
  constructor
  · intro herr hlit
    obtain ⟨f, hok⟩ := ParseFloat_of_literal _ hlit
    have := parseInt_of_floatText_ok text f hok
    rw [herr] at this
    exact absurd this (by simp)
  · intro hs
    rcases ParseFloat_cases (floatText text) with ⟨e, herr⟩ | ⟨f, hok⟩
    · exact parseInt_of_floatText_error text e herr
    · exfalso
      rcases ParseFloat_ok_shape _ f hok with h1 | ⟨hne, hplain⟩
      · exact hs h1
      · rcases h with h | ⟨c, hc, hl⟩ | ⟨x, hxm, hx128⟩
        · exact hne (floatText_nil text h)
        · obtain ⟨a, b, e, hcond⟩ := mem_stripUnit _ c hc
          obtain ⟨f1, f2, f3, f4⟩ := (unit_byte_facts c).1 hl
          have hlow := ToLower_append_ascii a c b f1
          have hmem : Url.lowerByte c ∈ (splitUnit (ToLower (TrimSpace text))).2.1 := by
            rw [e, hlow]
            apply mem_splitUnit
            rcases hcond with hb | hu
            · exact Or.inl (ToLower_ne_nil b hb)
            · exact Or.inr ((unit_byte_facts c).2.1 hu)
          exact (hplain _ (mem_floatText text _ f3 f4 hmem)).1 f2
        · obtain ⟨g1, g2, g3, g4, g5⟩ := (unit_byte_facts x).2.2.1 hx128
          obtain ⟨a, b, e⟩ := List.append_of_mem hxm
          have hmem : x ∈ (splitUnit (ToLower (TrimSpace text))).2.1 := by
            rw [e]
            exact mem_splitUnit a b x (Or.inr ⟨g1, g2⟩)
          exact g5 (hplain _ (mem_floatText text _ g3 g4 hmem)).2

end Internal

namespace Strconv
open GoStrings Internal

/-- What `ParseFloat` returns for a number that rounds to an infinity. -/
theorem ParseFloat_range (s : Str) (r : Read) (neg : Bool)
    (h1 : special s = none) (h2 : readFloat s = some r) (h3 : r.rest = [])
    (h4 : F64.ofScaled r.neg r.mant (if r.hex = true then 2 else 10) r.exp = .inf neg) :
    ParseFloat s = .error .errRange := by
  unfold ParseFloat
  rw [h1]
  simp only
  rw [h2]
  simp only
  rw [if_neg (by rw [h3]; simp), h4]

/-- The number `1e309` is too large for a `float64`. -/
theorem ParseFloat_1e309 : ParseFloat (str "1e309") = .error .errRange := by
  apply ParseFloat_range (str "1e309")
    { neg := false, hex := false, mant := 1, exp := 309, rest := [] } false
  · decide!
  · decide!
  · rfl
  · show F64.ofScaled false 1 10 ((309 : Nat) : Int) = _
    rw [ofScaled_pos false 1 309,
      round_eq false (1 * 10 ^ 309) 1 1026 (by decide!) (by decide!) (by decide!) (by decide!)]
    rw [if_pos (Or.inl (by decide))]

end Strconv

namespace Internal
open GoStrings Strconv

theorem outOfRange_of_range (s : Str) (h : ParseFloat s = .error .errRange) :
    outOfRange s = true := by
  unfold outOfRange
  rw [h]

theorem ParseFloat_of_readFloat_none (s : Str) (h1 : special s = none)
    (h2 : readFloat s = none) : ParseFloat s = .error .errSyntax := by
  unfold ParseFloat
  rw [h1]
  simp only
  rw [h2]

/-- The text `1e309` has the shape of a decimal literal with an exponent and is out of the
range of `float64`, and the text `1__0e3` has that shape and a misplaced underscore:
`parseInt` returns the error for both. -/
theorem parseInt_rejects_unreadable_literal :
    isExponentForm (floatText (str "1e309")) ∧ outOfRange (floatText (str "1e309")) = true ∧
    parseInt (str "1e309") = (0, some (str "invalid number format")) ∧
    isExponentForm (floatText (str "1__0e3")) ∧ underscoreOK (floatText (str "1__0e3")) = false ∧
    parseInt (str "1__0e3") = (0, some (str "invalid number format")) := by
  have e1 : floatText (str "1e309") = str "1e309" := by decide!
  have e2 : floatText (str "1__0e3") = str "1__0e3" := by decide!
  have h1 : ParseFloat (floatText (str "1e309")) = .error .errRange := by
    rw [e1]
    exact ParseFloat_1e309
  have h3 : ParseFloat (floatText (str "1__0e3")) = .error .errSyntax := by
    rw [e2]
    exact ParseFloat_of_readFloat_none _ (by decide!) (by decide!)
  exact ⟨by decide!, outOfRange_of_range _ h1, parseInt_of_floatText_error _ _ h1,
    by decide!, by decide!, parseInt_of_floatText_error _ _ h3⟩

end Internal

namespace Internal
open GoStrings Strconv

/-- C21 (the code departs from the claim): `parseInt("1.001k")` returns 1000 and no error,
where the claim asks for 1001.  The `float64` nearest to 1.001 lies below 1.001, its product
with 1000 rounds to the `float64` just below 1001, and `int(f * multiplier)` drops the
fraction. -/
theorem parseInt_decimal_unit_truncates :
    parseInt (str "1.001k") = (1000, none) ∧
    ParseFloat (str "1.001") = .ok (.fin false 4508103226997866 (-52)) ∧
    (F64.fin false 4508103226997866 (-52)).mul (F64.ofNat 1000) =
      .fin false 8804889115230207 (-43) ∧
    8804889115230207 < 1001 * 2 ^ 43 := by
  refine ⟨parseInt_1001k, ParseFloat_1001, ?_, by decide⟩
  rw [ofNat_1000]
  exact mul_1001_1000

/-- C22 (as stated, refuted): the text `1e3` contains the letter `e` once trimmed and
without a unit letter, and `parseInt` returns 1000 and no error for it. -/
theorem parseInt_accepts_exponent_form :
    (∃ c ∈ stripUnit (TrimSpace (str "1e3")), isLetter c) ∧
    parseInt (str "1e3") = (1000, none) :=
  ⟨by decide, parseInt_1e3⟩

/-- The other notations of `strconv.ParseFloat` with a letter: `parseInt` returns no error
for a hexadecimal number, for `inf` and for `nan`. -/
theorem parseInt_accepts_hex_inf_nan :
    parseInt (str "0x1p4") = (16, none) ∧
    parseInt (str "inf") = (-9223372036854775808, none) ∧
    parseInt (str "nan") = (-9223372036854775808, none) :=
  ⟨parseInt_0x1p4, parseInt_inf, parseInt_nan⟩

/-- The Kelvin sign, U+212A, is a letter outside ASCII that `strings.ToLower` turns into
`k`: `parseInt` reads it as the unit and returns 1000 and no error for the digit 1 followed
by it. -/
theorem parseInt_accepts_kelvin_sign :
    ToLower oneKelvin = str "1k" ∧ parseInt oneKelvin = (1000, none) := by
  have h : ToLower oneKelvin = str "1k" := by decide!
  refine ⟨h, ?_⟩
  have e : parseInt oneKelvin = parseInt (str "1k") := by
    unfold parseInt
    rw [show TrimSpace oneKelvin = oneKelvin from by decide!,
      show TrimSpace (str "1k") = str "1k" from by decide!, h,
      show ToLower (str "1k") = str "1k" from by decide!]
  rw [e]
  exact parseInt_unit [] [] (str "1") (B 'k') 1000 ⟨[], by simp, rfl⟩ ⟨[], by simp, rfl⟩
    (by decide) (by decide) (Or.inl ⟨Or.inl rfl, rfl⟩) (by decide)

/-- C22 (amended): for every text that, after trimming whitespace and removing at most one
trailing unit letter k/K/m/M, is empty or contains an ASCII letter, and for every text that
contains a byte outside ASCII once trimmed and put in lower case, `parseInt` returns 0
together with the error "invalid number format", unless the text it hands to
`strconv.ParseFloat` is a literal with letters that `ParseFloat` reads: `inf`, `infinity`
or `nan`, or a decimal literal with an exponent or a hexadecimal floating-point literal
with well-placed underscores and a value in the range of `float64`; for such a literal it
does not return the error. -/
theorem parseInt_rejects_non_numeric (text : Str)
    (h : stripUnit (TrimSpace text) = [] ∨
      (∃ c ∈ stripUnit (TrimSpace text), isLetter c) ∨
      (∃ c ∈ ToLower (TrimSpace text), (128 : Byte) ≤ c)) :
    parseInt text = (0, some (str "invalid number format")) ↔
      ¬ readsAsLiteral (floatText text) :=
  parseInt_reject text h

end Internal

namespace Polite
open GoStrings Url

/-- C23: `RobotsChecker.Check(url, ua)` returns the error "forbidden by robots.txt" exactly
when the URL parses, a robots policy for its host is in the cache or is obtained by a
successful fetch and parse, and that policy's `TestAgent(path, ua)` is false; it returns no
other error; when the URL does not parse, and when nothing is cached and the request, the
reading of the body or the parsing of robots.txt fails, it returns `nil` and leaves the
checker as it was. -/
theorem robots_check_fails_open (r : RobotsChecker) (net : Net) (rawURL ua : Str) :
    ((Check r net rawURL ua).2 = some (str "forbidden by robots.txt") ↔
      ∃ parsed data, Url.Parse rawURL = some parsed ∧
        (r.robotsMap parsed.Host = some data ∨
          (r.robotsMap parsed.Host = none ∧ getRobotsData net parsed = .ok data)) ∧
        data.TestAgent parsed.Path ua = false) ∧
    ((Check r net rawURL ua).2 = none ∨
      (Check r net rawURL ua).2 = some (str "forbidden by robots.txt")) ∧
    (Url.Parse rawURL = none → Check r net rawURL ua = (r, none)) ∧
    (∀ parsed, Url.Parse rawURL = some parsed → r.robotsMap parsed.Host = none →
      ((∃ err, net.Get (parsed.Scheme ++ str "://" ++ parsed.Host ++ str "/robots.txt") =
          .error err) ∨
       (∃ status err, net.Get (parsed.Scheme ++ str "://" ++ parsed.Host ++ str "/robots.txt") =
          .ok (status, .error err)) ∨
       (∃ status body err,
          net.Get (parsed.Scheme ++ str "://" ++ parsed.Host ++ str "/robots.txt") =
            .ok (status, .ok body) ∧ net.FromStatusAndBytes status body = .error err)) →
      Check r net rawURL ua = (r, none)) := by
  refine ⟨(Check_spec r net rawURL ua).2, (Check_spec r net rawURL ua).1,
    (Check_open r net rawURL ua).1, ?_⟩
  intro parsed hp hm hfail
  obtain ⟨err, he⟩ := (getRobotsData_error net parsed).2 hfail
  exact (Check_open r net rawURL ua).2 parsed err hp hm he

end Polite

namespace Storage
open Status

/-- C24 (as stated, refuted): after `AddURLs`, `GetNextURL`, `MarkDone` and then `MarkFailed`
on the same URL, the reachable table holds a row with `done_at` set whose status is not
done: `MarkFailed` has no guard on the status. -/
theorem markFailed_after_markDone_keeps_done_at :
    Reachable (run Table.empty doneThenFailed) ∧
    ∃ r ∈ (run Table.empty doneThenFailed).rows, r.done_at ≠ none ∧ r.status ≠ Done :=
  ⟨⟨doneThenFailed, rfl⟩, by decide⟩

/-- C24 (amended): in every state reached from an empty table by `AddURLs`, `GetNextURL`,
`MarkDone` and `MarkFailed` calls, a row whose status is done has `done_at` set; and when
no `MarkFailed` call is made on a URL whose row is done, a row has `done_at` set only if its
status is done. -/
theorem done_at_only_when_done (ops : List Op) :
    (∀ r ∈ (run Table.empty ops).rows, r.status = Done → r.done_at ≠ none) ∧
    (neverFailsDone Table.empty ops →
      ∀ r ∈ (run Table.empty ops).rows, r.done_at ≠ none → r.status = Done) :=
  ⟨run_done_has_time ops Table.empty (by simp [Table.empty]),
   fun hn => (run_doneInv ops Table.empty empty_doneInv hn).2⟩

/-- C30: in every state reached from an empty table by `AddURLs`, `GetNextURL`, `MarkDone`
and `MarkFailed` calls, every failed row has `retry_count` at least 1; so the clamp
`GREATEST(retry_count - 1, 0)` of the lease query returns `retry_count - 1`, and the delay
of the lease query is `5 min * 2^(retry_count - 1)`. -/
theorem failed_rows_have_retried (t : Table) (h : Reachable t) :
    ∀ r ∈ t.rows, r.status = Failed →
      1 ≤ r.retry_count ∧ max (r.retry_count - 1) 0 = r.retry_count - 1 ∧
      backoff r.retry_count = 5 * minute * 2 ^ (r.retry_count - 1).toNat :=
  reachable_failed_retry t h

end Storage

namespace Crawler
open GoStrings Url Url.Encoding Internal

/-- C12 (as stated, refuted): the URL `https://amazon.com/s?k=a;b` parses, its query holds
the one parameter `k` with the value `a;b`, and `k` is on the allow-list; yet
`filterQueryParams` returns `https://amazon.com/s`, whose query holds no parameter. -/
theorem allowed_parameter_with_semicolon_is_dropped :
    (Url.Parse (str "https://amazon.com/s?k=a;b")).isSome = true ∧
    rawParameters (queryOf (str "https://amazon.com/s?k=a;b")) = [(str "k", str "a;b")] ∧
    ALLOWED_SEARCH_PARAMS (str "k") = true ∧
    filterQueryParams (str "https://amazon.com/s?k=a;b") = str "https://amazon.com/s" ∧
    rawParameters (queryOf (filterQueryParams (str "https://amazon.com/s?k=a;b"))) = [] := by
  decide!

/-- The URL `https://amazon.com/s?k=100%&node=1` parses, its query holds the parameters `k`
and `node`, and `k` is on the allow-list; the value of `k` has a percent escape that does
not decode, and `filterQueryParams` returns `https://amazon.com/s?node=1`. -/
theorem allowed_parameter_with_bad_escape_is_dropped :
    (Url.Parse (str "https://amazon.com/s?k=100%&node=1")).isSome = true ∧
    rawParameters (queryOf (str "https://amazon.com/s?k=100%&node=1")) =
      [(str "k", str "100%"), (str "node", str "1")] ∧
    ALLOWED_SEARCH_PARAMS (str "k") = true ∧
    malformedParameter (str "k", str "100%") ∧
    filterQueryParams (str "https://amazon.com/s?k=100%&node=1") =
      str "https://amazon.com/s?node=1" := by
  decide!

/-- C12 (amended): for every raw URL that parses, the query of `filterQueryParams(raw)` is
the encoding, sorted by key, of the allow-listed parameters that Go's `(*URL).Query` reads
from raw; no parameter written in it is malformed; read, its parameters hold for every
allow-listed key all the values of the well-formed parameters of raw with that key, in
their order, and nothing for any other key.  `Query` reads exactly the well-formed
parameters of raw: a parameter that holds a semicolon, or a percent escape that does not
decode, is skipped whatever its key. -/
theorem query_allow_list (raw : Str) (u : URL) (h : Url.Parse raw = some u) :
    queryOf (filterQueryParams raw) =
      Values.Encode (u.Query.filter (fun kv => ALLOWED_SEARCH_PARAMS kv.1)) ∧
    (∀ kv ∈ rawParameters (queryOf (filterQueryParams raw)), ¬ malformedParameter kv) ∧
    (∀ key : Str,
      Values.get ((rawParameters (queryOf (filterQueryParams raw))).filterMap readParameter) key =
        if ALLOWED_SEARCH_PARAMS key = true
        then Values.get ((rawParameters (queryOf raw)).filterMap readParameter) key
        else []) ∧
    u.Query = (rawParameters (queryOf raw)).filterMap readParameter := by
  obtain ⟨h1, h2⟩ := filterQueryParams_query raw u h
  have hq : queryOf (filterQueryParams raw) = cleanQuery u.Query := h1
  have hr : u.Query = (rawParameters (queryOf raw)).filterMap readParameter := by
    unfold URL.Query
    rw [Parse_RawQuery raw u h, ParseQuery_eq_read]
  refine ⟨h1, ?_, ?_, hr⟩
  · rw [hq]
    exact cleanQuery_not_malformed _
  · intro key
    rw [← ParseQuery_eq_read, ← hr]
    exact h2 key

/-- C25 (the code departs from the claim): the search anchor `/s/%zz` is relevant,
`withBaseURL` returns the empty string for it as its failure value, and `getRelevantLinks`
adds that value without a test: the link set of a page with this anchor consists of the
empty string, where the claim has the anchor contribute nothing.  `AddURLs` makes a row of
the empty string; the loop of `poll` leases the row, hands nothing to the workers and leaves
the row in `processing`, so that it can be leased again five minutes later. -/
theorem malformed_href_adds_empty_link :
    isRelevantURL (str "/s/%zz") = true ∧ withBaseURL (str "/s/%zz") = [] ∧
    getRelevantLinks malformedPage = ([[]], none) ∧
    (Storage.AddURLs Storage.Table.empty (getRelevantLinks malformedPage).1 0).1 =
      ⟨[Storage.newRow 1 [] 0], 1⟩ ∧
    pollOnce ⟨[Storage.newRow 1 [] 0], 1⟩ 1 =
      (⟨[{ Storage.newRow 1 [] 0 with status := .Processing, started_at := some 1 }], 1⟩,
        none) ∧
    Storage.leasable (2 + 5 * Storage.minute)
      { Storage.newRow 1 [] 0 with status := .Processing, started_at := some 1 } = true := by
  decide!

/-- Where the empty string in a link set comes from: the link set of `getRelevantLinks`
contains it exactly when `withBaseURL` returns it for the href of a relevant anchor or of a
pagination anchor; the product links, which are added only when `AsinFromURL` returns no
error, are never empty; `filterQueryParams` returns it exactly for a URL that does not
parse; and the loop of `poll` tests for it and hands no empty URL to the workers. -/
theorem empty_link_iff_canonicalization_fails (page : PageLinks) (t : Storage.Table)
    (now : Int) :
    ([] ∈ (getRelevantLinks page).1 ↔
      (∃ a href, page.anchors = some a ∧ some href ∈ a ∧ isRelevantURL href = true ∧
        withBaseURL href = []) ∨
      (∃ a href, page.pagination = some a ∧ some href ∈ a ∧ withBaseURL href = [])) ∧
    (∀ asin : Str, createProductURL asin ≠ []) ∧
    (∀ raw : Str, filterQueryParams raw = [] ↔ Url.Parse raw = none) ∧
    (pollOnce t now).2 ≠ some [] :=
  ⟨nil_mem_getRelevantLinks page, createProductURL_ne_nil, filterQueryParams_eq_nil_iff,
    pollOnce_ne_nil t now⟩

/-- C26 (as stated, refuted): the URLs `https://amazon.com/s?k=lego#a` and
`https://amazon.com/s?k=lego#b` parse, have the same scheme, host, kept path segments and
query parameters, and `filterQueryParams` returns different strings for them: it keeps the
fragment. -/
theorem fragment_variants_not_collapsed :
    (Url.Parse (str "https://amazon.com/s?k=lego#a")).isSome = true ∧
    (Url.Parse (str "https://amazon.com/s?k=lego#b")).isSome = true ∧
    (Url.Parse (str "https://amazon.com/s?k=lego#a")).map URL.Scheme =
      (Url.Parse (str "https://amazon.com/s?k=lego#b")).map URL.Scheme ∧
    (Url.Parse (str "https://amazon.com/s?k=lego#a")).map URL.Host =
      (Url.Parse (str "https://amazon.com/s?k=lego#b")).map URL.Host ∧
    (Url.Parse (str "https://amazon.com/s?k=lego#a")).map (fun u => keptSegments u.Path) =
      (Url.Parse (str "https://amazon.com/s?k=lego#b")).map (fun u => keptSegments u.Path) ∧
    (Url.Parse (str "https://amazon.com/s?k=lego#a")).map URL.Query =
      (Url.Parse (str "https://amazon.com/s?k=lego#b")).map URL.Query ∧
    filterQueryParams (str "https://amazon.com/s?k=lego#a") ≠
      filterQueryParams (str "https://amazon.com/s?k=lego#b") := by
  decide!

/-- Pairs of URLs with the same scheme, host, kept segments and parameters that
`filterQueryParams` keeps apart: they differ in the user information, in the raw path, in
a bare `?`, in the opaque part, in the empty authority, in the raw fragment. -/
theorem other_variants_not_collapsed :
    filterQueryParams (str "https://u@amazon.com/s") ≠
      filterQueryParams (str "https://amazon.com/s") ∧
    filterQueryParams (str "https://amazon.com/a%2Fb") ≠
      filterQueryParams (str "https://amazon.com/a/b") ∧
    filterQueryParams (str "https://amazon.com/s?") ≠
      filterQueryParams (str "https://amazon.com/s") ∧
    filterQueryParams (str "mailto:a") ≠ filterQueryParams (str "mailto:b") ∧
    filterQueryParams (str "https:/s") ≠ filterQueryParams (str "https:///s") ∧
    filterQueryParams (str "https://amazon.com/s#x%41") ≠
      filterQueryParams (str "https://amazon.com/s#xA") := by
  decide!

/-- C26 (amended): for any two URLs that parse, have the same scheme and host, the same
sequence of non-empty path segments once segments beginning with `ref=` or `ref-` are
removed, for every allow-listed key the same values, and that agree in their other
components (user information, opaque part, raw path, fragment, raw fragment and the flags
for an empty authority and a bare `?`), `filterQueryParams` returns the same string; its
query is the retained parameters written as `key=value` joined by `&`, in the order of
their keys. -/
theorem canonicalization_collapses_variants (raw1 raw2 : Str) (u1 u2 : URL)
    (h1 : Url.Parse raw1 = some u1) (h2 : Url.Parse raw2 = some u2)
    (hScheme : u1.Scheme = u2.Scheme) (hHost : u1.Host = u2.Host)
    (hseg : keptSegments u1.Path = keptSegments u2.Path)
    (hq : ∀ key, ALLOWED_SEARCH_PARAMS key = true →
      Values.get u1.Query key = Values.get u2.Query key)
    (hrest : u1.User = u2.User ∧ u1.Opaque = u2.Opaque ∧ u1.RawPath = u2.RawPath ∧
      u1.Fragment = u2.Fragment ∧ u1.RawFragment = u2.RawFragment ∧
      u1.OmitHost = u2.OmitHost ∧ u1.ForceQuery = u2.ForceQuery) :
    filterQueryParams raw1 = filterQueryParams raw2 ∧
    queryOf (filterQueryParams raw1) = Join (B '&')
      ((Values.sortedPairs (u1.Query.filter (fun kv => ALLOWED_SEARCH_PARAMS kv.1))).map
        encPair) ∧
    ((Values.sortedPairs (u1.Query.filter (fun kv => ALLOWED_SEARCH_PARAMS kv.1))).map
      Prod.fst).Pairwise StrLE ∧
    (∀ kv : Str × Str,
      kv ∈ Values.sortedPairs (u1.Query.filter (fun kv => ALLOWED_SEARCH_PARAMS kv.1)) ↔
        kv ∈ u1.Query ∧ ALLOWED_SEARCH_PARAMS kv.1 = true) := by
  obtain ⟨hUser, hOpaque, hRawPath, hFrag, hRawFrag, hOmit, hForce⟩ := hrest
  refine ⟨?_, (filterQueryParams_query raw1 u1 h1).1, sortedPairs_sorted _, ?_⟩
  · rw [filterQueryParams_eq, filterQueryParams_eq, h1, h2]
    simp only
    rw [canon_congr u1 u2 hScheme hOpaque hUser hHost hRawPath hOmit hForce hFrag hRawFrag
      hseg hq]
  · intro kv
    rw [mem_sortedPairs, List.mem_filter]

/-- C27: when the browser context and the page of a job are created and a request
middleware returns an error, `processURL` returns that error, the first rejection; it has
called the request middlewares up to that one and closed the context, and has made no
navigation (`Goto`), run no response middleware, extracted or sent no product and produced
no link set. -/
theorem request_rejection_stops_job (c : crawler) (url : Str) (env : JobEnv) (e : Str)
    (pre post : List (Option Str))
    (hctx : env.newContext = none) (hpage : env.newPage = none)
    (hmw : env.requestMiddlewares = pre ++ some e :: post) (hpre : ∀ x ∈ pre, x = none) :
    (processURL c url env).2 = .error (.external e) ∧
    (processURL c url env).1.trace = c.trace ++ ([Event.NewContext, Event.NewPage] ++
      (List.range (pre.length + 1)).map Event.RequestMiddleware ++ [Event.CloseContext]) ∧
    (∀ x ∈ (processURL c url env).1.trace.drop c.trace.length,
      (∀ u, x ≠ Event.Goto u) ∧ (∀ i, x ≠ Event.ResponseMiddleware i) ∧
      x ≠ Event.ProductFromPage ∧ x ≠ Event.Consume ∧ x ≠ Event.GetRelevantLinks) := by
  have h := processURL_reject c url env e pre post hctx hpage hmw hpre
  rw [h]
  refine ⟨rfl, rfl, ?_⟩
  intro x hx
  simp only [List.drop_left] at hx
  simp only [List.mem_append, List.mem_cons, List.mem_singleton, List.not_mem_nil, or_false,
    List.mem_map] at hx
  rcases hx with (h | h) | h
  · rcases h with rfl | rfl <;> simp
  · obtain ⟨i, _, rfl⟩ := h
    simp
  · subst h
    simp

/-- C28: `MarkDone(u)` and `MarkFailed(u, msg)` on a URL `u` that has no row in the table
return no error and leave the table unchanged; so the calls that the job of such a URL (a
seed URL, handed to the workers without `AddURLs`) makes on the frontier, `MarkDone` when
it completes and `MarkFailed` when it fails, leave the table unchanged. -/
theorem mark_absent_url_is_noop (t : Storage.Table) (u msg : Str) (now : Int) (c : crawler)
    (env : JobEnv) (h : u ∉ t.rows.map Storage.Row.url) :
    Storage.MarkDone t u now = (t, none) ∧ Storage.MarkFailed t u msg now = (t, none) ∧
    frontierAfter t now ((processJob c u env).trace.drop c.trace.length) = t := by
  refine ⟨(Storage.Mark_absent t u msg now h).1, (Storage.Mark_absent t u msg now h).2, ?_⟩
  obtain ⟨ev, htr, hops⟩ := processJob_storageOps c u env now
  rw [htr, List.drop_left]
  exact run_marks_absent u now _ t h hops

/-- C29: for every 10-character string `a` over A-Z and 0-9, `createProductURL(a)` is
`https://amazon.com/dp/` followed by `a`, and `AsinFromURL` returns `a` and no error for
it. -/
theorem product_url_round_trip (a : Str) (hlen : a.length = 10)
    (hall : ∀ c ∈ a, isAsinByte c) :
    createProductURL a = str "https://amazon.com/dp/" ++ a ∧
    AsinFromURL (createProductURL a) = (a, none) :=
  ⟨createProductURL_eq a, AsinFromURL_createProductURL a hlen hall⟩

end Crawler

namespace Internal
open GoStrings

theorem parseInt_rejects_non_numeric_witness :
    parseInt (str "abc") = (0, some (str "invalid number format")) ∧
    parseInt (str "M123") = (0, some (str "invalid number format")) ∧
    parseInt (str "ab,123") = (0, some (str "invalid number format")) ∧
    parseInt (str "n/a") = (0, some (str "invalid number format")) ∧
    parseInt (str "in stock") = (0, some (str "invalid number format")) ∧
    parseInt (str "new") = (0, some (str "invalid number format")) ∧
    parseInt (str "item") = (0, some (str "invalid number format")) ∧
    parseInt (str "No") = (0, some (str "invalid number format")) ∧
    parseInt (str " 12e5x ") = (0, some (str "invalid number format")) ∧
    parseInt (str "1e999999999999x") = (0, some (str "invalid number format")) ∧
    parseInt (str "1__0e3") = (0, some (str "invalid number format")) ∧
    parseInt (str "k") = (0, some (str "invalid number format")) ∧
    parseInt [0xC3, 0xA9] = (0, some (str "invalid number format")) :=
  ⟨(parseInt_rejects_non_numeric (str "abc")
      (Or.inr (Or.inl (by decide!)))).2 (by decide!),
   (parseInt_rejects_non_numeric (str "M123")
      (Or.inr (Or.inl (by decide!)))).2 (by decide!),
   (parseInt_rejects_non_numeric (str "ab,123")
      (Or.inr (Or.inl (by decide!)))).2 (by decide!),
   (parseInt_rejects_non_numeric (str "n/a")
      (Or.inr (Or.inl (by decide!)))).2 (by decide!),
   (parseInt_rejects_non_numeric (str "in stock")
      (Or.inr (Or.inl (by decide!)))).2 (by decide!),
   (parseInt_rejects_non_numeric (str "new")
      (Or.inr (Or.inl (by decide!)))).2 (by decide!),
   (parseInt_rejects_non_numeric (str "item")
      (Or.inr (Or.inl (by decide!)))).2 (by decide!),
   (parseInt_rejects_non_numeric (str "No")
      (Or.inr (Or.inl (by decide!)))).2 (by decide!),
   (parseInt_rejects_non_numeric (str " 12e5x ")
      (Or.inr (Or.inl (by decide!)))).2 (by decide!),
   (parseInt_rejects_non_numeric (str "1e999999999999x")
      (Or.inr (Or.inl (by decide!)))).2 (by decide!),
   (parseInt_rejects_non_numeric (str "1__0e3")
      (Or.inr (Or.inl (by decide!)))).2 (by decide!),
   (parseInt_rejects_non_numeric (str "k")
      (Or.inl (by decide!))).2 (by decide!),
   (parseInt_rejects_non_numeric [0xC3, 0xA9]
      (Or.inr (Or.inr (by decide!)))).2 (by decide!)⟩

end Internal

namespace Polite
open GoStrings Url

theorem robots_check_fails_open_witness :
    (Check emptyChecker disallowNet (str "https://amazon.com/s?k=lego") (str "bot")).2 =
      some (str "forbidden by robots.txt") ∧
    (Check emptyChecker deadNet (str "https://amazon.com/s?k=lego") (str "bot")).2 = none ∧
    (Check emptyChecker disallowNet (str "https://amazon.com/%zz") (str "bot")).2 = none :=
  ⟨(robots_check_fails_open emptyChecker disallowNet (str "https://amazon.com/s?k=lego")
      (str "bot")).1.2
      ⟨legoSearch, { TestAgent := fun _ _ => false }, by decide!, Or.inr ⟨rfl, rfl⟩, rfl⟩,
   congrArg Prod.snd
     ((robots_check_fails_open emptyChecker deadNet (str "https://amazon.com/s?k=lego")
        (str "bot")).2.2.2 legoSearch (by decide!) rfl (Or.inl ⟨_, rfl⟩)),
   congrArg Prod.snd
     ((robots_check_fails_open emptyChecker disallowNet (str "https://amazon.com/%zz")
        (str "bot")).2.2.1 (by decide!))⟩

end Polite

namespace Storage
open Status

theorem done_at_only_when_done_witness :
    (∀ r ∈ (run Table.empty addLeaseDone).rows, r.status = Done → r.done_at ≠ none) ∧
    (∀ r ∈ (run Table.empty addLeaseDone).rows, r.done_at ≠ none → r.status = Done) ∧
    (∃ r ∈ (run Table.empty addLeaseDone).rows, r.done_at = some 2) :=
  ⟨(done_at_only_when_done addLeaseDone).1,
   (done_at_only_when_done addLeaseDone).2 ⟨by decide, by decide, by decide, trivial⟩,
   by decide⟩

theorem failed_rows_have_retried_witness :
    (∀ r ∈ (run Table.empty failThrice).rows, r.status = Failed →
      1 ≤ r.retry_count ∧ max (r.retry_count - 1) 0 = r.retry_count - 1 ∧
      backoff r.retry_count = 5 * minute * 2 ^ (r.retry_count - 1).toNat) ∧
    (∃ r ∈ (run Table.empty failThrice).rows, r.status = Failed ∧ r.retry_count = 3) :=
  ⟨failed_rows_have_retried (run Table.empty failThrice) ⟨failThrice, rfl⟩, by decide⟩

end Storage

namespace Crawler
open GoStrings Url Url.Encoding Internal

theorem query_allow_list_witness :
    filterQueryParams (str "https://amazon.com/s?node=123&k=ipad&junk=1") =
      str "https://amazon.com/s?k=ipad&node=123" ∧
    queryOf (filterQueryParams (str "https://amazon.com/s?node=123&k=ipad&junk=1")) =
      Values.Encode ((ParseQuery (str "node=123&k=ipad&junk=1")).filter
        (fun kv => ALLOWED_SEARCH_PARAMS kv.1)) ∧
    ParseQuery (str "node=123&k=ipad&junk=1") =
      (rawParameters (queryOf (str "https://amazon.com/s?node=123&k=ipad&junk=1"))).filterMap
        readParameter :=
  ⟨by decide!,
   (query_allow_list (str "https://amazon.com/s?node=123&k=ipad&junk=1")
      { Scheme := str "https", Host := str "amazon.com", Path := str "/s",
        RawQuery := str "node=123&k=ipad&junk=1" }
      (by decide!)).1,
   (query_allow_list (str "https://amazon.com/s?node=123&k=ipad&junk=1")
      { Scheme := str "https", Host := str "amazon.com", Path := str "/s",
        RawQuery := str "node=123&k=ipad&junk=1" }
      (by decide!)).2.2.2⟩

theorem canonicalization_collapses_variants_witness :
    filterQueryParams (str "https://amazon.com/gp/ref=x/s?k=lego&node=1&tag=abc") =
      filterQueryParams (str "https://amazon.com//gp/s/ref-y/?node=1&utm=zz&k=lego") ∧
    filterQueryParams (str "https://amazon.com/gp/ref=x/s?k=lego&node=1&tag=abc") =
      str "https://amazon.com/gp/s?k=lego&node=1" :=
  ⟨(canonicalization_collapses_variants
      (str "https://amazon.com/gp/ref=x/s?k=lego&node=1&tag=abc")
      (str "https://amazon.com//gp/s/ref-y/?node=1&utm=zz&k=lego") variantA variantB
      (by decide!) (by decide!) rfl rfl (by decide!)
      (by
        intro key hk
        simp only [ALLOWED_SEARCH_PARAMS, decide_eq_true_eq, List.mem_cons, List.mem_singleton,
          List.not_mem_nil, or_false] at hk
        rcases hk with rfl | rfl | rfl | rfl | rfl | rfl | rfl | rfl | rfl | rfl | rfl | rfl |
          rfl <;> decide!)
      ⟨rfl, rfl, rfl, rfl, rfl, rfl, rfl⟩).1,
   by decide!⟩

theorem request_rejection_stops_job_witness :
    (processURL NewCrawler (str "https://amazon.com/s?k=lego") robotsRejects).2 =
      .error (.external (str "forbidden by robots.txt")) ∧
    (processURL NewCrawler (str "https://amazon.com/s?k=lego") robotsRejects).1.trace =
      [Event.NewContext, Event.NewPage, Event.RequestMiddleware 0, Event.RequestMiddleware 1,
       Event.CloseContext] :=
  ⟨(request_rejection_stops_job NewCrawler (str "https://amazon.com/s?k=lego") robotsRejects
      (str "forbidden by robots.txt") [none] [none] rfl rfl rfl (by simp)).1,
   (request_rejection_stops_job NewCrawler (str "https://amazon.com/s?k=lego") robotsRejects
      (str "forbidden by robots.txt") [none] [none] rfl rfl rfl (by simp)).2.1⟩

theorem mark_absent_url_is_noop_witness :
    Storage.MarkDone Storage.oneQueued (str "https://amazon.com/") 5 =
      (Storage.oneQueued, none) ∧
    Storage.MarkFailed Storage.oneQueued (str "https://amazon.com/") (str "timeout") 5 =
      (Storage.oneQueued, none) ∧
    frontierAfter Storage.oneQueued 5
      ((processJob NewCrawler (str "https://amazon.com/") navigationFails).trace.drop
        NewCrawler.trace.length) = Storage.oneQueued ∧
    frontierAfter Storage.oneQueued 5
      ((processJob NewCrawler (str "https://amazon.com/") {}).trace.drop
        NewCrawler.trace.length) = Storage.oneQueued :=
  ⟨(mark_absent_url_is_noop Storage.oneQueued (str "https://amazon.com/") (str "timeout") 5
      NewCrawler navigationFails (by decide)).1,
   (mark_absent_url_is_noop Storage.oneQueued (str "https://amazon.com/") (str "timeout") 5
      NewCrawler navigationFails (by decide)).2.1,
   (mark_absent_url_is_noop Storage.oneQueued (str "https://amazon.com/") (str "timeout") 5
      NewCrawler navigationFails (by decide)).2.2,
   (mark_absent_url_is_noop Storage.oneQueued (str "https://amazon.com/") (str "timeout") 5
      NewCrawler {} (by decide)).2.2⟩

theorem product_url_round_trip_witness :
    createProductURL (str "B0D6PQDNQS") = str "https://amazon.com/dp/B0D6PQDNQS" ∧
    AsinFromURL (str "https://amazon.com/dp/B0D6PQDNQS") = (str "B0D6PQDNQS", none) :=
  ⟨(product_url_round_trip (str "B0D6PQDNQS") (by decide) (by decide)).1,
   (product_url_round_trip (str "B0D6PQDNQS") (by decide) (by decide)).2⟩

end Crawler
